import Mathlib

/-!
TargaImage: pixel transformations on an in-memory RGBA raster

A shallow embedding of `src/src/TargaImage.cpp`.

* The image is the record `TargaImage` (`width`, `height`, `data`), `data`
  being the flat row-major byte buffer, four bytes (R, G, B, A) per pixel.
  Bytes are natural numbers; every store into an `unsigned char` reduces
  modulo 256 (`wr`). Dimensions are natural numbers: an image with a
  negative `int` dimension has no buffer.
* `for (int i = 0; i < n; i++)` is `forLoop n`, which threads the mutated
  state through the iterations `0, 1, ..., n - 1` in that order.
* A method that mutates `this` and returns `bool` is a function to
  `Bool × TargaImage`; a binary operator also returns its argument image.
* `double` and `float` arithmetic is IEEE 754 binary64 and binary32 with
  round-to-nearest, ties-to-even: every literal, product, sum and quotient
  is computed exactly on fractions (`Frac`) and then rounded (`roundFrac`),
  one operation at a time, in the order in which C evaluates the expression.
-/

/-! ## Definitions -/

/-- The loop `for (int i = 0; i < n; i++) s = body i s`. -/
def forLoop {σ : Type} : Nat → (Nat → σ → σ) → σ → σ
  | 0, _, s => s
  | n + 1, body, s => body n (forLoop n body s)

/-- Read of one byte of a buffer (`D[i]`); outside the buffer the C read is
undefined and the model yields 0. -/
def rd (D : List Nat) (i : Nat) : Nat := D.getD i 0

/-- Store of a value into an `unsigned char` cell (`D[i] = v`): the value is
reduced modulo 256. -/
def wr (D : List Nat) (i : Nat) (v : Nat) : List Nat := D.set i (v % 256)

/-- The call `memset(D, v, n)`: the first `n` bytes become `v`. -/
def memset (D : List Nat) (v n : Nat) : List Nat :=
  List.replicate (min n D.length) v ++ D.drop n

/-! ### Floating point -/

/-- An exact rational `num / den`: the value of a finite floating-point
number, or of an exact intermediate result before rounding. Every value the
operations below build has `den > 0`. -/
structure Frac where
  num : Int
  den : Nat
deriving DecidableEq, Repr

namespace Frac

/-- Conversion of an integer operand (`unsigned char` or `int`) to floating
point: exact for the magnitudes that occur. -/
def ofNat (n : Nat) : Frac := ⟨n, 1⟩

/-- Exact sum. -/
def add (a b : Frac) : Frac := ⟨a.num * b.den + b.num * a.den, a.den * b.den⟩

/-- Exact difference. -/
def sub (a b : Frac) : Frac := ⟨a.num * b.den - b.num * a.den, a.den * b.den⟩

/-- Exact product. -/
def mul (a b : Frac) : Frac := ⟨a.num * b.num, a.den * b.den⟩

/-- Exact quotient (the divisor is non-zero wherever it is used). -/
def div (a b : Frac) : Frac := ⟨a.num * b.den * b.num.sign, a.den * b.num.natAbs⟩

/-- The comparison `a <= b`. -/
def le (a b : Frac) : Bool := decide (a.num * b.den ≤ b.num * a.den)

/-- The comparison `a >= b`. -/
def ge (a b : Frac) : Bool := le b a

/-- Conversion of a floating-point value to an integer type: truncation
toward zero. -/
def trunc (a : Frac) : Int := Int.tdiv a.num (a.den : Int)

/-- The library function `floor`. -/
def floor (a : Frac) : Int := a.num / (a.den : Int)

/-- The rational number a fraction denotes. -/
def toRat (a : Frac) : ℚ := (a.num : ℚ) / (a.den : ℚ)

end Frac

/-- Position of the leading bit of `n`, by repeated halving. -/
def log2Fuel : Nat → Nat → Nat
  | 0, _ => 0
  | f + 1, n => if n < 2 then 0 else log2Fuel f (n / 2) + 1

/-- The integer `⌊log₂ n⌋` for `n > 0`. -/
def nlog2 (n : Nat) : Nat := log2Fuel n n

/-- The integer `⌊log₂ (a / b)⌋` for `a, b > 0`. -/
def ilog2 (a b : Nat) : Int :=
  let d : Int := (nlog2 a : Int) - (nlog2 b : Int)
  if b * 2 ^ d.toNat ≤ a * 2 ^ (-d).toNat then d else d - 1

/-- The integer nearest to `n / d`, a tie going to the even neighbour. -/
def roundHalfEven (n d : Nat) : Nat :=
  let q := n / d
  let r := n % d
  if 2 * r < d then q else if d < 2 * r then q + 1 else if q % 2 = 0 then q else q + 1

/-- IEEE 754 round-to-nearest, ties-to-even, of an exact value to a binary
format with `p` significand bits whose smallest subnormal is `2 ^ emin`.
The exponent `e` of the last significand bit is `⌊log₂ |x|⌋ - (p - 1)`, but
not below `emin`; the result is the multiple of `2 ^ e` nearest to `x`.
Overflow to infinity is not modelled: every value computed by the image
operations is far below the largest finite number of the format. -/
def roundFrac (p : Nat) (emin : Int) (x : Frac) : Frac :=
  if x.num = 0 then ⟨0, 1⟩ else
  let a := x.num.natAbs
  let e0 := ilog2 a x.den - ((p : Int) - 1)
  let e := if emin ≤ e0 then e0 else emin
  let m := roundHalfEven (a * 2 ^ (-e).toNat) (x.den * 2 ^ e.toNat)
  ⟨(if x.num < 0 then -1 else 1) * ((m * 2 ^ e.toNat : Nat) : Int), 2 ^ (-e).toNat⟩

/-- Rounding to `double` (binary64: 53 significand bits, least subnormal `2 ^ -1074`). -/
def fl64 (x : Frac) : Frac := roundFrac 53 (-1074) x

/-- Rounding to `float` (binary32: 24 significand bits, least subnormal `2 ^ -149`). -/
def fl32 (x : Frac) : Frac := roundFrac 24 (-149) x

/-- A decimal literal `n / d` of type `double` (`0.59` is `dlit 59 100`). -/
def dlit (n d : Nat) : Frac := fl64 ⟨n, d⟩

/-- Addition of two `double`s. -/
def dadd (a b : Frac) : Frac := fl64 (Frac.add a b)

/-- Subtraction of two `double`s. -/
def dsub (a b : Frac) : Frac := fl64 (Frac.sub a b)

/-- Multiplication of two `double`s. -/
def dmul (a b : Frac) : Frac := fl64 (Frac.mul a b)

/-- Division of two `double`s. -/
def ddiv (a b : Frac) : Frac := fl64 (Frac.div a b)

/-- Addition of two `float`s. -/
def fadd (a b : Frac) : Frac := fl32 (Frac.add a b)

/-- Multiplication of two `float`s. -/
def fmul (a b : Frac) : Frac := fl32 (Frac.mul a b)

/-- Division of two `float`s. -/
def fdiv (a b : Frac) : Frac := fl32 (Frac.div a b)

/-- Conversion of a floating-point value to `unsigned char` (`d[RED] = t`):
truncation toward zero; the store then keeps the low eight bits. -/
def toUChar (t : Frac) : Nat := (Frac.trunc t).toNat

/-- The class `TargaImage`: dimensions and the pre-multiplied RGBA buffer. -/
structure TargaImage where
  width : Nat
  height : Nat
  data : List Nat
deriving DecidableEq, Repr

namespace TargaImage

/-- Channel index of red. -/
def RED : Nat := 0
/-- Channel index of green. -/
def GREEN : Nat := 1
/-- Channel index of blue. -/
def BLUE : Nat := 2

/-- Offset computed by `Get_RGBA(x, y, D)`: `&D[x * 4 + y * width * 4]`. -/
def Get_RGBA (img : TargaImage) (x y : Nat) : Nat := x * 4 + y * img.width * 4

/-- Channel `c` (0 = R, 1 = G, 2 = B, 3 = A) of the pixel at column `x`, row `y`. -/
def chan (img : TargaImage) (x y c : Nat) : Nat := rd img.data (img.Get_RGBA x y + c)

/-- A well-formed image: the buffer has `width * height * 4` cells and every
cell holds a byte. -/
def WF (img : TargaImage) : Prop :=
  img.data.length = img.width * img.height * 4 ∧ ∀ b ∈ img.data, b < 256

instance (img : TargaImage) : Decidable img.WF := by
  unfold WF; exact inferInstance

/-- One pixel step of `Quant_Uniform`: the six shift assignments. -/
def quantUniformPixel (img : TargaImage) (j i : Nat) (data : List Nat) : List Nat :=
  let d := img.Get_RGBA j i
  let data := wr data (d + RED) (rd data (d + RED) >>> 5)
  let data := wr data (d + RED) (rd data (d + RED) <<< 5)
  let data := wr data (d + GREEN) (rd data (d + GREEN) >>> 5)
  let data := wr data (d + GREEN) (rd data (d + GREEN) <<< 5)
  let data := wr data (d + BLUE) (rd data (d + BLUE) >>> 6)
  let data := wr data (d + BLUE) (rd data (d + BLUE) <<< 6)
  data

/-- The method `TargaImage::Quant_Uniform`. -/
def Quant_Uniform (img : TargaImage) : Bool × TargaImage :=
  let data := forLoop img.height (fun i data =>
    forLoop img.width (fun j data => quantUniformPixel img j i data) data) img.data
  (true, { img with data := data })

end TargaImage


namespace TargaImage

/-- The expression `0.30 * d[RED] + 0.59 * d[GREEN] + 0.11 * d[BLUE]`
(written with `0.3` in `To_Grayscale`), evaluated in `double`: each channel
is converted exactly, each product and each sum is rounded. -/
def luma (r g b : Nat) : Frac :=
  dadd (dadd (dmul (dlit 30 100) (Frac.ofNat r)) (dmul (dlit 59 100) (Frac.ofNat g)))
    (dmul (dlit 11 100) (Frac.ofNat b))

/-- One pixel step of `To_Grayscale`: `float t = ...; d[RED] = t; d[GREEN] = t;
d[BLUE] = t;`. The `double` sum is rounded to `float` and each store
truncates it. -/
def toGrayscalePixel (img : TargaImage) (j i : Nat) (data : List Nat) : List Nat :=
  let d := img.Get_RGBA j i
  let t := fl32 (luma (rd data (d + RED)) (rd data (d + GREEN)) (rd data (d + BLUE)))
  let data := wr data (d + RED) (toUChar t)
  let data := wr data (d + GREEN) (toUChar t)
  let data := wr data (d + BLUE) (toUChar t)
  data

/-- The method `TargaImage::To_Grayscale` (it ends with `return false`). -/
def To_Grayscale (img : TargaImage) : Bool × TargaImage :=
  let data := forLoop img.height (fun i data =>
    forLoop img.width (fun j data => toGrayscalePixel img j i data) data) img.data
  (false, { img with data := data })

/-- One pixel step of `Dither_Threshold`. -/
def ditherThresholdPixel (img : TargaImage) (j i : Nat) (data : List Nat) : List Nat :=
  let d := img.Get_RGBA j i
  let t := luma (rd data (d + RED)) (rd data (d + GREEN)) (rd data (d + BLUE))
  if Frac.ge (ddiv t (Frac.ofNat 255)) (dlit 5 10) then
    let data := wr data (d + RED) 255
    let data := wr data (d + GREEN) 255
    let data := wr data (d + BLUE) 255
    data
  else
    let data := wr data (d + RED) 0
    let data := wr data (d + GREEN) 0
    let data := wr data (d + BLUE) 0
    data

/-- The method `TargaImage::Dither_Threshold`. -/
def Dither_Threshold (img : TargaImage) : Bool × TargaImage :=
  let data := forLoop img.height (fun i data =>
    forLoop img.width (fun j data => ditherThresholdPixel img j i data) data) img.data
  (true, { img with data := data })

/-- The expression `(double)rand() / ((double)RAND_MAX) * 0.4 - 0.2` for the
value `r` returned by `rand()`. -/
def randNum (RAND_MAX r : Nat) : Frac :=
  dsub (dmul (ddiv (Frac.ofNat r) (Frac.ofNat RAND_MAX)) (dlit 4 10)) (dlit 2 10)

/-- The part of one pixel step of `Dither_Random` that follows the call of
`rand()`, `r` being the value the call returned. -/
def ditherRandomStep (img : TargaImage) (RAND_MAX r : Nat) (j i : Nat) (data : List Nat) :
    List Nat :=
  let randNum := randNum RAND_MAX r
  let d := img.Get_RGBA j i
  let t := luma (rd data (d + RED)) (rd data (d + GREEN)) (rd data (d + BLUE))
  if Frac.ge (dadd (ddiv t (Frac.ofNat 256)) randNum) (dlit 5 10) then
    let data := wr data (d + RED) 255
    let data := wr data (d + GREEN) 255
    let data := wr data (d + BLUE) 255
    data
  else
    let data := wr data (d + RED) 0
    let data := wr data (d + GREEN) 0
    let data := wr data (d + BLUE) 0
    data

/-- One pixel step of `Dither_Random`. The state is the buffer together with
the number of calls of `rand()` made so far; `rand k` is the value of call
number `k` after the seeding. -/
def ditherRandomPixel (img : TargaImage) (RAND_MAX : Nat) (rand : Nat → Nat) (j i : Nat)
    (s : List Nat × Nat) : List Nat × Nat :=
  (ditherRandomStep img RAND_MAX (rand s.2) j i s.1, s.2 + 1)

/-- The method `TargaImage::Dither_Random`. The C library is a parameter:
`RAND_MAX`, the generator `gen seed k` (value of the `k`-th call of `rand()`
after `srand(seed)`) and `now`, the value `time(NULL)` has at the call. The
method seeds with `now`, draws once before the loops (call 0, not used) and
once per pixel, row by row. Every C library has `RAND_MAX ≥ 32767`, so the
division is by a positive number. -/
def Dither_Random (RAND_MAX : Nat) (gen : Nat → Nat → Nat) (now : Nat) (img : TargaImage) :
    Bool × TargaImage :=
  let rand := gen now
  let s := forLoop img.height (fun i s =>
    forLoop img.width (fun j s => ditherRandomPixel img RAND_MAX rand j i s) s) (img.data, 1)
  (true, { img with data := s.1 })

/-- The threshold matrix `mask` of `Dither_Cluster`. -/
def clusterMask : List (List Frac) :=
  [[dlit 7059 10000, dlit 3529 10000, dlit 5882 10000, dlit 2353 10000],
   [dlit 588 10000, dlit 9412 10000, dlit 8235 10000, dlit 4118 10000],
   [dlit 4706 10000, dlit 7647 10000, dlit 8824 10000, dlit 1176 10000],
   [dlit 1765 10000, dlit 5294 10000, dlit 2941 10000, dlit 6471 10000]]

/-- The entry `mask[r][c]`. -/
def maskAt (mask : List (List Frac)) (r c : Nat) : Frac := (mask.getD r []).getD c ⟨0, 1⟩

/-- One pixel step of `Dither_Cluster`. -/
def ditherClusterPixel (img : TargaImage) (j i : Nat) (data : List Nat) : List Nat :=
  let d := img.Get_RGBA j i
  let t := luma (rd data (d + RED)) (rd data (d + GREEN)) (rd data (d + BLUE))
  if Frac.ge (ddiv t (Frac.ofNat 255)) (maskAt clusterMask (i % 4) (j % 4)) then
    let data := wr data (d + RED) 255
    let data := wr data (d + GREEN) 255
    let data := wr data (d + BLUE) 255
    data
  else
    let data := wr data (d + RED) 0
    let data := wr data (d + GREEN) 0
    let data := wr data (d + BLUE) 0
    data

/-- The method `TargaImage::Dither_Cluster`. -/
def Dither_Cluster (img : TargaImage) : Bool × TargaImage :=
  let data := forLoop img.height (fun i data =>
    forLoop img.width (fun j data => ditherClusterPixel img j i data) data) img.data
  (true, { img with data := data })

/-- The pixel at column `x`, row `y` is pure black or pure white. -/
def isBlackOrWhite (img : TargaImage) (x y : Nat) : Prop :=
  (img.chan x y 0 = 0 ∧ img.chan x y 1 = 0 ∧ img.chan x y 2 = 0) ∨
  (img.chan x y 0 = 255 ∧ img.chan x y 1 = 255 ∧ img.chan x y 2 = 255)

/-- The method `TargaImage::ClearToBlack`: `memset(data, 0, width * height * 4)`. -/
def ClearToBlack (img : TargaImage) : TargaImage :=
  { img with data := memset img.data 0 (img.width * img.height * 4) }

/-- The method `TargaImage::Comp_Over`; the result is the returned flag, the
receiver and the argument image after the call. -/
def Comp_Over (img pImage : TargaImage) : Bool × TargaImage × TargaImage :=
  if img.width ≠ pImage.width ∨ img.height ≠ pImage.height then (false, img, pImage)
  else (false, img.ClearToBlack, pImage)

/-- The method `TargaImage::Comp_In`. -/
def Comp_In (img pImage : TargaImage) : Bool × TargaImage × TargaImage :=
  if img.width ≠ pImage.width ∨ img.height ≠ pImage.height then (false, img, pImage)
  else (false, img.ClearToBlack, pImage)

/-- The method `TargaImage::Comp_Out`. -/
def Comp_Out (img pImage : TargaImage) : Bool × TargaImage × TargaImage :=
  if img.width ≠ pImage.width ∨ img.height ≠ pImage.height then (false, img, pImage)
  else (false, img.ClearToBlack, pImage)

/-- The method `TargaImage::Comp_Atop`. -/
def Comp_Atop (img pImage : TargaImage) : Bool × TargaImage × TargaImage :=
  if img.width ≠ pImage.width ∨ img.height ≠ pImage.height then (false, img, pImage)
  else (false, img.ClearToBlack, pImage)

/-- The method `TargaImage::Comp_Xor`. -/
def Comp_Xor (img pImage : TargaImage) : Bool × TargaImage × TargaImage :=
  if img.width ≠ pImage.width ∨ img.height ≠ pImage.height then (false, img, pImage)
  else (false, img.ClearToBlack, pImage)

/-- One channel of `RGBA_To_RGB`: for `alpha != 0` the value
`(int)floor(rgba[i] * alpha_scale)` with `float alpha_scale = (float)255 /
(float)alpha`, clamped to `[0, 255]`; for `alpha == 0` the background 0. -/
def rgbaToRgbChannel (c alpha : Nat) : Nat :=
  if alpha = 0 then 0
  else
    let alpha_scale := fdiv (Frac.ofNat 255) (Frac.ofNat alpha)
    let val := Frac.floor (fmul (Frac.ofNat c) alpha_scale)
    if val < 0 then 0 else if val > 255 then 255 else val.toNat

/-- The method `TargaImage::RGBA_To_RGB` applied to the pixel that starts at
offset `o` of the buffer `D`; the result is the array `rgb[0..2]`. -/
def RGBA_To_RGB (D : List Nat) (o : Nat) : List Nat :=
  [rgbaToRgbChannel (rd D o) (rd D (o + 3)), rgbaToRgbChannel (rd D (o + 1)) (rd D (o + 3)),
    rgbaToRgbChannel (rd D (o + 2)) (rd D (o + 3))]

/-- One step of the loop of `Difference`, at byte offset `i`. -/
def differencePixel (other : List Nat) (i : Nat) (data : List Nat) : List Nat :=
  let rgb1 := RGBA_To_RGB data i
  let rgb2 := RGBA_To_RGB other i
  let data := wr data i (Int.natAbs ((rd rgb1 0 : Int) - (rd rgb2 0 : Int)))
  let data := wr data (i + 1) (Int.natAbs ((rd rgb1 1 : Int) - (rd rgb2 1 : Int)))
  let data := wr data (i + 2) (Int.natAbs ((rd rgb1 2 : Int) - (rd rgb2 2 : Int)))
  let data := wr data (i + 3) 255
  data

/-- The method `TargaImage::Difference`; `none` is the null pointer. The loop
`for (i = 0; i < width * height * 4; i += 4)` runs over `i = 4 * k`,
`k < width * height`. The result is the returned flag, the receiver and the
argument image after the call. Step `k` reads pixel `k` of both buffers
before it writes pixel `k` of the receiver and touches no other pixel, so the
argument buffer is read as it was at the call, also when the argument is the
receiver itself. -/
def Difference (img : TargaImage) (pImage : Option TargaImage) :
    Bool × TargaImage × Option TargaImage :=
  match pImage with
  | none => (false, img, none)
  | some other =>
    if img.width ≠ other.width ∨ img.height ≠ other.height then (false, img, some other)
    else
      let data := forLoop (img.width * img.height)
        (fun k data => differencePixel other.data (4 * k) data) img.data
      (true, { img with data := data }, some other)

/-- The method `TargaImage::fill_Float_Value`. -/
def fill_Float_Value (num : Nat) (value : Frac) (arr : List Frac) : List Frac :=
  forLoop num (fun i arr => arr.set i value) arr

/-- The offset of `Get_RGBA(x, y, D)` for signed coordinates. -/
def Get_RGBA_int (img : TargaImage) (x y : Int) : Int := x * 4 + y * img.width * 4

/-- Read of one byte at a signed offset; in front of the buffer the C read is
undefined and the model yields 0. -/
def rdInt (D : List Nat) (i : Int) : Nat := if i < 0 then 0 else rd D i.toNat

/-- The blur kernel `mask` of `Half_Size`, an array of `float`. -/
def halfSizeMask : List (List Frac) :=
  [[fl32 (dlit 625 10000), fl32 (dlit 1250 10000), fl32 (dlit 625 10000)],
   [fl32 (dlit 1250 10000), fl32 (dlit 2500 10000), fl32 (dlit 1250 10000)],
   [fl32 (dlit 625 10000), fl32 (dlit 1250 10000), fl32 (dlit 625 10000)]]

/-- One tap of the blur of `Half_Size` at pixel `(x, y)`: the body of the two
inner loops for `i = ii - 1`, `j = jj - 1`, mirror correction included. -/
def halfSizeTap (img : TargaImage) (data : List Nat) (x y ii jj : Nat) (sum : List Frac) :
    List Frac :=
  let i : Int := (ii : Int) - 1
  let j : Int := (jj : Int) - 1
  let correction1 : Int :=
    if (y : Int) + i < 0 ∨ (y : Int) + i ≥ img.height then -2 * i else 0
  let correction0 : Int :=
    if (x : Int) + j < 0 ∨ (x : Int) + j ≥ img.width then -2 * j else 0
  let d := img.Get_RGBA_int ((x : Int) + j + correction0) ((y : Int) + i + correction1)
  let m := maskAt halfSizeMask ii jj
  let sum := sum.set RED (fadd (sum.getD RED ⟨0, 1⟩) (fmul (Frac.ofNat (rdInt data (d + RED))) m))
  let sum := sum.set GREEN
    (fadd (sum.getD GREEN ⟨0, 1⟩) (fmul (Frac.ofNat (rdInt data (d + GREEN))) m))
  let sum := sum.set BLUE (fadd (sum.getD BLUE ⟨0, 1⟩) (fmul (Frac.ofNat (rdInt data (d + BLUE))) m))
  sum

/-- One pixel step of the blur of `Half_Size`, in place. The state is the
buffer and the array `sum`. -/
def halfSizeBlurPixel (img : TargaImage) (x y : Nat) (s : List Nat × List Frac) :
    List Nat × List Frac :=
  let data := s.1
  let sum := fill_Float_Value 3 ⟨0, 1⟩ s.2
  let sum := forLoop 3 (fun ii sum =>
    forLoop 3 (fun jj sum => halfSizeTap img data x y ii jj sum) sum) sum
  let nowD := img.Get_RGBA x y
  let data := wr data (nowD + RED) (toUChar (sum.getD RED ⟨0, 1⟩))
  let data := wr data (nowD + GREEN) (toUChar (sum.getD GREEN ⟨0, 1⟩))
  let data := wr data (nowD + BLUE) (toUChar (sum.getD BLUE ⟨0, 1⟩))
  (data, sum)

/-- One step of the decimation loop of `Half_Size`: pixel `(x, y)` of
`temp_Data` is copied to pixel `(x / 2, y / 2)` of the new buffer unless the
guard skips it. -/
def halfSizeCopyPixel (img : TargaImage) (temp_Data : List Nat) (x y : Nat)
    (data : List Nat) : List Nat :=
  if y / 2 = img.height / 2 ∨ x / 2 = img.width / 2 then data
  else
    let Data_RGBA := x / 2 * 4 + y / 2 * (img.width / 2) * 4
    let TData_RGBA := img.Get_RGBA x y
    let data := wr data (Data_RGBA + RED) (rd temp_Data (TData_RGBA + RED))
    let data := wr data (Data_RGBA + GREEN) (rd temp_Data (TData_RGBA + GREEN))
    let data := wr data (Data_RGBA + BLUE) (rd temp_Data (TData_RGBA + BLUE))
    let data := wr data (Data_RGBA + 3) (rd temp_Data (TData_RGBA + 3))
    data

/-- The method `TargaImage::Half_Size` (it ends with `return false`). The
new buffer has `width / 2 * height / 2 * 4` cells, the source's allocation
expression; `new` leaves them indeterminate, the model starts them at 0, and
`memset` zeroes the first `(width / 2) * (height / 2) * 4`. -/
def Half_Size (img : TargaImage) : Bool × TargaImage :=
  let sum : List Frac := [⟨0, 1⟩, ⟨0, 1⟩, ⟨0, 1⟩]
  let s := forLoop img.height (fun y s =>
    forLoop img.width (fun x s => halfSizeBlurPixel img x y s) s) (img.data, sum)
  let temp_Data := s.1.take (img.width * img.height * 4)
  let data := List.replicate (img.width / 2 * img.height / 2 * 4) 0
  let data := memset data 0 ((img.width / 2) * (img.height / 2) * 4)
  let data := forLoop img.height (fun y data =>
    forLoop img.width (fun x data => halfSizeCopyPixel img temp_Data x y data) data) data
  (false, { width := img.width / 2, height := img.height / 2, data := data })

end TargaImage


namespace Frac

/-- Conversion of an `int` operand to floating point. -/
def ofInt (n : Int) : Frac := ⟨n, 1⟩

/-- The comparison `a < b`. -/
def lt (a b : Frac) : Bool := decide (a.num * b.den < b.num * a.den)

end Frac

/-- Store of an `int` value into an `unsigned char` cell: the value is
reduced modulo 256. -/
def wrInt (D : List Nat) (i : Nat) (v : Int) : List Nat := D.set i (v % 256).toNat

/-- Result of an `int` operation whose exact value is `v`, kept to 32 bits
(two's complement). -/
def wrapInt32 (v : Int) : Int := (v + 2147483648) % 4294967296 - 2147483648

/-- The entry `mask[r][c]` of a two-dimensional `int` array; outside the array
the C read is undefined and the model yields 0. -/
def maskAtInt (mask : List (List Int)) (r c : Nat) : Int := (mask.getD r []).getD c 0

/-- The assignment `mask[r][c] = v`. -/
def setAt2 (mask : List (List Int)) (r c : Nat) (v : Int) : List (List Int) :=
  mask.set r ((mask.getD r []).set c v)

/-- The function `Binomial(n, s)`: `res = 1; for (i = 1; i <= s; i++)
res = (n - i + 1) * res / i;` in `double`. -/
def Binomial (n s : Int) : Frac :=
  forLoop s.toNat (fun k res =>
    let i : Int := (k : Int) + 1
    ddiv (dmul (Frac.ofInt (n - i + 1)) res) (Frac.ofInt i)) (Frac.ofNat 1)

namespace TargaImage

/-- The method `TargaImage::To_RGB`, one call of `RGBA_To_RGB(data +
(in_offset + j * 4), rgb + (out_offset + j * 3))`. -/
def toRgbPixel (img : TargaImage) (j i : Nat) (rgb : List Nat) : List Nat :=
  let in_offset := i * img.width * 4
  let out_offset := i * img.width * 3
  let px := RGBA_To_RGB img.data (in_offset + j * 4)
  let rgb := wr rgb (out_offset + j * 3) (rd px 0)
  let rgb := wr rgb (out_offset + j * 3 + 1) (rd px 1)
  let rgb := wr rgb (out_offset + j * 3 + 2) (rd px 2)
  rgb

/-- The method `TargaImage::To_RGB` for an image whose `data` is not null:
the returned array of `width * height * 3` bytes (started at 0 in the model,
every cell is then written). -/
def To_RGB (img : TargaImage) : List Nat :=
  let rgb := List.replicate (img.width * img.height * 3) 0
  forLoop img.height (fun i rgb =>
    forLoop img.width (fun j rgb => toRgbPixel img j i rgb) rgb) rgb

/-- The constructor `TargaImage(int w, int h, unsigned char *d)`: a fresh
buffer of `w * h * 4` bytes filled by `data[i] = d[i]`. -/
def ofBuffer (w h : Nat) (d : List Nat) : TargaImage :=
  { width := w, height := h,
    data := forLoop (w * h * 4) (fun i data => wr data i (rd d i))
      (List.replicate (w * h * 4) 0) }

/-- One step of the loops of `Reverse_Rows`: the four assignments
`dest[out_offset + j * 4 + c] = data[in_offset + j * 4 + c]`. -/
def reverseRowsPixel (img : TargaImage) (j i : Nat) (dest : List Nat) : List Nat :=
  let in_offset := (img.height - i - 1) * img.width * 4
  let out_offset := i * img.width * 4
  let dest := wr dest (out_offset + j * 4) (rd img.data (in_offset + j * 4))
  let dest := wr dest (out_offset + j * 4 + 1) (rd img.data (in_offset + j * 4 + 1))
  let dest := wr dest (out_offset + j * 4 + 2) (rd img.data (in_offset + j * 4 + 2))
  let dest := wr dest (out_offset + j * 4 + 3) (rd img.data (in_offset + j * 4 + 3))
  dest

/-- The method `TargaImage::Reverse_Rows` for an image whose `data` is not
null. The result is the receiver after the call and the new image. -/
def Reverse_Rows (img : TargaImage) : TargaImage × TargaImage :=
  let dest := List.replicate (img.width * img.height * 4) 0
  let dest := forLoop img.height (fun i dest =>
    forLoop img.width (fun j dest => reverseRowsPixel img j i dest) dest) dest
  (img, ofBuffer img.width img.height dest)

/-- One tap of a filter window at pixel `(x, y)`: the body of the two inner
loops for the offsets `i = ii - distance`, `j = jj - distance`; a position
outside the raster is skipped (`continue`), otherwise
`sum[c] += d[c] * mask[distance + i][distance + j]`. No sum of the fixed 5x5
filters leaves the range of `int`. -/
def windowTap (img : TargaImage) (mask : List (List Int)) (distance : Nat) (data : List Nat)
    (x y ii jj : Nat) (sum : Int × Int × Int) : Int × Int × Int :=
  let i : Int := (ii : Int) - distance
  let j : Int := (jj : Int) - distance
  if (y : Int) + i < 0 ∨ (y : Int) + i ≥ img.height then sum
  else if (x : Int) + j < 0 ∨ (x : Int) + j ≥ img.width then sum
  else
    let d := img.Get_RGBA_int ((x : Int) + j) ((y : Int) + i)
    let m := maskAtInt mask ii jj
    (sum.1 + (rdInt data (d + RED) : Int) * m, sum.2.1 + (rdInt data (d + GREEN) : Int) * m,
      sum.2.2 + (rdInt data (d + BLUE) : Int) * m)

/-- The array `sum` after the window loops of a filter at pixel `(x, y)`,
started at `{0, 0, 0}`. -/
def windowSum (img : TargaImage) (mask : List (List Int)) (distance : Nat) (data : List Nat)
    (x y : Nat) : Int × Int × Int :=
  forLoop (2 * distance + 1) (fun ii sum =>
    forLoop (2 * distance + 1) (fun jj sum => windowTap img mask distance data x y ii jj sum) sum)
    (0, 0, 0)

/-- The array `Box_mask` of `Filter_Box` after its initialisation loops. -/
def Box_mask : List (List Int) := List.replicate 5 (List.replicate 5 1)

/-- One pixel step of `Filter_Box`, in place: the window sums over the
current buffer, then `nowD[c] = sum[c] / 25`. -/
def filterBoxPixel (img : TargaImage) (x y : Nat) (data : List Nat) : List Nat :=
  let sum := windowSum img Box_mask 2 data x y
  let nowD := img.Get_RGBA x y
  let data := wrInt data (nowD + RED) (Int.tdiv sum.1 25)
  let data := wrInt data (nowD + GREEN) (Int.tdiv sum.2.1 25)
  let data := wrInt data (nowD + BLUE) (Int.tdiv sum.2.2 25)
  data

/-- The method `TargaImage::Filter_Box`. -/
def Filter_Box (img : TargaImage) : Bool × TargaImage :=
  let data := forLoop img.height (fun y data =>
    forLoop img.width (fun x data => filterBoxPixel img x y data) data) img.data
  (true, { img with data := data })

/-- The sum `S` of a channel over the 5x5 window of `(x, y)`: the values
`v x' y'` at the positions `(x + j, y + i)`, `-2 ≤ i, j ≤ 2`, that lie inside
the `w × h` raster; positions outside are omitted. -/
def boxWindowSum (w h : Nat) (v : Nat → Nat → Nat) (x y : Nat) : Nat :=
  ((List.range 5).map (fun ii => ((List.range 5).map (fun jj =>
    if 2 ≤ y + ii ∧ y + ii - 2 < h ∧ 2 ≤ x + jj ∧ x + jj - 2 < w
    then v (x + jj - 2) (y + ii - 2) else 0)).sum)).sum

/-- The kernel of `Filter_Gaussian_N` and its sum `maskSum`, as the method
builds them: the first line from `Binomial(N - 1, i)` truncated to `int`,
the first row and column copied from it, the rest as products, then the sum of
all entries. -/
def gaussianMask (N : Nat) : List (List Int) × Int :=
  let firstLine : List Int := List.replicate N 0
  let mask : List (List Int) := List.replicate N firstLine
  let firstLine := forLoop N (fun i firstLine =>
    firstLine.set i (Frac.trunc (Binomial ((N : Int) - 1) i))) firstLine
  let mask := forLoop N (fun i mask =>
    let mask := setAt2 mask 0 i (firstLine.getD i 0)
    let mask := setAt2 mask i 0 (firstLine.getD i 0)
    mask) mask
  let mask := forLoop (N - 1) (fun i1 mask =>
    forLoop (N - 1) (fun j1 mask =>
      setAt2 mask (i1 + 1) (j1 + 1)
        (wrapInt32 (maskAtInt mask 0 (j1 + 1) * maskAtInt mask (i1 + 1) 0))) mask) mask
  let maskSum := forLoop N (fun i maskSum =>
    forLoop N (fun j maskSum => wrapInt32 (maskSum + maskAtInt mask i j)) maskSum) 0
  (mask, maskSum)

/-- One tap of the window of `Filter_Gaussian_N`, as `windowTap` with 32-bit
`int` arithmetic. For an even `N` the index `distance + i` reaches `N`, one
past the kernel: the C read is undefined and the model yields 0. -/
def gaussianNTap (img : TargaImage) (mask : List (List Int)) (distance : Nat) (data : List Nat)
    (x y ii jj : Nat) (sum : Int × Int × Int) : Int × Int × Int :=
  let i : Int := (ii : Int) - distance
  let j : Int := (jj : Int) - distance
  if (y : Int) + i < 0 ∨ (y : Int) + i ≥ img.height then sum
  else if (x : Int) + j < 0 ∨ (x : Int) + j ≥ img.width then sum
  else
    let d := img.Get_RGBA_int ((x : Int) + j) ((y : Int) + i)
    let m := maskAtInt mask ii jj
    (wrapInt32 (sum.1 + wrapInt32 ((rdInt data (d + RED) : Int) * m)),
      wrapInt32 (sum.2.1 + wrapInt32 ((rdInt data (d + GREEN) : Int) * m)),
      wrapInt32 (sum.2.2 + wrapInt32 ((rdInt data (d + BLUE) : Int) * m)))

/-- One pixel step of `Filter_Gaussian_N`, in place. A division by
`maskSum = 0` is undefined in C; the model yields 0. -/
def filterGaussianNPixel (img : TargaImage) (mask : List (List Int)) (maskSum : Int)
    (distance : Nat) (x y : Nat) (data : List Nat) : List Nat :=
  let sum := forLoop (2 * distance + 1) (fun ii sum =>
    forLoop (2 * distance + 1) (fun jj sum =>
      gaussianNTap img mask distance data x y ii jj sum) sum) (0, 0, 0)
  let nowD := img.Get_RGBA x y
  let data := wrInt data (nowD + RED) (Int.tdiv sum.1 maskSum)
  let data := wrInt data (nowD + GREEN) (Int.tdiv sum.2.1 maskSum)
  let data := wrInt data (nowD + BLUE) (Int.tdiv sum.2.2 maskSum)
  data

/-- The method `TargaImage::Filter_Gaussian_N`, `N` an `unsigned int`. There
is no test of `N`: every call runs the loops and ends with `return true`. -/
def Filter_Gaussian_N (N : Nat) (img : TargaImage) : Bool × TargaImage :=
  let km := gaussianMask N
  let distance := N / 2
  let data := forLoop img.height (fun y data =>
    forLoop img.width (fun x data =>
      filterGaussianNPixel img km.1 km.2 distance x y data) data) img.data
  (true, { img with data := data })

end TargaImage


/-! ### Populosity quantisation -/

/-- The struct `Color` of `TargaImage.h`: three `unsigned char` channels, the
`int` field `count` and the flag `beTake`. -/
structure Color where
  r : Nat
  g : Nat
  b : Nat
  count : Int
  beTake : Bool
deriving DecidableEq, Repr

/-- A default-initialised `Color`, by the member initialisers of the struct:
`r = g = b = 0`, `count = 0`, `beTake = false`. -/
def Color.zero : Color := ⟨0, 0, 0, 0, false⟩

/-- The entry `Color_Nodes[i][j][k]` of a three-dimensional array; outside
the array the C read is undefined and the model yields the default colour. -/
def nodeAt (nodes : List (List (List Color))) (i j k : Nat) : Color :=
  ((nodes.getD i []).getD j []).getD k Color.zero

/-- The assignment `Color_Nodes[i][j][k] = c`. -/
def setNode (nodes : List (List (List Color))) (i j k : Nat) (c : Color) :
    List (List (List Color)) :=
  nodes.set i ((nodes.getD i []).set j (((nodes.getD i []).getD j []).set k c))

/-- The entry `Color_Nodes[i][j][k]` for `int` indices; with a negative index
the C read is undefined and the model yields the default colour. -/
def nodeAtInt (nodes : List (List (List Color))) (i j k : Int) : Color :=
  if i < 0 ∨ j < 0 ∨ k < 0 then Color.zero else nodeAt nodes i.toNat j.toNat k.toNat

/-- The assignment `Color_Nodes[i][j][k].beTake = true` for `int` indices;
with a negative index the C store is undefined and the model skips it. -/
def setBeTake (nodes : List (List (List Color))) (i j k : Int) : List (List (List Color)) :=
  if i < 0 ∨ j < 0 ∨ k < 0 then nodes
  else setNode nodes i.toNat j.toNat k.toNat
    { nodeAt nodes i.toNat j.toNat k.toNat with beTake := true }

/-- A model of the library function `pow` at the two exponents the program
uses, for the sample evaluations: `pow(x, 2)` is the rounded square, and
`pow(x, 0.5)` is the rounding of the square root taken to 60 binary places. -/
def powModel (x e : Frac) : Frac :=
  if e.num = 2 * (e.den : Int) then fl64 (Frac.mul x x)
  else fl64 ⟨(Nat.sqrt (x.num.toNat * x.den * 2 ^ 120) : Nat), x.den * 2 ^ 60⟩

namespace TargaImage

/-- The function `TargaImage::euDistance`:
`pow(pow(nowX - x, 2) + pow(nowY - y, 2) + pow(nowZ - z, 2), 0.5)`, the
library function `pow` on `double`s being a parameter. -/
def euDistance (pow : Frac → Frac → Frac) (nowX nowY nowZ x y z : Int) : Frac :=
  pow (dadd (dadd (pow (Frac.ofInt (nowX - x)) (Frac.ofNat 2))
      (pow (Frac.ofInt (nowY - y)) (Frac.ofNat 2)))
    (pow (Frac.ofInt (nowZ - z)) (Frac.ofNat 2))) (dlit 5 10)

/-- The method `TargaImage::Find_Closest_Palette_Color`; `dR`, `dG`, `dB` are
the bytes `d[RED]`, `d[GREEN]`, `d[BLUE]` the pointer argument refers to. The
state of the loop is `(min, best_Color)`. The read `Top256[-1]` is undefined
in C; the model yields the default colour. -/
def Find_Closest_Palette_Color (pow : Frac → Frac → Frac) (dR dG dB : Nat)
    (Top256 : List Color) : Color :=
  let s := forLoop 256 (fun i (s : Frac × Int) =>
    let c := Top256.getD i Color.zero
    if Frac.lt (euDistance pow dR dG dB c.r c.g c.b) s.1 then
      (euDistance pow dR dG dB c.r c.g c.b, (i : Int))
    else s) (Frac.ofNat 999999, -1)
  if s.2 < 0 then Color.zero else Top256.getD s.2.toNat Color.zero

/-- One pixel step of the first loop of `Quant_Populosity`: the six shift
assignments. -/
def quantPopulosityClear (img : TargaImage) (x y : Nat) (data : List Nat) : List Nat :=
  let d := img.Get_RGBA x y
  let data := wr data (d + RED) (rd data (d + RED) >>> 3)
  let data := wr data (d + RED) (rd data (d + RED) <<< 3)
  let data := wr data (d + GREEN) (rd data (d + GREEN) >>> 3)
  let data := wr data (d + GREEN) (rd data (d + GREEN) <<< 3)
  let data := wr data (d + BLUE) (rd data (d + BLUE) >>> 3)
  let data := wr data (d + BLUE) (rd data (d + BLUE) <<< 3)
  data

/-- The array `Color_Nodes[32][32][32]` after the loops that set
`Color_Nodes[i][j][k]` to `(i * 8, j * 8, k * 8)`. -/
def colorNodesInit : List (List (List Color)) :=
  forLoop 32 (fun i nodes =>
    forLoop 32 (fun j nodes =>
      forLoop 32 (fun k nodes =>
        let nodes := setNode nodes i j k { nodeAt nodes i j k with r := (i * 8) % 256 }
        let nodes := setNode nodes i j k { nodeAt nodes i j k with g := (j * 8) % 256 }
        let nodes := setNode nodes i j k { nodeAt nodes i j k with b := (k * 8) % 256 }
        nodes) nodes) nodes)
    (List.replicate 32 (List.replicate 32 (List.replicate 32 Color.zero)))

/-- One step of the counting loop of `Quant_Populosity`:
`Color_Nodes[d[RED] / 8][d[GREEN] / 8][d[BLUE] / 8].count++`. -/
def colorNodesCountPixel (img : TargaImage) (data : List Nat) (x y : Nat)
    (nodes : List (List (List Color))) : List (List (List Color)) :=
  let d := img.Get_RGBA x y
  let i := rd data (d + RED) / 8
  let j := rd data (d + GREEN) / 8
  let k := rd data (d + BLUE) / 8
  setNode nodes i j k { nodeAt nodes i j k with count := wrapInt32 ((nodeAt nodes i j k).count + 1) }

/-- The counting loop of `Quant_Populosity`. -/
def colorNodesCount (img : TargaImage) (data : List Nat) (nodes : List (List (List Color))) :
    List (List (List Color)) :=
  forLoop img.height (fun y nodes =>
    forLoop img.width (fun x nodes => colorNodesCountPixel img data x y nodes) nodes) nodes

/-- One step of the scan for the most frequent colour not taken yet; the
state is `(mix, choosed_Index)`. -/
def populosityScanStep (nodes : List (List (List Color))) (i j k : Nat)
    (s : Int × (Int × Int × Int)) : Int × (Int × Int × Int) :=
  if (nodeAt nodes i j k).count > s.1 ∧ ¬ (nodeAt nodes i j k).beTake = true then
    ((nodeAt nodes i j k).count, ((i : Int), (j : Int), (k : Int)))
  else s

/-- The three nested loops over `i`, `j`, `k` inside one round of the
selection, from `mix = -1` and `choosed_Index = {-1, -1, -1}`. -/
def populosityScan (nodes : List (List (List Color))) : Int × (Int × Int × Int) :=
  forLoop 32 (fun i s =>
    forLoop 32 (fun j s =>
      forLoop 32 (fun k s => populosityScanStep nodes i j k s) s) s) (-1, (-1, -1, -1))

/-- One round of the selection loop of `Quant_Populosity`: the chosen node is
marked as taken and a copy of it is appended to `Top256`. -/
def populositySelect (s : List (List (List Color)) × List Color) :
    List (List (List Color)) × List Color :=
  let choosed_Index := (populosityScan s.1).2
  let nodes := setBeTake s.1 choosed_Index.1 choosed_Index.2.1 choosed_Index.2.2
  (nodes, s.2 ++ [nodeAtInt nodes choosed_Index.1 choosed_Index.2.1 choosed_Index.2.2])

/-- The vector `Top256` that `Quant_Populosity` builds from a buffer whose
low bits are already cleared. -/
def populosityTop256 (img : TargaImage) (data : List Nat) : List Color :=
  (forLoop 256 (fun _ s => populositySelect s)
    (colorNodesCount img data colorNodesInit, [])).2

/-- One pixel step of the last loop of `Quant_Populosity`. -/
def quantPopulosityMap (pow : Frac → Frac → Frac) (Top256 : List Color) (img : TargaImage)
    (x y : Nat) (data : List Nat) : List Nat :=
  let d := img.Get_RGBA x y
  let Colsest_Color := Find_Closest_Palette_Color pow (rd data (d + RED)) (rd data (d + GREEN))
    (rd data (d + BLUE)) Top256
  let data := wr data (d + RED) Colsest_Color.r
  let data := wr data (d + GREEN) Colsest_Color.g
  let data := wr data (d + BLUE) Colsest_Color.b
  data

/-- The buffer after the first loop of `Quant_Populosity`. -/
def populosityCleared (img : TargaImage) : List Nat :=
  forLoop img.height (fun y data =>
    forLoop img.width (fun x data => quantPopulosityClear img x y data) data) img.data

/-- The palette `Top256` of `Quant_Populosity` on an image. -/
def populosityPalette (img : TargaImage) : List Color :=
  populosityTop256 img (populosityCleared img)

/-- The method `TargaImage::Quant_Populosity`, the library function `pow`
being a parameter. -/
def Quant_Populosity (pow : Frac → Frac → Frac) (img : TargaImage) : Bool × TargaImage :=
  let data := populosityCleared img
  let Top256 := populosityTop256 img data
  let data := forLoop img.height (fun y data =>
    forLoop img.width (fun x data => quantPopulosityMap pow Top256 img x y data) data) data
  (true, { img with data := data })

/-- What the theorems on `Quant_Populosity` assume of `pow`: the distance
between two colours is below the start value 999999 of the search. -/
def PowBounded (pow : Frac → Frac → Frac) : Prop :=
  ∀ a b c x y z : Nat, a < 256 → b < 256 → c < 256 → x < 256 → y < 256 → z < 256 →
    Frac.lt (euDistance pow a b c x y z) (Frac.ofNat 999999) = true

/-- What the theorems on `Quant_Populosity` assume of `pow`: the distance of a
colour to itself is not above its distance to any other colour, and is
strictly below its distance to a different colour. -/
def PowSeparates (pow : Frac → Frac → Frac) : Prop :=
  ∀ a b c x y z : Nat, a < 256 → b < 256 → c < 256 → x < 256 → y < 256 → z < 256 →
    Frac.lt (euDistance pow a b c x y z) (euDistance pow a b c a b c) = false ∧
    ((x, y, z) ≠ (a, b, c) →
      Frac.lt (euDistance pow a b c a b c) (euDistance pow a b c x y z) = true)

end TargaImage

/-- The shape of the array `Color_Nodes[32][32][32]`. -/
def NodesShaped (nodes : List (List (List Color))) : Prop :=
  nodes.length = 32 ∧ ∀ i, i < 32 → (nodes.getD i []).length = 32 ∧
    ∀ j, j < 32 → ((nodes.getD i []).getD j []).length = 32

/-- The number of pixels among the first `n` of a buffer that fall into the
histogram bucket `(i, j, k)`, that is, whose bytes satisfy `R / 8 = i`,
`G / 8 = j`, `B / 8 = k`. -/
def bucketCount (data : List Nat) (n i j k : Nat) : Nat :=
  ((List.range n).filter (fun q =>
    rd data (4 * q) / 8 = i ∧ rd data (4 * q + 1) / 8 = j ∧ rd data (4 * q + 2) / 8 = k)).length

/-! ### Further filters and error diffusion -/

/-- Store of a byte at a signed offset (`p[c] = v` for a pointer `p` into the
buffer); in front of the buffer the C store is undefined and the model skips
it. -/
def wrI (D : List Nat) (i : Int) (v : Nat) : List Nat := if i < 0 then D else wr D i.toNat v

namespace TargaImage

/-- The guard of the decimation loop of `Half_Size`:
`y / 2 == height / 2 || x / 2 == width / 2`. -/
def halfSizeGuard (img : TargaImage) (x y : Nat) : Prop :=
  y / 2 = img.height / 2 ∨ x / 2 = img.width / 2

instance (img : TargaImage) (x y : Nat) : Decidable (img.halfSizeGuard x y) := by
  unfold halfSizeGuard; exact inferInstance

/-- The array `Box_mask` of `Filter_Gaussian`. -/
def Gaussian_mask : List (List Int) :=
  [[1, 4, 6, 4, 1], [4, 16, 24, 16, 4], [6, 24, 36, 24, 6], [4, 16, 24, 16, 4], [1, 4, 6, 4, 1]]

/-- One pixel step of `Filter_Gaussian`, in place: `nowD[c] = sum[c] / 256`. -/
def filterGaussianPixel (img : TargaImage) (x y : Nat) (data : List Nat) : List Nat :=
  let sum := windowSum img Gaussian_mask 2 data x y
  let nowD := img.Get_RGBA x y
  let data := wrInt data (nowD + RED) (Int.tdiv sum.1 256)
  let data := wrInt data (nowD + GREEN) (Int.tdiv sum.2.1 256)
  let data := wrInt data (nowD + BLUE) (Int.tdiv sum.2.2 256)
  data

/-- The method `TargaImage::Filter_Gaussian`. -/
def Filter_Gaussian (img : TargaImage) : Bool × TargaImage :=
  let data := forLoop img.height (fun y data =>
    forLoop img.width (fun x data => filterGaussianPixel img x y data) data) img.data
  (true, { img with data := data })

/-- The array `Box_mask` of `Filter_Bartlett`, an array of `double`. -/
def Bartlett_mask : List (List Frac) :=
  [[Frac.ofNat 1, Frac.ofNat 2, Frac.ofNat 3, Frac.ofNat 2, Frac.ofNat 1],
   [Frac.ofNat 2, Frac.ofNat 4, Frac.ofNat 6, Frac.ofNat 4, Frac.ofNat 2],
   [Frac.ofNat 3, Frac.ofNat 6, Frac.ofNat 9, Frac.ofNat 6, Frac.ofNat 3],
   [Frac.ofNat 2, Frac.ofNat 4, Frac.ofNat 6, Frac.ofNat 4, Frac.ofNat 2],
   [Frac.ofNat 1, Frac.ofNat 2, Frac.ofNat 3, Frac.ofNat 2, Frac.ofNat 1]]

/-- One tap of the window of `Filter_Bartlett`: `sum[c] += d[c] * Box_mask[2 + i][2 + j]`
with an `int` sum and a `double` mask, so the sum is converted to `double`,
the product added, and the result truncated back to `int`. -/
def bartlettTap (img : TargaImage) (data : List Nat) (x y ii jj : Nat)
    (sum : Int × Int × Int) : Int × Int × Int :=
  let i : Int := (ii : Int) - 2
  let j : Int := (jj : Int) - 2
  if (y : Int) + i < 0 ∨ (y : Int) + i ≥ img.height then sum
  else if (x : Int) + j < 0 ∨ (x : Int) + j ≥ img.width then sum
  else
    let d := img.Get_RGBA_int ((x : Int) + j) ((y : Int) + i)
    let m := maskAt Bartlett_mask ii jj
    (Frac.trunc (dadd (Frac.ofInt sum.1) (dmul (Frac.ofNat (rdInt data (d + RED))) m)),
      Frac.trunc (dadd (Frac.ofInt sum.2.1) (dmul (Frac.ofNat (rdInt data (d + GREEN))) m)),
      Frac.trunc (dadd (Frac.ofInt sum.2.2) (dmul (Frac.ofNat (rdInt data (d + BLUE))) m)))

/-- One pixel step of `Filter_Bartlett`, in place: `nowD[c] = sum[c] / 81`. -/
def filterBartlettPixel (img : TargaImage) (x y : Nat) (data : List Nat) : List Nat :=
  let sum := forLoop 5 (fun ii sum =>
    forLoop 5 (fun jj sum => bartlettTap img data x y ii jj sum) sum) (0, 0, 0)
  let nowD := img.Get_RGBA x y
  let data := wrInt data (nowD + RED) (Int.tdiv sum.1 81)
  let data := wrInt data (nowD + GREEN) (Int.tdiv sum.2.1 81)
  let data := wrInt data (nowD + BLUE) (Int.tdiv sum.2.2 81)
  data

/-- The method `TargaImage::Filter_Bartlett` (it ends with `return false`). -/
def Filter_Bartlett (img : TargaImage) : Bool × TargaImage :=
  let data := forLoop img.height (fun y data =>
    forLoop img.width (fun x data => filterBartlettPixel img x y data) data) img.data
  (false, { img with data := data })

/-- The array `BartlletMask` of `Filter_Edge` and `Filter_Enhance`. -/
def BartlletMask : List (List Int) :=
  [[1, 4, 6, 4, 1], [4, 16, 24, 16, 4], [6, 24, 36, 24, 6], [4, 16, 24, 16, 4], [1, 4, 6, 4, 1]]

/-- The variable `BartlletSum` of `Filter_Edge` and `Filter_Enhance` after
the loops `BartlletSum += BartlletMask[i][j]`. -/
def BartlletSum : Int :=
  forLoop 5 (fun i s => forLoop 5 (fun j s => s + maskAtInt BartlletMask i j) s) 0

/-- The array `highPassMask` of `Filter_Edge` (`center = 1`) and of
`Filter_Enhance` (`center = 2`): `originMask` is zero but for
`originMask[2][2] = center`, and
`highPassMask[i][j] = BartlletSum * originMask[i][j] - BartlletMask[i][j]`. -/
def highPassMask (center : Int) : List (List Int) :=
  let originMask : List (List Int) := List.replicate 5 (List.replicate 5 0)
  let originMask := setAt2 originMask 2 2 center
  forLoop 5 (fun i hp =>
    forLoop 5 (fun j hp =>
      setAt2 hp i j (BartlletSum * maskAtInt originMask i j - maskAtInt BartlletMask i j)) hp)
    (List.replicate 5 (List.replicate 5 0))

/-- The statement `if (q > 255) p[c] = 255; else if (q < 0) p[c] = 0; else
p[c] = q;` for an `int` quotient `q`. -/
def clampStore (data : List Nat) (o : Nat) (q : Int) : List Nat :=
  if q > 255 then wr data o 255
  else if q < 0 then wr data o 0
  else wrInt data o q

/-- One pixel step of `Filter_Edge` and `Filter_Enhance`, in place: the
window sums with `highPassMask`, each divided by `BartlletSum` and stored
with the test against 255 and 0. -/
def filterHighPassPixel (img : TargaImage) (mask : List (List Int)) (x y : Nat)
    (data : List Nat) : List Nat :=
  let sum := windowSum img mask 2 data x y
  let nowD := img.Get_RGBA x y
  let data := clampStore data (nowD + RED) (Int.tdiv sum.1 BartlletSum)
  let data := clampStore data (nowD + GREEN) (Int.tdiv sum.2.1 BartlletSum)
  let data := clampStore data (nowD + BLUE) (Int.tdiv sum.2.2 BartlletSum)
  data

/-- The method `TargaImage::Filter_Edge`: three passes (`turn`) over the
image, each in place. -/
def Filter_Edge (img : TargaImage) : Bool × TargaImage :=
  let data := forLoop 3 (fun _ data =>
    forLoop img.height (fun y data =>
      forLoop img.width (fun x data => filterHighPassPixel img (highPassMask 1) x y data) data)
      data) img.data
  (true, { img with data := data })

/-- The method `TargaImage::Filter_Enhance` (one pass; it ends with
`return false`). -/
def Filter_Enhance (img : TargaImage) : Bool × TargaImage :=
  let data := forLoop img.height (fun y data =>
    forLoop img.width (fun x data => filterHighPassPixel img (highPassMask 2) x y data) data)
    img.data
  (false, { img with data := data })

/-- One step of the first loop of `Dither_Bright`: `tSort.push_back(t / 256);
tSum += (t / (double)256.0);`. The state is `(tSort, tSum)`. -/
def ditherBrightCollect (img : TargaImage) (data : List Nat) (j i : Nat)
    (s : List Frac × Frac) : List Frac × Frac :=
  let d := img.Get_RGBA j i
  let t := luma (rd data (d + RED)) (rd data (d + GREEN)) (rd data (d + BLUE))
  (s.1 ++ [ddiv t (Frac.ofNat 256)], dadd s.2 (ddiv t (Frac.ofNat 256)))

/-- The vector `tSort` and the sum `tSum` of `Dither_Bright` after its first
loop. -/
def ditherBrightStats (img : TargaImage) : List Frac × Frac :=
  forLoop img.height (fun i s =>
    forLoop img.width (fun j s => ditherBrightCollect img img.data j i s) s) ([], Frac.ofNat 0)

/-- The index `th` of `Dither_Bright`:
`tArv = tSum / (double)(height * width); int th = (1 - tArv) * height * width;`. -/
def ditherBrightIndex (img : TargaImage) : Int :=
  let tArv := ddiv (ditherBrightStats img).2
    (Frac.ofInt (wrapInt32 ((img.height : Int) * (img.width : Int))))
  Frac.trunc (dmul (dmul (dsub (Frac.ofNat 1) tArv) (Frac.ofNat img.height))
    (Frac.ofNat img.width))

/-- The value `threshold = tSort[th]` of `Dither_Bright` after
`sort(tSort.begin(), tSort.end())`; outside the vector the C read is
undefined and the model yields 0. -/
def ditherBrightThreshold (img : TargaImage) : Frac :=
  let tSort := (ditherBrightStats img).1.insertionSort (fun a b => Frac.le a b = true)
  let th := ditherBrightIndex img
  if th < 0 then ⟨0, 1⟩ else tSort.getD th.toNat ⟨0, 1⟩

/-- One pixel step of the second loop of `Dither_Bright`. -/
def ditherBrightPixel (img : TargaImage) (threshold : Frac) (j i : Nat) (data : List Nat) :
    List Nat :=
  let d := img.Get_RGBA j i
  let t := luma (rd data (d + RED)) (rd data (d + GREEN)) (rd data (d + BLUE))
  if Frac.ge (ddiv t (Frac.ofNat 256)) threshold then
    let data := wr data (d + RED) 255
    let data := wr data (d + GREEN) 255
    let data := wr data (d + BLUE) 255
    data
  else
    let data := wr data (d + RED) 0
    let data := wr data (d + GREEN) 0
    let data := wr data (d + BLUE) 0
    data

/-- The method `TargaImage::Dither_Bright`. -/
def Dither_Bright (img : TargaImage) : Bool × TargaImage :=
  let threshold := ditherBrightThreshold img
  let data := forLoop img.height (fun i data =>
    forLoop img.width (fun j data => ditherBrightPixel img threshold j i data) data) img.data
  (true, { img with data := data })

/-- The method `TargaImage::Boundry_Check`. -/
def Boundry_Check (img : TargaImage) (x y : Int) : Bool :=
  let varify := true
  let varify := if x < 0 ∨ x ≥ img.width then false else varify
  let varify := if y < 0 ∨ y ≥ img.height then false else varify
  varify

/-- The array `FS_Dir` of the rows scanned from left to right. -/
def FS_Dir_even : List (Int × Int) := [(1, 1), (-1, 1), (0, 1), (1, 0)]

/-- The array `FS_Dir` of the rows scanned from right to left. -/
def FS_Dir_odd : List (Int × Int) := [(-1, 1), (1, 1), (0, 1), (-1, 0)]

/-- The update of one channel of a neighbour in `Dither_FS`, `v` being the
`double` value `be_Add_D[c] + (err * (double)(now_Dir * 2 + 1) / 16.0f)`. -/
def fsStore (data : List Nat) (o : Int) (v : Frac) : List Nat :=
  if Frac.lt (Frac.ofNat 255) v then wrI data o 255
  else if Frac.lt v (Frac.ofNat 0) then wrI data o 0
  else wrI data o (toUChar v)

/-- One round of the loop over `now_Dir` in `Dither_FS`. -/
def fsSpread (img : TargaImage) (FS_Dir : List (Int × Int)) (x y : Nat) (err : Frac)
    (now_Dir : Nat) (data : List Nat) : List Nat :=
  let nx : Int := (x : Int) + (FS_Dir.getD now_Dir (0, 0)).1
  let ny : Int := (y : Int) + (FS_Dir.getD now_Dir (0, 0)).2
  if Boundry_Check img nx ny then
    let be_Add_D := img.Get_RGBA_int nx ny
    let share := ddiv (dmul err (Frac.ofNat (now_Dir * 2 + 1))) (Frac.ofNat 16)
    let data := fsStore data (be_Add_D + RED)
      (dadd (Frac.ofNat (rdInt data (be_Add_D + RED))) share)
    let data := fsStore data (be_Add_D + GREEN)
      (dadd (Frac.ofNat (rdInt data (be_Add_D + GREEN))) share)
    let data := fsStore data (be_Add_D + BLUE)
      (dadd (Frac.ofNat (rdInt data (be_Add_D + BLUE))) share)
    data
  else data

/-- One pixel step of `Dither_FS`: the pixel is set to white or black by the
test `t / 256.0f >= 0.5` on its red byte and the error is spread. -/
def ditherFSPixel (img : TargaImage) (FS_Dir : List (Int × Int)) (x y : Nat)
    (data : List Nat) : List Nat :=
  let d := img.Get_RGBA x y
  let t := Frac.ofNat (rd data (d + RED))
  let err := t
  let s : List Nat × Frac :=
    if Frac.ge (ddiv t (Frac.ofNat 256)) (dlit 5 10) then
      let data := wr data (d + RED) 255
      let data := wr data (d + GREEN) 255
      let data := wr data (d + BLUE) 255
      (data, dsub err (Frac.ofNat 255))
    else
      let data := wr data (d + RED) 0
      let data := wr data (d + GREEN) 0
      let data := wr data (d + BLUE) 0
      (data, err)
  forLoop 4 (fun now_Dir data => fsSpread img FS_Dir x y s.2 now_Dir data) s.1

/-- One row of `Dither_FS`: from left to right when `y` is even, from right
to left (`for (int x = width - 1; x >= 0; x--)`) when `y` is odd. -/
def ditherFSRow (img : TargaImage) (y : Nat) (data : List Nat) : List Nat :=
  if y % 2 = 0 then
    forLoop img.width (fun x data => ditherFSPixel img FS_Dir_even x y data) data
  else
    forLoop img.width (fun k data =>
      ditherFSPixel img FS_Dir_odd (img.width - 1 - k) y data) data

/-- The method `TargaImage::Dither_FS`: `To_Grayscale()` first (its result is
not looked at), then the serpentine scan. -/
def Dither_FS (img : TargaImage) : Bool × TargaImage :=
  let data := (To_Grayscale img).2.data
  let data := forLoop img.height (fun y data => ditherFSRow img y data) data
  (true, { img with data := data })

/-- The update of one channel of a neighbour in `Dither_Color`, `v` being the
`float` value `Be_Add_D[c] + err[c] * (dir * 2 + 1) / 16.0f`. -/
def colorStore (data : List Nat) (o : Int) (v : Frac) : List Nat :=
  if Frac.ge v (Frac.ofNat 255) then wrI data o 255
  else if Frac.lt v (Frac.ofNat 0) then wrI data o 0
  else wrI data o (toUChar v)

/-- One round of the loop over `dir` in `Dither_Color`; `err` holds the
three bytes of the array `err`. -/
def colorSpread (img : TargaImage) (FS_Dir : List (Int × Int)) (x y : Nat)
    (err : Nat × Nat × Nat) (dir : Nat) (data : List Nat) : List Nat :=
  let nx : Int := (x : Int) + (FS_Dir.getD dir (0, 0)).1
  let ny : Int := (y : Int) + (FS_Dir.getD dir (0, 0)).2
  if Boundry_Check img nx ny then
    let Be_Add_D := img.Get_RGBA_int nx ny
    let data := colorStore data (Be_Add_D + RED)
      (fadd (Frac.ofNat (rdInt data (Be_Add_D + RED)))
        (fdiv (Frac.ofNat (err.1 * (dir * 2 + 1))) (Frac.ofNat 16)))
    let data := colorStore data (Be_Add_D + GREEN)
      (fadd (Frac.ofNat (rdInt data (Be_Add_D + GREEN)))
        (fdiv (Frac.ofNat (err.2.1 * (dir * 2 + 1))) (Frac.ofNat 16)))
    let data := colorStore data (Be_Add_D + BLUE)
      (fadd (Frac.ofNat (rdInt data (Be_Add_D + BLUE)))
        (fdiv (Frac.ofNat (err.2.2 * (dir * 2 + 1))) (Frac.ofNat 16)))
    data
  else data

/-- One pixel step of `Dither_Color`: the six shift assignments of
`Quant_Uniform` on the pixel, `err[i] = abs(d[i] - old[i])` kept in an
`unsigned char`, and the spreading of `err`. -/
def ditherColorPixel (img : TargaImage) (FS_Dir : List (Int × Int)) (x y : Nat)
    (data : List Nat) : List Nat :=
  let d := img.Get_RGBA x y
  let old : Nat × Nat × Nat := (rd data (d + RED), rd data (d + GREEN), rd data (d + BLUE))
  let data := quantUniformPixel img x y data
  let err : Nat × Nat × Nat :=
    (((rd data (d + RED) : Int) - old.1).natAbs % 256,
      ((rd data (d + GREEN) : Int) - old.2.1).natAbs % 256,
      ((rd data (d + BLUE) : Int) - old.2.2).natAbs % 256)
  forLoop 4 (fun dir data => colorSpread img FS_Dir x y err dir data) data

/-- One row of `Dither_Color`, scanned as the rows of `Dither_FS`. -/
def ditherColorRow (img : TargaImage) (y : Nat) (data : List Nat) : List Nat :=
  if y % 2 = 0 then
    forLoop img.width (fun x data => ditherColorPixel img FS_Dir_even x y data) data
  else
    forLoop img.width (fun k data =>
      ditherColorPixel img FS_Dir_odd (img.width - 1 - k) y data) data

/-- The method `TargaImage::Dither_Color`. -/
def Dither_Color (img : TargaImage) : Bool × TargaImage :=
  let data := forLoop img.height (fun y data => ditherColorRow img y data) img.data
  (true, { img with data := data })

/-- The pixel at column `px`, row `py` of a buffer holds a colour of the
palette of `Quant_Uniform`: R and G are multiples of 32, B is a multiple of 64. -/
def onUniformPalette (img : TargaImage) (D : List Nat) (px py : Nat) : Prop :=
  rd D (img.Get_RGBA px py + 0) % 32 = 0 ∧ rd D (img.Get_RGBA px py + 1) % 32 = 0 ∧
    rd D (img.Get_RGBA px py + 2) % 64 = 0

/-- The state of the buffer of `Dither_Color` while the scan runs: it keeps
its size, holds bytes, every alpha cell is that of the image `img`, and every
pixel of the set `V` (the pixels visited so far) is on the palette. -/
def ditherColorInv (img : TargaImage) (V : Nat → Nat → Prop) (D : List Nat) : Prop :=
  D.length = img.width * img.height * 4 ∧ (∀ b ∈ D, b < 256) ∧
  (∀ px py, px < img.width → py < img.height →
    rd D (img.Get_RGBA px py + 3) = img.chan px py 3) ∧
  (∀ px py, px < img.width → py < img.height → V px py → img.onUniformPalette D px py)

/-- The serpentine order of the Floyd-Steinberg reference: rows from top to
bottom, even rows from left to right and odd rows from right to left. -/
def fsRefOrder (w h : Nat) : List (Nat × Nat) :=
  ((List.range h).map (fun y =>
    if y % 2 = 0 then (List.range w).map (fun x => (x, y))
    else (List.range w).reverse.map (fun x => (x, y)))).flatten

/-- The share, in sixteenths of the error, that the pixel `(px, py)` receives
in the Floyd-Steinberg reference when the pixel `(x, y)` is visited: on an
even row 7 for `(x + 1, y)`, 5 for `(x, y + 1)`, 3 for `(x - 1, y + 1)` and 1
for `(x + 1, y + 1)`; on an odd row the x offsets are negated; 0 elsewhere. -/
def fsRefWeight (x y px py : Nat) : Nat :=
  if y % 2 = 0 then
    if px = x + 1 ∧ py = y then 7
    else if px = x ∧ py = y + 1 then 5
    else if px + 1 = x ∧ py = y + 1 then 3
    else if px = x + 1 ∧ py = y + 1 then 1
    else 0
  else
    if px + 1 = x ∧ py = y then 7
    else if px = x ∧ py = y + 1 then 5
    else if px = x + 1 ∧ py = y + 1 then 3
    else if px + 1 = x ∧ py = y + 1 then 1
    else 0

/-- The new value of a neighbour channel in the Floyd-Steinberg reference:
the truncation of `old + err * wgt / 16`, clamped to `[0, 255]`. -/
def fsRefAdd (old : Nat) (err : Int) (wgt : Nat) : Nat :=
  (max 0 (min 255 (Int.tdiv (16 * (old : Int) + err * (wgt : Int)) 16))).toNat

/-- The visit of the pixel `(x, y)` in the Floyd-Steinberg reference, cell by
cell of the buffer: the pixel visited becomes 255 if its current red value is
at least 128 and 0 otherwise, `err` is the current value minus the output,
every pixel of the raster with a share receives it in its three colour
channels, and all other cells, the alpha cells among them, are kept. -/
def fsRefVisit (img : TargaImage) (x y : Nat) (D : List Nat) : List Nat :=
  let cur := rd D (img.Get_RGBA x y + RED)
  let out : Nat := if 128 ≤ cur then 255 else 0
  let err : Int := (cur : Int) - (out : Int)
  (List.range D.length).map (fun k =>
    let px := k / 4 % img.width
    let py := k / 4 / img.width
    if k % 4 = 3 then rd D k
    else if px = x ∧ py = y then out
    else if fsRefWeight x y px py = 0 then rd D k
    else fsRefAdd (rd D k) err (fsRefWeight x y px py))

/-- The serpentine Floyd-Steinberg reference applied to the grayscale image:
the pixels of the result of `To_Grayscale` are visited in serpentine order. -/
def Dither_FS_reference (img : TargaImage) : TargaImage :=
  let data := (fsRefOrder img.width img.height).foldl
    (fun D p => fsRefVisit img p.1 p.2 D) (To_Grayscale img).2.data
  { img with data := data }

end TargaImage

/-- The entries of the threshold matrix of `Dither_Cluster` as decimal
numbers, in ten-thousandths (`0.7059` is 7059). -/
def clusterMaskDec : List (List Nat) :=
  [[7059, 3529, 5882, 2353], [588, 9412, 8235, 4118], [4706, 7647, 8824, 1176],
   [1765, 5294, 2941, 6471]]

/-- The entry of `clusterMaskDec` in row `r`, column `c`. -/
def clusterDecAt (r c : Nat) : Nat := (clusterMaskDec.getD r []).getD c 0

/-! ### Sample coordinates and scan order -/

namespace TargaImage

/-- The column `x + j + correction[0]` that the blur of `Half_Size` reads at
pixel column `x` for the offset `j = jj - 1`: `correction[0] = -2 * j` when
`x + j < 0 || x + j >= width`, and 0 otherwise. -/
def halfSizeSampleX (img : TargaImage) (x jj : Nat) : Int :=
  let j : Int := (jj : Int) - 1
  let correction0 : Int :=
    if (x : Int) + j < 0 ∨ (x : Int) + j ≥ img.width then -2 * j else 0
  (x : Int) + j + correction0

/-- The row `y + i + correction[1]` that the blur of `Half_Size` reads at
pixel row `y` for the offset `i = ii - 1`: `correction[1] = -2 * i` when
`y + i < 0 || y + i >= height`, and 0 otherwise. -/
def halfSizeSampleY (img : TargaImage) (y ii : Nat) : Int :=
  let i : Int := (ii : Int) - 1
  let correction1 : Int :=
    if (y : Int) + i < 0 ∨ (y : Int) + i ≥ img.height then -2 * i else 0
  (y : Int) + i + correction1

/-- The pixel `(px, py)` is visited before the pixel `(x, y)` in the scan of
`Dither_FS`: it lies in a row above, or in the same row on the side the scan
of that row comes from (left in an even row, right in an odd row). -/
def fsVisitedBefore (x y px py : Nat) : Prop :=
  py < y ∨ (py = y ∧ if y % 2 = 0 then px < x else x < px)

/-- The state of the buffer of `Dither_FS` while the scan runs: it keeps its
size, holds bytes, every alpha cell is that of the image `img`, and every
pixel of the set `V` (the pixels visited so far) has equal colour channels
that are 0 or 255. -/
def ditherFSInv (img : TargaImage) (V : Nat → Nat → Prop) (D : List Nat) : Prop :=
  D.length = img.width * img.height * 4 ∧ (∀ b ∈ D, b < 256) ∧
  (∀ px py, px < img.width → py < img.height →
    rd D (img.Get_RGBA px py + 3) = img.chan px py 3) ∧
  (∀ px py, px < img.width → py < img.height → V px py →
    rd D (img.Get_RGBA px py + 0) = rd D (img.Get_RGBA px py + 1) ∧
    rd D (img.Get_RGBA px py + 1) = rd D (img.Get_RGBA px py + 2) ∧
    (rd D (img.Get_RGBA px py + 0) = 0 ∨ rd D (img.Get_RGBA px py + 0) = 255))

end TargaImage

/-! ## Loops and buffers -/

theorem forLoop_succ {σ : Type} (n : Nat) (body : Nat → σ → σ) (s : σ) :
    forLoop (n + 1) body s = body n (forLoop n body s) := rfl

theorem forLoop_congr {σ : Type} (n : Nat) (f g : Nat → σ → σ) (s : σ)
    (h : ∀ k, k < n → ∀ t, f k t = g k t) : forLoop n f s = forLoop n g s := by
  induction n with
  | zero => rfl
  | succ n ih =>
    rw [forLoop_succ, forLoop_succ, ih (fun k hk t => h k (Nat.lt_succ_of_lt hk) t),
      h n (Nat.lt_succ_self n)]

theorem forLoop_add {σ : Type} (a b : Nat) (f : Nat → σ → σ) (s : σ) :
    forLoop (a + b) f s = forLoop b (fun k t => f (a + k) t) (forLoop a f s) := by
  induction b with
  | zero => rfl
  | succ b ih => rw [← Nat.add_assoc, forLoop_succ, forLoop_succ, ih]

/-- A row-major nest of two loops is one loop over the pixel index `p = i * w + j`. -/
theorem forLoop_nest {σ : Type} (w h : Nat) (body : Nat → Nat → σ → σ) (s : σ) :
    forLoop h (fun i t => forLoop w (fun j u => body j i u) t) s
      = forLoop (h * w) (fun p t => body (p % w) (p / w) t) s := by
  induction h with
  | zero => simp [forLoop]
  | succ h ih =>
    rw [forLoop_succ, ih, Nat.succ_mul, forLoop_add]
    apply forLoop_congr
    intro k hk t
    have hw : 0 < w := Nat.lt_of_le_of_lt (Nat.zero_le k) hk
    have h1 : (h * w + k) % w = k := by
      rw [Nat.add_comm, Nat.add_mul_mod_self_right, Nat.mod_eq_of_lt hk]
    have h2 : (h * w + k) / w = h := by
      rw [Nat.add_comm, Nat.add_mul_div_right _ _ hw, Nat.div_eq_of_lt hk, Nat.zero_add]
    rw [h1, h2]

theorem wr_length (D : List Nat) (i v : Nat) : (wr D i v).length = D.length := by
  simp [wr]

theorem rd_wr (D : List Nat) (i j v : Nat) :
    rd (wr D i v) j = if i = j ∧ i < D.length then v % 256 else rd D j := by
  unfold rd wr
  rw [List.getD_eq_getElem?_getD, List.getD_eq_getElem?_getD, List.getElem?_set]
  by_cases hij : i = j
  · subst hij
    by_cases hl : i < D.length
    · simp [hl]
    · simp [hl, List.getElem?_eq_none (Nat.le_of_not_lt hl)]
  · simp [hij]

theorem rd_lt_of_forall (D : List Nat) (h : ∀ b ∈ D, b < 256) (i : Nat) : rd D i < 256 := by
  unfold rd
  rw [List.getD_eq_getElem?_getD]
  by_cases hl : i < D.length
  · rw [List.getElem?_eq_getElem hl]
    exact h _ (List.getElem_mem hl)
  · rw [List.getElem?_eq_none (Nat.le_of_not_lt hl)]
    decide

theorem list_ext_rd (D E : List Nat) (hlen : D.length = E.length)
    (h : ∀ k, k < D.length → rd D k = rd E k) : D = E := by
  apply List.ext_getElem hlen
  intro k h1 h2
  have := h k h1
  unfold rd at this
  rw [List.getD_eq_getElem?_getD, List.getD_eq_getElem?_getD,
    List.getElem?_eq_getElem h1, List.getElem?_eq_getElem h2] at this
  simpa using this

/-- A loop whose `p`-th iteration rewrites only the four cells of pixel `p`,
as a function `G` of those four cells, acts pixel by pixel. -/
theorem forLoop_pixelwise (n : Nat) (body : Nat → List Nat → List Nat)
    (G : Nat → Nat → Nat → Nat → Nat → Nat → Nat)
    (hbody : ∀ p D, p < n → 4 * p + 3 < D.length →
      (body p D).length = D.length ∧
      (∀ k, k / 4 ≠ p → rd (body p D) k = rd D k) ∧
      (∀ c, c < 4 → rd (body p D) (4 * p + c)
        = G p c (rd D (4 * p)) (rd D (4 * p + 1)) (rd D (4 * p + 2)) (rd D (4 * p + 3))))
    (D : List Nat) (hn : 4 * n ≤ D.length) :
    (forLoop n body D).length = D.length ∧
    (∀ k, 4 * n ≤ k → rd (forLoop n body D) k = rd D k) ∧
    (∀ p c, p < n → c < 4 → rd (forLoop n body D) (4 * p + c)
        = G p c (rd D (4 * p)) (rd D (4 * p + 1)) (rd D (4 * p + 2)) (rd D (4 * p + 3))) := by
  induction n with
  | zero =>
    refine ⟨rfl, fun _ _ => rfl, ?_⟩
    intro p c hp
    exact absurd hp (Nat.not_lt_zero p)
  | succ n ih =>
    have ih1 := ih (fun p E hp hE => hbody p E (Nat.lt_succ_of_lt hp) hE) (by omega)
    obtain ⟨ihl, ihk, ihp⟩ := ih1
    have hb := hbody n (forLoop n body D) (Nat.lt_succ_self n) (by omega)
    obtain ⟨hbl, hbk, hbp⟩ := hb
    rw [forLoop_succ]
    refine ⟨by rw [hbl, ihl], ?_, ?_⟩
    · intro k hk
      rw [hbk k (by omega), ihk k (by omega)]
    · intro p c hp hc
      by_cases hpn : p = n
      · subst hpn
        rw [hbp c hc, ihk (4 * p) (by omega), ihk (4 * p + 1) (by omega),
          ihk (4 * p + 2) (by omega), ihk (4 * p + 3) (by omega)]
      · rw [hbk (4 * p + c) (by omega), ihp p c (by omega) hc]

namespace TargaImage

theorem Get_RGBA_eq (img : TargaImage) (x y : Nat) :
    img.Get_RGBA x y = 4 * (y * img.width + x) := by
  unfold Get_RGBA; ring

/-- The row-major nest `for i < height, for j < width` around a body that
rewrites only the pixel at `Get_RGBA(j, i)` acts pixel by pixel. -/
theorem pixelLoop_spec (img : TargaImage) (body : Nat → Nat → List Nat → List Nat)
    (G : Nat → Nat → Nat → Nat → Nat → Nat → Nat → Nat)
    (hbody : ∀ x y D, x < img.width → y < img.height → img.Get_RGBA x y + 3 < D.length →
      (body x y D).length = D.length ∧
      (∀ k, k / 4 ≠ y * img.width + x → rd (body x y D) k = rd D k) ∧
      (∀ c, c < 4 → rd (body x y D) (img.Get_RGBA x y + c)
        = G x y c (rd D (img.Get_RGBA x y)) (rd D (img.Get_RGBA x y + 1))
            (rd D (img.Get_RGBA x y + 2)) (rd D (img.Get_RGBA x y + 3))))
    (hlen : img.data.length = img.width * img.height * 4) :
    (forLoop img.height (fun i d => forLoop img.width (fun j e => body j i e) d)
        img.data).length = img.data.length ∧
    ∀ x y c, x < img.width → y < img.height → c < 4 →
      rd (forLoop img.height (fun i d => forLoop img.width (fun j e => body j i e) d) img.data)
          (img.Get_RGBA x y + c)
        = G x y c (img.chan x y 0) (img.chan x y 1) (img.chan x y 2) (img.chan x y 3) := by
  rw [forLoop_nest]
  have hdiv : ∀ p, p < img.height * img.width → p % img.width < img.width ∧ p / img.width < img.height := by
    intro p hp
    have hw : 0 < img.width := by
      rcases Nat.eq_zero_or_pos img.width with h0 | h0
      · rw [h0] at hp; simp at hp
      · exact h0
    exact ⟨Nat.mod_lt _ hw, (Nat.div_lt_iff_lt_mul hw).2 hp⟩
  have hoff : ∀ p, img.Get_RGBA (p % img.width) (p / img.width) = 4 * p := by
    intro p
    rw [Get_RGBA_eq, Nat.mul_comm (p / img.width), Nat.div_add_mod]
  have key := forLoop_pixelwise (img.height * img.width)
    (fun p t => body (p % img.width) (p / img.width) t)
    (fun p c r g b a => G (p % img.width) (p / img.width) c r g b a)
    (by
      intro p D hp hD
      have hb := hbody (p % img.width) (p / img.width) D (hdiv p hp).1 (hdiv p hp).2
        (by rw [hoff]; exact hD)
      rw [hoff] at hb
      have hpe : p / img.width * img.width + p % img.width = p := by
        rw [Nat.mul_comm]; exact Nat.div_add_mod p img.width
      rw [hpe] at hb
      exact hb)
    img.data (by rw [hlen]; nlinarith)
  obtain ⟨kl, _, kp⟩ := key
  refine ⟨kl, ?_⟩
  intro x y c hx hy hc
  have hp : y * img.width + x < img.height * img.width := by nlinarith
  have h := kp (y * img.width + x) c hp hc
  have hm : (y * img.width + x) % img.width = x := by
    rw [Nat.add_comm, Nat.add_mul_mod_self_right, Nat.mod_eq_of_lt hx]
  have hd : (y * img.width + x) / img.width = y := by
    rw [Nat.add_comm, Nat.add_mul_div_right _ _ (Nat.lt_of_le_of_lt (Nat.zero_le x) hx),
      Nat.div_eq_of_lt hx, Nat.zero_add]
  beta_reduce at h
  rw [hm, hd] at h
  unfold chan
  rw [Get_RGBA_eq]
  exact h

/-- Two buffers of a `width × height` raster that agree on every channel of
every pixel are equal. -/
theorem data_ext (img : TargaImage) (D E : List Nat)
    (hD : D.length = img.width * img.height * 4) (hE : E.length = img.width * img.height * 4)
    (h : ∀ x y c, x < img.width → y < img.height → c < 4 →
      rd D (img.Get_RGBA x y + c) = rd E (img.Get_RGBA x y + c)) : D = E := by
  apply list_ext_rd D E (by rw [hD, hE])
  intro k hk
  rw [hD] at hk
  have hw : 0 < img.width := by
    rcases Nat.eq_zero_or_pos img.width with h0 | h0
    · rw [h0] at hk; simp at hk
    · exact h0
  have hp : k / 4 < img.height * img.width := by
    rw [Nat.div_lt_iff_lt_mul (by decide)]; nlinarith
  have hx : (k / 4) % img.width < img.width := Nat.mod_lt _ hw
  have hy : (k / 4) / img.width < img.height := (Nat.div_lt_iff_lt_mul hw).2 hp
  have hc : k % 4 < 4 := Nat.mod_lt _ (by decide)
  have := h ((k / 4) % img.width) ((k / 4) / img.width) (k % 4) hx hy hc
  rw [Get_RGBA_eq, Nat.mul_comm (k / 4 / img.width), Nat.div_add_mod, Nat.div_add_mod] at this
  exact this

end TargaImage

/-! ## Quant_Uniform -/

namespace TargaImage

theorem shift_clear (v k : Nat) (hv : v < 256) :
    (((v >>> k) % 256) <<< k) % 256 = v - v % 2 ^ k := by
  have hle : v / 2 ^ k ≤ v := Nat.div_le_self v (2 ^ k)
  have h2 : v / 2 ^ k * 2 ^ k = v - v % 2 ^ k := by
    have := Nat.div_add_mod v (2 ^ k)
    have hc : 2 ^ k * (v / 2 ^ k) = v / 2 ^ k * 2 ^ k := Nat.mul_comm _ _
    omega
  rw [Nat.shiftRight_eq_div_pow, Nat.mod_eq_of_lt (Nat.lt_of_le_of_lt hle hv), Nat.shiftLeft_eq, h2]
  exact Nat.mod_eq_of_lt (by omega)

/-- Effect of one pixel step of `Quant_Uniform` on the buffer. -/
theorem quantUniformPixel_spec (img : TargaImage) (x y : Nat) (D : List Nat)
    (hD : img.Get_RGBA x y + 3 < D.length) :
    (quantUniformPixel img x y D).length = D.length ∧
    (∀ k, k / 4 ≠ y * img.width + x → rd (quantUniformPixel img x y D) k = rd D k) ∧
    (∀ c, c < 4 → rd (quantUniformPixel img x y D) (img.Get_RGBA x y + c)
      = (fun (_ _ c r g b a : Nat) =>
          if c = 0 then (((r >>> 5) % 256) <<< 5) % 256
          else if c = 1 then (((g >>> 5) % 256) <<< 5) % 256
          else if c = 2 then (((b >>> 6) % 256) <<< 6) % 256 else a) x y c
          (rd D (img.Get_RGBA x y)) (rd D (img.Get_RGBA x y + 1))
          (rd D (img.Get_RGBA x y + 2)) (rd D (img.Get_RGBA x y + 3))) := by
  have he := img.Get_RGBA_eq x y
  refine ⟨by simp [quantUniformPixel, wr_length], ?_, ?_⟩
  · intro k hk
    have h0 : ¬ (img.Get_RGBA x y = k) := by omega
    have h1 : ¬ (img.Get_RGBA x y + 1 = k) := by omega
    have h2 : ¬ (img.Get_RGBA x y + 2 = k) := by omega
    simp [quantUniformPixel, rd_wr, RED, GREEN, BLUE, h0, h1, h2]
  · intro c hc
    have h0 : img.Get_RGBA x y < D.length := by omega
    have h1 : img.Get_RGBA x y + 1 < D.length := by omega
    have h2 : img.Get_RGBA x y + 2 < D.length := by omega
    interval_cases c <;>
      simp [quantUniformPixel, rd_wr, wr_length, RED, GREEN, BLUE, h0, h1, h2]

/-- C1. For every well-formed image and every pixel, `Quant_Uniform` replaces
R by `R - R mod 32`, G by `G - G mod 32` and B by `B - B mod 64` (the low 5
bits of R and G and the low 6 bits of B are cleared) and leaves alpha, width
and height unchanged. -/
theorem Quant_Uniform_pixel (img : TargaImage) (hwf : img.WF) (x y : Nat)
    (hx : x < img.width) (hy : y < img.height) :
    (Quant_Uniform img).2.width = img.width ∧
    (Quant_Uniform img).2.height = img.height ∧
    (Quant_Uniform img).2.chan x y 0 = img.chan x y 0 - img.chan x y 0 % 32 ∧
    (Quant_Uniform img).2.chan x y 1 = img.chan x y 1 - img.chan x y 1 % 32 ∧
    (Quant_Uniform img).2.chan x y 2 = img.chan x y 2 - img.chan x y 2 % 64 ∧
    (Quant_Uniform img).2.chan x y 3 = img.chan x y 3 := by
  obtain ⟨hlen, hbytes⟩ := hwf
  have key := (pixelLoop_spec img (quantUniformPixel img)
    (fun (_ _ c r g b a : Nat) =>
      if c = 0 then (((r >>> 5) % 256) <<< 5) % 256
      else if c = 1 then (((g >>> 5) % 256) <<< 5) % 256
      else if c = 2 then (((b >>> 6) % 256) <<< 6) % 256 else a)
    (fun x y D _ _ hD => quantUniformPixel_spec img x y D hD) hlen).2 x y
  have hb : ∀ c, img.chan x y c < 256 := fun c => rd_lt_of_forall _ hbytes _
  refine ⟨rfl, rfl, ?_, ?_, ?_, ?_⟩
  · have := key 0 hx hy (by decide)
    simp only [if_pos] at this
    rw [shift_clear _ 5 (hb 0)] at this
    exact this
  · have := key 1 hx hy (by decide)
    simp at this
    rw [shift_clear _ 5 (hb 1)] at this
    exact this
  · have := key 2 hx hy (by decide)
    simp at this
    rw [shift_clear _ 6 (hb 2)] at this
    exact this
  · have := key 3 hx hy (by decide)
    simp at this
    exact this

end TargaImage

theorem forLoop_inv {σ : Type} (P : σ → Prop) (n : Nat) (body : Nat → σ → σ) (s : σ)
    (hbody : ∀ i t, i < n → P t → P (body i t)) (hs : P s) : P (forLoop n body s) := by
  induction n with
  | zero => exact hs
  | succ n ih =>
    rw [forLoop_succ]
    exact hbody n _ (Nat.lt_succ_self n) (ih (fun i t hi => hbody i t (Nat.lt_succ_of_lt hi)))

theorem wr_bytes (D : List Nat) (i v : Nat) (h : ∀ b ∈ D, b < 256) :
    ∀ b ∈ wr D i v, b < 256 := by
  intro b hb
  unfold wr at hb
  rcases List.mem_or_eq_of_mem_set hb with h1 | h1
  · exact h b h1
  · rw [h1]; exact Nat.mod_lt _ (by decide)

namespace TargaImage

theorem mk_eq_of_data (a b : TargaImage) (hw : a.width = b.width) (hh : a.height = b.height)
    (hd : a.data = b.data) : a = b := by
  cases a; cases b; simp_all

theorem Quant_Uniform_WF (img : TargaImage) (hwf : img.WF) : (Quant_Uniform img).2.WF := by
  obtain ⟨hlen, hbytes⟩ := hwf
  refine ⟨?_, ?_⟩
  · have := (pixelLoop_spec img (quantUniformPixel img)
      (fun (_ _ c r g b a : Nat) =>
        if c = 0 then (((r >>> 5) % 256) <<< 5) % 256
        else if c = 1 then (((g >>> 5) % 256) <<< 5) % 256
        else if c = 2 then (((b >>> 6) % 256) <<< 6) % 256 else a)
      (fun x y D _ _ hD => quantUniformPixel_spec img x y D hD) hlen).1
    show (forLoop img.height _ img.data).length = img.width * img.height * 4
    rw [← hlen]
    exact this
  · show ∀ b ∈ forLoop img.height _ img.data, b < 256
    apply forLoop_inv (fun D => ∀ b ∈ D, b < 256)
    · intro i D _ hD
      apply forLoop_inv (fun D => ∀ b ∈ D, b < 256)
      · intro j E _ hE
        unfold quantUniformPixel
        exact wr_bytes _ _ _ (wr_bytes _ _ _ (wr_bytes _ _ _ (wr_bytes _ _ _
          (wr_bytes _ _ _ (wr_bytes _ _ _ hE)))))
      · exact hD
    · exact hbytes

/-- C2. `Quant_Uniform` is idempotent: on every well-formed image, applying
it twice leaves exactly the image that applying it once leaves. -/
theorem Quant_Uniform_idempotent (img : TargaImage) (hwf : img.WF) :
    (Quant_Uniform (Quant_Uniform img).2).2 = (Quant_Uniform img).2 := by
  have hwf1 := Quant_Uniform_WF img hwf
  have hwf2 := Quant_Uniform_WF _ hwf1
  refine mk_eq_of_data (Quant_Uniform (Quant_Uniform img).2).2 (Quant_Uniform img).2 rfl rfl ?_
  apply data_ext img _ _ hwf2.1 hwf1.1
  intro x y c hx hy hc
  have h1 := Quant_Uniform_pixel img hwf x y hx hy
  have h2 := Quant_Uniform_pixel (Quant_Uniform img).2 hwf1 x y hx hy
  obtain ⟨_, _, a0, a1, a2, a3⟩ := h1
  obtain ⟨_, _, b0, b1, b2, b3⟩ := h2
  have e : ∀ c, rd (Quant_Uniform (Quant_Uniform img).2).2.data (img.Get_RGBA x y + c)
      = (Quant_Uniform (Quant_Uniform img).2).2.chan x y c := fun _ => rfl
  have e1 : ∀ c, rd (Quant_Uniform img).2.data (img.Get_RGBA x y + c)
      = (Quant_Uniform img).2.chan x y c := fun _ => rfl
  rw [e, e1]
  interval_cases c
  · rw [b0, a0]; omega
  · rw [b1, a1]; omega
  · rw [b2, a2]; omega
  · rw [b3]

/-- Witness for C1. -/
theorem Quant_Uniform_pixel_witness :
    (Quant_Uniform ⟨1, 1, [255, 100, 200, 77]⟩).2.chan 0 0 0 = 224 ∧
    (Quant_Uniform ⟨1, 1, [255, 100, 200, 77]⟩).2.chan 0 0 1 = 96 ∧
    (Quant_Uniform ⟨1, 1, [255, 100, 200, 77]⟩).2.chan 0 0 2 = 192 ∧
    (Quant_Uniform ⟨1, 1, [255, 100, 200, 77]⟩).2.chan 0 0 3 = 77 := by
  have h := Quant_Uniform_pixel ⟨1, 1, [255, 100, 200, 77]⟩ (by decide) 0 0 (by decide) (by decide)
  obtain ⟨_, _, h0, h1, h2, h3⟩ := h
  exact ⟨h0, h1, h2, h3⟩

/-- Witness for C2. -/
theorem Quant_Uniform_idempotent_witness :
    (Quant_Uniform (Quant_Uniform ⟨2, 1, [255, 100, 200, 77, 31, 32, 63, 0]⟩).2).2
      = (Quant_Uniform ⟨2, 1, [255, 100, 200, 77, 31, 32, 63, 0]⟩).2 :=
  Quant_Uniform_idempotent ⟨2, 1, [255, 100, 200, 77, 31, 32, 63, 0]⟩ (by decide)

end TargaImage

/-! ## Floating-point rounding -/

theorem log2Fuel_spec (f n : Nat) (hf : n ≤ f) (hn : n ≠ 0) :
    2 ^ log2Fuel f n ≤ n ∧ n < 2 ^ (log2Fuel f n + 1) := by
  induction f generalizing n with
  | zero => omega
  | succ f ih =>
    unfold log2Fuel
    by_cases h2 : n < 2
    · rw [if_pos h2]
      constructor <;> simp <;> omega
    · rw [if_neg h2]
      have := ih (n / 2) (by omega) (by omega)
      obtain ⟨h1, h3⟩ := this
      constructor
      · rw [pow_succ]; omega
      · rw [pow_succ]; omega

theorem nlog2_spec (n : Nat) (hn : n ≠ 0) : 2 ^ nlog2 n ≤ n ∧ n < 2 ^ (nlog2 n + 1) :=
  log2Fuel_spec n n (Nat.le_refl n) hn

theorem zpow_two_split (d : Int) :
    (2 : ℚ) ^ d = (2 : ℚ) ^ d.toNat / (2 : ℚ) ^ (-d).toNat := by
  rcases le_total 0 d with h | h
  · have h1 : (-d).toNat = 0 := by omega
    have h2 : ((d.toNat : ℕ) : ℤ) = d := Int.toNat_of_nonneg h
    rw [h1, pow_zero, div_one, ← zpow_natCast, h2]
  · have h1 : d.toNat = 0 := by omega
    have h2 : (((-d).toNat : ℕ) : ℤ) = -d := Int.toNat_of_nonneg (by omega)
    rw [h1, pow_zero, one_div, ← zpow_natCast, h2, zpow_neg, inv_inv]

theorem ilog2_spec (a b : Nat) (ha : 0 < a) (hb : 0 < b) :
    (2 : ℚ) ^ ilog2 a b ≤ (a : ℚ) / b ∧ (a : ℚ) / b < (2 : ℚ) ^ (ilog2 a b + 1) := by
  have hbq : (0 : ℚ) < b := by exact_mod_cast hb
  have haq : (0 : ℚ) < a := by exact_mod_cast ha
  obtain ⟨a1, a2⟩ := nlog2_spec a (by omega)
  obtain ⟨b1, b2⟩ := nlog2_spec b (by omega)
  have a1q : (2 : ℚ) ^ (nlog2 a : ℤ) ≤ a := by rw [zpow_natCast]; exact_mod_cast a1
  have a2q : (a : ℚ) < (2 : ℚ) ^ ((nlog2 a : ℤ) + 1) := by
    have : (a : ℚ) < (2 : ℚ) ^ (nlog2 a + 1) := by exact_mod_cast a2
    rw [← zpow_natCast] at this
    exact_mod_cast this
  have b1q : (2 : ℚ) ^ (nlog2 b : ℤ) ≤ b := by rw [zpow_natCast]; exact_mod_cast b1
  have b2q : (b : ℚ) < (2 : ℚ) ^ ((nlog2 b : ℤ) + 1) := by
    have : (b : ℚ) < (2 : ℚ) ^ (nlog2 b + 1) := by exact_mod_cast b2
    rw [← zpow_natCast] at this
    exact_mod_cast this
  have hpos : ∀ z : ℤ, (0 : ℚ) < (2 : ℚ) ^ z := fun z => zpow_pos (by norm_num) z
  unfold ilog2
  simp only
  set d : ℤ := (nlog2 a : ℤ) - (nlog2 b : ℤ) with hd
  have hcond : (b * 2 ^ d.toNat ≤ a * 2 ^ (-d).toNat) ↔ (2 : ℚ) ^ d ≤ (a : ℚ) / b := by
    rw [zpow_two_split d, le_div_iff₀ hbq, div_mul_eq_mul_div, div_le_iff₀ (pow_pos (by norm_num) _)]
    constructor
    · intro h
      have : ((b * 2 ^ d.toNat : ℕ) : ℚ) ≤ ((a * 2 ^ (-d).toNat : ℕ) : ℚ) := by exact_mod_cast h
      push_cast at this
      linarith
    · intro h
      have : ((b * 2 ^ d.toNat : ℕ) : ℚ) ≤ ((a * 2 ^ (-d).toNat : ℕ) : ℚ) := by
        push_cast; linarith
      exact_mod_cast this
  have hup : (a : ℚ) / b < (2 : ℚ) ^ (d + 1) := by
    rw [div_lt_iff₀ hbq]
    have e : (2 : ℚ) ^ (d + 1) = (2 : ℚ) ^ ((nlog2 a : ℤ) + 1) / (2 : ℚ) ^ (nlog2 b : ℤ) := by
      rw [← zpow_sub₀ (by norm_num)]; congr 1; omega
    rw [e, div_mul_eq_mul_div, lt_div_iff₀ (hpos _)]
    calc (a : ℚ) * 2 ^ (nlog2 b : ℤ) ≤ a * b := by gcongr
      _ < 2 ^ ((nlog2 a : ℤ) + 1) * b := by gcongr
  have hlo : (2 : ℚ) ^ (d - 1) ≤ (a : ℚ) / b := by
    rw [le_div_iff₀ hbq]
    have e : (2 : ℚ) ^ (d - 1) = (2 : ℚ) ^ (nlog2 a : ℤ) / (2 : ℚ) ^ ((nlog2 b : ℤ) + 1) := by
      rw [← zpow_sub₀ (by norm_num)]; congr 1; omega
    rw [e, div_mul_eq_mul_div, div_le_iff₀ (hpos _)]
    calc (2 : ℚ) ^ (nlog2 a : ℤ) * b ≤ a * b := by gcongr
      _ ≤ a * 2 ^ ((nlog2 b : ℤ) + 1) := by gcongr
  by_cases hc : b * 2 ^ d.toNat ≤ a * 2 ^ (-d).toNat
  · rw [if_pos hc]
    exact ⟨hcond.1 hc, hup⟩
  · rw [if_neg hc]
    refine ⟨hlo, ?_⟩
    have : ¬ (2 : ℚ) ^ d ≤ (a : ℚ) / b := fun h => hc (hcond.2 h)
    rw [sub_add_cancel]
    exact lt_of_not_le this

theorem roundHalfEven_spec (n d : Nat) (hd : 0 < d) :
    |((roundHalfEven n d : ℕ) : ℚ) - (n : ℚ) / d| ≤ 1 / 2 := by
  have hdq : (0 : ℚ) < d := by exact_mod_cast hd
  have hdiv : (n : ℚ) / d = (n / d : ℕ) + ((n % d : ℕ) : ℚ) / d := by
    have := Nat.div_add_mod n d
    have hq : (n : ℚ) = d * (n / d : ℕ) + (n % d : ℕ) := by exact_mod_cast this.symm
    field_simp
    linarith
  have hr : (n % d) < d := Nat.mod_lt n hd
  have hrq : ((n % d : ℕ) : ℚ) < d := by exact_mod_cast hr
  have hr0 : (0 : ℚ) ≤ ((n % d : ℕ) : ℚ) := by positivity
  rw [hdiv]
  unfold roundHalfEven
  simp only
  have hfrac : ∀ t : ℚ, ((n % d : ℕ) : ℚ) / d ≤ t ↔ ((n % d : ℕ) : ℚ) ≤ t * d := fun t => div_le_iff₀ hdq
  have hfrac2 : ∀ t : ℚ, t ≤ ((n % d : ℕ) : ℚ) / d ↔ t * d ≤ ((n % d : ℕ) : ℚ) := fun t => le_div_iff₀ hdq
  by_cases h1 : 2 * (n % d) < d
  · rw [if_pos h1]
    have h1q : 2 * ((n % d : ℕ) : ℚ) < d := by exact_mod_cast h1
    rw [abs_le]
    constructor
    · have := (hfrac (1 / 2)).2 (by linarith)
      linarith
    · have := (hfrac2 0).2 (by linarith)
      linarith
  · rw [if_neg h1]
    have h1q : (d : ℚ) ≤ 2 * ((n % d : ℕ) : ℚ) := by exact_mod_cast Nat.le_of_not_lt h1
    have hA : |((n / d + 1 : ℕ) : ℚ) - ((n / d : ℕ) + ((n % d : ℕ) : ℚ) / d)| ≤ 1 / 2 := by
      push_cast
      rw [abs_le]
      constructor
      · have := (hfrac 1).2 (by linarith)
        linarith
      · have := (hfrac2 (1 / 2)).2 (by linarith)
        linarith
    by_cases h2 : d < 2 * (n % d)
    · rw [if_pos h2]; exact hA
    · rw [if_neg h2]
      have h2q : 2 * ((n % d : ℕ) : ℚ) ≤ d := by exact_mod_cast Nat.le_of_not_lt h2
      by_cases h3 : n / d % 2 = 0
      · rw [if_pos h3]
        rw [abs_le]
        constructor
        · have := (hfrac (1 / 2)).2 (by linarith)
          linarith
        · have := (hfrac2 0).2 (by linarith)
          linarith
      · rw [if_neg h3]; exact hA

namespace Frac

theorem toRat_abs (x : Frac) : |x.toRat| = (x.num.natAbs : ℚ) / (x.den : ℚ) := by
  unfold toRat
  rw [abs_div, Nat.abs_cast, Nat.cast_natAbs, Int.cast_abs]

end Frac

theorem roundFrac_den_pos (p : Nat) (emin : Int) (x : Frac) : 0 < (roundFrac p emin x).den := by
  unfold roundFrac
  by_cases h : x.num = 0
  · rw [if_pos h]; decide
  · rw [if_neg h]; exact Nat.two_pow_pos _

/-- The result of rounding: a multiple `m * 2 ^ e` of the unit in the last
place, within half a unit of the exact value, with the sign of the exact
value; and how the exponent `e` relates to the magnitude of the value. -/
theorem roundFrac_spec (p : Nat) (emin : Int) (x : Frac) (hd : 0 < x.den) (hn : x.num ≠ 0) :
    ∃ (m : ℕ) (e : ℤ) (s : ℚ), (s = 1 ∨ s = -1) ∧ x.toRat = s * |x.toRat| ∧
      (roundFrac p emin x).toRat = s * ((m : ℚ) * (2 : ℚ) ^ e) ∧
      abs ((m : ℚ) * (2 : ℚ) ^ e - |x.toRat|) ≤ (2 : ℚ) ^ e / 2 ∧ emin ≤ e ∧
      (∀ L : ℤ, (2 : ℚ) ^ L ≤ |x.toRat| → L - ((p : ℤ) - 1) ≤ e) ∧
      (∀ k : ℤ, |x.toRat| < (2 : ℚ) ^ k → emin ≤ k - p → e ≤ k - p) := by
  have ha : 0 < x.num.natAbs := Int.natAbs_pos.2 hn
  have hdq : (0 : ℚ) < x.den := by exact_mod_cast hd
  have hpos : ∀ z : ℤ, (0 : ℚ) < (2 : ℚ) ^ z := fun z => zpow_pos (by norm_num) z
  obtain ⟨l1, l2⟩ := ilog2_spec x.num.natAbs x.den ha hd
  rw [← Frac.toRat_abs] at l1 l2
  set L0 := ilog2 x.num.natAbs x.den with hL0
  set e0 : ℤ := L0 - ((p : ℤ) - 1) with he0
  set e : ℤ := if emin ≤ e0 then e0 else emin with he
  have hee0 : e0 ≤ e := by rw [he]; split_ifs <;> omega
  have hemin : emin ≤ e := by rw [he]; split_ifs <;> omega
  have hmax : ∀ z, e0 ≤ z → emin ≤ z → e ≤ z := by
    intro z h1 h2; rw [he]; split_ifs <;> omega
  set m := roundHalfEven (x.num.natAbs * 2 ^ (-e).toNat) (x.den * 2 ^ e.toNat) with hm
  have hres : roundFrac p emin x
      = ⟨(if x.num < 0 then -1 else 1) * ((m * 2 ^ e.toNat : Nat) : Int), 2 ^ (-e).toNat⟩ := by
    unfold roundFrac
    rw [if_neg hn]
  have hscaled : ((x.num.natAbs * 2 ^ (-e).toNat : ℕ) : ℚ) / ((x.den * 2 ^ e.toNat : ℕ) : ℚ)
      = |x.toRat| / (2 : ℚ) ^ e := by
    rw [Frac.toRat_abs, zpow_two_split e]
    push_cast
    field_simp
  have hm3 := roundHalfEven_spec (x.num.natAbs * 2 ^ (-e).toNat) (x.den * 2 ^ e.toNat)
    (Nat.mul_pos hd (Nat.two_pow_pos _))
  rw [hscaled, ← hm] at hm3
  have herr : abs ((m : ℚ) * (2 : ℚ) ^ e - |x.toRat|) ≤ (2 : ℚ) ^ e / 2 := by
    have e1 : (m : ℚ) * (2 : ℚ) ^ e - |x.toRat| = ((m : ℚ) - |x.toRat| / (2 : ℚ) ^ e) * (2 : ℚ) ^ e := by
      field_simp
    rw [e1, abs_mul, abs_of_pos (hpos e)]
    calc abs ((m : ℚ) - |x.toRat| / (2 : ℚ) ^ e) * (2 : ℚ) ^ e ≤ 1 / 2 * (2 : ℚ) ^ e := by
          exact mul_le_mul_of_nonneg_right hm3 (le_of_lt (hpos e))
      _ = (2 : ℚ) ^ e / 2 := by ring
  have hval : ∀ s : ℤ, (Frac.mk (s * ((m * 2 ^ e.toNat : Nat) : Int)) (2 ^ (-e).toNat)).toRat
      = (s : ℚ) * ((m : ℚ) * (2 : ℚ) ^ e) := by
    intro s
    unfold Frac.toRat
    rw [zpow_two_split e]
    push_cast
    field_simp
  refine ⟨m, e, if x.num < 0 then -1 else 1, ?_, ?_, ?_, herr, hemin, ?_, ?_⟩
  · split_ifs <;> simp
  · have habs : |x.toRat| = |(x.num : ℚ)| / x.den := by
      unfold Frac.toRat; rw [abs_div, Nat.abs_cast]
    rw [habs]
    unfold Frac.toRat
    by_cases hneg : x.num < 0
    · rw [if_pos hneg]
      have : (x.num : ℚ) < 0 := by exact_mod_cast hneg
      rw [abs_of_neg this]; ring
    · rw [if_neg hneg]
      have : (0 : ℚ) ≤ (x.num : ℚ) := by exact_mod_cast (not_lt.1 hneg)
      rw [abs_of_nonneg this]; ring
  · rw [hres]
    by_cases hneg : x.num < 0
    · rw [if_pos hneg, if_pos hneg]
      have := hval (-1)
      push_cast at this ⊢
      exact this
    · rw [if_neg hneg, if_neg hneg]
      have := hval 1
      push_cast at this ⊢
      exact this
  · intro L hL
    have h1 : (2 : ℚ) ^ L < (2 : ℚ) ^ (L0 + 1) := lt_of_le_of_lt hL l2
    have h2 : L < L0 + 1 := (zpow_lt_zpow_iff_right₀ (by norm_num : (1 : ℚ) < 2)).1 h1
    omega
  · intro k hk hke
    have h1 : (2 : ℚ) ^ L0 < (2 : ℚ) ^ k := lt_of_le_of_lt l1 hk
    have h2 : L0 < k := (zpow_lt_zpow_iff_right₀ (by norm_num : (1 : ℚ) < 2)).1 h1
    apply hmax <;> omega

/-- Rounding error: a value below `2 ^ k` in magnitude is rounded with an
error of at most `2 ^ (k - p - 1)`, half a unit in the last place. -/
theorem roundFrac_err (p : Nat) (emin : Int) (x : Frac) (hd : 0 < x.den) (k : ℤ)
    (hk : |x.toRat| < (2 : ℚ) ^ k) (hke : emin ≤ k - p) :
    |(roundFrac p emin x).toRat - x.toRat| ≤ (2 : ℚ) ^ (k - p - 1) := by
  by_cases hn : x.num = 0
  · have h0 : x.toRat = 0 := by unfold Frac.toRat; rw [hn]; simp
    have h1 : (roundFrac p emin x).toRat = 0 := by
      unfold roundFrac; rw [if_pos hn]; unfold Frac.toRat; simp
    rw [h0, h1, sub_zero, abs_zero]
    exact le_of_lt (zpow_pos (by norm_num) _)
  · obtain ⟨m, e, s, hs, hx, hr, herr, _, _, hup⟩ := roundFrac_spec p emin x hd hn
    have hle : e ≤ k - p := hup k hk hke
    have e1 : (roundFrac p emin x).toRat - x.toRat = s * ((m : ℚ) * (2 : ℚ) ^ e - |x.toRat|) := by
      rw [hr]
      calc s * ((m : ℚ) * (2 : ℚ) ^ e) - x.toRat
          = s * ((m : ℚ) * (2 : ℚ) ^ e) - s * |x.toRat| := by rw [← hx]
        _ = s * ((m : ℚ) * (2 : ℚ) ^ e - |x.toRat|) := by ring
    have hs1 : |s| = 1 := by rcases hs with h | h <;> rw [h] <;> simp
    rw [e1, abs_mul, hs1, one_mul]
    refine le_trans herr ?_
    have e2 : (2 : ℚ) ^ e / 2 = (2 : ℚ) ^ (e - 1) := by
      rw [zpow_sub₀ (by norm_num), zpow_one]
    rw [e2]
    exact zpow_le_zpow_right₀ (by norm_num) (by omega)

/-- Rounding lands on the grid of the format: a value of magnitude at least
`2 ^ j` is rounded to an integer multiple of `2 ^ (j - (p - 1))`. -/
theorem roundFrac_grid (p : Nat) (emin : Int) (x : Frac) (hd : 0 < x.den) (j : ℤ)
    (hj : (2 : ℚ) ^ j ≤ |x.toRat|) :
    ∃ z : ℤ, (roundFrac p emin x).toRat = (z : ℚ) * (2 : ℚ) ^ (j - ((p : ℤ) - 1)) := by
  have hn : x.num ≠ 0 := by
    intro h0
    have : x.toRat = 0 := by unfold Frac.toRat; rw [h0]; simp
    rw [this, abs_zero] at hj
    exact absurd hj (not_le.2 (zpow_pos (by norm_num) _))
  obtain ⟨m, e, s, hs, _, hr, _, _, hlo, _⟩ := roundFrac_spec p emin x hd hn
  have hle : j - ((p : ℤ) - 1) ≤ e := hlo j hj
  obtain ⟨t, ht⟩ : ∃ t : ℕ, e = j - ((p : ℤ) - 1) + t := ⟨(e - (j - ((p : ℤ) - 1))).toNat, by omega⟩
  have hsz : ∃ sz : ℤ, (sz : ℚ) = s := by
    rcases hs with h | h
    · exact ⟨1, by rw [h]; simp⟩
    · exact ⟨-1, by rw [h]; simp⟩
  obtain ⟨sz, hsz⟩ := hsz
  refine ⟨sz * (m * 2 ^ t), ?_⟩
  rw [hr, ht, zpow_add₀ (by norm_num), zpow_natCast, ← hsz]
  push_cast
  ring

/-- Rounding preserves the sign of a non-negative value. -/
theorem roundFrac_nonneg (p : Nat) (emin : Int) (x : Frac) (h : 0 ≤ x.num) :
    0 ≤ (roundFrac p emin x).num := by
  unfold roundFrac
  by_cases hn : x.num = 0
  · rw [if_pos hn]
  · rw [if_neg hn]
    have : ¬ x.num < 0 := not_lt.2 h
    simp only [if_neg this, one_mul]
    exact Int.natCast_nonneg _

namespace Frac

theorem toRat_ofNat (n : Nat) : (ofNat n).toRat = n := by
  unfold toRat ofNat; simp

theorem toRat_add (a b : Frac) (ha : 0 < a.den) (hb : 0 < b.den) :
    (add a b).toRat = a.toRat + b.toRat := by
  have h1 : (a.den : ℚ) ≠ 0 := by exact_mod_cast (Nat.pos_iff_ne_zero.1 ha)
  have h2 : (b.den : ℚ) ≠ 0 := by exact_mod_cast (Nat.pos_iff_ne_zero.1 hb)
  unfold toRat add
  push_cast
  field_simp

theorem toRat_sub (a b : Frac) (ha : 0 < a.den) (hb : 0 < b.den) :
    (sub a b).toRat = a.toRat - b.toRat := by
  have h1 : (a.den : ℚ) ≠ 0 := by exact_mod_cast (Nat.pos_iff_ne_zero.1 ha)
  have h2 : (b.den : ℚ) ≠ 0 := by exact_mod_cast (Nat.pos_iff_ne_zero.1 hb)
  unfold toRat sub
  push_cast
  field_simp
  ring

theorem toRat_mul (a b : Frac) : (mul a b).toRat = a.toRat * b.toRat := by
  unfold toRat mul
  push_cast
  rw [mul_div_mul_comm]

theorem toRat_div_ofNat (a : Frac) (n : Nat) (hn : 0 < n) :
    (div a (ofNat n)).toRat = a.toRat / n := by
  have h2 : (n : ℚ) ≠ 0 := by exact_mod_cast (Nat.pos_iff_ne_zero.1 hn)
  have hs : ((n : ℕ) : ℤ).sign = 1 := Int.sign_eq_one_of_pos (by exact_mod_cast hn)
  unfold toRat div ofNat
  simp only [hs, Int.natAbs_ofNat]
  push_cast
  rw [div_div]
  ring

theorem add_den_pos (a b : Frac) (ha : 0 < a.den) (hb : 0 < b.den) : 0 < (add a b).den :=
  Nat.mul_pos ha hb

theorem mul_den_pos (a b : Frac) (ha : 0 < a.den) (hb : 0 < b.den) : 0 < (mul a b).den :=
  Nat.mul_pos ha hb

theorem div_ofNat_den_pos (a : Frac) (n : Nat) (ha : 0 < a.den) (hn : 0 < n) :
    0 < (div a (ofNat n)).den := by
  unfold div ofNat
  simp only [Int.natAbs_ofNat]
  exact Nat.mul_pos ha hn

theorem le_iff (a b : Frac) (ha : 0 < a.den) (hb : 0 < b.den) :
    le a b = true ↔ a.toRat ≤ b.toRat := by
  have h1 : (0 : ℚ) < a.den := by exact_mod_cast ha
  have h2 : (0 : ℚ) < b.den := by exact_mod_cast hb
  unfold le toRat
  rw [decide_eq_true_iff, div_le_div_iff₀ h1 h2]
  constructor
  · intro h
    have : ((a.num * b.den : ℤ) : ℚ) ≤ ((b.num * a.den : ℤ) : ℚ) := by exact_mod_cast h
    push_cast at this
    exact this
  · intro h
    have : ((a.num * b.den : ℤ) : ℚ) ≤ ((b.num * a.den : ℤ) : ℚ) := by push_cast; exact h
    exact_mod_cast this

/-- Truncation of a non-negative value lying in `[n, n + 1)` gives `n`. -/
theorem trunc_eq (a : Frac) (ha : 0 < a.den) (n : Nat) (h1 : (n : ℚ) ≤ a.toRat)
    (h2 : a.toRat < n + 1) : trunc a = n := by
  have hq : (0 : ℚ) < a.den := by exact_mod_cast ha
  unfold toRat at h1 h2
  rw [le_div_iff₀ hq] at h1
  rw [div_lt_iff₀ hq] at h2
  have i1 : (n : ℤ) * a.den ≤ a.num := by exact_mod_cast h1
  have i2 : a.num < ((n : ℤ) + 1) * a.den := by exact_mod_cast h2
  have hnn : 0 ≤ a.num := le_trans (Int.mul_nonneg (Int.natCast_nonneg n) (Int.natCast_nonneg a.den)) i1
  unfold trunc
  rw [Int.tdiv_eq_ediv hnn (Int.natCast_nonneg a.den)]
  have hd : (0 : ℤ) < a.den := by exact_mod_cast ha
  apply le_antisymm
  · have := Int.ediv_lt_of_lt_mul hd i2
    omega
  · exact Int.le_ediv_of_mul_le hd i1

end Frac

/-! ## The luma expression -/

theorem fl64_den_pos (x : Frac) : 0 < (fl64 x).den := roundFrac_den_pos 53 (-1074) x

theorem fl32_den_pos (x : Frac) : 0 < (fl32 x).den := roundFrac_den_pos 24 (-149) x

/-- A `double` operation on a value below 512 in magnitude errs by at most `2 ^ -45`. -/
theorem fl64_err (x : Frac) (hd : 0 < x.den) (h : |x.toRat| < 512) :
    |(fl64 x).toRat - x.toRat| ≤ 1 / 35184372088832 := by
  have := roundFrac_err 53 (-1074) x hd 9 (by norm_num; exact h) (by norm_num)
  norm_num at this
  exact this

/-- A `float` operation on a value below 512 in magnitude errs by at most `2 ^ -16`. -/
theorem fl32_err (x : Frac) (hd : 0 < x.den) (h : |x.toRat| < 512) :
    |(fl32 x).toRat - x.toRat| ≤ 1 / 65536 := by
  have := roundFrac_err 24 (-149) x hd 9 (by norm_num; exact h) (by norm_num)
  norm_num at this
  exact this

namespace TargaImage

/-- The literals `0.3` and `0.30` denote the same `double`. -/
theorem dlit_3_10 : dlit 3 10 = dlit 30 100 := by decide

theorem dlit_30 : (dlit 30 100).toRat = 5404319552844595 / 18014398509481984 := by
  have : dlit 30 100 = ⟨5404319552844595, 18014398509481984⟩ := by decide
  rw [this]; unfold Frac.toRat; norm_num

theorem dlit_59 : (dlit 59 100).toRat = 5314247560297185 / 9007199254740992 := by
  have : dlit 59 100 = ⟨5314247560297185, 9007199254740992⟩ := by decide
  rw [this]; unfold Frac.toRat; norm_num

theorem dlit_11 : (dlit 11 100).toRat = 7926335344172073 / 72057594037927936 := by
  have : dlit 11 100 = ⟨7926335344172073, 72057594037927936⟩ := by decide
  rw [this]; unfold Frac.toRat; norm_num

theorem dlit_half : (dlit 5 10).toRat = 1 / 2 := by
  have : dlit 5 10 = ⟨4503599627370496, 9007199254740992⟩ := by decide
  rw [this]; unfold Frac.toRat; norm_num

/-- The `double` product of a literal `c` with a byte `v` errs by at most `2 ^ -45`. -/
theorem dmul_byte (c : Frac) (q : ℚ) (hc : c.toRat = q) (hcd : 0 < c.den) (h0 : 0 ≤ q) (h1 : q ≤ 1)
    (v : Nat) (hv : v < 256) :
    0 < (dmul c (Frac.ofNat v)).den ∧
    |(dmul c (Frac.ofNat v)).toRat - q * v| ≤ 1 / 35184372088832 := by
  have hvq : (v : ℚ) ≤ 255 := by exact_mod_cast Nat.le_of_lt_succ hv
  have hv0 : (0 : ℚ) ≤ v := by positivity
  have hx : (Frac.mul c (Frac.ofNat v)).toRat = q * v := by
    rw [Frac.toRat_mul, Frac.toRat_ofNat, hc]
  have hd : 0 < (Frac.mul c (Frac.ofNat v)).den := Frac.mul_den_pos _ _ hcd Nat.one_pos
  refine ⟨fl64_den_pos _, ?_⟩
  have := fl64_err _ hd (by
    rw [hx, abs_lt]
    constructor
    · nlinarith
    · nlinarith)
  rw [hx] at this
  exact this

/-- The `double` luma is within `2 ^ -40` of `(30 r + 59 g + 11 b) / 100`. -/
theorem luma_spec (r g b : Nat) (hr : r < 256) (hg : g < 256) (hb : b < 256) :
    0 < (luma r g b).den ∧
    |(luma r g b).toRat - ((30 * r + 59 * g + 11 * b : ℕ) : ℚ) / 100| ≤ 1 / 1099511627776 := by
  have hrq : (r : ℚ) ≤ 255 := by exact_mod_cast Nat.le_of_lt_succ hr
  have hgq : (g : ℚ) ≤ 255 := by exact_mod_cast Nat.le_of_lt_succ hg
  have hbq : (b : ℚ) ≤ 255 := by exact_mod_cast Nat.le_of_lt_succ hb
  have hr0 : (0 : ℚ) ≤ r := by positivity
  have hg0 : (0 : ℚ) ≤ g := by positivity
  have hb0 : (0 : ℚ) ≤ b := by positivity
  obtain ⟨d1, e1⟩ := dmul_byte (dlit 30 100) _ dlit_30 (fl64_den_pos _) (by norm_num) (by norm_num) r hr
  obtain ⟨d2, e2⟩ := dmul_byte (dlit 59 100) _ dlit_59 (fl64_den_pos _) (by norm_num) (by norm_num) g hg
  obtain ⟨d3, e3⟩ := dmul_byte (dlit 11 100) _ dlit_11 (fl64_den_pos _) (by norm_num) (by norm_num) b hb
  rw [abs_le] at e1 e2 e3
  set p1 := dmul (dlit 30 100) (Frac.ofNat r) with hp1
  set p2 := dmul (dlit 59 100) (Frac.ofNat g) with hp2
  set p3 := dmul (dlit 11 100) (Frac.ofNat b) with hp3
  have hs1 : (Frac.add p1 p2).toRat = p1.toRat + p2.toRat := Frac.toRat_add _ _ d1 d2
  have e4 := fl64_err (Frac.add p1 p2) (Frac.add_den_pos _ _ d1 d2) (by
    rw [hs1, abs_lt]; constructor <;> linarith)
  rw [hs1, abs_le] at e4
  have d4 : 0 < (dadd p1 p2).den := fl64_den_pos _
  have hs2 : (Frac.add (dadd p1 p2) p3).toRat = (dadd p1 p2).toRat + p3.toRat :=
    Frac.toRat_add _ _ d4 d3
  have e4' : -(1 / 35184372088832) ≤ (dadd p1 p2).toRat - (p1.toRat + p2.toRat) ∧
      (dadd p1 p2).toRat - (p1.toRat + p2.toRat) ≤ 1 / 35184372088832 := e4
  have e5 := fl64_err (Frac.add (dadd p1 p2) p3) (Frac.add_den_pos _ _ d4 d3) (by
    rw [hs2, abs_lt]; constructor <;> linarith)
  rw [hs2, abs_le] at e5
  have e5' : -(1 / 35184372088832) ≤ (dadd (dadd p1 p2) p3).toRat - ((dadd p1 p2).toRat + p3.toRat) ∧
      (dadd (dadd p1 p2) p3).toRat - ((dadd p1 p2).toRat + p3.toRat) ≤ 1 / 35184372088832 := e5
  refine ⟨fl64_den_pos _, ?_⟩
  show |(dadd (dadd p1 p2) p3).toRat - _| ≤ _
  rw [abs_le]
  push_cast
  constructor <;> linarith

end TargaImage

/-! ## Exact rounding near a representable value -/

theorem exists_binade (x : Frac) (hd : 0 < x.den) (hx : x.num ≠ 0) :
    ∃ L : ℤ, (2 : ℚ) ^ L ≤ |x.toRat| ∧ |x.toRat| < (2 : ℚ) ^ (L + 1) := by
  have := ilog2_spec x.num.natAbs x.den (Int.natAbs_pos.2 hx) hd
  rw [← Frac.toRat_abs] at this
  exact ⟨_, this⟩

/-- A value in the binade `[2 ^ L, 2 ^ (L + 1))` that lies within half a unit
in the last place of a point `v` of the grid of the format is rounded to `v`. -/
theorem roundFrac_near (p : Nat) (emin : Int) (x : Frac) (hd : 0 < x.den) (v : ℚ) (L N : ℤ)
    (hL1 : (2 : ℚ) ^ L ≤ |x.toRat|) (hL2 : |x.toRat| < (2 : ℚ) ^ (L + 1))
    (hemin : emin ≤ L + 1 - p) (hv : v = (N : ℚ) * (2 : ℚ) ^ (L - ((p : ℤ) - 1)))
    (hclose : |x.toRat - v| < (2 : ℚ) ^ (L - p)) : (roundFrac p emin x).toRat = v := by
  obtain ⟨z, hz⟩ := roundFrac_grid p emin x hd L hL1
  have herr := roundFrac_err p emin x hd (L + 1) hL2 hemin
  have e0 : L + 1 - (p : ℤ) - 1 = L - p := by ring
  rw [e0] at herr
  set g : ℚ := (2 : ℚ) ^ (L - ((p : ℤ) - 1)) with hg
  have hgpos : 0 < g := zpow_pos (by norm_num) _
  have hg2 : g = 2 * (2 : ℚ) ^ (L - (p : ℤ)) := by
    rw [hg, show L - ((p : ℤ) - 1) = (L - p) + 1 by ring, zpow_add₀ (by norm_num), zpow_one]
    ring
  have h1 : |(roundFrac p emin x).toRat - v| < g := by
    have : (roundFrac p emin x).toRat - v
        = ((roundFrac p emin x).toRat - x.toRat) + (x.toRat - v) := by ring
    rw [this, hg2]
    calc |((roundFrac p emin x).toRat - x.toRat) + (x.toRat - v)|
        ≤ |(roundFrac p emin x).toRat - x.toRat| + |x.toRat - v| := abs_add _ _
      _ < 2 * (2 : ℚ) ^ (L - (p : ℤ)) := by linarith
  have h2 : (roundFrac p emin x).toRat - v = ((z - N : ℤ) : ℚ) * g := by
    rw [hz, hv]; push_cast; ring
  rw [h2, abs_mul, abs_of_pos hgpos] at h1
  have h3 : |((z - N : ℤ) : ℚ)| < 1 := by
    by_contra hcon
    have : g ≤ |((z - N : ℤ) : ℚ)| * g := by
      have := mul_le_mul_of_nonneg_right (not_lt.1 hcon) (le_of_lt hgpos)
      linarith
    linarith
  have h4 : z - N = 0 := by
    have : |z - N| < 1 := by
      have h5 : ((|z - N| : ℤ) : ℚ) < 1 := by rw [Int.cast_abs]; exact h3
      exact_mod_cast h5
    exact Int.abs_lt_one_iff.1 this
  have h5 : (roundFrac p emin x).toRat - v = 0 := by rw [h2, h4]; simp
  linarith

/-- A `double` within `2 ^ -40` of an integer `n` in `[1, 255]` converts to
the `float` `n`. -/
theorem fl32_near_nat (x : Frac) (hd : 0 < x.den) (n : Nat) (hn1 : 1 ≤ n) (hn2 : n ≤ 255)
    (h : |x.toRat - (n : ℚ)| ≤ 1 / 1099511627776) : (fl32 x).toRat = n := by
  have hn1q : (1 : ℚ) ≤ n := by exact_mod_cast hn1
  have hn2q : (n : ℚ) ≤ 255 := by exact_mod_cast hn2
  rw [abs_le] at h
  have hxpos : 0 < x.toRat := by linarith
  have hnum : x.num ≠ 0 := by
    intro h0
    have : x.toRat = 0 := by unfold Frac.toRat; rw [h0]; simp
    linarith
  obtain ⟨L, hL1, hL2⟩ := exists_binade x hd hnum
  have habs : |x.toRat| = x.toRat := abs_of_pos hxpos
  have hLlo : -1 ≤ L := by
    have h1 : (2 : ℚ) ^ (-1 : ℤ) < (2 : ℚ) ^ (L + 1) := by
      refine lt_of_le_of_lt ?_ hL2
      rw [habs]; norm_num; linarith
    have := (zpow_lt_zpow_iff_right₀ (by norm_num : (1 : ℚ) < 2)).1 h1
    omega
  have hLhi : L ≤ 8 := by
    have h1 : (2 : ℚ) ^ L < (2 : ℚ) ^ (9 : ℤ) := by
      refine lt_of_le_of_lt hL1 ?_
      rw [habs]; norm_num; linarith
    have := (zpow_lt_zpow_iff_right₀ (by norm_num : (1 : ℚ) < 2)).1 h1
    omega
  obtain ⟨t, ht⟩ : ∃ t : ℕ, (t : ℤ) = 23 - L := ⟨(23 - L).toNat, by omega⟩
  apply roundFrac_near 24 (-149) x hd (n : ℚ) L ((n * 2 ^ t : ℕ) : ℤ) hL1 hL2 (by push_cast; omega)
  · have e : L - (((24 : ℕ) : ℤ) - 1) = -(t : ℤ) := by push_cast; omega
    rw [e, zpow_neg, zpow_natCast]
    push_cast
    field_simp
  · have e : (2 : ℚ) ^ (-25 : ℤ) ≤ (2 : ℚ) ^ (L - ((24 : ℕ) : ℤ)) :=
      zpow_le_zpow_right₀ (by norm_num) (by push_cast; omega)
    refine lt_of_lt_of_le ?_ e
    rw [abs_lt]
    norm_num
    constructor <;> linarith

namespace TargaImage

/-- The byte `To_Grayscale` stores for a pixel `(r, g, b)`: the floor of
`(30 r + 59 g + 11 b) / 100`. -/
theorem gray_value (r g b : Nat) (hr : r < 256) (hg : g < 256) (hb : b < 256) :
    toUChar (fl32 (luma r g b)) = (30 * r + 59 * g + 11 * b) / 100 := by
  obtain ⟨hd, herr⟩ := luma_spec r g b hr hg hb
  set K := 30 * r + 59 * g + 11 * b with hK
  have hKle : K ≤ 25500 := by omega
  have hdm := Nat.div_add_mod K 100
  have hKq : (K : ℚ) = 100 * ((K / 100 : ℕ) : ℚ) + ((K % 100 : ℕ) : ℚ) := by exact_mod_cast hdm.symm
  have hmod : K % 100 < 100 := Nat.mod_lt _ (by decide)
  have hmodq : ((K % 100 : ℕ) : ℚ) ≤ 99 := by exact_mod_cast Nat.le_of_lt_succ hmod
  have hnq : ((K / 100 : ℕ) : ℚ) ≤ 255 := by
    have : K / 100 ≤ 255 := by omega
    exact_mod_cast this
  have hn0 : (0 : ℚ) ≤ ((K / 100 : ℕ) : ℚ) := by positivity
  have hm0 : (0 : ℚ) ≤ ((K % 100 : ℕ) : ℚ) := by positivity
  rw [abs_le] at herr
  have hlt : |(luma r g b).toRat| < 512 := by
    rw [abs_lt]; constructor <;> linarith
  have h32 := fl32_err (luma r g b) hd hlt
  rw [abs_le] at h32
  have key : Frac.trunc (fl32 (luma r g b)) = ((K / 100 : ℕ) : ℤ) := by
    by_cases hm : K % 100 = 0
    · by_cases hn : K / 100 = 0
      · have hr0 : r = 0 := by omega
        have hg0 : g = 0 := by omega
        have hb0 : b = 0 := by omega
        rw [hn, hr0, hg0, hb0]
        decide
      · have hq : ((K : ℚ)) / 100 = ((K / 100 : ℕ) : ℚ) := by
          rw [hKq, hm]; push_cast; ring
        rw [hq] at herr
        have hex := fl32_near_nat (luma r g b) hd (K / 100) (by omega) (by omega)
          (by rw [abs_le]; exact herr)
        apply Frac.trunc_eq _ (fl32_den_pos _)
        · rw [hex]
        · rw [hex]; linarith
    · have hm1 : (1 : ℚ) ≤ ((K % 100 : ℕ) : ℚ) := by
        have : 1 ≤ K % 100 := by omega
        exact_mod_cast this
      apply Frac.trunc_eq _ (fl32_den_pos _)
      · linarith
      · linarith
  unfold toUChar
  rw [key]
  exact Int.toNat_ofNat _

end TargaImage

/-! ## To_Grayscale -/

namespace TargaImage

/-- Effect of the three stores `d[RED] = v0; d[GREEN] = v1; d[BLUE] = v2` on
the pixel at `Get_RGBA(x, y)`. -/
theorem setRGB_spec (img : TargaImage) (x y : Nat) (D : List Nat) (v0 v1 v2 : Nat)
    (hD : img.Get_RGBA x y + 3 < D.length) :
    (wr (wr (wr D (img.Get_RGBA x y + RED) v0) (img.Get_RGBA x y + GREEN) v1)
      (img.Get_RGBA x y + BLUE) v2).length = D.length ∧
    (∀ k, k / 4 ≠ y * img.width + x →
      rd (wr (wr (wr D (img.Get_RGBA x y + RED) v0) (img.Get_RGBA x y + GREEN) v1)
        (img.Get_RGBA x y + BLUE) v2) k = rd D k) ∧
    (∀ c, c < 4 →
      rd (wr (wr (wr D (img.Get_RGBA x y + RED) v0) (img.Get_RGBA x y + GREEN) v1)
        (img.Get_RGBA x y + BLUE) v2) (img.Get_RGBA x y + c)
        = if c = 0 then v0 % 256 else if c = 1 then v1 % 256 else if c = 2 then v2 % 256
          else rd D (img.Get_RGBA x y + 3)) := by
  have he := img.Get_RGBA_eq x y
  refine ⟨by simp [wr_length], ?_, ?_⟩
  · intro k hk
    have h0 : ¬ (img.Get_RGBA x y = k) := by omega
    have h1 : ¬ (img.Get_RGBA x y + 1 = k) := by omega
    have h2 : ¬ (img.Get_RGBA x y + 2 = k) := by omega
    simp [rd_wr, RED, GREEN, BLUE, h0, h1, h2]
  · intro c hc
    have h0 : img.Get_RGBA x y < D.length := by omega
    have h1 : img.Get_RGBA x y + 1 < D.length := by omega
    have h2 : img.Get_RGBA x y + 2 < D.length := by omega
    interval_cases c <;> simp [rd_wr, wr_length, RED, GREEN, BLUE, h0, h1, h2]

/-- Effect of one pixel step of `To_Grayscale` on the buffer. -/
theorem toGrayscalePixel_spec (img : TargaImage) (x y : Nat) (D : List Nat)
    (hD : img.Get_RGBA x y + 3 < D.length) :
    (toGrayscalePixel img x y D).length = D.length ∧
    (∀ k, k / 4 ≠ y * img.width + x → rd (toGrayscalePixel img x y D) k = rd D k) ∧
    (∀ c, c < 4 → rd (toGrayscalePixel img x y D) (img.Get_RGBA x y + c)
      = (fun (_ _ c r g b a : Nat) =>
          if c = 0 then toUChar (fl32 (luma r g b)) % 256
          else if c = 1 then toUChar (fl32 (luma r g b)) % 256
          else if c = 2 then toUChar (fl32 (luma r g b)) % 256 else a) x y c
          (rd D (img.Get_RGBA x y)) (rd D (img.Get_RGBA x y + 1))
          (rd D (img.Get_RGBA x y + 2)) (rd D (img.Get_RGBA x y + 3))) :=
  setRGB_spec img x y D _ _ _ hD

/-- C3 (amended). For every well-formed image and every pixel with original
channels `(R0, G0, B0, A0)`, after `To_Grayscale` the pixel has
`R = G = B = floor((30 R0 + 59 G0 + 11 B0) / 100)`, the luma truncated, and
alpha `A0`. -/
theorem To_Grayscale_floor (img : TargaImage) (hwf : img.WF) (x y : Nat)
    (hx : x < img.width) (hy : y < img.height) :
    (To_Grayscale img).2.chan x y 0
      = (30 * img.chan x y 0 + 59 * img.chan x y 1 + 11 * img.chan x y 2) / 100 ∧
    (To_Grayscale img).2.chan x y 1
      = (30 * img.chan x y 0 + 59 * img.chan x y 1 + 11 * img.chan x y 2) / 100 ∧
    (To_Grayscale img).2.chan x y 2
      = (30 * img.chan x y 0 + 59 * img.chan x y 1 + 11 * img.chan x y 2) / 100 ∧
    (To_Grayscale img).2.chan x y 3 = img.chan x y 3 := by
  obtain ⟨hlen, hbytes⟩ := hwf
  have key := (pixelLoop_spec img (toGrayscalePixel img)
    (fun (_ _ c r g b a : Nat) =>
      if c = 0 then toUChar (fl32 (luma r g b)) % 256
      else if c = 1 then toUChar (fl32 (luma r g b)) % 256
      else if c = 2 then toUChar (fl32 (luma r g b)) % 256 else a)
    (fun x y D _ _ hD => toGrayscalePixel_spec img x y D hD) hlen).2 x y
  have hb : ∀ c, img.chan x y c < 256 := fun c => rd_lt_of_forall _ hbytes _
  have hv := gray_value (img.chan x y 0) (img.chan x y 1) (img.chan x y 2) (hb 0) (hb 1) (hb 2)
  have hlt : (30 * img.chan x y 0 + 59 * img.chan x y 1 + 11 * img.chan x y 2) / 100 < 256 := by
    have h0 := hb 0
    have h1 := hb 1
    have h2 := hb 2
    omega
  have h0 := key 0 hx hy (by decide)
  have h1 := key 1 hx hy (by decide)
  have h2 := key 2 hx hy (by decide)
  have h3 := key 3 hx hy (by decide)
  simp only [hv, Nat.mod_eq_of_lt hlt] at h0 h1 h2 h3
  exact ⟨h0, by simpa using h1, by simpa using h2, by simpa using h3⟩

/-- Witness for C3 (amended): a one-pixel image. -/
theorem To_Grayscale_floor_witness :
    (To_Grayscale ⟨1, 1, [255, 0, 0, 200]⟩).2.chan 0 0 0 = 76 ∧
    (To_Grayscale ⟨1, 1, [255, 0, 0, 200]⟩).2.chan 0 0 1 = 76 ∧
    (To_Grayscale ⟨1, 1, [255, 0, 0, 200]⟩).2.chan 0 0 2 = 76 ∧
    (To_Grayscale ⟨1, 1, [255, 0, 0, 200]⟩).2.chan 0 0 3 = 200 :=
  To_Grayscale_floor ⟨1, 1, [255, 0, 0, 200]⟩ (by decide) 0 0 (by decide) (by decide)

set_option maxRecDepth 100000 in
/-- C3 (counterexample). The pixel `(2, 0, 0, 255)` has luma `0.6`, whose
nearest integer is 1, and `To_Grayscale` stores 0: the conversion truncates,
it does not round. -/
theorem To_Grayscale_not_round :
    (((To_Grayscale ⟨1, 1, [2, 0, 0, 255]⟩).2.chan 0 0 0 : ℕ) : ℤ)
      ≠ round ((0.30 : ℚ) * 2 + 0.59 * 0 + 0.11 * 0) := by
  have h1 : (To_Grayscale ⟨1, 1, [2, 0, 0, 255]⟩).2.chan 0 0 0 = 0 := by decide
  have h2 : round ((0.30 : ℚ) * 2 + 0.59 * 0 + 0.11 * 0) = 1 := by
    rw [round_eq]
    norm_num
  rw [h1, h2]
  decide

end TargaImage

/-! ## Dithering -/

theorem forLoop_counter {σ : Type} (n c : Nat) (f : Nat → Nat → σ → σ) (d : σ) :
    forLoop n (fun p (s : σ × Nat) => (f p s.2 s.1, s.2 + 1)) (d, c)
      = (forLoop n (fun p t => f p (c + p) t) d, c + n) := by
  induction n with
  | zero => rfl
  | succ n ih => rw [forLoop_succ, ih, forLoop_succ]; rfl

namespace TargaImage

/-- The threshold test of `Dither_Threshold` away from the tie: it succeeds
when `30 r + 59 g + 11 b > 12750` and fails when `30 r + 59 g + 11 b < 12750`. -/
theorem threshold_cond (r g b : Nat) (hr : r < 256) (hg : g < 256) (hb : b < 256) :
    (12750 < 30 * r + 59 * g + 11 * b →
      Frac.ge (ddiv (luma r g b) (Frac.ofNat 255)) (dlit 5 10) = true) ∧
    (30 * r + 59 * g + 11 * b < 12750 →
      Frac.ge (ddiv (luma r g b) (Frac.ofNat 255)) (dlit 5 10) = false) := by
  obtain ⟨hd, herr⟩ := luma_spec r g b hr hg hb
  rw [abs_le] at herr
  have hKle : 30 * r + 59 * g + 11 * b ≤ 25500 := by omega
  have hKq : ((30 * r + 59 * g + 11 * b : ℕ) : ℚ) ≤ 25500 := by exact_mod_cast hKle
  have hK0 : (0 : ℚ) ≤ ((30 * r + 59 * g + 11 * b : ℕ) : ℚ) := by positivity
  have hq : (Frac.div (luma r g b) (Frac.ofNat 255)).toRat = (luma r g b).toRat / 255 := by
    rw [Frac.toRat_div_ofNat _ 255 (by decide)]; norm_num
  have hqd : 0 < (Frac.div (luma r g b) (Frac.ofNat 255)).den :=
    Frac.div_ofNat_den_pos _ 255 hd (by decide)
  have he := fl64_err _ hqd (by
    rw [hq, abs_lt]; constructor <;> linarith)
  rw [hq, abs_le] at he
  have hge : Frac.ge (ddiv (luma r g b) (Frac.ofNat 255)) (dlit 5 10) = true ↔
      (1 : ℚ) / 2 ≤ (ddiv (luma r g b) (Frac.ofNat 255)).toRat := by
    unfold Frac.ge
    rw [Frac.le_iff (dlit 5 10) (ddiv (luma r g b) (Frac.ofNat 255)) (fl64_den_pos _)
      (fl64_den_pos _), dlit_half]
  have he' : -(1 / 35184372088832) ≤ (ddiv (luma r g b) (Frac.ofNat 255)).toRat
        - (luma r g b).toRat / 255 ∧
      (ddiv (luma r g b) (Frac.ofNat 255)).toRat - (luma r g b).toRat / 255
        ≤ 1 / 35184372088832 := he
  constructor
  · intro h
    have hq1 : (12751 : ℚ) ≤ ((30 * r + 59 * g + 11 * b : ℕ) : ℚ) := by exact_mod_cast h
    rw [hge]
    linarith
  · intro h
    have hq1 : ((30 * r + 59 * g + 11 * b : ℕ) : ℚ) ≤ 12749 := by
      exact_mod_cast Nat.le_of_lt_succ h
    rw [Bool.eq_false_iff]
    intro hc
    rw [hge] at hc
    linarith

/-- Effect of a pixel step that stores white or black according to a test. -/
theorem bw_spec (img : TargaImage) (x y : Nat) (D : List Nat) (t : Bool)
    (hD : img.Get_RGBA x y + 3 < D.length) :
    (if t = true then
        wr (wr (wr D (img.Get_RGBA x y + RED) 255) (img.Get_RGBA x y + GREEN) 255)
          (img.Get_RGBA x y + BLUE) 255
      else
        wr (wr (wr D (img.Get_RGBA x y + RED) 0) (img.Get_RGBA x y + GREEN) 0)
          (img.Get_RGBA x y + BLUE) 0).length = D.length ∧
    (∀ k, k / 4 ≠ y * img.width + x →
      rd (if t = true then
        wr (wr (wr D (img.Get_RGBA x y + RED) 255) (img.Get_RGBA x y + GREEN) 255)
          (img.Get_RGBA x y + BLUE) 255
      else
        wr (wr (wr D (img.Get_RGBA x y + RED) 0) (img.Get_RGBA x y + GREEN) 0)
          (img.Get_RGBA x y + BLUE) 0) k = rd D k) ∧
    (∀ c, c < 4 →
      rd (if t = true then
        wr (wr (wr D (img.Get_RGBA x y + RED) 255) (img.Get_RGBA x y + GREEN) 255)
          (img.Get_RGBA x y + BLUE) 255
      else
        wr (wr (wr D (img.Get_RGBA x y + RED) 0) (img.Get_RGBA x y + GREEN) 0)
          (img.Get_RGBA x y + BLUE) 0) (img.Get_RGBA x y + c)
        = if c < 3 then (if t = true then 255 else 0) else rd D (img.Get_RGBA x y + 3)) := by
  cases t
  · obtain ⟨h1, h2, h3⟩ := setRGB_spec img x y D 0 0 0 hD
    refine ⟨h1, h2, ?_⟩
    intro c hc
    have := h3 c hc
    simp only [Bool.false_eq_true, if_false] at this ⊢
    rw [this]
    interval_cases c <;> simp
  · obtain ⟨h1, h2, h3⟩ := setRGB_spec img x y D 255 255 255 hD
    refine ⟨h1, h2, ?_⟩
    intro c hc
    have := h3 c hc
    simp only [if_true] at this ⊢
    rw [this]
    interval_cases c <;> simp

/-- Effect of one pixel step of `Dither_Threshold` on the buffer. -/
theorem ditherThresholdPixel_spec (img : TargaImage) (x y : Nat) (D : List Nat)
    (hD : img.Get_RGBA x y + 3 < D.length) :
    (ditherThresholdPixel img x y D).length = D.length ∧
    (∀ k, k / 4 ≠ y * img.width + x → rd (ditherThresholdPixel img x y D) k = rd D k) ∧
    (∀ c, c < 4 → rd (ditherThresholdPixel img x y D) (img.Get_RGBA x y + c)
      = (fun (_ _ c r g b a : Nat) =>
          if c < 3 then
            (if Frac.ge (ddiv (luma r g b) (Frac.ofNat 255)) (dlit 5 10) = true then 255 else 0)
          else a) x y c
          (rd D (img.Get_RGBA x y)) (rd D (img.Get_RGBA x y + 1))
          (rd D (img.Get_RGBA x y + 2)) (rd D (img.Get_RGBA x y + 3))) :=
  bw_spec img x y D _ hD

/-- Effect of one pixel step of `Dither_Cluster` on the buffer. -/
theorem ditherClusterPixel_spec (img : TargaImage) (x y : Nat) (D : List Nat)
    (hD : img.Get_RGBA x y + 3 < D.length) :
    (ditherClusterPixel img x y D).length = D.length ∧
    (∀ k, k / 4 ≠ y * img.width + x → rd (ditherClusterPixel img x y D) k = rd D k) ∧
    (∀ c, c < 4 → rd (ditherClusterPixel img x y D) (img.Get_RGBA x y + c)
      = (fun (x y c r g b a : Nat) =>
          if c < 3 then
            (if Frac.ge (ddiv (luma r g b) (Frac.ofNat 255))
                (maskAt clusterMask (y % 4) (x % 4)) = true then 255 else 0)
          else a) x y c
          (rd D (img.Get_RGBA x y)) (rd D (img.Get_RGBA x y + 1))
          (rd D (img.Get_RGBA x y + 2)) (rd D (img.Get_RGBA x y + 3))) :=
  bw_spec img x y D _ hD

/-- Effect on the buffer of one pixel step of `Dither_Random` after the draw `r`. -/
theorem ditherRandomStep_spec (img : TargaImage) (RAND_MAX r : Nat) (x y : Nat) (D : List Nat)
    (hD : img.Get_RGBA x y + 3 < D.length) :
    (ditherRandomStep img RAND_MAX r x y D).length = D.length ∧
    (∀ k, k / 4 ≠ y * img.width + x → rd (ditherRandomStep img RAND_MAX r x y D) k = rd D k) ∧
    (∀ c, c < 4 → rd (ditherRandomStep img RAND_MAX r x y D) (img.Get_RGBA x y + c)
      = if c < 3 then
          (if Frac.ge (dadd (ddiv (luma (rd D (img.Get_RGBA x y)) (rd D (img.Get_RGBA x y + 1))
              (rd D (img.Get_RGBA x y + 2))) (Frac.ofNat 256)) (randNum RAND_MAX r))
              (dlit 5 10) = true then 255 else 0)
        else rd D (img.Get_RGBA x y + 3)) :=
  bw_spec img x y D _ hD

/-- The buffer `Dither_Random` leaves: pixel `(j, i)` is processed with the
value of call number `1 + (i * width + j)` of `rand()`. -/
theorem Dither_Random_data (RAND_MAX : Nat) (gen : Nat → Nat → Nat) (now : Nat)
    (img : TargaImage) :
    (Dither_Random RAND_MAX gen now img).2.data
      = forLoop img.height (fun i d => forLoop img.width (fun j e =>
          ditherRandomStep img RAND_MAX (gen now (1 + (i * img.width + j))) j i e) d) img.data := by
  show (forLoop img.height (fun i s => forLoop img.width
      (fun j s => ditherRandomPixel img RAND_MAX (gen now) j i s) s) (img.data, 1)).1 = _
  rw [forLoop_nest, forLoop_nest]
  have h := forLoop_counter (img.height * img.width) 1
    (fun p c d => ditherRandomStep img RAND_MAX (gen now c) (p % img.width) (p / img.width) d)
    img.data
  unfold ditherRandomPixel
  rw [h]
  show forLoop _ _ _ = _
  apply forLoop_congr
  intro p _ t
  have : p / img.width * img.width + p % img.width = p := by
    rw [Nat.mul_comm]; exact Nat.div_add_mod p img.width
  rw [this]

end TargaImage

namespace TargaImage

/-- Pixelwise description of the buffer `Dither_Threshold` leaves. -/
theorem Dither_Threshold_chan (img : TargaImage) (hlen : img.data.length = img.width * img.height * 4)
    (x y c : Nat) (hx : x < img.width) (hy : y < img.height) (hc : c < 4) :
    (Dither_Threshold img).2.chan x y c
      = if c < 3 then
          (if Frac.ge (ddiv (luma (img.chan x y 0) (img.chan x y 1) (img.chan x y 2))
            (Frac.ofNat 255)) (dlit 5 10) = true then 255 else 0)
        else img.chan x y 3 :=
  (pixelLoop_spec img (ditherThresholdPixel img)
    (fun (_ _ c r g b a : Nat) =>
      if c < 3 then
        (if Frac.ge (ddiv (luma r g b) (Frac.ofNat 255)) (dlit 5 10) = true then 255 else 0)
      else a)
    (fun x y D _ _ hD => ditherThresholdPixel_spec img x y D hD) hlen).2 x y c hx hy hc

/-- Pixelwise description of the buffer `Dither_Cluster` leaves. -/
theorem Dither_Cluster_chan (img : TargaImage) (hlen : img.data.length = img.width * img.height * 4)
    (x y c : Nat) (hx : x < img.width) (hy : y < img.height) (hc : c < 4) :
    (Dither_Cluster img).2.chan x y c
      = if c < 3 then
          (if Frac.ge (ddiv (luma (img.chan x y 0) (img.chan x y 1) (img.chan x y 2))
            (Frac.ofNat 255)) (maskAt clusterMask (y % 4) (x % 4)) = true then 255 else 0)
        else img.chan x y 3 :=
  (pixelLoop_spec img (ditherClusterPixel img)
    (fun (x y c r g b a : Nat) =>
      if c < 3 then
        (if Frac.ge (ddiv (luma r g b) (Frac.ofNat 255))
            (maskAt clusterMask (y % 4) (x % 4)) = true then 255 else 0)
      else a)
    (fun x y D _ _ hD => ditherClusterPixel_spec img x y D hD) hlen).2 x y c hx hy hc

/-- Pixelwise description of the buffer `Dither_Random` leaves. -/
theorem Dither_Random_chan (RAND_MAX : Nat) (gen : Nat → Nat → Nat) (now : Nat)
    (img : TargaImage) (hlen : img.data.length = img.width * img.height * 4)
    (x y c : Nat) (hx : x < img.width) (hy : y < img.height) (hc : c < 4) :
    (Dither_Random RAND_MAX gen now img).2.chan x y c
      = if c < 3 then
          (if Frac.ge (dadd (ddiv (luma (img.chan x y 0) (img.chan x y 1) (img.chan x y 2))
              (Frac.ofNat 256)) (randNum RAND_MAX (gen now (1 + (y * img.width + x)))))
              (dlit 5 10) = true then 255 else 0)
        else img.chan x y 3 := by
  have key := (pixelLoop_spec img
    (fun j i e => ditherRandomStep img RAND_MAX (gen now (1 + (i * img.width + j))) j i e)
    (fun (x y c r g b a : Nat) =>
      if c < 3 then
        (if Frac.ge (dadd (ddiv (luma r g b) (Frac.ofNat 256))
            (randNum RAND_MAX (gen now (1 + (y * img.width + x))))) (dlit 5 10) = true
          then 255 else 0)
      else a)
    (fun x y D _ _ hD => ditherRandomStep_spec img RAND_MAX _ x y D hD) hlen).2 x y c hx hy hc
  unfold chan
  rw [Dither_Random_data]
  exact key

theorem bw_of_chan (out : TargaImage) (x y : Nat) (t : Bool) (a : Nat)
    (h : ∀ c, c < 4 → out.chan x y c = if c < 3 then (if t = true then 255 else 0) else a) :
    out.isBlackOrWhite x y ∧ out.chan x y 3 = a := by
  have h0 := h 0 (by decide)
  have h1 := h 1 (by decide)
  have h2 := h 2 (by decide)
  have h3 := h 3 (by decide)
  simp only [Nat.lt_irrefl, if_false] at h3
  have e0 : (0 : Nat) < 3 := by decide
  have e1 : (1 : Nat) < 3 := by decide
  have e2 : (2 : Nat) < 3 := by decide
  rw [if_pos e0] at h0
  rw [if_pos e1] at h1
  rw [if_pos e2] at h2
  refine ⟨?_, h3⟩
  unfold isBlackOrWhite
  cases t
  · left
    exact ⟨by simpa using h0, by simpa using h1, by simpa using h2⟩
  · right
    exact ⟨by simpa using h0, by simpa using h1, by simpa using h2⟩

/-- C5. After `Dither_Threshold`, `Dither_Random` (whatever the library
generator, the seed time and `RAND_MAX`) or `Dither_Cluster`, every pixel of
a well-formed image is pure black or pure white and keeps its alpha. -/
theorem Dither_black_or_white (RAND_MAX : Nat) (gen : Nat → Nat → Nat) (now : Nat)
    (img : TargaImage) (hwf : img.WF) (x y : Nat) (hx : x < img.width) (hy : y < img.height) :
    ((Dither_Threshold img).2.isBlackOrWhite x y ∧
      (Dither_Threshold img).2.chan x y 3 = img.chan x y 3) ∧
    ((Dither_Random RAND_MAX gen now img).2.isBlackOrWhite x y ∧
      (Dither_Random RAND_MAX gen now img).2.chan x y 3 = img.chan x y 3) ∧
    ((Dither_Cluster img).2.isBlackOrWhite x y ∧
      (Dither_Cluster img).2.chan x y 3 = img.chan x y 3) :=
  ⟨bw_of_chan _ x y _ _ (fun c hc => Dither_Threshold_chan img hwf.1 x y c hx hy hc),
   bw_of_chan _ x y _ _ (fun c hc => Dither_Random_chan RAND_MAX gen now img hwf.1 x y c hx hy hc),
   bw_of_chan _ x y _ _ (fun c hc => Dither_Cluster_chan img hwf.1 x y c hx hy hc)⟩

/-- Witness for C5: a two-pixel image and a linear congruential generator. -/
theorem Dither_black_or_white_witness :
    ((Dither_Threshold ⟨2, 1, [200, 10, 30, 7, 1, 2, 3, 4]⟩).2.isBlackOrWhite 1 0 ∧
      (Dither_Threshold ⟨2, 1, [200, 10, 30, 7, 1, 2, 3, 4]⟩).2.chan 1 0 3 = 4) ∧
    ((Dither_Random 32767 (fun s k => (s * 1103515245 + k * 12345) % 32768) 5
        ⟨2, 1, [200, 10, 30, 7, 1, 2, 3, 4]⟩).2.isBlackOrWhite 1 0 ∧
      (Dither_Random 32767 (fun s k => (s * 1103515245 + k * 12345) % 32768) 5
        ⟨2, 1, [200, 10, 30, 7, 1, 2, 3, 4]⟩).2.chan 1 0 3 = 4) ∧
    ((Dither_Cluster ⟨2, 1, [200, 10, 30, 7, 1, 2, 3, 4]⟩).2.isBlackOrWhite 1 0 ∧
      (Dither_Cluster ⟨2, 1, [200, 10, 30, 7, 1, 2, 3, 4]⟩).2.chan 1 0 3 = 4) :=
  Dither_black_or_white 32767 (fun s k => (s * 1103515245 + k * 12345) % 32768) 5
    ⟨2, 1, [200, 10, 30, 7, 1, 2, 3, 4]⟩ (by decide) 1 0 (by decide) (by decide)

/-- C4 (amended). For every well-formed image and every pixel,
`Dither_Threshold` leaves the pixel pure black or pure white with its alpha
unchanged: white when `30 R + 59 G + 11 B > 12750` and black when
`30 R + 59 G + 11 B < 12750`. A 4x4 image of `(255, 0, 0, 255)` pixels
becomes `(0, 0, 0, 255)` at every pixel. -/
theorem Dither_Threshold_spec :
    (∀ (img : TargaImage) (x y : Nat), img.WF → x < img.width → y < img.height →
      (Dither_Threshold img).2.isBlackOrWhite x y ∧
      (12750 < 30 * img.chan x y 0 + 59 * img.chan x y 1 + 11 * img.chan x y 2 →
        (Dither_Threshold img).2.chan x y 0 = 255 ∧ (Dither_Threshold img).2.chan x y 1 = 255 ∧
        (Dither_Threshold img).2.chan x y 2 = 255) ∧
      (30 * img.chan x y 0 + 59 * img.chan x y 1 + 11 * img.chan x y 2 < 12750 →
        (Dither_Threshold img).2.chan x y 0 = 0 ∧ (Dither_Threshold img).2.chan x y 1 = 0 ∧
        (Dither_Threshold img).2.chan x y 2 = 0) ∧
      (Dither_Threshold img).2.chan x y 3 = img.chan x y 3) ∧
    (∀ x y : Nat, x < 4 → y < 4 →
      (Dither_Threshold ⟨4, 4, (List.replicate 16 [255, 0, 0, 255]).flatten⟩).2.chan x y 0 = 0 ∧
      (Dither_Threshold ⟨4, 4, (List.replicate 16 [255, 0, 0, 255]).flatten⟩).2.chan x y 1 = 0 ∧
      (Dither_Threshold ⟨4, 4, (List.replicate 16 [255, 0, 0, 255]).flatten⟩).2.chan x y 2 = 0 ∧
      (Dither_Threshold ⟨4, 4, (List.replicate 16 [255, 0, 0, 255]).flatten⟩).2.chan x y 3 = 255) := by
  have gen : ∀ (img : TargaImage) (x y : Nat), img.WF → x < img.width → y < img.height →
      (Dither_Threshold img).2.isBlackOrWhite x y ∧
      (12750 < 30 * img.chan x y 0 + 59 * img.chan x y 1 + 11 * img.chan x y 2 →
        (Dither_Threshold img).2.chan x y 0 = 255 ∧ (Dither_Threshold img).2.chan x y 1 = 255 ∧
        (Dither_Threshold img).2.chan x y 2 = 255) ∧
      (30 * img.chan x y 0 + 59 * img.chan x y 1 + 11 * img.chan x y 2 < 12750 →
        (Dither_Threshold img).2.chan x y 0 = 0 ∧ (Dither_Threshold img).2.chan x y 1 = 0 ∧
        (Dither_Threshold img).2.chan x y 2 = 0) ∧
      (Dither_Threshold img).2.chan x y 3 = img.chan x y 3 := by
    intro img x y hwf hx hy
    have hch := fun c hc => Dither_Threshold_chan img hwf.1 x y c hx hy hc
    have hb : ∀ c, img.chan x y c < 256 := fun c => rd_lt_of_forall _ hwf.2 _
    obtain ⟨hw, hk⟩ := threshold_cond (img.chan x y 0) (img.chan x y 1) (img.chan x y 2)
      (hb 0) (hb 1) (hb 2)
    obtain ⟨hbw, ha⟩ := bw_of_chan _ x y _ _ hch
    refine ⟨hbw, ?_, ?_, ha⟩
    · intro h
      have ht := hw h
      have h0 := hch 0 (by decide)
      have h1 := hch 1 (by decide)
      have h2 := hch 2 (by decide)
      rw [ht] at h0 h1 h2
      exact ⟨by simpa using h0, by simpa using h1, by simpa using h2⟩
    · intro h
      have ht := hk h
      have h0 := hch 0 (by decide)
      have h1 := hch 1 (by decide)
      have h2 := hch 2 (by decide)
      rw [ht] at h0 h1 h2
      exact ⟨by simpa using h0, by simpa using h1, by simpa using h2⟩
  refine ⟨gen, ?_⟩
  intro x y hx hy
  have hwf : (TargaImage.mk 4 4 (List.replicate 16 [255, 0, 0, 255]).flatten).WF := by decide
  obtain ⟨_, _, hk, ha⟩ := gen ⟨4, 4, (List.replicate 16 [255, 0, 0, 255]).flatten⟩ x y hwf hx hy
  have hc : (TargaImage.mk 4 4 (List.replicate 16 [255, 0, 0, 255]).flatten).chan x y 0 = 255 ∧
      (TargaImage.mk 4 4 (List.replicate 16 [255, 0, 0, 255]).flatten).chan x y 1 = 0 ∧
      (TargaImage.mk 4 4 (List.replicate 16 [255, 0, 0, 255]).flatten).chan x y 2 = 0 ∧
      (TargaImage.mk 4 4 (List.replicate 16 [255, 0, 0, 255]).flatten).chan x y 3 = 255 := by
    interval_cases x <;> interval_cases y <;> decide
  obtain ⟨c0, c1, c2, c3⟩ := hc
  rw [c0, c1, c2] at hk
  rw [c3] at ha
  obtain ⟨k0, k1, k2⟩ := hk (by decide)
  exact ⟨k0, k1, k2, ha⟩

/-- Witness for C4 (amended): a white and a black pixel. -/
theorem Dither_Threshold_spec_witness :
    ((Dither_Threshold ⟨2, 1, [200, 200, 200, 7, 255, 0, 0, 9]⟩).2.chan 0 0 0 = 255 ∧
      (Dither_Threshold ⟨2, 1, [200, 200, 200, 7, 255, 0, 0, 9]⟩).2.chan 0 0 1 = 255 ∧
      (Dither_Threshold ⟨2, 1, [200, 200, 200, 7, 255, 0, 0, 9]⟩).2.chan 0 0 2 = 255) ∧
    ((Dither_Threshold ⟨2, 1, [200, 200, 200, 7, 255, 0, 0, 9]⟩).2.chan 1 0 0 = 0 ∧
      (Dither_Threshold ⟨2, 1, [200, 200, 200, 7, 255, 0, 0, 9]⟩).2.chan 1 0 1 = 0 ∧
      (Dither_Threshold ⟨2, 1, [200, 200, 200, 7, 255, 0, 0, 9]⟩).2.chan 1 0 2 = 0) :=
  ⟨(Dither_Threshold_spec.1 ⟨2, 1, [200, 200, 200, 7, 255, 0, 0, 9]⟩ 0 0 (by decide) (by decide)
      (by decide)).2.1 (by decide),
   (Dither_Threshold_spec.1 ⟨2, 1, [200, 200, 200, 7, 255, 0, 0, 9]⟩ 1 0 (by decide) (by decide)
      (by decide)).2.2.1 (by decide)⟩

set_option maxRecDepth 100000 in
/-- C4 (counterexample). The pixel `(0, 201, 81, 255)` has
`30 R + 59 G + 11 B = 12750`, that is `(0.30 R + 0.59 G + 0.11 B) / 255 = 0.5`
exactly, and `Dither_Threshold` makes it black: in `double` the luma is
`127.49999999999999` and the quotient by 255 is below `0.5`. -/
theorem Dither_Threshold_tie_black :
    ((0.30 : ℚ) * 0 + 0.59 * 201 + 0.11 * 81) / 255 ≥ 0.5 ∧
    30 * 0 + 59 * 201 + 11 * 81 ≥ 12750 ∧
    (Dither_Threshold ⟨1, 1, [0, 201, 81, 255]⟩).2.data = [0, 0, 0, 255] := by
  refine ⟨by norm_num, by decide, by decide⟩

end TargaImage

/-! ## Difference and the compositing operators -/

namespace TargaImage

theorem rgbaToRgbChannel_le (c alpha : Nat) : rgbaToRgbChannel c alpha ≤ 255 := by
  unfold rgbaToRgbChannel
  by_cases h : alpha = 0
  · rw [if_pos h]; exact Nat.zero_le _
  · rw [if_neg h]
    simp only
    split_ifs with h1 h2
    · exact Nat.zero_le _
    · exact Nat.le_refl _
    · omega

theorem natAbs_sub_le (a b : Nat) (ha : a ≤ 255) (hb : b ≤ 255) :
    Int.natAbs ((a : Int) - (b : Int)) ≤ 255 := by omega

/-- Effect of one step of the loop of `Difference` on the pixel `p`. -/
theorem differencePixel_spec (other : List Nat) (p : Nat) (D : List Nat)
    (hD : 4 * p + 3 < D.length) :
    (differencePixel other (4 * p) D).length = D.length ∧
    (∀ k, k / 4 ≠ p → rd (differencePixel other (4 * p) D) k = rd D k) ∧
    (∀ c, c < 4 → rd (differencePixel other (4 * p) D) (4 * p + c)
      = (fun (p c r g b a : Nat) =>
          if c = 0 then Int.natAbs ((rgbaToRgbChannel r a : Int)
              - (rgbaToRgbChannel (rd other (4 * p)) (rd other (4 * p + 3)) : Int))
          else if c = 1 then Int.natAbs ((rgbaToRgbChannel g a : Int)
              - (rgbaToRgbChannel (rd other (4 * p + 1)) (rd other (4 * p + 3)) : Int))
          else if c = 2 then Int.natAbs ((rgbaToRgbChannel b a : Int)
              - (rgbaToRgbChannel (rd other (4 * p + 2)) (rd other (4 * p + 3)) : Int))
          else 255) p c
          (rd D (4 * p)) (rd D (4 * p + 1)) (rd D (4 * p + 2)) (rd D (4 * p + 3))) := by
  have m : ∀ a b c d : Nat, Int.natAbs ((rgbaToRgbChannel a b : Int)
      - (rgbaToRgbChannel c d : Int)) % 256
      = Int.natAbs ((rgbaToRgbChannel a b : Int) - (rgbaToRgbChannel c d : Int)) :=
    fun a b c d => Nat.mod_eq_of_lt (Nat.lt_succ_of_le
      (natAbs_sub_le _ _ (rgbaToRgbChannel_le a b) (rgbaToRgbChannel_le c d)))
  refine ⟨by simp [differencePixel, wr_length], ?_, ?_⟩
  · intro k hk
    have h0 : ¬ (4 * p = k) := by omega
    have h1 : ¬ (4 * p + 1 = k) := by omega
    have h2 : ¬ (4 * p + 2 = k) := by omega
    have h3 : ¬ (4 * p + 3 = k) := by omega
    simp [differencePixel, rd_wr, h0, h1, h2, h3]
  · intro c hc
    have h0 : 4 * p < D.length := by omega
    have h1 : 4 * p + 1 < D.length := by omega
    have h2 : 4 * p + 2 < D.length := by omega
    interval_cases c
    · simp [differencePixel, rd_wr, wr_length, RGBA_To_RGB, h0, h1, h2, hD, m]
      exact m _ _ _ _
    · simp [differencePixel, rd_wr, wr_length, RGBA_To_RGB, h0, h1, h2, hD, m]
      exact m _ _ _ _
    · simp [differencePixel, rd_wr, wr_length, RGBA_To_RGB, h0, h1, h2, hD, m]
      exact m _ _ _ _
    · simp [differencePixel, rd_wr, wr_length, RGBA_To_RGB, h0, h1, h2, hD]

/-- C6. For two images of equal width and height (the receiver
well-formed), `Difference` succeeds and leaves in every pixel of the receiver
`|rgbA - rgbB|` channel by channel, `rgbA` and `rgbB` being the
`RGBA_To_RGB` values of the two operand pixels, and alpha 255; the argument
image is unchanged. `Difference(img, img)` yields `(0, 0, 0, 255)` at every
pixel. -/
theorem Difference_spec :
    (∀ (img other : TargaImage) (x y : Nat), img.WF → img.width = other.width →
      img.height = other.height → x < img.width → y < img.height →
      (Difference img (some other)).1 = true ∧
      (Difference img (some other)).2.2 = some other ∧
      (Difference img (some other)).2.1.width = img.width ∧
      (Difference img (some other)).2.1.height = img.height ∧
      (∀ c, c < 3 → (Difference img (some other)).2.1.chan x y c
        = Int.natAbs ((rgbaToRgbChannel (img.chan x y c) (img.chan x y 3) : Int)
            - (rgbaToRgbChannel (other.chan x y c) (other.chan x y 3) : Int))) ∧
      (Difference img (some other)).2.1.chan x y 3 = 255) ∧
    (∀ (img : TargaImage) (x y : Nat), img.WF → x < img.width → y < img.height →
      (Difference img (some img)).2.1.chan x y 0 = 0 ∧
      (Difference img (some img)).2.1.chan x y 1 = 0 ∧
      (Difference img (some img)).2.1.chan x y 2 = 0 ∧
      (Difference img (some img)).2.1.chan x y 3 = 255) := by
  have gen : ∀ (img other : TargaImage) (x y : Nat), img.WF → img.width = other.width →
      img.height = other.height → x < img.width → y < img.height →
      (Difference img (some other)).1 = true ∧
      (Difference img (some other)).2.2 = some other ∧
      (Difference img (some other)).2.1.width = img.width ∧
      (Difference img (some other)).2.1.height = img.height ∧
      (∀ c, c < 3 → (Difference img (some other)).2.1.chan x y c
        = Int.natAbs ((rgbaToRgbChannel (img.chan x y c) (img.chan x y 3) : Int)
            - (rgbaToRgbChannel (other.chan x y c) (other.chan x y 3) : Int))) ∧
      (Difference img (some other)).2.1.chan x y 3 = 255 := by
    intro img other x y hwf hw hh hx hy
    have hcond : ¬ (img.width ≠ other.width ∨ img.height ≠ other.height) := by
      intro h; rcases h with h | h
      · exact h hw
      · exact h hh
    have hres : Difference img (some other)
        = (true, TargaImage.mk img.width img.height (forLoop (img.width * img.height)
            (fun k data => differencePixel other.data (4 * k) data) img.data), some other) := by
      unfold Difference
      simp only [if_neg hcond]
    have hp : y * img.width + x < img.width * img.height := by nlinarith
    have key := (forLoop_pixelwise (img.width * img.height)
      (fun k data => differencePixel other.data (4 * k) data)
      (fun (p c r g b a : Nat) =>
          if c = 0 then Int.natAbs ((rgbaToRgbChannel r a : Int)
              - (rgbaToRgbChannel (rd other.data (4 * p)) (rd other.data (4 * p + 3)) : Int))
          else if c = 1 then Int.natAbs ((rgbaToRgbChannel g a : Int)
              - (rgbaToRgbChannel (rd other.data (4 * p + 1)) (rd other.data (4 * p + 3)) : Int))
          else if c = 2 then Int.natAbs ((rgbaToRgbChannel b a : Int)
              - (rgbaToRgbChannel (rd other.data (4 * p + 2)) (rd other.data (4 * p + 3)) : Int))
          else 255)
      (fun p D _ hD => differencePixel_spec other.data p D hD) img.data
      (by rw [hwf.1]; omega)).2.2 (y * img.width + x)
    have hout : ∀ (E : List Nat) (c : Nat), (TargaImage.mk img.width img.height E).chan x y c
        = rd E (4 * (y * img.width + x) + c) := by
      intro E c; unfold chan; rw [Get_RGBA_eq]
    have hin : ∀ c, img.chan x y c = rd img.data (4 * (y * img.width + x) + c) := by
      intro c; unfold chan; rw [Get_RGBA_eq]
    have hot : ∀ c, other.chan x y c = rd other.data (4 * (y * img.width + x) + c) := by
      intro c; unfold chan; rw [Get_RGBA_eq, hw]
    rw [hres]
    refine ⟨rfl, rfl, rfl, rfl, ?_, ?_⟩
    · intro c hc
      have h := key c hp (by omega)
      show (TargaImage.mk img.width img.height _).chan x y c = _
      rw [hout, hin, hin, hot, hot, h]
      interval_cases c <;> simp
    · have h := key 3 hp (by decide)
      show (TargaImage.mk img.width img.height _).chan x y 3 = _
      rw [hout, h]
      simp
  refine ⟨gen, ?_⟩
  intro img x y hwf hx hy
  obtain ⟨_, _, _, _, hc, ha⟩ := gen img img x y hwf rfl rfl hx hy
  have h0 := hc 0 (by decide)
  have h1 := hc 1 (by decide)
  have h2 := hc 2 (by decide)
  rw [sub_self] at h0 h1 h2
  exact ⟨h0, h1, h2, ha⟩

/-- Witness for C6. -/
theorem Difference_spec_witness :
    (Difference ⟨1, 1, [10, 20, 30, 128]⟩ (some ⟨1, 1, [1, 2, 3, 7]⟩)).1 = true ∧
    (Difference ⟨1, 1, [10, 20, 30, 128]⟩ (some ⟨1, 1, [1, 2, 3, 7]⟩)).2.1.chan 0 0 3 = 255 ∧
    (Difference ⟨1, 1, [10, 20, 30, 128]⟩ (some ⟨1, 1, [10, 20, 30, 128]⟩)).2.1.chan 0 0 0 = 0 :=
  ⟨(Difference_spec.1 ⟨1, 1, [10, 20, 30, 128]⟩ ⟨1, 1, [1, 2, 3, 7]⟩ 0 0 (by decide) rfl rfl
      (by decide) (by decide)).1,
   (Difference_spec.1 ⟨1, 1, [10, 20, 30, 128]⟩ ⟨1, 1, [1, 2, 3, 7]⟩ 0 0 (by decide) rfl rfl
      (by decide) (by decide)).2.2.2.2.2,
   (Difference_spec.2 ⟨1, 1, [10, 20, 30, 128]⟩ 0 0 (by decide) (by decide) (by decide)).1⟩

end TargaImage

namespace TargaImage

/-- C7. When the widths or the heights of the two images differ, each of
`Comp_Over`, `Comp_In`, `Comp_Out`, `Comp_Atop`, `Comp_Xor` and `Difference`
returns `false` and leaves both images, dimensions and every byte, as they
were. -/
theorem binary_ops_size_mismatch (img other : TargaImage)
    (h : img.width ≠ other.width ∨ img.height ≠ other.height) :
    Comp_Over img other = (false, img, other) ∧
    Comp_In img other = (false, img, other) ∧
    Comp_Out img other = (false, img, other) ∧
    Comp_Atop img other = (false, img, other) ∧
    Comp_Xor img other = (false, img, other) ∧
    Difference img (some other) = (false, img, some other) := by
  refine ⟨?_, ?_, ?_, ?_, ?_, ?_⟩
  · unfold Comp_Over; rw [if_pos h]
  · unfold Comp_In; rw [if_pos h]
  · unfold Comp_Out; rw [if_pos h]
  · unfold Comp_Atop; rw [if_pos h]
  · unfold Comp_Xor; rw [if_pos h]
  · unfold Difference; simp only [if_pos h]

/-- Witness for C7: a 1x1 image against a 2x1 image. -/
theorem binary_ops_size_mismatch_witness :
    Comp_Over ⟨1, 1, [1, 2, 3, 4]⟩ ⟨2, 1, [5, 6, 7, 8, 9, 10, 11, 12]⟩
      = (false, ⟨1, 1, [1, 2, 3, 4]⟩, ⟨2, 1, [5, 6, 7, 8, 9, 10, 11, 12]⟩) :=
  (binary_ops_size_mismatch ⟨1, 1, [1, 2, 3, 4]⟩ ⟨2, 1, [5, 6, 7, 8, 9, 10, 11, 12]⟩
    (Or.inl (by decide))).1

/-- C8 (the code at the failing input). Opaque red over opaque blue: the
Porter-Duff result is the top pixel `(255, 0, 0, 255)`, while `Comp_Over`
reports failure and leaves the top image cleared to `(0, 0, 0, 0)`. -/
theorem Comp_Over_clears_to_black :
    Comp_Over ⟨1, 1, [255, 0, 0, 255]⟩ ⟨1, 1, [0, 0, 255, 255]⟩
      = (false, ⟨1, 1, [0, 0, 0, 0]⟩, ⟨1, 1, [0, 0, 255, 255]⟩) := by
  decide

/-- C9 (the code at the failing input). A fully opaque top pixel
`(10, 20, 30, 255)` does not survive `Comp_Over`: the top image comes back as
`(0, 0, 0, 0)`. -/
theorem Comp_Over_opaque_top_changed :
    (Comp_Over ⟨1, 1, [10, 20, 30, 255]⟩ ⟨1, 1, [1, 2, 3, 4]⟩).2.1.data = [0, 0, 0, 0] ∧
    (Comp_Over ⟨1, 1, [10, 20, 30, 255]⟩ ⟨1, 1, [1, 2, 3, 4]⟩).2.1
      ≠ ⟨1, 1, [10, 20, 30, 255]⟩ := by
  decide

/-- C10. After `Half_Size` the width of the image is `⌊width / 2⌋` and its
height is `⌊height / 2⌋`, for every image, in particular for `width ≥ 1` and
`height ≥ 1`: the unpaired last row or column of an odd dimension is dropped. -/
theorem Half_Size_dimensions (img : TargaImage) :
    (Half_Size img).2.width = img.width / 2 ∧ (Half_Size img).2.height = img.height / 2 :=
  ⟨rfl, rfl⟩

end TargaImage

/-! ## Half_Size: the allocated length; Filter_Gaussian_N: the kernel size -/

namespace TargaImage

/-- C12 (the code at the failing input). For a 6x3 image the new width and
height are 3 and 1, so `newWidth * newHeight * 4 = 12`, while the buffer
`Half_Size` allocates with `width / 2 * height / 2 * 4` has 16 cells. -/
theorem Half_Size_allocation_6x3 :
    (Half_Size ⟨6, 3, List.replicate 72 0⟩).2.data.length = 16 ∧
    (Half_Size ⟨6, 3, List.replicate 72 0⟩).2.width
      * (Half_Size ⟨6, 3, List.replicate 72 0⟩).2.height * 4 = 12 := by
  decide

set_option maxRecDepth 100000 in
/-- C15 (the code at the failing input). `Filter_Gaussian_N(2)` on a
one-pixel image `(100, 100, 100, 255)` returns `true` and changes the buffer
to `(25, 25, 25, 255)`: an even `N` is not rejected. -/
theorem Filter_Gaussian_N_even_accepted :
    Filter_Gaussian_N 2 ⟨1, 1, [100, 100, 100, 255]⟩ = (true, ⟨1, 1, [25, 25, 25, 255]⟩) := by
  decide

end TargaImage

/-! ## Loops that fill a fresh buffer -/

/-- A loop whose `p`-th iteration writes only the `s` cells that start at
`s * p`, with values `V p c` that do not depend on the buffer, leaves
`V p c` in cell `s * p + c`. -/
theorem forLoop_fill (s n : Nat) (body : Nat → List Nat → List Nat) (V : Nat → Nat → Nat)
    (hbody : ∀ p D, p < n → s * p + s ≤ D.length →
      (body p D).length = D.length ∧
      (∀ k, (k < s * p ∨ s * p + s ≤ k) → rd (body p D) k = rd D k) ∧
      (∀ c, c < s → rd (body p D) (s * p + c) = V p c))
    (D : List Nat) (hn : s * n ≤ D.length) :
    (forLoop n body D).length = D.length ∧
    (∀ k, s * n ≤ k → rd (forLoop n body D) k = rd D k) ∧
    (∀ p c, p < n → c < s → rd (forLoop n body D) (s * p + c) = V p c) := by
  induction n with
  | zero =>
    refine ⟨rfl, fun _ _ => rfl, ?_⟩
    intro p c hp
    exact absurd hp (Nat.not_lt_zero p)
  | succ n ih =>
    rw [Nat.mul_succ] at hn
    obtain ⟨ihl, ihk, ihp⟩ := ih (fun p E hp hE => hbody p E (Nat.lt_succ_of_lt hp) hE) (by omega)
    obtain ⟨hbl, hbk, hbp⟩ := hbody n (forLoop n body D) (Nat.lt_succ_self n) (by omega)
    rw [forLoop_succ]
    refine ⟨by rw [hbl, ihl], ?_, ?_⟩
    · intro k hk
      rw [Nat.mul_succ] at hk
      rw [hbk k (by omega), ihk k (by omega)]
    · intro p c hp hc
      by_cases hpn : p = n
      · subst hpn
        exact hbp c hc
      · have hlt : p < n := by omega
        have h1 : s * (p + 1) ≤ s * n := Nat.mul_le_mul_left s hlt
        rw [Nat.mul_succ] at h1
        rw [hbk (s * p + c) (by omega), ihp p c hlt hc]

theorem rd_replicate_zero (n k : Nat) : rd (List.replicate n 0) k = 0 := by
  unfold rd
  rw [List.getD_eq_getElem?_getD]
  by_cases h : k < n
  · simp [List.getElem?_replicate, h]
  · simp [List.getElem?_replicate, h]

namespace TargaImage

/-- The buffer the constructor `TargaImage(w, h, d)` builds. -/
theorem ofBuffer_spec (w h : Nat) (d : List Nat) :
    (ofBuffer w h d).data.length = w * h * 4 ∧
    ∀ k, k < w * h * 4 → rd (ofBuffer w h d).data k = rd d k % 256 := by
  have key := forLoop_fill 1 (w * h * 4) (fun i data => wr data i (rd d i))
    (fun p _ => rd d p % 256)
    (by
      intro p D _ hD
      refine ⟨wr_length _ _ _, ?_, ?_⟩
      · intro k hk
        rw [rd_wr]
        have : ¬ (p = k ∧ p < D.length) := by omega
        rw [if_neg this]
      · intro c hc
        have hc0 : c = 0 := by omega
        subst hc0
        rw [rd_wr]
        have : (p = 1 * p + 0 ∧ p < D.length) := by omega
        rw [if_pos this])
    (List.replicate (w * h * 4) 0) (by simp)
  obtain ⟨kl, _, kp⟩ := key
  refine ⟨?_, ?_⟩
  · show (forLoop (w * h * 4) (fun i data => wr data i (rd d i))
      (List.replicate (w * h * 4) 0)).length = w * h * 4
    rw [kl]; simp
  · intro k hk
    have := kp k 0 hk (by decide)
    simp only [Nat.one_mul, Nat.add_zero] at this
    exact this

/-- Effect of one step of the loops of `Reverse_Rows` on the buffer `dest`. -/
theorem reverseRowsPixel_spec (img : TargaImage) (x y : Nat) (D : List Nat)
    (hD : img.Get_RGBA x y + 3 < D.length) :
    (reverseRowsPixel img x y D).length = D.length ∧
    (∀ k, k / 4 ≠ y * img.width + x → rd (reverseRowsPixel img x y D) k = rd D k) ∧
    (∀ c, c < 4 → rd (reverseRowsPixel img x y D) (img.Get_RGBA x y + c)
      = rd img.data ((img.height - y - 1) * img.width * 4 + x * 4 + c) % 256) := by
  have he := img.Get_RGBA_eq x y
  have ho : y * img.width * 4 + x * 4 = img.Get_RGBA x y := by unfold Get_RGBA; omega
  refine ⟨by simp [reverseRowsPixel, wr_length], ?_, ?_⟩
  · intro k hk
    have h0 : ¬ (img.Get_RGBA x y = k) := by omega
    have h1 : ¬ (img.Get_RGBA x y + 1 = k) := by omega
    have h2 : ¬ (img.Get_RGBA x y + 2 = k) := by omega
    have h3 : ¬ (img.Get_RGBA x y + 3 = k) := by omega
    simp [reverseRowsPixel, rd_wr, ho, h0, h1, h2, h3]
  · intro c hc
    have h0 : img.Get_RGBA x y < D.length := by omega
    have h1 : img.Get_RGBA x y + 1 < D.length := by omega
    have h2 : img.Get_RGBA x y + 2 < D.length := by omega
    interval_cases c <;> simp [reverseRowsPixel, rd_wr, wr_length, ho, h0, h1, h2, hD]

/-- The image `Reverse_Rows` returns, channel by channel. -/
theorem Reverse_Rows_chan (img : TargaImage) (hwf : img.WF) (x y c : Nat)
    (hx : x < img.width) (hy : y < img.height) (hc : c < 4) :
    (Reverse_Rows img).2.chan x y c = img.chan x (img.height - 1 - y) c := by
  obtain ⟨hlen, hbytes⟩ := hwf
  have key := pixelLoop_spec ⟨img.width, img.height, List.replicate (img.width * img.height * 4) 0⟩
    (reverseRowsPixel img)
    (fun (x y c _ _ _ _ : Nat) =>
      rd img.data ((img.height - y - 1) * img.width * 4 + x * 4 + c) % 256)
    (fun x y D _ _ hD => reverseRowsPixel_spec img x y D hD) (by simp)
  obtain ⟨kl, kp⟩ := key
  have hk := kp x y c hx hy hc
  have hidx : img.Get_RGBA x y + c < img.width * img.height * 4 := by
    rw [Get_RGBA_eq]
    have : y * img.width + x < img.height * img.width := by nlinarith
    nlinarith
  have hob := (ofBuffer_spec img.width img.height
    (forLoop img.height (fun i d => forLoop img.width (fun j e => reverseRowsPixel img j i e) d)
      (List.replicate (img.width * img.height * 4) 0))).2 _ hidx
  show rd (ofBuffer img.width img.height _).data (img.Get_RGBA x y + c) = _
  rw [hob]
  have hk' : rd (forLoop img.height (fun i d => forLoop img.width
      (fun j e => reverseRowsPixel img j i e) d) (List.replicate (img.width * img.height * 4) 0))
      (img.Get_RGBA x y + c)
      = rd img.data ((img.height - y - 1) * img.width * 4 + x * 4 + c) % 256 := hk
  rw [hk']
  have hb : ∀ k, rd img.data k < 256 := fun k => rd_lt_of_forall _ hbytes _
  rw [Nat.mod_eq_of_lt (hb _), Nat.mod_eq_of_lt (hb _)]
  unfold chan Get_RGBA
  congr 1
  have : img.height - y - 1 = img.height - 1 - y := by omega
  rw [this]
  ring

theorem Reverse_Rows_WF (img : TargaImage) : (Reverse_Rows img).2.WF := by
  refine ⟨(ofBuffer_spec _ _ _).1, ?_⟩
  show ∀ b ∈ forLoop _ _ _, b < 256
  apply forLoop_inv (fun D => ∀ b ∈ D, b < 256)
  · intro i D _ hD
    exact wr_bytes _ _ _ hD
  · intro b hb
    rw [List.eq_of_mem_replicate hb]
    decide

/-- C19. For every well-formed image, `Reverse_Rows` leaves the receiver as
it was and returns an image of the same width and height whose row `y` is
row `height - 1 - y` of the receiver; reversing the result again gives back
the original image, byte for byte. -/
theorem Reverse_Rows_spec (img : TargaImage) (hwf : img.WF) :
    (Reverse_Rows img).1 = img ∧
    (Reverse_Rows img).2.width = img.width ∧
    (Reverse_Rows img).2.height = img.height ∧
    (∀ x y c, x < img.width → y < img.height → c < 4 →
      (Reverse_Rows img).2.chan x y c = img.chan x (img.height - 1 - y) c) ∧
    (Reverse_Rows (Reverse_Rows img).2).2 = img := by
  refine ⟨rfl, rfl, rfl, fun x y c hx hy hc => Reverse_Rows_chan img hwf x y c hx hy hc, ?_⟩
  have hwf1 := Reverse_Rows_WF img
  have hwf2 := Reverse_Rows_WF (Reverse_Rows img).2
  refine mk_eq_of_data (Reverse_Rows (Reverse_Rows img).2).2 img rfl rfl ?_
  apply data_ext img _ _ hwf2.1 hwf.1
  intro x y c hx hy hc
  have h2 := Reverse_Rows_chan (Reverse_Rows img).2 hwf1 x y c hx hy hc
  have h1 := Reverse_Rows_chan img hwf x (img.height - 1 - y) c hx (by omega) hc
  have e2 : rd (Reverse_Rows (Reverse_Rows img).2).2.data (img.Get_RGBA x y + c)
      = (Reverse_Rows (Reverse_Rows img).2).2.chan x y c := rfl
  have e0 : rd img.data (img.Get_RGBA x y + c) = img.chan x y c := rfl
  rw [e2, e0, h2]
  have e1 : (Reverse_Rows img).2.chan x ((Reverse_Rows img).2.height - 1 - y) c
      = (Reverse_Rows img).2.chan x (img.height - 1 - y) c := rfl
  rw [e1, h1]
  have : img.height - 1 - (img.height - 1 - y) = y := by omega
  rw [this]

/-- Witness for C19: three rows of one pixel. -/
theorem Reverse_Rows_spec_witness :
    (Reverse_Rows ⟨1, 3, [1, 2, 3, 4, 5, 6, 7, 8, 9, 10, 11, 12]⟩).2.chan 0 0 1 = 10 ∧
    (Reverse_Rows (Reverse_Rows ⟨1, 3, [1, 2, 3, 4, 5, 6, 7, 8, 9, 10, 11, 12]⟩).2).2
      = ⟨1, 3, [1, 2, 3, 4, 5, 6, 7, 8, 9, 10, 11, 12]⟩ :=
  ⟨(Reverse_Rows_spec ⟨1, 3, [1, 2, 3, 4, 5, 6, 7, 8, 9, 10, 11, 12]⟩ (by decide)).2.2.2.1
      0 0 1 (by decide) (by decide) (by decide),
   (Reverse_Rows_spec ⟨1, 3, [1, 2, 3, 4, 5, 6, 7, 8, 9, 10, 11, 12]⟩ (by decide)).2.2.2.2⟩

end TargaImage

/-! ## RGBA_To_RGB and To_RGB -/

namespace Frac

theorem floor_ge (a : Frac) (ha : 0 < a.den) (n : ℤ) (h : (n : ℚ) ≤ a.toRat) : n ≤ floor a := by
  have hq : (0 : ℚ) < a.den := by exact_mod_cast ha
  unfold toRat at h
  rw [le_div_iff₀ hq] at h
  have i1 : n * (a.den : ℤ) ≤ a.num := by exact_mod_cast h
  exact Int.le_ediv_of_mul_le (by exact_mod_cast ha) i1

theorem floor_le (a : Frac) (ha : 0 < a.den) (n : ℤ) (h : a.toRat < (n : ℚ) + 1) :
    floor a ≤ n := by
  have hq : (0 : ℚ) < a.den := by exact_mod_cast ha
  unfold toRat at h
  rw [div_lt_iff₀ hq] at h
  have i2 : a.num < (n + 1) * (a.den : ℤ) := by exact_mod_cast h
  have := Int.ediv_lt_of_lt_mul (by exact_mod_cast ha) i2
  unfold floor
  omega

end Frac

namespace TargaImage

/-- The value `RGBA_To_RGB` computes for a channel `c` under a non-zero
`alpha`: `min(255, floor(c * 255 / alpha))` or one less, and exactly that
value when `alpha` does not divide `255 * c`. -/
theorem rgbaToRgbChannel_near (c alpha : Nat) (hc : c < 256) (ha : 0 < alpha)
    (ha2 : alpha < 256) :
    (rgbaToRgbChannel c alpha = min 255 (c * 255 / alpha) ∨
      rgbaToRgbChannel c alpha + 1 = min 255 (c * 255 / alpha)) ∧
    (¬ alpha ∣ c * 255 → rgbaToRgbChannel c alpha = min 255 (c * 255 / alpha)) := by
  have hcq : (c : ℚ) ≤ 255 := by exact_mod_cast Nat.le_of_lt_succ hc
  have hc0 : (0 : ℚ) ≤ c := by positivity
  have haq : (0 : ℚ) < alpha := by exact_mod_cast ha
  have haq1 : (1 : ℚ) ≤ alpha := by exact_mod_cast ha
  have haq2 : (alpha : ℚ) ≤ 255 := by exact_mod_cast Nat.le_of_lt_succ ha2
  -- the scale `255 / alpha` in `float`
  have hs : (Frac.div (Frac.ofNat 255) (Frac.ofNat alpha)).toRat = 255 / (alpha : ℚ) := by
    rw [Frac.toRat_div_ofNat _ alpha ha, Frac.toRat_ofNat]; norm_num
  have hsd : 0 < (Frac.div (Frac.ofNat 255) (Frac.ofNat alpha)).den :=
    Frac.div_ofNat_den_pos _ alpha Nat.one_pos ha
  have hinv : (255 : ℚ) / alpha ≤ 255 := by
    rw [div_le_iff₀ haq]; nlinarith
  have hinv0 : (0 : ℚ) ≤ 255 / alpha := by positivity
  have hinv1 : (1 : ℚ) ≤ 255 / alpha := by
    rw [le_div_iff₀ haq]; linarith
  have hz1 : (2 : ℚ) ^ ((8 : ℤ) - ((24 : ℕ) : ℤ) - 1) = 1 / 131072 := by norm_num
  have hz2 : (2 : ℚ) ^ ((16 : ℤ) - ((24 : ℕ) : ℤ) - 1) = 1 / 512 := by norm_num
  have e1 := roundFrac_err 24 (-149) _ hsd 8 (by
    rw [hs, abs_of_nonneg hinv0]; norm_num; linarith) (by norm_num)
  rw [hs, hz1, abs_le] at e1
  set sc := fdiv (Frac.ofNat 255) (Frac.ofNat alpha) with hsc
  have e1' : -(1 / 131072 : ℚ) ≤ sc.toRat - 255 / alpha ∧ sc.toRat - 255 / alpha ≤ 1 / 131072 := e1
  have hscd : 0 < sc.den := fl32_den_pos _
  -- the product in `float`
  have hp : (Frac.mul (Frac.ofNat c) sc).toRat = c * sc.toRat := by
    rw [Frac.toRat_mul, Frac.toRat_ofNat]
  have hpd : 0 < (Frac.mul (Frac.ofNat c) sc).den := Frac.mul_den_pos _ _ Nat.one_pos hscd
  have hpb1 : (c : ℚ) * sc.toRat ≤ c * (255 + 1 / 131072) := by
    apply mul_le_mul_of_nonneg_left _ hc0; linarith [e1'.2]
  have hpb0 : (0 : ℚ) ≤ c * sc.toRat := by
    apply mul_nonneg hc0; linarith [e1'.1, hinv1]
  have e2 := roundFrac_err 24 (-149) _ hpd 16 (by
    rw [hp, abs_of_nonneg hpb0]; norm_num; nlinarith) (by norm_num)
  rw [hp, hz2, abs_le] at e2
  set comp := fmul (Frac.ofNat c) sc with hcomp
  have e2' : -(1 / 512 : ℚ) ≤ comp.toRat - c * sc.toRat ∧ comp.toRat - c * sc.toRat ≤ 1 / 512 := e2
  have hcompd : 0 < comp.den := fl32_den_pos _
  -- the exact quotient
  have hdm := Nat.div_add_mod (c * 255) alpha
  have hr : c * 255 % alpha < alpha := Nat.mod_lt _ ha
  set F0 := c * 255 / alpha with hF0
  set r := c * 255 % alpha with hrdef
  have hdmq : (alpha : ℚ) * F0 + r = c * 255 := by exact_mod_cast hdm
  have hrq : (r : ℚ) + 1 ≤ alpha := by exact_mod_cast hr
  have hr0 : (0 : ℚ) ≤ r := by positivity
  have hq : (c : ℚ) * (255 / alpha) = F0 + r / alpha := by
    field_simp; linarith
  have hri : (r : ℚ) / alpha ≤ 1 - 1 / alpha := by
    rw [div_le_iff₀ haq]; field_simp; linarith
  have hai : (1 : ℚ) / 255 ≤ 1 / alpha := by
    rw [div_le_div_iff₀ (by norm_num) haq]; linarith
  have hri0 : (0 : ℚ) ≤ r / alpha := by positivity
  have hcs : |(c : ℚ) * sc.toRat - c * (255 / alpha)| ≤ 255 / 131072 := by
    rw [← mul_sub, abs_mul, abs_of_nonneg hc0]
    have : |sc.toRat - 255 / alpha| ≤ 1 / 131072 := abs_le.2 e1'
    calc (c : ℚ) * |sc.toRat - 255 / alpha| ≤ 255 * (1 / 131072) :=
          mul_le_mul hcq this (abs_nonneg _) (by norm_num)
      _ = 255 / 131072 := by ring
  rw [abs_le] at hcs
  have hup : comp.toRat < (F0 : ℚ) + 1 := by linarith [e2'.2, hcs.2]
  have hlo : ((F0 : ℤ) - 1 : ℤ) ≤ Frac.floor comp := by
    apply Frac.floor_ge _ hcompd
    push_cast
    linarith [e2'.1, hcs.1]
  have hnn : (0 : ℤ) ≤ Frac.floor comp := by
    apply Frac.floor_ge _ hcompd
    have : 0 ≤ comp.num := roundFrac_nonneg 24 (-149) _ (by
      show 0 ≤ ((c : ℤ) * sc.num)
      exact mul_nonneg (Int.natCast_nonneg c) (roundFrac_nonneg 24 (-149) _ (by
        show (0 : ℤ) ≤ (255 : ℤ) * 1 * ((alpha : ℕ) : ℤ).sign
        have : ((alpha : ℕ) : ℤ).sign = 1 := Int.sign_eq_one_of_pos (by exact_mod_cast ha)
        rw [this]; decide)))
    unfold Frac.toRat
    push_cast
    apply div_nonneg
    · exact_mod_cast this
    · positivity
  have hle : Frac.floor comp ≤ (F0 : ℤ) := Frac.floor_le _ hcompd _ (by push_cast; exact hup)
  have hval : rgbaToRgbChannel c alpha
      = if Frac.floor comp < 0 then 0 else if Frac.floor comp > 255 then 255
        else (Frac.floor comp).toNat := by
    unfold rgbaToRgbChannel
    rw [if_neg (Nat.pos_iff_ne_zero.1 ha)]
  constructor
  · rw [hval]
    split_ifs <;> omega
  · intro hnd
    have hr1 : 1 ≤ r := by
      rcases Nat.eq_zero_or_pos r with h0 | h0
      · exact absurd (Nat.dvd_of_mod_eq_zero h0) hnd
      · exact h0
    have hr1q : (1 : ℚ) ≤ r := by exact_mod_cast hr1
    have hra : (1 : ℚ) / alpha ≤ r / alpha := by
      apply div_le_div_of_nonneg_right hr1q (le_of_lt haq)
    have hge : (F0 : ℤ) ≤ Frac.floor comp := by
      apply Frac.floor_ge _ hcompd
      push_cast
      linarith [e2'.1, hcs.1]
    rw [hval]
    split_ifs <;> omega

set_option maxRecDepth 100000 in
/-- With `alpha = 255` every channel is kept. -/
theorem rgbaToRgbChannel_opaque : ∀ c, c < 256 → rgbaToRgbChannel c 255 = c := by
  decide

end TargaImage

namespace TargaImage

/-- Effect of one call of `RGBA_To_RGB` inside `To_RGB`, for the pixel number
`p = i * width + j`. -/
theorem toRgbPixel_spec (img : TargaImage) (p : Nat) (D : List Nat)
    (hD : 3 * p + 3 ≤ D.length) :
    (toRgbPixel img (p % img.width) (p / img.width) D).length = D.length ∧
    (∀ k, (k < 3 * p ∨ 3 * p + 3 ≤ k) →
      rd (toRgbPixel img (p % img.width) (p / img.width) D) k = rd D k) ∧
    (∀ c, c < 3 → rd (toRgbPixel img (p % img.width) (p / img.width) D) (3 * p + c)
      = rgbaToRgbChannel (rd img.data (4 * p + c)) (rd img.data (4 * p + 3))) := by
  have hp : p / img.width * img.width + p % img.width = p := by
    rw [Nat.mul_comm]; exact Nat.div_add_mod p img.width
  have ho : p / img.width * img.width * 3 + p % img.width * 3 = 3 * p := by
    have : (p / img.width * img.width + p % img.width) * 3 = 3 * p := by rw [hp]; ring
    linarith
  have hi : p / img.width * img.width * 4 + p % img.width * 4 = 4 * p := by
    have : (p / img.width * img.width + p % img.width) * 4 = 4 * p := by rw [hp]; ring
    linarith
  have m : ∀ a b : Nat, rgbaToRgbChannel a b % 256 = rgbaToRgbChannel a b :=
    fun a b => Nat.mod_eq_of_lt (Nat.lt_succ_of_le (rgbaToRgbChannel_le a b))
  refine ⟨by simp [toRgbPixel, wr_length], ?_, ?_⟩
  · intro k hk
    have h0 : ¬ (3 * p = k) := by omega
    have h1 : ¬ (3 * p + 1 = k) := by omega
    have h2 : ¬ (3 * p + 2 = k) := by omega
    simp [toRgbPixel, rd_wr, ho, h0, h1, h2]
  · intro c hc
    have h0 : 3 * p < D.length := by omega
    have h1 : 3 * p + 1 < D.length := by omega
    have h2 : 3 * p + 2 < D.length := by omega
    interval_cases c
    · simp [toRgbPixel, rd_wr, wr_length, RGBA_To_RGB, ho, hi, h0, h1, h2]
      exact m _ _
    · simp [toRgbPixel, rd_wr, wr_length, RGBA_To_RGB, ho, hi, h0, h1, h2]
      exact m _ _
    · simp [toRgbPixel, rd_wr, wr_length, RGBA_To_RGB, ho, hi, h0, h1, h2]
      exact m _ _

/-- The array `To_RGB` returns: `width * height * 3` bytes, the pixel at
column `x`, row `y` holding the `RGBA_To_RGB` value of that pixel. -/
theorem To_RGB_spec (img : TargaImage) :
    (To_RGB img).length = img.width * img.height * 3 ∧
    ∀ x y c, x < img.width → y < img.height → c < 3 →
      rd (To_RGB img) (3 * (y * img.width + x) + c)
        = rgbaToRgbChannel (img.chan x y c) (img.chan x y 3) := by
  unfold To_RGB
  simp only
  rw [forLoop_nest]
  have key := forLoop_fill 3 (img.height * img.width)
    (fun p t => toRgbPixel img (p % img.width) (p / img.width) t)
    (fun p c => rgbaToRgbChannel (rd img.data (4 * p + c)) (rd img.data (4 * p + 3)))
    (by
      intro p D _ hD
      exact toRgbPixel_spec img p D hD)
    (List.replicate (img.width * img.height * 3) 0) (by
      rw [List.length_replicate]; nlinarith)
  obtain ⟨kl, _, kp⟩ := key
  refine ⟨by rw [kl, List.length_replicate], ?_⟩
  intro x y c hx hy hc
  have hp : y * img.width + x < img.height * img.width := by nlinarith
  rw [kp _ c hp hc]
  unfold chan
  rw [Get_RGBA_eq]

/-- C18 (amended). `RGBA_To_RGB` yields 0 for every channel when
`alpha = 0`; for a non-zero `alpha` it yields for a channel `c` the value
`min(255, floor(c * 255 / alpha))` or one less, and exactly that value when
`alpha` does not divide `c * 255`; with `alpha = 255` the channel is kept.
`To_RGB` returns `width * height * 3` bytes holding these values pixel by
pixel. -/
theorem RGBA_To_RGB_spec :
    (∀ c, rgbaToRgbChannel c 0 = 0) ∧
    (∀ c alpha, c < 256 → 0 < alpha → alpha < 256 →
      (rgbaToRgbChannel c alpha = min 255 (c * 255 / alpha) ∨
        rgbaToRgbChannel c alpha + 1 = min 255 (c * 255 / alpha)) ∧
      (¬ alpha ∣ c * 255 → rgbaToRgbChannel c alpha = min 255 (c * 255 / alpha))) ∧
    (∀ c, c < 256 → rgbaToRgbChannel c 255 = c) ∧
    (∀ (img : TargaImage) (x y c : Nat), x < img.width → y < img.height → c < 3 →
      (To_RGB img).length = img.width * img.height * 3 ∧
      rd (To_RGB img) (3 * (y * img.width + x) + c)
        = rgbaToRgbChannel (img.chan x y c) (img.chan x y 3)) :=
  ⟨fun _ => rfl, rgbaToRgbChannel_near, rgbaToRgbChannel_opaque,
    fun img x y c hx hy hc => ⟨(To_RGB_spec img).1, (To_RGB_spec img).2 x y c hx hy hc⟩⟩

/-- Witness for C18 (amended): the channel 100 under alpha 200, and the
second pixel of a two-pixel image. -/
theorem RGBA_To_RGB_spec_witness :
    rgbaToRgbChannel 100 200 = min 255 (100 * 255 / 200) ∧
    rd (To_RGB ⟨2, 1, [7, 7, 7, 7, 10, 20, 30, 255]⟩) (3 * (0 * 2 + 1) + 2)
      = rgbaToRgbChannel 30 255 :=
  ⟨(RGBA_To_RGB_spec.2.1 100 200 (by decide) (by decide) (by decide)).2 (by decide),
   (RGBA_To_RGB_spec.2.2.2 ⟨2, 1, [7, 7, 7, 7, 10, 20, 30, 255]⟩ 1 0 2 (by decide) (by decide)
      (by decide)).2⟩

set_option maxRecDepth 100000 in
/-- C18 (counterexample). For the pixel `(7, 7, 7, 7)` the formula gives
`min(255, floor(7 * 255 / 7)) = 255` and `RGBA_To_RGB` gives 254: in `float`,
`255 / 7` is rounded down and `7 * (255 / 7)` is `254.99998`. -/
theorem RGBA_To_RGB_7_7 :
    rgbaToRgbChannel 7 7 = 254 ∧ min 255 (7 * 255 / 7) = 255 ∧
    To_RGB ⟨1, 1, [7, 7, 7, 7]⟩ = [254, 254, 254] := by
  decide

end TargaImage

/-! ## Dither_Random: what the output depends on -/

namespace TargaImage

/-- C20 (amended). `Dither_Random` takes no seed: each call seeds the library
generator with the value of `time(NULL)`. Its output depends on that value
only through the draws number `1` to `width * height` of the generator so
seeded: two calls on the same image whose generators agree on these draws,
in particular two calls at the same clock value, give the same result. -/
theorem Dither_Random_same_draws (RAND_MAX : Nat) (gen : Nat → Nat → Nat) (now1 now2 : Nat)
    (img : TargaImage)
    (h : ∀ k, 1 ≤ k → k ≤ img.width * img.height → gen now1 k = gen now2 k) :
    Dither_Random RAND_MAX gen now1 img = Dither_Random RAND_MAX gen now2 img := by
  have hd : (Dither_Random RAND_MAX gen now1 img).2.data
      = (Dither_Random RAND_MAX gen now2 img).2.data := by
    rw [Dither_Random_data, Dither_Random_data]
    apply forLoop_congr
    intro i hi d
    apply forLoop_congr
    intro j hj e
    have hk : 1 + (i * img.width + j) ≤ img.width * img.height := by nlinarith
    rw [h _ (by omega) hk]
  have e1 : Dither_Random RAND_MAX gen now1 img
      = (true, ⟨img.width, img.height, (Dither_Random RAND_MAX gen now1 img).2.data⟩) := rfl
  have e2 : Dither_Random RAND_MAX gen now2 img
      = (true, ⟨img.width, img.height, (Dither_Random RAND_MAX gen now2 img).2.data⟩) := rfl
  rw [e1, e2, hd]

/-- Witness for C20 (amended): a generator that ignores its seed. -/
theorem Dither_Random_same_draws_witness :
    Dither_Random 32767 (fun _ k => (k * 12345) % 32768) 0 ⟨1, 1, [128, 128, 128, 255]⟩
      = Dither_Random 32767 (fun _ k => (k * 12345) % 32768) 1 ⟨1, 1, [128, 128, 128, 255]⟩ :=
  Dither_Random_same_draws 32767 (fun _ k => (k * 12345) % 32768) 0 1
    ⟨1, 1, [128, 128, 128, 255]⟩ (fun _ _ _ => rfl)

set_option maxRecDepth 100000 in
/-- C20 (counterexample). With a linear congruential generator and
`RAND_MAX = 32767`, the same one-pixel image `(128, 128, 128, 255)` dithered
at clock value 0 and at clock value 1 comes out black the first time and
white the second: the output is not a function of the image alone, and no
seed is supplied by the caller. -/
theorem Dither_Random_depends_on_clock :
    (Dither_Random 32767 (fun s k => (s * 1103515245 + k * 12345) % 32768) 0
        ⟨1, 1, [128, 128, 128, 255]⟩).2.data = [0, 0, 0, 255] ∧
    (Dither_Random 32767 (fun s k => (s * 1103515245 + k * 12345) % 32768) 1
        ⟨1, 1, [128, 128, 128, 255]⟩).2.data = [255, 255, 255, 255] := by
  decide

end TargaImage

/-! ## In-place loops and window sums -/

/-- A loop whose `p`-th iteration rewrites only the cells of pixel `p`:
pixel `p` of the result is what iteration `p` wrote, and iteration `p` ran on
a buffer that holds the final values of the pixels before `p` and the
initial values of the others. -/
theorem forLoop_inplace (n : Nat) (body : Nat → List Nat → List Nat)
    (hbody : ∀ p D, p < n → (body p D).length = D.length ∧
      ∀ k, k / 4 ≠ p → rd (body p D) k = rd D k)
    (D : List Nat) :
    (forLoop n body D).length = D.length ∧
    (∀ k, n ≤ k / 4 → rd (forLoop n body D) k = rd D k) ∧
    (∀ p, p < n → ∃ E : List Nat, E.length = D.length ∧
      (∀ k, rd E k = if k / 4 < p then rd (forLoop n body D) k else rd D k) ∧
      (∀ k, k / 4 = p → rd (forLoop n body D) k = rd (body p E) k)) := by
  induction n with
  | zero =>
    refine ⟨rfl, fun _ _ => rfl, ?_⟩
    intro p hp
    exact absurd hp (Nat.not_lt_zero p)
  | succ n ih =>
    obtain ⟨ihl, ihk, ihp⟩ := ih (fun p E hp => hbody p E (Nat.lt_succ_of_lt hp))
    obtain ⟨hbl, hbk⟩ := hbody n (forLoop n body D) (Nat.lt_succ_self n)
    rw [forLoop_succ]
    refine ⟨by rw [hbl, ihl], ?_, ?_⟩
    · intro k hk
      rw [hbk k (by omega), ihk k (by omega)]
    · intro p hp
      by_cases hpn : p = n
      · subst hpn
        refine ⟨forLoop p body D, ihl, ?_, fun _ _ => rfl⟩
        intro k
        by_cases hk : k / 4 < p
        · rw [if_pos hk, hbk k (by omega)]
        · rw [if_neg hk, ihk k (by omega)]
      · obtain ⟨E, hE1, hE2, hE3⟩ := ihp p (by omega)
        refine ⟨E, hE1, ?_, ?_⟩
        · intro k
          rw [hE2 k]
          by_cases hk : k / 4 < p
          · rw [if_pos hk, if_pos hk, hbk k (by omega)]
          · rw [if_neg hk, if_neg hk]
        · intro k hk
          rw [hbk k (by omega), hE3 k hk]

/-- A loop that adds a term to each of three accumulators computes three sums. -/
theorem forLoop_sum3 (n : Nat) (g : Nat → Int × Int × Int) (s0 : Int × Int × Int) :
    forLoop n (fun k s => (s.1 + (g k).1, s.2.1 + (g k).2.1, s.2.2 + (g k).2.2)) s0
      = (s0.1 + ((List.range n).map (fun k => (g k).1)).sum,
         s0.2.1 + ((List.range n).map (fun k => (g k).2.1)).sum,
         s0.2.2 + ((List.range n).map (fun k => (g k).2.2)).sum) := by
  induction n with
  | zero => simp [forLoop]
  | succ n ih =>
    rw [forLoop_succ, ih]
    simp only [List.range_succ, List.map_append, List.sum_append, List.map_cons, List.map_nil,
      List.sum_cons, List.sum_nil, add_zero]
    ext <;> simp only [] <;> ring

namespace TargaImage

theorem rdInt_natCast (D : List Nat) (k : Nat) : rdInt D (k : Int) = rd D k := by
  unfold rdInt
  rw [if_neg (by omega)]
  simp

/-- The term one tap adds to the accumulators of a window sum. -/
theorem windowTap_eq (img : TargaImage) (mask : List (List Int)) (data : List Nat)
    (x y ii jj : Nat) (sum : Int × Int × Int) :
    windowTap img mask 2 data x y ii jj sum
      = (sum.1 + (if 2 ≤ y + ii ∧ y + ii - 2 < img.height ∧ 2 ≤ x + jj ∧ x + jj - 2 < img.width
            then (rd data (img.Get_RGBA (x + jj - 2) (y + ii - 2) + 0) : Int) * maskAtInt mask ii jj
            else 0),
         sum.2.1 + (if 2 ≤ y + ii ∧ y + ii - 2 < img.height ∧ 2 ≤ x + jj ∧ x + jj - 2 < img.width
            then (rd data (img.Get_RGBA (x + jj - 2) (y + ii - 2) + 1) : Int) * maskAtInt mask ii jj
            else 0),
         sum.2.2 + (if 2 ≤ y + ii ∧ y + ii - 2 < img.height ∧ 2 ≤ x + jj ∧ x + jj - 2 < img.width
            then (rd data (img.Get_RGBA (x + jj - 2) (y + ii - 2) + 2) : Int) * maskAtInt mask ii jj
            else 0)) := by
  unfold windowTap
  simp only
  by_cases h1 : (y : Int) + ((ii : Int) - (2 : Nat)) < 0 ∨ (y : Int) + ((ii : Int) - (2 : Nat)) ≥ img.height
  · rw [if_pos h1]
    have : ¬ (2 ≤ y + ii ∧ y + ii - 2 < img.height ∧ 2 ≤ x + jj ∧ x + jj - 2 < img.width) := by
      push_cast at h1; omega
    simp only [if_neg this, add_zero]
  · rw [if_neg h1]
    by_cases h2 : (x : Int) + ((jj : Int) - (2 : Nat)) < 0 ∨ (x : Int) + ((jj : Int) - (2 : Nat)) ≥ img.width
    · rw [if_pos h2]
      have : ¬ (2 ≤ y + ii ∧ y + ii - 2 < img.height ∧ 2 ≤ x + jj ∧ x + jj - 2 < img.width) := by
        push_cast at h2; omega
      simp only [if_neg this, add_zero]
    · rw [if_neg h2]
      have hin : 2 ≤ y + ii ∧ y + ii - 2 < img.height ∧ 2 ≤ x + jj ∧ x + jj - 2 < img.width := by
        push_cast at h1 h2; omega
      simp only [if_pos hin]
      have hoff : ∀ c : Nat, img.Get_RGBA_int ((x : Int) + ((jj : Int) - (2 : Nat)))
          ((y : Int) + ((ii : Int) - (2 : Nat))) + (c : Int)
          = ((img.Get_RGBA (x + jj - 2) (y + ii - 2) + c : Nat) : Int) := by
        intro c
        unfold Get_RGBA_int Get_RGBA
        have e1 : ((x + jj - 2 : Nat) : Int) = (x : Int) + ((jj : Int) - (2 : Nat)) := by
          push_cast; omega
        have e2 : ((y + ii - 2 : Nat) : Int) = (y : Int) + ((ii : Int) - (2 : Nat)) := by
          push_cast; omega
        push_cast
        rw [e1, e2]
        norm_num
      have h0 := hoff 0
      have h1' := hoff 1
      have h2' := hoff 2
      simp only [RED, GREEN, BLUE] at h0 h1' h2' ⊢
      push_cast at h0 h1' h2' ⊢
      rw [h0, h1', h2']
      have c0 := rdInt_natCast data (img.Get_RGBA (x + jj - 2) (y + ii - 2) + 0)
      have c1 := rdInt_natCast data (img.Get_RGBA (x + jj - 2) (y + ii - 2) + 1)
      have c2 := rdInt_natCast data (img.Get_RGBA (x + jj - 2) (y + ii - 2) + 2)
      push_cast at c0 c1 c2
      rw [c0, c1, c2]

end TargaImage

theorem cast_sum_map (L : List Nat) (f : Nat → Nat) :
    (((L.map f).sum : Nat) : Int) = (L.map (fun k => ((f k : Nat) : Int))).sum := by
  induction L with
  | nil => simp
  | cons a L ih => simp [ih]

theorem sum_map_congr {α : Type} [AddMonoid α] (L : List Nat) (f g : Nat → α)
    (h : ∀ k, k ∈ L → f k = g k) : (L.map f).sum = (L.map g).sum := by
  rw [List.map_congr_left h]

namespace TargaImage

/-- The three window sums of a 5x5 filter at pixel `(x, y)` over the buffer
`data`: each is the sum over the window positions inside the raster of the
channel value times the kernel entry. -/
theorem windowSum_eq (img : TargaImage) (mask : List (List Int)) (data : List Nat) (x y : Nat) :
    windowSum img mask 2 data x y
      = (((List.range 5).map (fun ii => ((List.range 5).map (fun jj =>
            if 2 ≤ y + ii ∧ y + ii - 2 < img.height ∧ 2 ≤ x + jj ∧ x + jj - 2 < img.width
            then (rd data (img.Get_RGBA (x + jj - 2) (y + ii - 2) + 0) : Int) * maskAtInt mask ii jj
            else 0)).sum)).sum,
         ((List.range 5).map (fun ii => ((List.range 5).map (fun jj =>
            if 2 ≤ y + ii ∧ y + ii - 2 < img.height ∧ 2 ≤ x + jj ∧ x + jj - 2 < img.width
            then (rd data (img.Get_RGBA (x + jj - 2) (y + ii - 2) + 1) : Int) * maskAtInt mask ii jj
            else 0)).sum)).sum,
         ((List.range 5).map (fun ii => ((List.range 5).map (fun jj =>
            if 2 ≤ y + ii ∧ y + ii - 2 < img.height ∧ 2 ≤ x + jj ∧ x + jj - 2 < img.width
            then (rd data (img.Get_RGBA (x + jj - 2) (y + ii - 2) + 2) : Int) * maskAtInt mask ii jj
            else 0)).sum)).sum) := by
  unfold windowSum
  have inner : ∀ ii (sum : Int × Int × Int),
      forLoop (2 * 2 + 1) (fun jj sum => windowTap img mask 2 data x y ii jj sum) sum
        = (sum.1 + ((List.range 5).map (fun jj =>
              (if 2 ≤ y + ii ∧ y + ii - 2 < img.height ∧ 2 ≤ x + jj ∧ x + jj - 2 < img.width
                then (rd data (img.Get_RGBA (x + jj - 2) (y + ii - 2) + 0) : Int)
                  * maskAtInt mask ii jj else 0))).sum,
           sum.2.1 + ((List.range 5).map (fun jj =>
              (if 2 ≤ y + ii ∧ y + ii - 2 < img.height ∧ 2 ≤ x + jj ∧ x + jj - 2 < img.width
                then (rd data (img.Get_RGBA (x + jj - 2) (y + ii - 2) + 1) : Int)
                  * maskAtInt mask ii jj else 0))).sum,
           sum.2.2 + ((List.range 5).map (fun jj =>
              (if 2 ≤ y + ii ∧ y + ii - 2 < img.height ∧ 2 ≤ x + jj ∧ x + jj - 2 < img.width
                then (rd data (img.Get_RGBA (x + jj - 2) (y + ii - 2) + 2) : Int)
                  * maskAtInt mask ii jj else 0))).sum) := by
    intro ii sum
    have h3 := forLoop_sum3 5 (fun jj =>
      ((if 2 ≤ y + ii ∧ y + ii - 2 < img.height ∧ 2 ≤ x + jj ∧ x + jj - 2 < img.width
                then (rd data (img.Get_RGBA (x + jj - 2) (y + ii - 2) + 0) : Int)
                  * maskAtInt mask ii jj else 0),
       (if 2 ≤ y + ii ∧ y + ii - 2 < img.height ∧ 2 ≤ x + jj ∧ x + jj - 2 < img.width
                then (rd data (img.Get_RGBA (x + jj - 2) (y + ii - 2) + 1) : Int)
                  * maskAtInt mask ii jj else 0),
       (if 2 ≤ y + ii ∧ y + ii - 2 < img.height ∧ 2 ≤ x + jj ∧ x + jj - 2 < img.width
                then (rd data (img.Get_RGBA (x + jj - 2) (y + ii - 2) + 2) : Int)
                  * maskAtInt mask ii jj else 0))) sum
    rw [← h3]
    apply forLoop_congr
    intro jj _ t
    rw [windowTap_eq]
  simp only [inner]
  have outer := forLoop_sum3 5 (fun ii =>
    (((List.range 5).map (fun jj =>
        if 2 ≤ y + ii ∧ y + ii - 2 < img.height ∧ 2 ≤ x + jj ∧ x + jj - 2 < img.width
        then (rd data (img.Get_RGBA (x + jj - 2) (y + ii - 2) + 0) : Int) * maskAtInt mask ii jj
        else 0)).sum,
     ((List.range 5).map (fun jj =>
        if 2 ≤ y + ii ∧ y + ii - 2 < img.height ∧ 2 ≤ x + jj ∧ x + jj - 2 < img.width
        then (rd data (img.Get_RGBA (x + jj - 2) (y + ii - 2) + 1) : Int) * maskAtInt mask ii jj
        else 0)).sum,
     ((List.range 5).map (fun jj =>
        if 2 ≤ y + ii ∧ y + ii - 2 < img.height ∧ 2 ≤ x + jj ∧ x + jj - 2 < img.width
        then (rd data (img.Get_RGBA (x + jj - 2) (y + ii - 2) + 2) : Int) * maskAtInt mask ii jj
        else 0)).sum)) (0, 0, 0)
  simp only [zero_add] at outer
  exact outer

end TargaImage

/-! ## Filter_Box -/

theorem wrInt_eq_wr (D : List Nat) (i : Nat) (v : Int) : wrInt D i v = wr D i (v % 256).toNat := by
  unfold wrInt wr
  have h1 : 0 ≤ v % 256 := Int.emod_nonneg _ (by decide)
  have h2 : v % 256 < 256 := Int.emod_lt_of_pos _ (by decide)
  have : (v % 256).toNat % 256 = (v % 256).toNat := Nat.mod_eq_of_lt (by omega)
  rw [this]

theorem tdiv_cast_byte (S : Nat) (hS : S / 25 < 256) :
    (Int.tdiv (S : Int) 25 % 256).toNat = S / 25 := by
  rw [Int.tdiv_eq_ediv (Int.natCast_nonneg S) (by decide)]
  have : ((S : Int) / 25) = ((S / 25 : Nat) : Int) := by norm_cast
  rw [this]
  omega

theorem pixel_before_iff (w x y x' y' : Nat) (hx : x < w) (hx' : x' < w) :
    y' * w + x' < y * w + x ↔ (y' < y ∨ (y' = y ∧ x' < x)) := by
  constructor
  · intro h
    by_contra hc
    have h1 : y ≤ y' := by omega
    have h2 : y * w ≤ y' * w := Nat.mul_le_mul_right w h1
    by_cases he : y' = y
    · subst he
      omega
    · have h3 : y + 1 ≤ y' := by omega
      have h4 : (y + 1) * w ≤ y' * w := Nat.mul_le_mul_right w h3
      rw [Nat.succ_mul] at h4
      omega
  · intro h
    rcases h with h | ⟨h1, h2⟩
    · have h3 : y' + 1 ≤ y := h
      have h4 : (y' + 1) * w ≤ y * w := Nat.mul_le_mul_right w h3
      rw [Nat.succ_mul] at h4
      omega
    · subst h1
      omega

namespace TargaImage

theorem boxWindowSum_congr (w h : Nat) (v v' : Nat → Nat → Nat) (x y : Nat)
    (hv : ∀ x' y', x' < w → y' < h → v x' y' = v' x' y') :
    boxWindowSum w h v x y = boxWindowSum w h v' x y := by
  unfold boxWindowSum
  apply sum_map_congr
  intro ii _
  apply sum_map_congr
  intro jj _
  by_cases hc : 2 ≤ y + ii ∧ y + ii - 2 < h ∧ 2 ≤ x + jj ∧ x + jj - 2 < w
  · rw [if_pos hc, if_pos hc, hv _ _ hc.2.2.2 hc.2.1]
  · rw [if_neg hc, if_neg hc]

theorem sum_map_le (L : List Nat) (f : Nat → Nat) (B : Nat) (h : ∀ k, k ∈ L → f k ≤ B) :
    (L.map f).sum ≤ L.length * B := by
  induction L with
  | nil => simp
  | cons a L ih =>
    simp only [List.map_cons, List.sum_cons, List.length_cons]
    have h1 := h a (List.mem_cons_self a L)
    have h2 := ih (fun k hk => h k (List.mem_cons_of_mem a hk))
    rw [Nat.succ_mul]
    omega

theorem boxWindowSum_le (w h : Nat) (v : Nat → Nat → Nat) (x y B : Nat)
    (hv : ∀ x' y', x' < w → y' < h → v x' y' ≤ B) : boxWindowSum w h v x y ≤ 25 * B := by
  unfold boxWindowSum
  have := sum_map_le (List.range 5) (fun ii => ((List.range 5).map (fun jj =>
    if 2 ≤ y + ii ∧ y + ii - 2 < h ∧ 2 ≤ x + jj ∧ x + jj - 2 < w
    then v (x + jj - 2) (y + ii - 2) else 0)).sum) (5 * B) (by
      intro ii _
      have := sum_map_le (List.range 5) (fun jj =>
        if 2 ≤ y + ii ∧ y + ii - 2 < h ∧ 2 ≤ x + jj ∧ x + jj - 2 < w
        then v (x + jj - 2) (y + ii - 2) else 0) B (by
          intro jj _
          by_cases hc : 2 ≤ y + ii ∧ y + ii - 2 < h ∧ 2 ≤ x + jj ∧ x + jj - 2 < w
          · simp only [if_pos hc]; exact hv _ _ hc.2.2.2 hc.2.1
          · simp only [if_neg hc]; exact Nat.zero_le _)
      simpa using this)
  simp only [List.length_range] at this
  omega

/-- The window sums of `Filter_Box` at `(x, y)` over the buffer `D`. -/
theorem windowSum_box (img : TargaImage) (D : List Nat) (x y : Nat) :
    windowSum img Box_mask 2 D x y
      = (((boxWindowSum img.width img.height (fun x' y' => rd D (img.Get_RGBA x' y' + 0)) x y
            : Nat) : Int),
         ((boxWindowSum img.width img.height (fun x' y' => rd D (img.Get_RGBA x' y' + 1)) x y
            : Nat) : Int),
         ((boxWindowSum img.width img.height (fun x' y' => rd D (img.Get_RGBA x' y' + 2)) x y
            : Nat) : Int)) := by
  have hmask : ∀ ii, ii < 5 → ∀ jj, jj < 5 → maskAtInt Box_mask ii jj = 1 := by decide
  have hterm : ∀ (c ii : Nat), ii ∈ List.range 5 →
      ((List.range 5).map (fun jj =>
        if 2 ≤ y + ii ∧ y + ii - 2 < img.height ∧ 2 ≤ x + jj ∧ x + jj - 2 < img.width
        then (rd D (img.Get_RGBA (x + jj - 2) (y + ii - 2) + c) : Int) * maskAtInt Box_mask ii jj
        else 0)).sum
      = (((List.range 5).map (fun jj =>
        if 2 ≤ y + ii ∧ y + ii - 2 < img.height ∧ 2 ≤ x + jj ∧ x + jj - 2 < img.width
        then rd D (img.Get_RGBA (x + jj - 2) (y + ii - 2) + c) else 0)).sum : Nat) := by
    intro c ii hii
    rw [cast_sum_map]
    apply sum_map_congr
    intro jj hjj
    rw [hmask ii (List.mem_range.1 hii) jj (List.mem_range.1 hjj), mul_one]
    split_ifs <;> simp
  have e : ∀ c : Nat, ((List.range 5).map (fun ii => ((List.range 5).map (fun jj =>
        if 2 ≤ y + ii ∧ y + ii - 2 < img.height ∧ 2 ≤ x + jj ∧ x + jj - 2 < img.width
        then (rd D (img.Get_RGBA (x + jj - 2) (y + ii - 2) + c) : Int) * maskAtInt Box_mask ii jj
        else 0)).sum)).sum
      = ((boxWindowSum img.width img.height (fun x' y' => rd D (img.Get_RGBA x' y' + c)) x y
            : Nat) : Int) := by
    intro c
    unfold boxWindowSum
    rw [cast_sum_map]
    apply sum_map_congr
    intro ii hii
    exact hterm c ii hii
  rw [windowSum_eq, e 0, e 1, e 2]

/-- Effect of one pixel step of `Filter_Box` on a buffer of bytes. -/
theorem filterBoxPixel_spec (img : TargaImage) (x y : Nat) (D : List Nat)
    (hD : img.Get_RGBA x y + 3 < D.length) (hb : ∀ k, rd D k < 256) :
    (filterBoxPixel img x y D).length = D.length ∧
    (∀ k, k / 4 ≠ y * img.width + x → rd (filterBoxPixel img x y D) k = rd D k) ∧
    (∀ c, c < 3 → rd (filterBoxPixel img x y D) (img.Get_RGBA x y + c)
      = boxWindowSum img.width img.height (fun x' y' => rd D (img.Get_RGBA x' y' + c)) x y / 25) ∧
    rd (filterBoxPixel img x y D) (img.Get_RGBA x y + 3) = rd D (img.Get_RGBA x y + 3) := by
  have hS : ∀ c, boxWindowSum img.width img.height
      (fun x' y' => rd D (img.Get_RGBA x' y' + c)) x y / 25 < 256 := by
    intro c
    have := boxWindowSum_le img.width img.height (fun x' y' => rd D (img.Get_RGBA x' y' + c))
      x y 255 (fun x' y' _ _ => Nat.le_of_lt_succ (hb _))
    omega
  have hval : ∀ c, ((Int.tdiv ((boxWindowSum img.width img.height
      (fun x' y' => rd D (img.Get_RGBA x' y' + c)) x y : Nat) : Int) 25 % 256).toNat) % 256
      = boxWindowSum img.width img.height (fun x' y' => rd D (img.Get_RGBA x' y' + c)) x y / 25 := by
    intro c
    rw [tdiv_cast_byte _ (hS c), Nat.mod_eq_of_lt (hS c)]
  have hspec := setRGB_spec img x y D
    ((Int.tdiv ((boxWindowSum img.width img.height
      (fun x' y' => rd D (img.Get_RGBA x' y' + 0)) x y : Nat) : Int) 25 % 256).toNat)
    ((Int.tdiv ((boxWindowSum img.width img.height
      (fun x' y' => rd D (img.Get_RGBA x' y' + 1)) x y : Nat) : Int) 25 % 256).toNat)
    ((Int.tdiv ((boxWindowSum img.width img.height
      (fun x' y' => rd D (img.Get_RGBA x' y' + 2)) x y : Nat) : Int) 25 % 256).toNat) hD
  have hfb : filterBoxPixel img x y D
      = wr (wr (wr D (img.Get_RGBA x y + RED)
          ((Int.tdiv ((boxWindowSum img.width img.height
            (fun x' y' => rd D (img.Get_RGBA x' y' + 0)) x y : Nat) : Int) 25 % 256).toNat))
          (img.Get_RGBA x y + GREEN)
          ((Int.tdiv ((boxWindowSum img.width img.height
            (fun x' y' => rd D (img.Get_RGBA x' y' + 1)) x y : Nat) : Int) 25 % 256).toNat))
          (img.Get_RGBA x y + BLUE)
          ((Int.tdiv ((boxWindowSum img.width img.height
            (fun x' y' => rd D (img.Get_RGBA x' y' + 2)) x y : Nat) : Int) 25 % 256).toNat) := by
    unfold filterBoxPixel
    simp only [wrInt_eq_wr, windowSum_box]
  rw [hfb]
  obtain ⟨h1, h2, h3⟩ := hspec
  refine ⟨h1, h2, ?_, ?_⟩
  · intro c hc
    rw [h3 c (by omega)]
    interval_cases c
    · simp only [if_pos]; exact hval 0
    · simp; exact hval 1
    · simp; exact hval 2
  · rw [h3 3 (by decide)]
    simp

end TargaImage

namespace TargaImage

theorem filterBoxPixel_frame (img : TargaImage) (x y : Nat) (D : List Nat) :
    (filterBoxPixel img x y D).length = D.length ∧
    ∀ k, k / 4 ≠ y * img.width + x → rd (filterBoxPixel img x y D) k = rd D k := by
  have he := img.Get_RGBA_eq x y
  refine ⟨by simp [filterBoxPixel, wrInt_eq_wr, wr_length], ?_⟩
  intro k hk
  have h0 : ¬ (img.Get_RGBA x y = k) := by omega
  have h1 : ¬ (img.Get_RGBA x y + 1 = k) := by omega
  have h2 : ¬ (img.Get_RGBA x y + 2 = k) := by omega
  simp [filterBoxPixel, wrInt_eq_wr, rd_wr, RED, GREEN, BLUE, h0, h1, h2]

theorem filterBoxPixel_frame_flat (img : TargaImage) (p : Nat) (D : List Nat) :
    (filterBoxPixel img (p % img.width) (p / img.width) D).length = D.length ∧
    ∀ k, k / 4 ≠ p → rd (filterBoxPixel img (p % img.width) (p / img.width) D) k = rd D k := by
  have h := filterBoxPixel_frame img (p % img.width) (p / img.width) D
  have hp : p / img.width * img.width + p % img.width = p := by
    rw [Nat.mul_comm]; exact Nat.div_add_mod p img.width
  rw [hp] at h
  exact h

theorem Filter_Box_data (img : TargaImage) :
    (Filter_Box img).2.data = forLoop (img.height * img.width)
      (fun p d => filterBoxPixel img (p % img.width) (p / img.width) d) img.data := by
  show forLoop img.height (fun y d => forLoop img.width (fun x e => filterBoxPixel img x y e) d)
    img.data = _
  rw [forLoop_nest]

theorem Filter_Box_WF (img : TargaImage) (hwf : img.WF) : (Filter_Box img).2.WF := by
  refine ⟨?_, ?_⟩
  · rw [Filter_Box_data]
    have := (forLoop_inplace (img.height * img.width)
      (fun p d => filterBoxPixel img (p % img.width) (p / img.width) d)
      (fun p D _ => filterBoxPixel_frame_flat img p D) img.data).1
    rw [this]
    exact hwf.1
  · rw [Filter_Box_data]
    apply forLoop_inv (fun D => ∀ b ∈ D, b < 256)
    · intro p D _ hD
      unfold filterBoxPixel
      simp only [wrInt_eq_wr]
      exact wr_bytes _ _ _ (wr_bytes _ _ _ (wr_bytes _ _ _ hD))
    · exact hwf.2

/-- The buffer `Filter_Box` leaves, pixel by pixel: the filter runs in
place, so the window of `(x, y)` holds filtered values at the positions that
precede `(x, y)` in the scan and original values elsewhere. -/
theorem Filter_Box_chan (img : TargaImage) (hwf : img.WF) (x y : Nat)
    (hx : x < img.width) (hy : y < img.height) :
    (∀ c, c < 3 → (Filter_Box img).2.chan x y c
      = boxWindowSum img.width img.height
          (fun x' y' => if y' < y ∨ (y' = y ∧ x' < x) then (Filter_Box img).2.chan x' y' c
            else img.chan x' y' c) x y / 25) ∧
    (Filter_Box img).2.chan x y 3 = img.chan x y 3 := by
  have hwfo := Filter_Box_WF img hwf
  have hp : y * img.width + x < img.height * img.width := by nlinarith
  have hm : (y * img.width + x) % img.width = x := by
    rw [Nat.add_comm, Nat.add_mul_mod_self_right, Nat.mod_eq_of_lt hx]
  have hd : (y * img.width + x) / img.width = y := by
    rw [Nat.add_comm, Nat.add_mul_div_right _ _ (Nat.lt_of_le_of_lt (Nat.zero_le x) hx),
      Nat.div_eq_of_lt hx, Nat.zero_add]
  obtain ⟨E, hE1, hE2, hE3⟩ := (forLoop_inplace (img.height * img.width)
    (fun p d => filterBoxPixel img (p % img.width) (p / img.width) d)
    (fun p D _ => filterBoxPixel_frame_flat img p D) img.data).2.2 (y * img.width + x) hp
  rw [← Filter_Box_data] at hE2 hE3
  simp only [hm, hd] at hE3
  have hoff := img.Get_RGBA_eq x y
  have hbE : ∀ k, rd E k < 256 := by
    intro k
    rw [hE2 k]
    split_ifs
    · exact rd_lt_of_forall _ hwfo.2 _
    · exact rd_lt_of_forall _ hwf.2 _
  have hDE : img.Get_RGBA x y + 3 < E.length := by
    rw [hE1, hwf.1, hoff]
    nlinarith
  obtain ⟨_, _, hv, ha⟩ := filterBoxPixel_spec img x y E hDE hbE
  have hout : ∀ c, c < 4 → (Filter_Box img).2.chan x y c
      = rd (filterBoxPixel img x y E) (img.Get_RGBA x y + c) := by
    intro c hc
    show rd (Filter_Box img).2.data (img.Get_RGBA x y + c) = _
    exact hE3 _ (by omega)
  constructor
  · intro c hc
    rw [hout c (by omega), hv c hc]
    congr 1
    apply boxWindowSum_congr
    intro x' y' hx' _
    rw [hE2]
    have hq : (img.Get_RGBA x' y' + c) / 4 = y' * img.width + x' := by
      rw [Get_RGBA_eq]; omega
    rw [hq]
    by_cases hb : y' * img.width + x' < y * img.width + x
    · rw [if_pos hb, if_pos ((pixel_before_iff img.width x y x' y' hx hx').1 hb)]
      rfl
    · rw [if_neg hb, if_neg (fun h => hb ((pixel_before_iff img.width x y x' y' hx hx').2 h))]
      rfl
  · rw [hout 3 (by decide), ha, hE2]
    have hq : (img.Get_RGBA x y + 3) / 4 = y * img.width + x := by omega
    rw [hq, if_neg (Nat.lt_irrefl _)]
    rfl

/-- C13 (amended). `Filter_Box` filters in place: for every well-formed image
and every pixel `(x, y)`, each of R, G, B after the call is `floor(S / 25)`,
`S` being the sum of that channel over the positions `(x + j, y + i)`,
`-2 ≤ i, j ≤ 2`, inside the raster (outside positions omitted, divisor still
25), where a position that precedes `(x, y)` in the row-major scan
contributes its already filtered value and every other position its
original value; alpha is unchanged. -/
theorem Filter_Box_in_place (img : TargaImage) (hwf : img.WF) (x y : Nat)
    (hx : x < img.width) (hy : y < img.height) :
    (∀ c, c < 3 → (Filter_Box img).2.chan x y c
      = boxWindowSum img.width img.height
          (fun x' y' => if y' < y ∨ (y' = y ∧ x' < x) then (Filter_Box img).2.chan x' y' c
            else img.chan x' y' c) x y / 25) ∧
    (Filter_Box img).2.chan x y 3 = img.chan x y 3 :=
  Filter_Box_chan img hwf x y hx hy

set_option maxRecDepth 1000000 in
/-- Witness for C13 (amended): the second pixel of a 2x1 image. -/
theorem Filter_Box_in_place_witness :
    (Filter_Box ⟨2, 1, [100, 100, 100, 255, 100, 100, 100, 255]⟩).2.chan 1 0 0 = 4 ∧
    (Filter_Box ⟨2, 1, [100, 100, 100, 255, 100, 100, 100, 255]⟩).2.chan 1 0 3 = 255 := by
  have h := Filter_Box_in_place ⟨2, 1, [100, 100, 100, 255, 100, 100, 100, 255]⟩ (by decide) 1 0
    (by decide) (by decide)
  refine ⟨?_, h.2⟩
  rw [h.1 0 (by decide)]
  decide

set_option maxRecDepth 1000000 in
/-- C13 (counterexample). In the 2x1 image of two `(100, 100, 100, 255)`
pixels the sum over the original image at pixel `(1, 0)` is 200, so the
snapshot value is `floor(200 / 25) = 8`; `Filter_Box` leaves 4 there, because
it reads the first pixel after having overwritten it with 8. -/
theorem Filter_Box_not_snapshot :
    (Filter_Box ⟨2, 1, [100, 100, 100, 255, 100, 100, 100, 255]⟩).2.chan 1 0 0 = 4 ∧
    boxWindowSum 2 1
      (fun x' y' => (TargaImage.mk 2 1 [100, 100, 100, 255, 100, 100, 100, 255]).chan x' y' 0)
      1 0 / 25 = 8 := by
  decide

end TargaImage

namespace TargaImage

/-- On an image whose pixels all hold the value `v` in channel `c`, no pixel
of the result of `Filter_Box` exceeds `v` in that channel. -/
theorem Filter_Box_le (img : TargaImage) (hwf : img.WF) (c v : Nat) (hc : c < 3)
    (hu : ∀ x y, x < img.width → y < img.height → img.chan x y c = v) :
    ∀ p x y, y * img.width + x = p → x < img.width → y < img.height →
      (Filter_Box img).2.chan x y c ≤ v := by
  intro p
  induction p using Nat.strong_induction_on with
  | _ p ih =>
    intro x y hp hx hy
    rw [(Filter_Box_chan img hwf x y hx hy).1 c hc]
    have hb := boxWindowSum_le img.width img.height
      (fun x' y' => if y' < y ∨ (y' = y ∧ x' < x) then (Filter_Box img).2.chan x' y' c
        else img.chan x' y' c) x y v (by
        intro x' y' hx' hy'
        by_cases hbf : y' < y ∨ (y' = y ∧ x' < x)
        · simp only [if_pos hbf]
          have hlt := (pixel_before_iff img.width x y x' y' hx hx').2 hbf
          exact ih (y' * img.width + x') (by omega) x' y' rfl hx' hy'
        · simp only [if_neg hbf]
          exact le_of_eq (hu x' y' hx' hy'))
    omega

set_option maxRecDepth 1000000 in
/-- C14 (counterexample). In the 7x7 image of `(100, 100, 100, 255)` pixels
the interior pixel `(3, 3)`, whose 5x5 window lies wholly inside the raster,
comes out of `Filter_Box` with red 84, not 100: its window already holds the
darkened, filtered values of the rows above and of the pixels to its left. -/
theorem Filter_Box_uniform_interior_changes :
    (Filter_Box ⟨7, 7, (List.replicate 49 [100, 100, 100, 255]).flatten⟩).2.chan 3 3 0 = 84 ∧
    (TargaImage.mk 7 7 (List.replicate 49 [100, 100, 100, 255]).flatten).chan 3 3 0 = 100 := by
  decide

end TargaImage

namespace TargaImage

theorem sum_map_lt (L : List Nat) (f : Nat → Nat) (B : Nat) (h : ∀ k, k ∈ L → f k ≤ B)
    (k0 : Nat) (hk0 : k0 ∈ L) (hlt : f k0 < B) : (L.map f).sum < L.length * B := by
  induction L with
  | nil => simp at hk0
  | cons a L ih =>
    simp only [List.map_cons, List.sum_cons, List.length_cons]
    rw [Nat.succ_mul]
    have h1 := h a (List.mem_cons_self a L)
    have h2 := sum_map_le L f B (fun k hk => h k (List.mem_cons_of_mem a hk))
    rcases List.mem_cons.1 hk0 with he | hm
    · subst he
      omega
    · have h3 := ih (fun k hk => h k (List.mem_cons_of_mem a hk)) hm
      omega

/-- A window sum stays below `25 * B` when no value exceeds `B` and one of the
25 window positions is omitted or holds less than `B`. -/
theorem boxWindowSum_lt (w h : Nat) (v : Nat → Nat → Nat) (x y B : Nat)
    (hv : ∀ x' y', x' < w → y' < h → v x' y' ≤ B) (ii jj : Nat) (hii : ii < 5) (hjj : jj < 5)
    (hlt : (if 2 ≤ y + ii ∧ y + ii - 2 < h ∧ 2 ≤ x + jj ∧ x + jj - 2 < w
      then v (x + jj - 2) (y + ii - 2) else 0) < B) : boxWindowSum w h v x y < 25 * B := by
  unfold boxWindowSum
  have hrow : ∀ i, ∀ k, k ∈ List.range 5 →
      (fun jj => if 2 ≤ y + i ∧ y + i - 2 < h ∧ 2 ≤ x + jj ∧ x + jj - 2 < w
        then v (x + jj - 2) (y + i - 2) else 0) k ≤ B := by
    intro i k _
    by_cases hc : 2 ≤ y + i ∧ y + i - 2 < h ∧ 2 ≤ x + k ∧ x + k - 2 < w
    · simp only [if_pos hc]; exact hv _ _ hc.2.2.2 hc.2.1
    · simp only [if_neg hc]; exact Nat.zero_le _
  have := sum_map_lt (List.range 5) (fun ii => ((List.range 5).map (fun jj =>
    if 2 ≤ y + ii ∧ y + ii - 2 < h ∧ 2 ≤ x + jj ∧ x + jj - 2 < w
    then v (x + jj - 2) (y + ii - 2) else 0)).sum) (5 * B) (by
      intro i _
      have := sum_map_le (List.range 5) _ B (hrow i)
      simpa using this) ii (List.mem_range.2 hii) (by
      have := sum_map_lt (List.range 5) _ B (hrow ii) jj (List.mem_range.2 hjj) hlt
      simpa using this)
  simp only [List.length_range] at this
  omega

/-- A window sum is monotone in the values. -/
theorem boxWindowSum_mono (w h : Nat) (v v' : Nat → Nat → Nat) (x y : Nat)
    (hv : ∀ x' y', x' < w → y' < h → v x' y' ≤ v' x' y') :
    boxWindowSum w h v x y ≤ boxWindowSum w h v' x y := by
  unfold boxWindowSum
  apply List.sum_le_sum
  intro ii _
  apply List.sum_le_sum
  intro jj _
  by_cases hc : 2 ≤ y + ii ∧ y + ii - 2 < h ∧ 2 ≤ x + jj ∧ x + jj - 2 < w
  · rw [if_pos hc, if_pos hc]; exact hv _ _ hc.2.2.2 hc.2.1
  · rw [if_neg hc, if_neg hc]

/-- At an interior pixel, 13 of the 25 window positions do not precede the
pixel in the scan: the pixel itself, the two to its right and the two rows
below. -/
theorem boxWindowSum_interior (w h v x y : Nat) (hx2 : 2 ≤ x) (hxw : x + 2 < w) (hy2 : 2 ≤ y)
    (hyh : y + 2 < h) :
    boxWindowSum w h (fun x' y' => if y' < y ∨ (y' = y ∧ x' < x) then 0 else v) x y
      = 13 * v := by
  have key : ∀ ii jj, ii ∈ List.range 5 → jj ∈ List.range 5 →
      (if 2 ≤ y + ii ∧ y + ii - 2 < h ∧ 2 ≤ x + jj ∧ x + jj - 2 < w
        then (if y + ii - 2 < y ∨ (y + ii - 2 = y ∧ x + jj - 2 < x) then 0 else v) else 0)
      = if ii < 2 ∨ (ii = 2 ∧ jj < 2) then 0 else v := by
    intro ii jj hii hjj
    have hi := List.mem_range.1 hii
    have hj := List.mem_range.1 hjj
    have hc : 2 ≤ y + ii ∧ y + ii - 2 < h ∧ 2 ≤ x + jj ∧ x + jj - 2 < w := by omega
    rw [if_pos hc]
    by_cases hb : ii < 2 ∨ (ii = 2 ∧ jj < 2)
    · rw [if_pos hb, if_pos (by omega)]
    · rw [if_neg hb, if_neg (by omega)]
  unfold boxWindowSum
  rw [sum_map_congr (List.range 5) _ (fun ii => ((List.range 5).map (fun jj =>
    if ii < 2 ∨ (ii = 2 ∧ jj < 2) then 0 else v)).sum)
    (fun ii hii => sum_map_congr (List.range 5) _ _ (fun jj hjj => key ii jj hii hjj))]
  simp [List.range_succ]
  omega

/-- On an image whose pixels all hold the value `v ≥ 1` in channel `c`, every
pixel of the result of `Filter_Box` holds less than `v` in that channel: the
window of a pixel of the first row has omitted positions, and the window of
every other pixel holds the darkened pixel above it. -/
theorem Filter_Box_lt (img : TargaImage) (hwf : img.WF) (c v : Nat) (hc : c < 3) (hv : 0 < v)
    (hu : ∀ x y, x < img.width → y < img.height → img.chan x y c = v) :
    ∀ p x y, y * img.width + x = p → x < img.width → y < img.height →
      (Filter_Box img).2.chan x y c < v := by
  intro p
  induction p using Nat.strong_induction_on with
  | _ p ih =>
    intro x y hp hx hy
    rw [(Filter_Box_chan img hwf x y hx hy).1 c hc]
    have hb := boxWindowSum_lt img.width img.height
      (fun x' y' => if y' < y ∨ (y' = y ∧ x' < x) then (Filter_Box img).2.chan x' y' c
        else img.chan x' y' c) x y v (by
        intro x' y' hx' hy'
        by_cases hbf : y' < y ∨ (y' = y ∧ x' < x)
        · simp only [if_pos hbf]
          exact Filter_Box_le img hwf c v hc hu _ x' y' rfl hx' hy'
        · simp only [if_neg hbf]
          exact le_of_eq (hu x' y' hx' hy')) 1 2 (by decide) (by decide) (by
        by_cases hy0 : y = 0
        · rw [if_neg (by omega)]
          exact hv
        · have e1 : x + 2 - 2 = x := by omega
          have e2 : y + 1 - 2 = y - 1 := by omega
          rw [if_pos (by omega), e1, e2]
          simp only [if_pos (Or.inl (show y - 1 < y by omega))]
          have hlt : (y - 1) * img.width + x < p := by
            rw [← hp]
            have : (y - 1) * img.width + img.width = y * img.width := by
              rw [← Nat.succ_mul]
              congr 1
              omega
            omega
          exact ih _ hlt x (y - 1) rfl hx (by omega))
    omega

/-- On an image whose pixels all hold the value `v` in channel `c`, a pixel of
the result of `Filter_Box` holds at least `floor(k * v / 25)`, `k` being the
number of positions of its window that lie inside the raster and do not
precede the pixel in the scan. -/
theorem Filter_Box_ge (img : TargaImage) (hwf : img.WF) (c v : Nat) (hc : c < 3)
    (hu : ∀ x y, x < img.width → y < img.height → img.chan x y c = v)
    (x y : Nat) (hx : x < img.width) (hy : y < img.height) :
    boxWindowSum img.width img.height
      (fun x' y' => if y' < y ∨ (y' = y ∧ x' < x) then 0 else v) x y / 25
      ≤ (Filter_Box img).2.chan x y c := by
  rw [(Filter_Box_chan img hwf x y hx hy).1 c hc]
  apply Nat.div_le_div_right
  apply boxWindowSum_mono
  intro x' y' hx' hy'
  by_cases hbf : y' < y ∨ (y' = y ∧ x' < x)
  · simp only [if_pos hbf]
    exact Nat.zero_le _
  · simp only [if_neg hbf]
    exact le_of_eq (hu x' y' hx' hy').symm

/-- C14 (amended). On a well-formed image in which all pixels have the same
colour `(R, G, B, A)`, after `Filter_Box` every pixel has alpha `A` and its
R, G and B at most `R`, `G` and `B`; a channel whose value is not 0 gets
strictly smaller at every pixel, so no pixel, interior or not, keeps a
colour other than black; an interior pixel (`2 ≤ x < width - 2`,
`2 ≤ y < height - 2`) keeps at least `floor(13 v / 25)` of each channel value
`v`, and every pixel keeps at least `floor(k v / 25)`, `k` being the number of
positions of its window inside the raster that do not precede it in the
scan. -/
theorem Filter_Box_uniform_darkens (img : TargaImage) (hwf : img.WF) (R G B A : Nat)
    (hu : ∀ x y, x < img.width → y < img.height →
      img.chan x y 0 = R ∧ img.chan x y 1 = G ∧ img.chan x y 2 = B ∧ img.chan x y 3 = A)
    (x y : Nat) (hx : x < img.width) (hy : y < img.height) :
    (Filter_Box img).2.chan x y 0 ≤ R ∧ (Filter_Box img).2.chan x y 1 ≤ G ∧
    (Filter_Box img).2.chan x y 2 ≤ B ∧ (Filter_Box img).2.chan x y 3 = A ∧
    (0 < R → (Filter_Box img).2.chan x y 0 < R) ∧
    (0 < G → (Filter_Box img).2.chan x y 1 < G) ∧
    (0 < B → (Filter_Box img).2.chan x y 2 < B) ∧
    (2 ≤ x → x + 2 < img.width → 2 ≤ y → y + 2 < img.height →
      13 * R / 25 ≤ (Filter_Box img).2.chan x y 0 ∧
      13 * G / 25 ≤ (Filter_Box img).2.chan x y 1 ∧
      13 * B / 25 ≤ (Filter_Box img).2.chan x y 2) ∧
    (boxWindowSum img.width img.height
        (fun x' y' => if y' < y ∨ (y' = y ∧ x' < x) then 0 else R) x y / 25
      ≤ (Filter_Box img).2.chan x y 0 ∧
     boxWindowSum img.width img.height
        (fun x' y' => if y' < y ∨ (y' = y ∧ x' < x) then 0 else G) x y / 25
      ≤ (Filter_Box img).2.chan x y 1 ∧
     boxWindowSum img.width img.height
        (fun x' y' => if y' < y ∨ (y' = y ∧ x' < x) then 0 else B) x y / 25
      ≤ (Filter_Box img).2.chan x y 2) := by
  have h0 : ∀ x y, x < img.width → y < img.height → img.chan x y 0 = R :=
    fun x y hx hy => (hu x y hx hy).1
  have h1 : ∀ x y, x < img.width → y < img.height → img.chan x y 1 = G :=
    fun x y hx hy => (hu x y hx hy).2.1
  have h2 : ∀ x y, x < img.width → y < img.height → img.chan x y 2 = B :=
    fun x y hx hy => (hu x y hx hy).2.2.1
  have g0 := Filter_Box_ge img hwf 0 R (by decide) h0 x y hx hy
  have g1 := Filter_Box_ge img hwf 1 G (by decide) h1 x y hx hy
  have g2 := Filter_Box_ge img hwf 2 B (by decide) h2 x y hx hy
  refine ⟨Filter_Box_le img hwf 0 R (by decide) h0 _ x y rfl hx hy,
    Filter_Box_le img hwf 1 G (by decide) h1 _ x y rfl hx hy,
    Filter_Box_le img hwf 2 B (by decide) h2 _ x y rfl hx hy,
    by rw [(Filter_Box_chan img hwf x y hx hy).2]; exact (hu x y hx hy).2.2.2,
    fun hR => Filter_Box_lt img hwf 0 R (by decide) hR h0 _ x y rfl hx hy,
    fun hG => Filter_Box_lt img hwf 1 G (by decide) hG h1 _ x y rfl hx hy,
    fun hB => Filter_Box_lt img hwf 2 B (by decide) hB h2 _ x y rfl hx hy,
    ?_, g0, g1, g2⟩
  intro hx2 hxw hy2 hyh
  rw [boxWindowSum_interior img.width img.height _ x y hx2 hxw hy2 hyh] at g0 g1 g2
  exact ⟨g0, g1, g2⟩

set_option maxRecDepth 100000 in
/-- Witness for C14 (amended): the interior pixel `(2, 2)` of the 5x5 image of
`(100, 100, 100, 255)` pixels keeps at least `floor(1300 / 25) = 52` and less
than 100 of every channel, and its alpha. -/
theorem Filter_Box_uniform_darkens_witness :
    52 ≤ (Filter_Box ⟨5, 5, (List.replicate 25 [100, 100, 100, 255]).flatten⟩).2.chan 2 2 0 ∧
    (Filter_Box ⟨5, 5, (List.replicate 25 [100, 100, 100, 255]).flatten⟩).2.chan 2 2 0 < 100 ∧
    (Filter_Box ⟨5, 5, (List.replicate 25 [100, 100, 100, 255]).flatten⟩).2.chan 2 2 3 = 255 := by
  have h := Filter_Box_uniform_darkens ⟨5, 5, (List.replicate 25 [100, 100, 100, 255]).flatten⟩
    (by decide) 100 100 100 255
    (by
      intro x y hx hy
      have hx' : x < 5 := hx
      have hy' : y < 5 := hy
      interval_cases x <;> interval_cases y <;> decide)
    2 2 (by decide) (by decide)
  exact ⟨(h.2.2.2.2.2.2.2.1 (by decide) (by decide) (by decide) (by decide)).1,
    h.2.2.2.2.1 (by decide), h.2.2.2.1⟩

end TargaImage

/-! ## `Half_Size` on a uniform image -/

/-- A multiple `k / 16` of a sixteenth with `k < 2 ^ 24` is a `float`: rounding keeps it. -/
theorem fl32_sixteenth (x : Frac) (hd : 0 < x.den) (k : Nat) (hk : k < 16777216)
    (h : x.toRat = (k : ℚ) / 16) : (fl32 x).toRat = (k : ℚ) / 16 := by
  have hq : (x.den : ℚ) ≠ 0 := by exact_mod_cast (Nat.pos_iff_ne_zero.1 hd)
  by_cases hk0 : k = 0
  · subst hk0
    have hnum : x.num = 0 := by
      unfold Frac.toRat at h
      rw [Nat.cast_zero, zero_div, div_eq_zero_iff] at h
      rcases h with h | h
      · exact_mod_cast h
      · exact absurd h hq
    unfold fl32 roundFrac
    rw [if_pos hnum]
    simp [Frac.toRat]
  · have hk1 : (1 : ℚ) ≤ k := by exact_mod_cast Nat.one_le_iff_ne_zero.2 hk0
    have hk2 : (k : ℚ) < 16777216 := by exact_mod_cast hk
    have hxpos : 0 < x.toRat := by rw [h]; positivity
    have hnum : x.num ≠ 0 := by
      intro h0
      have : x.toRat = 0 := by unfold Frac.toRat; rw [h0]; simp
      linarith
    obtain ⟨L, hL1, hL2⟩ := exists_binade x hd hnum
    have habs : |x.toRat| = x.toRat := abs_of_pos hxpos
    have hLlo : -5 ≤ L := by
      have h1 : (2 : ℚ) ^ (-5 : ℤ) < (2 : ℚ) ^ (L + 1) := by
        refine lt_of_le_of_lt ?_ hL2
        rw [habs, h]; norm_num; linarith
      have := (zpow_lt_zpow_iff_right₀ (by norm_num : (1 : ℚ) < 2)).1 h1
      omega
    have hLhi : L ≤ 19 := by
      have h1 : (2 : ℚ) ^ L < (2 : ℚ) ^ (20 : ℤ) := by
        refine lt_of_le_of_lt hL1 ?_
        rw [habs, h]; norm_num; linarith
      have := (zpow_lt_zpow_iff_right₀ (by norm_num : (1 : ℚ) < 2)).1 h1
      omega
    obtain ⟨t, ht⟩ : ∃ t : ℕ, (t : ℤ) = 19 - L := ⟨(19 - L).toNat, by omega⟩
    apply roundFrac_near 24 (-149) x hd ((k : ℚ) / 16) L ((k * 2 ^ t : ℕ) : ℤ) hL1 hL2
      (by push_cast; omega)
    · have e : L - (((24 : ℕ) : ℤ) - 1) = -((t : ℤ) + 4) := by push_cast; omega
      rw [e, zpow_neg, zpow_add₀ (by norm_num : (2 : ℚ) ≠ 0), zpow_natCast]
      push_cast
      field_simp
      ring
    · rw [h, sub_self, abs_zero]
      positivity

/-- One accumulation `sum += v * m` of the blur in `float`: while the
partial sum of weights stays at most 16 sixteenths nothing is rounded off. -/
theorem halfSize_acc (s m : Frac) (v n wt n1 : Nat) (hn : n1 = n + wt) (hn1 : n1 ≤ 16)
    (hv : v ≤ 255) (hs : 0 < s.den ∧ s.toRat = ((n * v : ℕ) : ℚ) / 16)
    (hm : 0 < m.den ∧ m.toRat = ((wt : ℕ) : ℚ) / 16) :
    0 < (fadd s (fmul (Frac.ofNat v) m)).den ∧
      (fadd s (fmul (Frac.ofNat v) m)).toRat = ((n1 * v : ℕ) : ℚ) / 16 := by
  refine ⟨fl32_den_pos _, ?_⟩
  have hwt : wt ≤ 16 := by omega
  have hp : (fmul (Frac.ofNat v) m).toRat = ((wt * v : ℕ) : ℚ) / 16 := by
    unfold fmul
    apply fl32_sixteenth _ (Frac.mul_den_pos _ _ Nat.one_pos hm.1)
    · have : wt * v ≤ 16 * 255 := Nat.mul_le_mul hwt hv
      omega
    · rw [Frac.toRat_mul, Frac.toRat_ofNat, hm.2]
      push_cast
      ring
  have hpd : 0 < (fmul (Frac.ofNat v) m).den := fl32_den_pos _
  unfold fadd
  apply fl32_sixteenth _ (Frac.add_den_pos _ _ hs.1 hpd)
  · have : n1 * v ≤ 16 * 255 := Nat.mul_le_mul hn1 hv
    omega
  · rw [Frac.toRat_add _ _ hs.1 hpd, hs.2, hp, hn]
    push_cast
    ring

namespace TargaImage

theorem halfSizeMask_eq : halfSizeMask =
    [[⟨8388608, 134217728⟩, ⟨8388608, 67108864⟩, ⟨8388608, 134217728⟩],
     [⟨8388608, 67108864⟩, ⟨8388608, 33554432⟩, ⟨8388608, 67108864⟩],
     [⟨8388608, 134217728⟩, ⟨8388608, 67108864⟩, ⟨8388608, 134217728⟩]] := by
  set_option maxRecDepth 100000 in decide

/-- The nine accumulations of one channel of the blur, for a window that
holds the value `v` everywhere, add up to `v` exactly. -/
theorem halfSize_chain (v : Nat) (hv : v ≤ 255) :
    ∀ t : Frac, t = List.foldl (fun s m => fadd s (fmul (Frac.ofNat v) m)) ⟨0, 1⟩
      (halfSizeMask.flatten) → 0 < t.den ∧ t.toRat = v := by
  intro t ht
  rw [halfSizeMask_eq] at ht
  simp only [List.flatten, List.foldl, List.append, List.cons_append, List.nil_append] at ht
  have m1 : 0 < (⟨8388608, 134217728⟩ : Frac).den ∧
      (⟨8388608, 134217728⟩ : Frac).toRat = ((1 : ℕ) : ℚ) / 16 := by
    refine ⟨by decide, ?_⟩
    unfold Frac.toRat; norm_num
  have m2 : 0 < (⟨8388608, 67108864⟩ : Frac).den ∧
      (⟨8388608, 67108864⟩ : Frac).toRat = ((2 : ℕ) : ℚ) / 16 := by
    refine ⟨by decide, ?_⟩
    unfold Frac.toRat; norm_num
  have m4 : 0 < (⟨8388608, 33554432⟩ : Frac).den ∧
      (⟨8388608, 33554432⟩ : Frac).toRat = ((4 : ℕ) : ℚ) / 16 := by
    refine ⟨by decide, ?_⟩
    unfold Frac.toRat; norm_num
  have s0 : 0 < (⟨0, 1⟩ : Frac).den ∧ (⟨0, 1⟩ : Frac).toRat = ((0 * v : ℕ) : ℚ) / 16 := by
    refine ⟨by decide, ?_⟩
    unfold Frac.toRat; simp
  have s1 := halfSize_acc _ _ v 0 1 1 rfl (by decide) hv s0 m1
  have s2 := halfSize_acc _ _ v 1 2 3 rfl (by decide) hv s1 m2
  have s3 := halfSize_acc _ _ v 3 1 4 rfl (by decide) hv s2 m1
  have s4 := halfSize_acc _ _ v 4 2 6 rfl (by decide) hv s3 m2
  have s5 := halfSize_acc _ _ v 6 4 10 rfl (by decide) hv s4 m4
  have s6 := halfSize_acc _ _ v 10 2 12 rfl (by decide) hv s5 m2
  have s7 := halfSize_acc _ _ v 12 1 13 rfl (by decide) hv s6 m1
  have s8 := halfSize_acc _ _ v 13 2 15 rfl (by decide) hv s7 m2
  have s9 := halfSize_acc _ _ v 15 1 16 rfl (by decide) hv s8 m1
  rw [← ht] at s9
  refine ⟨s9.1, ?_⟩
  rw [s9.2]
  push_cast
  ring

end TargaImage

/-- Storing the byte a cell already holds changes nothing. -/
theorem wr_self (D : List Nat) (i v : Nat) (h : rd D i = v) (hv : v < 256) : wr D i v = D := by
  apply list_ext_rd _ _ (wr_length D i v)
  intro k _
  rw [rd_wr]
  split_ifs with hc
  · rw [← hc.1, h, Nat.mod_eq_of_lt hv]
  · rfl

/-- The mirror correction of `Half_Size` keeps a coordinate inside an axis of
length at least 2. -/
theorem mirror_in_range (x w jj : Nat) (hx : x < w) (hw : 2 ≤ w) (hjj : jj < 3) :
    ∃ X : Nat, X < w ∧
      (x : Int) + ((jj : Int) - 1)
        + (if (x : Int) + ((jj : Int) - 1) < 0 ∨ (x : Int) + ((jj : Int) - 1) ≥ (w : Int)
            then -2 * ((jj : Int) - 1) else 0) = (X : Int) := by
  by_cases hc : (x : Int) + ((jj : Int) - 1) < 0 ∨ (x : Int) + ((jj : Int) - 1) ≥ (w : Int)
  · rw [if_pos hc]
    refine ⟨((x : Int) + ((jj : Int) - 1) + -2 * ((jj : Int) - 1)).toNat, ?_, ?_⟩ <;> omega
  · rw [if_neg hc]
    refine ⟨((x : Int) + ((jj : Int) - 1)).toNat, ?_, ?_⟩ <;> omega

namespace TargaImage

/-- One tap of the blur on a buffer whose pixels all hold `(r, g, b)`. -/
theorem halfSizeTap_uniform (img : TargaImage) (D : List Nat) (x y ii jj r g b : Nat)
    (s0 s1 s2 : Frac) (hx : x < img.width) (hy : y < img.height) (hii : ii < 3) (hjj : jj < 3)
    (hw : 2 ≤ img.width) (hh : 2 ≤ img.height)
    (hD : ∀ x' y', x' < img.width → y' < img.height →
      rd D (img.Get_RGBA x' y' + 0) = r ∧ rd D (img.Get_RGBA x' y' + 1) = g ∧
        rd D (img.Get_RGBA x' y' + 2) = b) :
    halfSizeTap img D x y ii jj [s0, s1, s2] =
      [fadd s0 (fmul (Frac.ofNat r) (maskAt halfSizeMask ii jj)),
       fadd s1 (fmul (Frac.ofNat g) (maskAt halfSizeMask ii jj)),
       fadd s2 (fmul (Frac.ofNat b) (maskAt halfSizeMask ii jj))] := by
  obtain ⟨X, hX, eX⟩ := mirror_in_range x img.width jj hx hw hjj
  obtain ⟨Y, hY, eY⟩ := mirror_in_range y img.height ii hy hh hii
  obtain ⟨h0, h1, h2⟩ := hD X Y hX hY
  have eG : ∀ c : Nat, img.Get_RGBA_int X Y + (c : Int) = ((img.Get_RGBA X Y + c : Nat) : Int) := by
    intro c; unfold Get_RGBA_int Get_RGBA; push_cast; ring
  unfold halfSizeTap
  simp only [RED, GREEN, BLUE]
  rw [eX, eY, eG 0, eG 1, eG 2, rdInt_natCast, rdInt_natCast, rdInt_natCast, h0, h1, h2]
  simp [List.set, List.getD]

/-- The blur step of `Half_Size` leaves a uniform buffer as it is. -/
theorem halfSizeBlurPixel_uniform (img : TargaImage) (D : List Nat) (sum : List Frac)
    (x y r g b : Nat) (hx : x < img.width) (hy : y < img.height)
    (hw : 2 ≤ img.width) (hh : 2 ≤ img.height) (hr : r < 256) (hg : g < 256) (hb : b < 256)
    (hsum : sum.length = 3)
    (hD : ∀ x' y', x' < img.width → y' < img.height →
      rd D (img.Get_RGBA x' y' + 0) = r ∧ rd D (img.Get_RGBA x' y' + 1) = g ∧
        rd D (img.Get_RGBA x' y' + 2) = b) :
    (halfSizeBlurPixel img x y (D, sum)).1 = D ∧ (halfSizeBlurPixel img x y (D, sum)).2.length = 3 := by
  obtain ⟨a, b', c, rfl⟩ := List.length_eq_three.1 hsum
  have hfill : fill_Float_Value 3 ⟨0, 1⟩ [a, b', c] = [⟨0, 1⟩, ⟨0, 1⟩, ⟨0, 1⟩] := by
    simp [fill_Float_Value, forLoop, List.set]
  have htaps : forLoop 3 (fun ii sum =>
      forLoop 3 (fun jj sum => halfSizeTap img D x y ii jj sum) sum) [⟨0, 1⟩, ⟨0, 1⟩, ⟨0, 1⟩]
      = [List.foldl (fun s m => fadd s (fmul (Frac.ofNat r) m)) ⟨0, 1⟩ (halfSizeMask.flatten),
         List.foldl (fun s m => fadd s (fmul (Frac.ofNat g) m)) ⟨0, 1⟩ (halfSizeMask.flatten),
         List.foldl (fun s m => fadd s (fmul (Frac.ofNat b) m)) ⟨0, 1⟩ (halfSizeMask.flatten)] := by
    simp only [forLoop]
    rw [halfSizeTap_uniform img D x y 0 0 r g b _ _ _ hx hy (by decide) (by decide) hw hh hD,
      halfSizeTap_uniform img D x y 0 1 r g b _ _ _ hx hy (by decide) (by decide) hw hh hD,
      halfSizeTap_uniform img D x y 0 2 r g b _ _ _ hx hy (by decide) (by decide) hw hh hD,
      halfSizeTap_uniform img D x y 1 0 r g b _ _ _ hx hy (by decide) (by decide) hw hh hD,
      halfSizeTap_uniform img D x y 1 1 r g b _ _ _ hx hy (by decide) (by decide) hw hh hD,
      halfSizeTap_uniform img D x y 1 2 r g b _ _ _ hx hy (by decide) (by decide) hw hh hD,
      halfSizeTap_uniform img D x y 2 0 r g b _ _ _ hx hy (by decide) (by decide) hw hh hD,
      halfSizeTap_uniform img D x y 2 1 r g b _ _ _ hx hy (by decide) (by decide) hw hh hD,
      halfSizeTap_uniform img D x y 2 2 r g b _ _ _ hx hy (by decide) (by decide) hw hh hD]
    simp only [maskAt, halfSizeMask, List.flatten, List.foldl, List.getD_cons_zero,
      List.getD_cons_succ, List.cons_append, List.nil_append, List.append_nil]
  have hval : ∀ v : Nat, v ≤ 255 →
      toUChar (List.foldl (fun s m => fadd s (fmul (Frac.ofNat v) m)) ⟨0, 1⟩
        (halfSizeMask.flatten)) = v := by
    intro v hv
    obtain ⟨hd, ht⟩ := halfSize_chain v hv _ rfl
    unfold toUChar
    rw [Frac.trunc_eq _ hd v (by rw [ht]) (by rw [ht]; linarith)]
    simp
  obtain ⟨h0, h1, h2⟩ := hD x y hx hy
  unfold halfSizeBlurPixel
  simp only [hfill, htaps, RED, GREEN, BLUE]
  constructor
  · simp only [List.getD_cons_zero, List.getD_cons_succ]
    rw [hval r (by omega), hval g (by omega), hval b (by omega), wr_self D _ r h0 hr,
      wr_self D _ g h1 hg, wr_self D _ b h2 hb]
  · rfl

/-- The blur pass of `Half_Size` leaves a uniform image as it is. -/
theorem halfSize_blur_uniform (img : TargaImage) (r g b : Nat)
    (hw : 2 ≤ img.width) (hh : 2 ≤ img.height) (hr : r < 256) (hg : g < 256) (hb : b < 256)
    (hD : ∀ x' y', x' < img.width → y' < img.height →
      rd img.data (img.Get_RGBA x' y' + 0) = r ∧ rd img.data (img.Get_RGBA x' y' + 1) = g ∧
        rd img.data (img.Get_RGBA x' y' + 2) = b) :
    (forLoop img.height (fun y s =>
      forLoop img.width (fun x s => halfSizeBlurPixel img x y s) s)
        (img.data, [⟨0, 1⟩, ⟨0, 1⟩, ⟨0, 1⟩])).1 = img.data := by
  have key := forLoop_inv (fun st : List Nat × List Frac => st.1 = img.data ∧ st.2.length = 3)
    img.height (fun y s => forLoop img.width (fun x s => halfSizeBlurPixel img x y s) s)
    (img.data, [⟨0, 1⟩, ⟨0, 1⟩, ⟨0, 1⟩])
    (fun y t hy ht => forLoop_inv
      (fun st : List Nat × List Frac => st.1 = img.data ∧ st.2.length = 3) img.width
      (fun x s => halfSizeBlurPixel img x y s) t
      (fun x u hx hu => by
        obtain ⟨u1, u2⟩ := u
        obtain ⟨e1, e2⟩ := hu
        simp only at e1 e2
        subst e1
        exact halfSizeBlurPixel_uniform img img.data u2 x y r g b hx hy hw hh hr hg hb e2 hD)
      ht)
    ⟨rfl, rfl⟩
  exact key.1

end TargaImage

/-- An invariant that depends on the loop counter. -/
theorem forLoop_inv_idx {σ : Type} (P : Nat → σ → Prop) (n : Nat) (body : Nat → σ → σ) (s : σ)
    (hbody : ∀ i t, i < n → P i t → P (i + 1) (body i t)) (hs : P 0 s) :
    P n (forLoop n body s) := by
  induction n with
  | zero => exact hs
  | succ n ih =>
    rw [forLoop_succ]
    exact hbody n _ (Nat.lt_succ_self n) (ih (fun i t hi => hbody i t (Nat.lt_succ_of_lt hi)))

/-- Row-major pixel indices determine the coordinates. -/
theorem pix_inj (W u v u' v' : Nat) (hu : u < W) (hu' : u' < W)
    (h : v * W + u = v' * W + u') : u = u' ∧ v = v' := by
  have hW : 0 < W := by omega
  have h1 : (v * W + u) % W = (v' * W + u') % W := by rw [h]
  have h2 : (v * W + u) / W = (v' * W + u') / W := by rw [h]
  rw [Nat.add_comm, Nat.add_mul_mod_self_right, Nat.add_comm (v' * W), Nat.add_mul_mod_self_right,
    Nat.mod_eq_of_lt hu, Nat.mod_eq_of_lt hu'] at h1
  rw [Nat.add_comm, Nat.add_mul_div_right _ _ hW, Nat.add_comm (v' * W),
    Nat.add_mul_div_right _ _ hW, Nat.div_eq_of_lt hu, Nat.div_eq_of_lt hu'] at h2
  exact ⟨h1, by omega⟩

/-- A row-major pixel index lies below the number of pixels. -/
theorem pix_lt (W H u v : Nat) (hu : u < W) (hv : v < H) : v * W + u < H * W := by
  have : (v + 1) * W ≤ H * W := Nat.mul_le_mul_right W hv
  rw [Nat.add_mul, Nat.one_mul] at this
  omega

namespace TargaImage

/-- The decimation loop of `Half_Size` on a source whose pixels all hold the
colour `col`, for even dimensions: every pixel of the new buffer gets it. -/
theorem halfSize_copy_uniform (img : TargaImage) (T D0 : List Nat) (col : Nat → Nat)
    (hw2 : img.width % 2 = 0) (hh2 : img.height % 2 = 0)
    (hlen : D0.length = (img.width / 2) * (img.height / 2) * 4)
    (hbytes : ∀ b ∈ D0, b < 256)
    (hT : ∀ x y c, x < img.width → y < img.height → c < 4 →
      rd T (img.Get_RGBA x y + c) = col c)
    (hcol : ∀ c, col c < 256) :
    (forLoop img.height (fun y data =>
        forLoop img.width (fun x data => halfSizeCopyPixel img T x y data) data) D0).length
      = (img.width / 2) * (img.height / 2) * 4 ∧
    (∀ b ∈ forLoop img.height (fun y data =>
        forLoop img.width (fun x data => halfSizeCopyPixel img T x y data) data) D0, b < 256) ∧
    ∀ u v c, u < img.width / 2 → v < img.height / 2 → c < 4 →
      rd (forLoop img.height (fun y data =>
        forLoop img.width (fun x data => halfSizeCopyPixel img T x y data) data) D0)
        (u * 4 + v * (img.width / 2) * 4 + c) = col c := by
  rw [forLoop_nest img.width img.height (fun x y data => halfSizeCopyPixel img T x y data) D0]
  have key := forLoop_inv_idx
    (fun n D => D.length = (img.width / 2) * (img.height / 2) * 4 ∧ (∀ b ∈ D, b < 256) ∧
      ∀ u v c, u < img.width / 2 → v < img.height / 2 → c < 4 →
        2 * v * img.width + 2 * u < n → rd D (u * 4 + v * (img.width / 2) * 4 + c) = col c)
    (img.height * img.width)
    (fun p data => halfSizeCopyPixel img T (p % img.width) (p / img.width) data) D0 ?_
    ⟨hlen, hbytes, fun u v c _ _ _ h => absurd h (Nat.not_lt_zero _)⟩
  · refine ⟨key.1, key.2.1, fun u v c hu hv hc => key.2.2 u v c hu hv hc ?_⟩
    have h1 : 2 * v * img.width + 2 * u < (2 * v + 1) * img.width := by
      rw [Nat.add_mul, Nat.one_mul]; omega
    have h2 : (2 * v + 1) * img.width ≤ img.height * img.width :=
      Nat.mul_le_mul_right _ (by omega)
    omega
  · intro i D hi ⟨hl, hb, hD⟩
    beta_reduce
    have hwpos : 0 < img.width := by
      rcases Nat.eq_zero_or_pos img.width with h0 | h0
      · rw [h0] at hi; simp at hi
      · exact h0
    have hx : i % img.width < img.width := Nat.mod_lt _ hwpos
    have hy : i / img.width < img.height := (Nat.div_lt_iff_lt_mul hwpos).2 hi
    have hdm : i / img.width * img.width + i % img.width = i := by
      rw [Nat.mul_comm]; exact Nat.div_add_mod i img.width
    generalize i % img.width = x at hx hdm ⊢
    generalize i / img.width = y at hy hdm ⊢
    have hx2 : x / 2 < img.width / 2 := by omega
    have hy2 : y / 2 < img.height / 2 := by omega
    have hq := pix_lt (img.width / 2) (img.height / 2) (x / 2) (y / 2) hx2 hy2
    rw [Nat.mul_comm (img.height / 2)] at hq
    have hguard : ¬ (y / 2 = img.height / 2 ∨ x / 2 = img.width / 2) := by omega
    have hmod : ∀ c, c < 4 → rd T (img.Get_RGBA x y + c) % 256 = col c := by
      intro c hc
      rw [hT x y c hx hy hc, Nat.mod_eq_of_lt (hcol c)]
    have hm0 := hmod 0 (by decide)
    have hm1 := hmod 1 (by decide)
    have hm2 := hmod 2 (by decide)
    have hm3 := hmod 3 (by decide)
    unfold halfSizeCopyPixel
    rw [if_neg hguard]
    simp only [RED, GREEN, BLUE]
    refine ⟨by simp only [wr_length]; exact hl, ?_, ?_⟩
    · exact wr_bytes _ _ _ (wr_bytes _ _ _ (wr_bytes _ _ _ (wr_bytes _ _ _ hb)))
    · intro u v c hu hv hc hlt
      simp only [rd_wr, wr_length, hm0, hm1, hm2, hm3]
      by_cases huv : u = x / 2 ∧ v = y / 2
      · obtain ⟨rfl, rfl⟩ := huv
        have hc4 : c = 0 ∨ c = 1 ∨ c = 2 ∨ c = 3 := by omega
        rcases hc4 with rfl | rfl | rfl | rfl <;> split_ifs <;> omega
      · have hne : v * (img.width / 2) + u ≠ y / 2 * (img.width / 2) + x / 2 := by
          intro he
          have := pix_inj _ _ _ _ _ hu hx2 he
          exact huv this
        have hne2 : 2 * v * img.width + 2 * u ≠ i := by
          intro he
          rw [← hdm] at he
          have := pix_inj img.width (2 * u) (2 * v) x y (by omega) hx he
          omega
        have hold := hD u v c hu hv hc (by omega)
        rw [if_neg (by omega), if_neg (by omega), if_neg (by omega), if_neg (by omega)]
        exact hold

end TargaImage

namespace TargaImage

/-- C11. For every image with even width at least 2 and even height at
least 2 in which every pixel holds the same `(R, G, B, A)`, `Half_Size`
yields a well-formed image of `width / 2` by `height / 2` pixels, every
pixel of which holds that same `(R, G, B, A)`. -/
theorem Half_Size_uniform (img : TargaImage) (R G B A : Nat) (hwf : img.WF)
    (hw : 2 ≤ img.width) (hw2 : img.width % 2 = 0)
    (hh : 2 ≤ img.height) (hh2 : img.height % 2 = 0)
    (huni : ∀ x y, x < img.width → y < img.height →
      img.chan x y 0 = R ∧ img.chan x y 1 = G ∧ img.chan x y 2 = B ∧ img.chan x y 3 = A) :
    (Half_Size img).2.width = img.width / 2 ∧ (Half_Size img).2.height = img.height / 2 ∧
    (Half_Size img).2.WF ∧
    ∀ x y, x < img.width / 2 → y < img.height / 2 →
      (Half_Size img).2.chan x y 0 = R ∧ (Half_Size img).2.chan x y 1 = G ∧
      (Half_Size img).2.chan x y 2 = B ∧ (Half_Size img).2.chan x y 3 = A := by
  obtain ⟨h0, h1, h2, h3⟩ := huni 0 0 (by omega) (by omega)
  have hr : R < 256 := by rw [← h0]; exact rd_lt_of_forall _ hwf.2 _
  have hg : G < 256 := by rw [← h1]; exact rd_lt_of_forall _ hwf.2 _
  have hb : B < 256 := by rw [← h2]; exact rd_lt_of_forall _ hwf.2 _
  have ha : A < 256 := by rw [← h3]; exact rd_lt_of_forall _ hwf.2 _
  have hblur := halfSize_blur_uniform img R G B hw hh hr hg hb
    (fun x y hx hy => ⟨(huni x y hx hy).1, (huni x y hx hy).2.1, (huni x y hx hy).2.2.1⟩)
  have htake : img.data.take (img.width * img.height * 4) = img.data :=
    List.take_of_length_le (le_of_eq hwf.1)
  have hdiv : img.width / 2 * img.height / 2 = img.width / 2 * (img.height / 2) :=
    Nat.mul_div_assoc _ (Nat.dvd_of_mod_eq_zero hh2)
  have hcopy := halfSize_copy_uniform img img.data
    (memset (List.replicate (img.width / 2 * img.height / 2 * 4) 0) 0
      ((img.width / 2) * (img.height / 2) * 4))
    (fun c => if c = 0 then R else if c = 1 then G else if c = 2 then B else A) hw2 hh2
    (by unfold memset; rw [hdiv]; simp)
    (by
      intro b hb'
      unfold memset at hb'
      rw [List.mem_append] at hb'
      rcases hb' with hb' | hb'
      · rw [List.eq_of_mem_replicate hb']; decide
      · rw [List.eq_of_mem_replicate (List.mem_of_mem_drop hb')]; decide)
    (by
      intro x y c hx hy hc
      obtain ⟨e0, e1, e2, e3⟩ := huni x y hx hy
      have hc4 : c = 0 ∨ c = 1 ∨ c = 2 ∨ c = 3 := by omega
      rcases hc4 with rfl | rfl | rfl | rfl
      · exact e0
      · exact e1
      · exact e2
      · exact e3)
    (by intro c; beta_reduce; split_ifs <;> assumption)
  unfold Half_Size
  simp only []
  rw [hblur, htake]
  refine ⟨trivial, trivial, ⟨hcopy.1, hcopy.2.1⟩, ?_⟩
  intro x y hx hy
  exact ⟨hcopy.2.2 x y 0 hx hy (by decide), hcopy.2.2 x y 1 hx hy (by decide),
    hcopy.2.2 x y 2 hx hy (by decide), hcopy.2.2 x y 3 hx hy (by decide)⟩

/-- Witness for C11: the 2x2 image of `(10, 20, 30, 40)` pixels becomes the
single pixel `(10, 20, 30, 40)`. -/
theorem Half_Size_uniform_witness :
    (Half_Size ⟨2, 2, [10, 20, 30, 40, 10, 20, 30, 40, 10, 20, 30, 40, 10, 20, 30, 40]⟩).2.width
      = 1 ∧
    (Half_Size ⟨2, 2, [10, 20, 30, 40, 10, 20, 30, 40, 10, 20, 30, 40, 10, 20, 30, 40]⟩).2.chan
      0 0 2 = 30 := by
  have h := Half_Size_uniform
    ⟨2, 2, [10, 20, 30, 40, 10, 20, 30, 40, 10, 20, 30, 40, 10, 20, 30, 40]⟩ 10 20 30 40
    (by decide) (by decide) (by decide) (by decide) (by decide)
    (by
      intro x y hx hy
      have hx' : x < 2 := hx
      have hy' : y < 2 := hy
      interval_cases x <;> interval_cases y <;> decide)
  exact ⟨h.1, (h.2.2.2 0 0 (by decide) (by decide)).2.2.1⟩

end TargaImage

/-! ## `Quant_Populosity` -/

theorem getD_set {α : Type} (l : List α) (i j : Nat) (a d : α) :
    (l.set i a).getD j d = if i = j ∧ i < l.length then a else l.getD j d := by
  rw [List.getD_eq_getElem?_getD, List.getD_eq_getElem?_getD, List.getElem?_set]
  by_cases hij : i = j
  · subst hij
    by_cases hl : i < l.length
    · simp [hl]
    · have hn : l[i]? = none := List.getElem?_eq_none (Nat.le_of_not_lt hl)
      simp [hl, hn]
  · simp [hij]

/-- Reading `Color_Nodes` after an assignment to an entry inside the array. -/
theorem nodeAt_setNode (nodes : List (List (List Color))) (hs : NodesShaped nodes)
    (i j k : Nat) (hi : i < 32) (hj : j < 32) (hk : k < 32) (c : Color) (i1 j1 k1 : Nat) :
    nodeAt (setNode nodes i j k c) i1 j1 k1
      = if i1 = i ∧ j1 = j ∧ k1 = k then c else nodeAt nodes i1 j1 k1 := by
  obtain ⟨h0, h1⟩ := hs
  obtain ⟨h2, h3⟩ := h1 i hi
  have h4 := h3 j hj
  unfold nodeAt setNode
  rw [getD_set]
  by_cases e1 : i = i1
  · subst e1
    rw [if_pos ⟨rfl, by omega⟩, getD_set]
    by_cases e2 : j = j1
    · subst e2
      rw [if_pos ⟨rfl, by omega⟩, getD_set]
      by_cases e3 : k = k1
      · subst e3
        rw [if_pos ⟨rfl, by omega⟩, if_pos ⟨rfl, rfl, rfl⟩]
      · rw [if_neg (fun h => e3 h.1), if_neg (fun h => e3 h.2.2.symm)]
    · rw [if_neg (fun h => e2 h.1), if_neg (fun h => e2 h.2.1.symm)]
  · rw [if_neg (fun h => e1 h.1), if_neg (fun h => e1 h.1.symm)]

/-- An assignment to an entry keeps the shape of `Color_Nodes`. -/
theorem setNode_shaped (nodes : List (List (List Color))) (hs : NodesShaped nodes)
    (i j k : Nat) (c : Color) : NodesShaped (setNode nodes i j k c) := by
  obtain ⟨h0, h1⟩ := hs
  unfold setNode
  refine ⟨by rw [List.length_set]; exact h0, ?_⟩
  intro i1 hi1
  rw [getD_set]
  by_cases e1 : i = i1
  · subst e1
    rw [if_pos ⟨rfl, by omega⟩]
    refine ⟨by rw [List.length_set]; exact (h1 i hi1).1, ?_⟩
    intro j1 hj1
    rw [getD_set]
    by_cases e2 : j = j1
    · subst e2
      rw [if_pos ⟨rfl, by rw [(h1 i hi1).1]; exact hj1⟩, List.length_set]
      exact (h1 i hi1).2 j hj1
    · rw [if_neg (fun h => e2 h.1)]
      exact (h1 i hi1).2 j1 hj1
  · rw [if_neg (fun h => e1 h.1)]
    exact h1 i1 hi1

/-- Three nested loops of 32 iterations as one loop of 32768. -/
theorem forLoop_nest3 {σ : Type} (body : Nat → Nat → Nat → σ → σ) (s : σ) :
    forLoop 32 (fun i s => forLoop 32 (fun j s => forLoop 32 (fun k s => body i j k s) s) s) s
      = forLoop 32768 (fun p s => body (p / 1024) (p % 1024 / 32) (p % 1024 % 32) s) s := by
  have h1 : ∀ i t, forLoop 32 (fun j s => forLoop 32 (fun k s => body i j k s) s) t
      = forLoop 1024 (fun q s => body i (q / 32) (q % 32) s) t := by
    intro i t
    exact forLoop_nest 32 32 (fun k j s => body i j k s) t
  have h2 : forLoop 32 (fun i s =>
      forLoop 32 (fun j s => forLoop 32 (fun k s => body i j k s) s) s) s
      = forLoop 32 (fun i s => forLoop 1024 (fun q s => body i (q / 32) (q % 32) s) s) s :=
    forLoop_congr 32 _ _ s (fun i _ t => h1 i t)
  rw [h2]
  exact forLoop_nest 1024 32 (fun q i s => body i (q / 32) (q % 32) s) s

/-- Three nested loops over the nodes of `Color_Nodes` whose step at
`(i, j, k)` replaces that node by a function `f` of its content. -/
theorem nodesLoop_spec (step : Nat → Nat → Nat → List (List (List Color)) → List (List (List Color)))
    (f : Nat → Nat → Nat → Color → Color)
    (hstep : ∀ nodes i j k, NodesShaped nodes → i < 32 → j < 32 → k < 32 →
      NodesShaped (step i j k nodes) ∧ ∀ i1 j1 k1, nodeAt (step i j k nodes) i1 j1 k1
        = if i1 = i ∧ j1 = j ∧ k1 = k then f i j k (nodeAt nodes i j k) else nodeAt nodes i1 j1 k1)
    (nodes0 : List (List (List Color))) (hs0 : NodesShaped nodes0) :
    NodesShaped (forLoop 32 (fun i s =>
      forLoop 32 (fun j s => forLoop 32 (fun k s => step i j k s) s) s) nodes0) ∧
    ∀ i j k, i < 32 → j < 32 → k < 32 →
      nodeAt (forLoop 32 (fun i s =>
        forLoop 32 (fun j s => forLoop 32 (fun k s => step i j k s) s) s) nodes0) i j k
        = f i j k (nodeAt nodes0 i j k) := by
  rw [forLoop_nest3 step nodes0]
  have key := forLoop_inv_idx
    (fun p nodes => NodesShaped nodes ∧ ∀ i j k, i < 32 → j < 32 → k < 32 →
      nodeAt nodes i j k
        = if i * 1024 + j * 32 + k < p then f i j k (nodeAt nodes0 i j k) else nodeAt nodes0 i j k)
    32768 (fun p s => step (p / 1024) (p % 1024 / 32) (p % 1024 % 32) s) nodes0 ?_
    ⟨hs0, fun i j k _ _ _ => by rw [if_neg (Nat.not_lt_zero _)]⟩
  · refine ⟨key.1, fun i j k hi hj hk => ?_⟩
    rw [key.2 i j k hi hj hk, if_pos (by omega)]
  · intro p nodes hp ⟨hs, hn⟩
    beta_reduce
    have hi : p / 1024 < 32 := by omega
    have hj : p % 1024 / 32 < 32 := by omega
    have hk : p % 1024 % 32 < 32 := by omega
    have hp' : p / 1024 * 1024 + p % 1024 / 32 * 32 + p % 1024 % 32 = p := by omega
    generalize p / 1024 = i0 at hi hp' ⊢
    generalize p % 1024 / 32 = j0 at hj hp' ⊢
    generalize p % 1024 % 32 = k0 at hk hp' ⊢
    obtain ⟨h1, h2⟩ := hstep nodes i0 j0 k0 hs hi hj hk
    refine ⟨h1, fun i j k hi1 hj1 hk1 => ?_⟩
    rw [h2, hn i j k hi1 hj1 hk1]
    by_cases e : i = i0 ∧ j = j0 ∧ k = k0
    · obtain ⟨rfl, rfl, rfl⟩ := e
      rw [if_pos ⟨rfl, rfl, rfl⟩, if_pos (by omega), hn i j k hi hj hk, if_neg (by omega)]
    · rw [if_neg e]
      by_cases hlt : i * 1024 + j * 32 + k < p
      · rw [if_pos hlt, if_pos (by omega)]
      · rw [if_neg hlt, if_neg (by omega)]

theorem getD_replicate {α : Type} (n i : Nat) (a d : α) (h : i < n) :
    (List.replicate n a).getD i d = a := by
  rw [List.getD_eq_getElem?_getD, List.getElem?_replicate, if_pos h]
  rfl

/-- The freshly declared array `Color_Nodes`. -/
theorem nodes_replicate :
    NodesShaped (List.replicate 32 (List.replicate 32 (List.replicate 32 Color.zero))) ∧
    ∀ i j k, i < 32 → j < 32 → k < 32 →
      nodeAt (List.replicate 32 (List.replicate 32 (List.replicate 32 Color.zero))) i j k
        = Color.zero := by
  refine ⟨⟨List.length_replicate _ _, fun i hi => ?_⟩, fun i j k hi hj hk => ?_⟩
  · rw [getD_replicate _ _ _ _ hi]
    refine ⟨List.length_replicate _ _, fun j hj => ?_⟩
    rw [getD_replicate _ _ _ _ hj]
    exact List.length_replicate _ _
  · unfold nodeAt
    rw [getD_replicate _ _ _ _ hi, getD_replicate _ _ _ _ hj, getD_replicate _ _ _ _ hk]

namespace TargaImage

/-- The array `Color_Nodes` after its initialisation: the node `(i, j, k)`
holds the colour `(8 i, 8 j, 8 k)`, count 0, not taken. -/
theorem colorNodesInit_spec :
    NodesShaped colorNodesInit ∧
    ∀ i j k, i < 32 → j < 32 → k < 32 →
      nodeAt colorNodesInit i j k = ⟨8 * i, 8 * j, 8 * k, 0, false⟩ := by
  have key : NodesShaped colorNodesInit ∧ ∀ i j k, i < 32 → j < 32 → k < 32 →
      nodeAt colorNodesInit i j k
        = (fun i j k (c : Color) => (⟨(i * 8) % 256, (j * 8) % 256, (k * 8) % 256, c.count,
            c.beTake⟩ : Color)) i j k
          (nodeAt (List.replicate 32 (List.replicate 32 (List.replicate 32 Color.zero))) i j k) := by
    unfold colorNodesInit
    refine nodesLoop_spec _ (fun i j k (c : Color) =>
      (⟨(i * 8) % 256, (j * 8) % 256, (k * 8) % 256, c.count, c.beTake⟩ : Color)) ?_ _
      nodes_replicate.1
    intro nodes i j k hs hi hj hk
    have hs1 := setNode_shaped nodes hs i j k { nodeAt nodes i j k with r := (i * 8) % 256 }
    have hs2 := setNode_shaped _ hs1 i j k
      { nodeAt (setNode nodes i j k { nodeAt nodes i j k with r := (i * 8) % 256 })
        i j k with g := (j * 8) % 256 }
    refine ⟨setNode_shaped _ hs2 _ _ _ _, fun i1 j1 k1 => ?_⟩
    simp only []
    rw [nodeAt_setNode _ hs2 i j k hi hj hk, nodeAt_setNode _ hs1 i j k hi hj hk,
      nodeAt_setNode _ hs i j k hi hj hk]
    simp only [if_true, and_self]
    by_cases e : i1 = i ∧ j1 = j ∧ k1 = k
    · rw [if_pos e, if_pos e]
    · rw [if_neg e, if_neg e, nodeAt_setNode _ hs1 i j k hi hj hk, if_neg e,
        nodeAt_setNode _ hs i j k hi hj hk, if_neg e]
  refine ⟨key.1, fun i j k hi hj hk => ?_⟩
  rw [key.2 i j k hi hj hk, nodes_replicate.2 i j k hi hj hk]
  simp only [Color.zero, Color.mk.injEq, and_true]
  omega

end TargaImage

theorem bucketCount_succ (data : List Nat) (p i j k : Nat) :
    bucketCount data (p + 1) i j k = bucketCount data p i j k +
      if rd data (4 * p) / 8 = i ∧ rd data (4 * p + 1) / 8 = j ∧ rd data (4 * p + 2) / 8 = k
      then 1 else 0 := by
  unfold bucketCount
  rw [List.range_succ, List.filter_append, List.length_append]
  by_cases h : rd data (4 * p) / 8 = i ∧ rd data (4 * p + 1) / 8 = j ∧ rd data (4 * p + 2) / 8 = k
  · rw [if_pos h, List.filter_cons_of_pos (by simpa using h)]
    rfl
  · rw [if_neg h, List.filter_cons_of_neg (by simpa using h)]
    rfl

theorem bucketCount_le (data : List Nat) (p i j k : Nat) : bucketCount data p i j k ≤ p := by
  unfold bucketCount
  exact le_trans (List.length_filter_le _ _) (le_of_eq (List.length_range p))

theorem bucketCount_pos_iff (data : List Nat) (n i j k : Nat) :
    0 < bucketCount data n i j k ↔ ∃ q, q < n ∧
      rd data (4 * q) / 8 = i ∧ rd data (4 * q + 1) / 8 = j ∧ rd data (4 * q + 2) / 8 = k := by
  unfold bucketCount
  rw [List.length_pos_iff_exists_mem]
  constructor
  · rintro ⟨q, hq⟩
    rw [List.mem_filter, List.mem_range] at hq
    exact ⟨q, hq.1, by simpa using hq.2⟩
  · rintro ⟨q, hq, h⟩
    exact ⟨q, by rw [List.mem_filter, List.mem_range]; exact ⟨hq, by simpa using h⟩⟩

theorem wrapInt32_small (v : Int) (h0 : 0 ≤ v) (h1 : v < 2147483648) : wrapInt32 v = v := by
  unfold wrapInt32
  omega

namespace TargaImage

/-- The counting loop of `Quant_Populosity`: every node ends with the number
of pixels of its bucket as `count`, its other fields untouched. -/
theorem colorNodesCount_spec (img : TargaImage) (data : List Nat)
    (nodes0 : List (List (List Color))) (hs0 : NodesShaped nodes0)
    (h0 : ∀ i j k, i < 32 → j < 32 → k < 32 → (nodeAt nodes0 i j k).count = 0)
    (hbytes : ∀ q, rd data q < 256) (hsize : img.width * img.height < 2147483648) :
    NodesShaped (colorNodesCount img data nodes0) ∧
    ∀ i j k, i < 32 → j < 32 → k < 32 →
      nodeAt (colorNodesCount img data nodes0) i j k
        = { nodeAt nodes0 i j k with
            count := (bucketCount data (img.height * img.width) i j k : Int) } := by
  unfold colorNodesCount
  rw [forLoop_nest img.width img.height (fun x y nodes => colorNodesCountPixel img data x y nodes)]
  have key := forLoop_inv_idx
    (fun p nodes => NodesShaped nodes ∧ ∀ i j k, i < 32 → j < 32 → k < 32 →
      nodeAt nodes i j k = { nodeAt nodes0 i j k with count := (bucketCount data p i j k : Int) })
    (img.height * img.width)
    (fun p nodes => colorNodesCountPixel img data (p % img.width) (p / img.width) nodes) nodes0 ?_
    ⟨hs0, fun i j k hi hj hk => by
      have e : ((bucketCount data 0 i j k : Nat) : Int) = (nodeAt nodes0 i j k).count := by
        rw [h0 i j k hi hj hk]; rfl
      simp only [e]⟩
  · exact key
  · intro p nodes hp ⟨hs, hn⟩
    beta_reduce
    have hoff : img.Get_RGBA (p % img.width) (p / img.width) = 4 * p := by
      rw [Get_RGBA_eq, Nat.mul_comm (p / img.width), Nat.div_add_mod]
    unfold colorNodesCountPixel
    simp only [RED, GREEN, BLUE, hoff, Nat.add_zero]
    have hi : rd data (4 * p) / 8 < 32 := by have := hbytes (4 * p); omega
    have hj : rd data (4 * p + 1) / 8 < 32 := by have := hbytes (4 * p + 1); omega
    have hk : rd data (4 * p + 2) / 8 < 32 := by have := hbytes (4 * p + 2); omega
    refine ⟨setNode_shaped _ hs _ _ _ _, fun i j k hi1 hj1 hk1 => ?_⟩
    rw [nodeAt_setNode _ hs _ _ _ hi hj hk, bucketCount_succ]
    by_cases e : i = rd data (4 * p) / 8 ∧ j = rd data (4 * p + 1) / 8 ∧
        k = rd data (4 * p + 2) / 8
    · rw [if_pos e, if_pos ⟨e.1.symm, e.2.1.symm, e.2.2.symm⟩, ← e.1, ← e.2.1, ← e.2.2,
        hn i j k hi1 hj1 hk1]
      have hle := bucketCount_le data p i j k
      have hlt : img.height * img.width < 2147483648 := by rw [Nat.mul_comm]; exact hsize
      simp only [Color.mk.injEq, true_and, and_true]
      rw [wrapInt32_small _ (by omega) (by omega)]
      push_cast
      rfl
    · rw [if_neg e, if_neg (fun h => e ⟨h.1.symm, h.2.1.symm, h.2.2.symm⟩), Nat.add_zero]
      exact hn i j k hi1 hj1 hk1

end TargaImage

namespace TargaImage

/-- The scan of one selection round: when no node has a negative count and
some node is not taken, the scan ends on a node `(i, j, k)` that is not
taken, whose count is largest among the nodes not taken, and that comes
first in scan order among the nodes with that count. -/
theorem populosityScan_spec (nodes : List (List (List Color)))
    (hnn : ∀ i j k, i < 32 → j < 32 → k < 32 → 0 ≤ (nodeAt nodes i j k).count)
    (hex : ∃ i j k, i < 32 ∧ j < 32 ∧ k < 32 ∧ (nodeAt nodes i j k).beTake = false) :
    ∃ i j k, i < 32 ∧ j < 32 ∧ k < 32 ∧
      populosityScan nodes = ((nodeAt nodes i j k).count, ((i : Int), (j : Int), (k : Int))) ∧
      (nodeAt nodes i j k).beTake = false ∧
      (∀ i1 j1 k1, i1 < 32 → j1 < 32 → k1 < 32 → (nodeAt nodes i1 j1 k1).beTake = false →
        (nodeAt nodes i1 j1 k1).count ≤ (nodeAt nodes i j k).count) ∧
      (∀ i1 j1 k1, i1 < 32 → j1 < 32 → k1 < 32 →
        i1 * 1024 + j1 * 32 + k1 < i * 1024 + j * 32 + k →
        (nodeAt nodes i1 j1 k1).beTake = false →
        (nodeAt nodes i1 j1 k1).count < (nodeAt nodes i j k).count) := by
  unfold populosityScan
  rw [forLoop_nest3 (fun i j k s => populosityScanStep nodes i j k s)]
  have key := forLoop_inv_idx
    (fun n (s : Int × (Int × Int × Int)) =>
      (s = (-1, (-1, -1, -1)) ∧ ∀ p, p < n →
        (nodeAt nodes (p / 1024) (p % 1024 / 32) (p % 1024 % 32)).beTake = true) ∨
      ∃ q, q < n ∧
        s = ((nodeAt nodes (q / 1024) (q % 1024 / 32) (q % 1024 % 32)).count,
          (((q / 1024 : Nat) : Int), ((q % 1024 / 32 : Nat) : Int), ((q % 1024 % 32 : Nat) : Int))) ∧
        (nodeAt nodes (q / 1024) (q % 1024 / 32) (q % 1024 % 32)).beTake = false ∧
        (∀ p, p < n → (nodeAt nodes (p / 1024) (p % 1024 / 32) (p % 1024 % 32)).beTake = false →
          (nodeAt nodes (p / 1024) (p % 1024 / 32) (p % 1024 % 32)).count
            ≤ (nodeAt nodes (q / 1024) (q % 1024 / 32) (q % 1024 % 32)).count) ∧
        (∀ p, p < q → (nodeAt nodes (p / 1024) (p % 1024 / 32) (p % 1024 % 32)).beTake = false →
          (nodeAt nodes (p / 1024) (p % 1024 / 32) (p % 1024 % 32)).count
            < (nodeAt nodes (q / 1024) (q % 1024 / 32) (q % 1024 % 32)).count))
    32768
    (fun p s => populosityScanStep nodes (p / 1024) (p % 1024 / 32) (p % 1024 % 32) s)
    (-1, (-1, -1, -1)) ?_ (Or.inl ⟨rfl, fun p hp => absurd hp (Nat.not_lt_zero p)⟩)
  · rcases key with ⟨_, hall⟩ | ⟨q, hq, hs, hu, hmax, hfirst⟩
    · obtain ⟨i, j, k, hi, hj, hk, hu⟩ := hex
      have := hall (i * 1024 + j * 32 + k) (by omega)
      rw [show (i * 1024 + j * 32 + k) / 1024 = i by omega,
        show (i * 1024 + j * 32 + k) % 1024 / 32 = j by omega,
        show (i * 1024 + j * 32 + k) % 1024 % 32 = k by omega, hu] at this
      exact absurd this (by decide)
    · refine ⟨q / 1024, q % 1024 / 32, q % 1024 % 32, by omega, by omega, by omega, hs, hu, ?_, ?_⟩
      · intro i j k hi hj hk hu1
        have := hmax (i * 1024 + j * 32 + k) (by omega)
        rw [show (i * 1024 + j * 32 + k) / 1024 = i by omega,
          show (i * 1024 + j * 32 + k) % 1024 / 32 = j by omega,
          show (i * 1024 + j * 32 + k) % 1024 % 32 = k by omega] at this
        exact this hu1
      · intro i j k hi hj hk hlt hu1
        have := hfirst (i * 1024 + j * 32 + k) (by omega)
        rw [show (i * 1024 + j * 32 + k) / 1024 = i by omega,
          show (i * 1024 + j * 32 + k) % 1024 / 32 = j by omega,
          show (i * 1024 + j * 32 + k) % 1024 % 32 = k by omega] at this
        exact this hu1
  · intro n s hn hinv
    beta_reduce
    have hc0 := hnn (n / 1024) (n % 1024 / 32) (n % 1024 % 32) (by omega) (by omega) (by omega)
    unfold populosityScanStep
    rcases hinv with ⟨hs, hall⟩ | ⟨q, hq, hs, hu, hmax, hfirst⟩
    · subst hs
      by_cases ht : (nodeAt nodes (n / 1024) (n % 1024 / 32) (n % 1024 % 32)).beTake = true
      · rw [if_neg (fun h => h.2 ht)]
        refine Or.inl ⟨rfl, fun p hp => ?_⟩
        rcases Nat.lt_succ_iff_lt_or_eq.1 hp with h | h
        · exact hall p h
        · rw [h]; exact ht
      · rw [if_pos ⟨by show (-1 : Int) < _; omega, ht⟩]
        refine Or.inr ⟨n, Nat.lt_succ_self n, rfl, by simpa using ht, fun p hp hpu => ?_,
          fun p hp hpu => ?_⟩
        · rcases Nat.lt_succ_iff_lt_or_eq.1 hp with h | h
          · rw [hall p h] at hpu; exact absurd hpu (by decide)
          · rw [h]
        · rw [hall p hp] at hpu; exact absurd hpu (by decide)
    · subst hs
      by_cases hc : (nodeAt nodes (n / 1024) (n % 1024 / 32) (n % 1024 % 32)).count >
          (nodeAt nodes (q / 1024) (q % 1024 / 32) (q % 1024 % 32)).count ∧
          ¬ (nodeAt nodes (n / 1024) (n % 1024 / 32) (n % 1024 % 32)).beTake = true
      · rw [if_pos hc]
        refine Or.inr ⟨n, Nat.lt_succ_self n, rfl, by simpa using hc.2, fun p hp hpu => ?_,
          fun p hp hpu => ?_⟩
        · rcases Nat.lt_succ_iff_lt_or_eq.1 hp with h | h
          · exact le_of_lt (lt_of_le_of_lt (hmax p h hpu) hc.1)
          · rw [h]
        · exact lt_of_le_of_lt (hmax p hp hpu) hc.1
      · rw [if_neg hc]
        refine Or.inr ⟨q, Nat.lt_succ_of_lt hq, rfl, hu, fun p hp hpu => ?_, hfirst⟩
        rcases Nat.lt_succ_iff_lt_or_eq.1 hp with h | h
        · exact hmax p h hpu
        · rw [h] at hpu ⊢
          by_contra hgt
          exact hc ⟨lt_of_not_le hgt, by rw [hpu]; decide⟩

end TargaImage

/-- Fewer than 32768 nodes of `Color_Nodes` cannot be all of them. -/
theorem exists_node_not_mem (ch : List (Nat × Nat × Nat)) (h : ch.length < 32768) :
    ∃ i j k, i < 32 ∧ j < 32 ∧ k < 32 ∧ (i, j, k) ∉ ch := by
  have hcard : ((ch.map (fun c => c.1 * 1024 + c.2.1 * 32 + c.2.2)).toFinset).card < 32768 := by
    refine lt_of_le_of_lt (List.toFinset_card_le _) ?_
    rw [List.length_map]
    exact h
  have hex : ∃ p, p < 32768 ∧ p ∉ (ch.map (fun c => c.1 * 1024 + c.2.1 * 32 + c.2.2)).toFinset := by
    by_contra hno
    have hsub : Finset.range 32768 ⊆ (ch.map (fun c => c.1 * 1024 + c.2.1 * 32 + c.2.2)).toFinset := by
      intro p hp
      rw [Finset.mem_range] at hp
      by_contra hp2
      exact hno ⟨p, hp, hp2⟩
    have := Finset.card_le_card hsub
    rw [Finset.card_range] at this
    omega
  obtain ⟨p, hp, hn⟩ := hex
  refine ⟨p / 1024, p % 1024 / 32, p % 1024 % 32, by omega, by omega, by omega, fun hm => hn ?_⟩
  rw [List.mem_toFinset, List.mem_map]
  exact ⟨_, hm, by show p / 1024 * 1024 + p % 1024 / 32 * 32 + p % 1024 % 32 = p; omega⟩

namespace TargaImage

/-- One round of the selection: the node the scan ends on is marked and a
copy of the marked node is appended to `Top256`. -/
theorem populositySelect_spec (nodes : List (List (List Color))) (Top : List Color)
    (hs : NodesShaped nodes)
    (hnn : ∀ i j k, i < 32 → j < 32 → k < 32 → 0 ≤ (nodeAt nodes i j k).count)
    (hex : ∃ i j k, i < 32 ∧ j < 32 ∧ k < 32 ∧ (nodeAt nodes i j k).beTake = false) :
    ∃ i j k, i < 32 ∧ j < 32 ∧ k < 32 ∧
      populositySelect (nodes, Top)
        = (setNode nodes i j k { nodeAt nodes i j k with beTake := true },
           Top ++ [{ nodeAt nodes i j k with beTake := true }]) ∧
      (nodeAt nodes i j k).beTake = false ∧
      (∀ i1 j1 k1, i1 < 32 → j1 < 32 → k1 < 32 → (nodeAt nodes i1 j1 k1).beTake = false →
        (nodeAt nodes i1 j1 k1).count ≤ (nodeAt nodes i j k).count) ∧
      (∀ i1 j1 k1, i1 < 32 → j1 < 32 → k1 < 32 →
        i1 * 1024 + j1 * 32 + k1 < i * 1024 + j * 32 + k →
        (nodeAt nodes i1 j1 k1).beTake = false →
        (nodeAt nodes i1 j1 k1).count < (nodeAt nodes i j k).count) := by
  obtain ⟨i, j, k, hi, hj, hk, hscan, hu, hmax, hfirst⟩ := populosityScan_spec nodes hnn hex
  refine ⟨i, j, k, hi, hj, hk, ?_, hu, hmax, hfirst⟩
  have hneg : ¬ ((i : Int) < 0 ∨ (j : Int) < 0 ∨ (k : Int) < 0) := by omega
  unfold populositySelect
  simp only [hscan]
  unfold setBeTake nodeAtInt
  rw [if_neg hneg, if_neg hneg]
  simp only [Int.toNat_ofNat]
  rw [nodeAt_setNode _ hs i j k hi hj hk, if_pos ⟨rfl, rfl, rfl⟩]

end TargaImage

namespace TargaImage

/-- The selection loop of `Quant_Populosity` after `n ≤ 256` rounds: `n`
different nodes `ch` have been chosen, they are the nodes marked as taken,
`Top256` holds their marked copies in order, and each of them had the largest
count among the nodes not chosen before it, first in scan order. -/
theorem populositySelectLoop_spec (nodes0 : List (List (List Color))) (hs0 : NodesShaped nodes0)
    (hnn : ∀ i j k, i < 32 → j < 32 → k < 32 → 0 ≤ (nodeAt nodes0 i j k).count)
    (hfree : ∀ i j k, i < 32 → j < 32 → k < 32 → (nodeAt nodes0 i j k).beTake = false)
    (n : Nat) (hn : n ≤ 256) :
    ∃ ch : List (Nat × Nat × Nat), ch.length = n ∧ ch.Nodup ∧
      (∀ c ∈ ch, c.1 < 32 ∧ c.2.1 < 32 ∧ c.2.2 < 32) ∧
      NodesShaped (forLoop n (fun _ s => populositySelect s) (nodes0, [])).1 ∧
      (∀ i j k, i < 32 → j < 32 → k < 32 →
        nodeAt (forLoop n (fun _ s => populositySelect s) (nodes0, [])).1 i j k
          = ⟨(nodeAt nodes0 i j k).r, (nodeAt nodes0 i j k).g, (nodeAt nodes0 i j k).b,
              (nodeAt nodes0 i j k).count, decide ((i, j, k) ∈ ch)⟩) ∧
      (forLoop n (fun _ s => populositySelect s) (nodes0, [])).2
        = ch.map (fun c => ⟨(nodeAt nodes0 c.1 c.2.1 c.2.2).r, (nodeAt nodes0 c.1 c.2.1 c.2.2).g,
            (nodeAt nodes0 c.1 c.2.1 c.2.2).b, (nodeAt nodes0 c.1 c.2.1 c.2.2).count, true⟩) ∧
      ∀ t c, ch[t]? = some c → ∀ i j k, i < 32 → j < 32 → k < 32 → (i, j, k) ∉ ch.take t →
        (nodeAt nodes0 i j k).count ≤ (nodeAt nodes0 c.1 c.2.1 c.2.2).count ∧
        (i * 1024 + j * 32 + k < c.1 * 1024 + c.2.1 * 32 + c.2.2 →
          (nodeAt nodes0 i j k).count < (nodeAt nodes0 c.1 c.2.1 c.2.2).count) := by
  induction n with
  | zero =>
    refine ⟨[], rfl, List.nodup_nil, fun c hc => absurd hc (List.not_mem_nil c), hs0, ?_, rfl, ?_⟩
    · intro i j k hi hj hk
      show nodeAt nodes0 i j k = _
      have := hfree i j k hi hj hk
      cases hc : nodeAt nodes0 i j k
      rw [hc] at this
      simp only at this
      simp [this]
    · intro t c hc
      simp at hc
  | succ n ih =>
    obtain ⟨ch, hlen, hnd, hrange, hs, hnode, htop, hord⟩ := ih (by omega)
    rw [forLoop_succ]
    generalize forLoop n (fun _ s => populositySelect s) (nodes0, []) = st at hs hnode htop ⊢
    obtain ⟨nodes, Top⟩ := st
    simp only at hs hnode htop
    have hcnt : ∀ i j k, i < 32 → j < 32 → k < 32 →
        (nodeAt nodes i j k).count = (nodeAt nodes0 i j k).count := by
      intro i j k hi hj hk; rw [hnode i j k hi hj hk]
    have htk : ∀ i j k, i < 32 → j < 32 → k < 32 →
        ((nodeAt nodes i j k).beTake = false ↔ (i, j, k) ∉ ch) := by
      intro i j k hi hj hk; rw [hnode i j k hi hj hk]; simp
    obtain ⟨i0, j0, k0, hi0, hj0, hk0, hnot⟩ := exists_node_not_mem ch (by omega)
    obtain ⟨i, j, k, hi, hj, hk, hsel, hu, hmax, hfirst⟩ := populositySelect_spec nodes Top hs
      (fun i j k hi hj hk => by rw [hcnt i j k hi hj hk]; exact hnn i j k hi hj hk)
      ⟨i0, j0, k0, hi0, hj0, hk0, (htk i0 j0 k0 hi0 hj0 hk0).2 hnot⟩
    have hnew : (i, j, k) ∉ ch := (htk i j k hi hj hk).1 hu
    rw [hsel]
    refine ⟨ch ++ [(i, j, k)], by rw [List.length_append, hlen]; rfl, ?_, ?_,
      setNode_shaped _ hs _ _ _ _, ?_, ?_, ?_⟩
    · rw [List.nodup_append]
      refine ⟨hnd, List.nodup_singleton _, ?_⟩
      intro a ha hb
      rw [List.mem_singleton] at hb
      rw [hb] at ha
      exact hnew ha
    · intro c hc
      rw [List.mem_append, List.mem_singleton] at hc
      rcases hc with hc | hc
      · exact hrange c hc
      · rw [hc]; exact ⟨hi, hj, hk⟩
    · intro i1 j1 k1 hi1 hj1 hk1
      simp only []
      rw [nodeAt_setNode _ hs i j k hi hj hk]
      by_cases e : i1 = i ∧ j1 = j ∧ k1 = k
      · obtain ⟨rfl, rfl, rfl⟩ := e
        rw [if_pos ⟨rfl, rfl, rfl⟩, hnode i1 j1 k1 hi hj hk]
        simp
      · rw [if_neg e, hnode i1 j1 k1 hi1 hj1 hk1]
        have : (i1, j1, k1) ≠ (i, j, k) := by
          intro h
          rw [Prod.mk.injEq, Prod.mk.injEq] at h
          exact e h
        simp [this]
    · simp only []
      rw [htop, List.map_append, hnode i j k hi hj hk]
      rfl
    · intro t c hc i1 j1 k1 hi1 hj1 hk1 hnm
      rcases Nat.lt_trichotomy t n with ht | ht | ht
      · rw [List.getElem?_append_left (by omega)] at hc
        rw [List.take_append_of_le_length (by omega)] at hnm
        exact hord t c hc i1 j1 k1 hi1 hj1 hk1 hnm
      · subst ht
        rw [List.getElem?_append_right (by omega), hlen, Nat.sub_self] at hc
        simp only [List.getElem?_cons_zero, Option.some.injEq] at hc
        subst hc
        rw [← hlen, List.take_left' rfl] at hnm
        have hu1 := (htk i1 j1 k1 hi1 hj1 hk1).2 hnm
        refine ⟨?_, fun hlt => ?_⟩
        · rw [← hcnt i1 j1 k1 hi1 hj1 hk1, ← hcnt i j k hi hj hk]
          exact hmax i1 j1 k1 hi1 hj1 hk1 hu1
        · rw [← hcnt i1 j1 k1 hi1 hj1 hk1, ← hcnt i j k hi hj hk]
          exact hfirst i1 j1 k1 hi1 hj1 hk1 hlt hu1
      · rw [List.getElem?_eq_none (by rw [List.length_append, hlen]; simp; omega)] at hc
        exact absurd hc (by simp)

end TargaImage

namespace TargaImage

/-- Effect of one pixel step of the first loop of `Quant_Populosity`. -/
theorem quantPopulosityClear_spec (img : TargaImage) (x y : Nat) (D : List Nat)
    (hD : img.Get_RGBA x y + 3 < D.length) :
    (quantPopulosityClear img x y D).length = D.length ∧
    (∀ k, k / 4 ≠ y * img.width + x → rd (quantPopulosityClear img x y D) k = rd D k) ∧
    (∀ c, c < 4 → rd (quantPopulosityClear img x y D) (img.Get_RGBA x y + c)
      = (fun (_ _ c r g b a : Nat) =>
          if c = 0 then (((r >>> 3) % 256) <<< 3) % 256
          else if c = 1 then (((g >>> 3) % 256) <<< 3) % 256
          else if c = 2 then (((b >>> 3) % 256) <<< 3) % 256 else a) x y c
          (rd D (img.Get_RGBA x y)) (rd D (img.Get_RGBA x y + 1))
          (rd D (img.Get_RGBA x y + 2)) (rd D (img.Get_RGBA x y + 3))) := by
  have he := img.Get_RGBA_eq x y
  refine ⟨by simp [quantPopulosityClear, wr_length], ?_, ?_⟩
  · intro k hk
    have h0 : ¬ (img.Get_RGBA x y = k) := by omega
    have h1 : ¬ (img.Get_RGBA x y + 1 = k) := by omega
    have h2 : ¬ (img.Get_RGBA x y + 2 = k) := by omega
    simp [quantPopulosityClear, rd_wr, RED, GREEN, BLUE, h0, h1, h2]
  · intro c hc
    have h0 : img.Get_RGBA x y < D.length := by omega
    have h1 : img.Get_RGBA x y + 1 < D.length := by omega
    have h2 : img.Get_RGBA x y + 2 < D.length := by omega
    interval_cases c <;>
      simp [quantPopulosityClear, rd_wr, wr_length, RED, GREEN, BLUE, h0, h1, h2]

/-- The first loop of `Quant_Populosity` clears the low three bits of R, G
and B of every pixel. -/
theorem populosityCleared_spec (img : TargaImage) (hwf : img.WF) :
    (populosityCleared img).length = img.width * img.height * 4 ∧
    (∀ b ∈ populosityCleared img, b < 256) ∧
    ∀ x y, x < img.width → y < img.height →
      rd (populosityCleared img) (img.Get_RGBA x y + 0) = img.chan x y 0 - img.chan x y 0 % 8 ∧
      rd (populosityCleared img) (img.Get_RGBA x y + 1) = img.chan x y 1 - img.chan x y 1 % 8 ∧
      rd (populosityCleared img) (img.Get_RGBA x y + 2) = img.chan x y 2 - img.chan x y 2 % 8 ∧
      rd (populosityCleared img) (img.Get_RGBA x y + 3) = img.chan x y 3 := by
  obtain ⟨hlen, hbytes⟩ := hwf
  have key := pixelLoop_spec img (quantPopulosityClear img)
    (fun (_ _ c r g b a : Nat) =>
      if c = 0 then (((r >>> 3) % 256) <<< 3) % 256
      else if c = 1 then (((g >>> 3) % 256) <<< 3) % 256
      else if c = 2 then (((b >>> 3) % 256) <<< 3) % 256 else a)
    (fun x y D _ _ hD => quantPopulosityClear_spec img x y D hD) hlen
  refine ⟨?_, ?_, ?_⟩
  · show (forLoop img.height _ img.data).length = img.width * img.height * 4
    rw [← hlen]
    exact key.1
  · show ∀ b ∈ forLoop img.height _ img.data, b < 256
    apply forLoop_inv (fun D => ∀ b ∈ D, b < 256)
    · intro i D _ hD
      apply forLoop_inv (fun D => ∀ b ∈ D, b < 256)
      · intro j E _ hE
        unfold quantPopulosityClear
        exact wr_bytes _ _ _ (wr_bytes _ _ _ (wr_bytes _ _ _ (wr_bytes _ _ _
          (wr_bytes _ _ _ (wr_bytes _ _ _ hE)))))
      · exact hD
    · exact hbytes
  · intro x y hx hy
    have hb : ∀ c, img.chan x y c < 256 := fun c => rd_lt_of_forall _ hbytes _
    have k0 := key.2 x y 0 hx hy (by decide)
    have k1 := key.2 x y 1 hx hy (by decide)
    have k2 := key.2 x y 2 hx hy (by decide)
    have k3 := key.2 x y 3 hx hy (by decide)
    simp only [if_pos] at k0
    simp at k1 k2 k3
    rw [shift_clear _ 3 (hb 0)] at k0
    rw [shift_clear _ 3 (hb 1)] at k1
    rw [shift_clear _ 3 (hb 2)] at k2
    exact ⟨k0, k1, k2, k3⟩

/-- The palette `Top256` built from a buffer of bytes: 256 different nodes
`ch` of the histogram, each holding the colour `(8 i, 8 j, 8 k)` of its
index and the number of pixels of its bucket; each is the bucket with the
largest count among those not chosen before it, first in scan order. -/
theorem populosityTop256_spec (img : TargaImage) (data : List Nat)
    (hbytes : ∀ q, rd data q < 256) (hsize : img.width * img.height < 2147483648) :
    ∃ ch : List (Nat × Nat × Nat), ch.length = 256 ∧ ch.Nodup ∧
      (∀ c ∈ ch, c.1 < 32 ∧ c.2.1 < 32 ∧ c.2.2 < 32) ∧
      populosityTop256 img data = ch.map (fun c => ⟨8 * c.1, 8 * c.2.1, 8 * c.2.2,
        (bucketCount data (img.height * img.width) c.1 c.2.1 c.2.2 : Int), true⟩) ∧
      ∀ t c, ch[t]? = some c → ∀ i j k, i < 32 → j < 32 → k < 32 → (i, j, k) ∉ ch.take t →
        bucketCount data (img.height * img.width) i j k
          ≤ bucketCount data (img.height * img.width) c.1 c.2.1 c.2.2 ∧
        (i * 1024 + j * 32 + k < c.1 * 1024 + c.2.1 * 32 + c.2.2 →
          bucketCount data (img.height * img.width) i j k
            < bucketCount data (img.height * img.width) c.1 c.2.1 c.2.2) := by
  obtain ⟨hs0, hn0⟩ := colorNodesInit_spec
  obtain ⟨hs1, hn1⟩ := colorNodesCount_spec img data colorNodesInit hs0
    (fun i j k hi hj hk => by rw [hn0 i j k hi hj hk]) hbytes hsize
  have hn2 : ∀ i j k, i < 32 → j < 32 → k < 32 →
      nodeAt (colorNodesCount img data colorNodesInit) i j k
        = ⟨8 * i, 8 * j, 8 * k, (bucketCount data (img.height * img.width) i j k : Int), false⟩ := by
    intro i j k hi hj hk
    rw [hn1 i j k hi hj hk, hn0 i j k hi hj hk]
  obtain ⟨ch, hlen, hnd, hrange, _, _, htop, hord⟩ := populositySelectLoop_spec
    (colorNodesCount img data colorNodesInit) hs1
    (fun i j k hi hj hk => by rw [hn2 i j k hi hj hk]; exact Int.natCast_nonneg _)
    (fun i j k hi hj hk => by rw [hn2 i j k hi hj hk]) 256 (le_refl _)
  refine ⟨ch, hlen, hnd, hrange, ?_, ?_⟩
  · unfold populosityTop256
    rw [htop]
    apply List.map_congr_left
    intro c hc
    obtain ⟨h1, h2, h3⟩ := hrange c hc
    rw [hn2 c.1 c.2.1 c.2.2 h1 h2 h3]
  · intro t c hc i j k hi hj hk hnm
    have hmem : c ∈ ch := (List.mem_iff_getElem?.2 ⟨t, hc⟩)
    obtain ⟨h1, h2, h3⟩ := hrange c hmem
    have := hord t c hc i j k hi hj hk hnm
    rw [hn2 i j k hi hj hk, hn2 c.1 c.2.1 c.2.2 h1 h2 h3] at this
    simp only [Nat.cast_le, Nat.cast_lt] at this
    exact this

end TargaImage

namespace TargaImage

/-- When every distance is below the start value 999999, the search of
`Find_Closest_Palette_Color` returns one of the 256 entries of the palette. -/
theorem Find_Closest_mem (pow : Frac → Frac → Frac) (hpow : PowBounded pow) (dR dG dB : Nat)
    (hR : dR < 256) (hG : dG < 256) (hB : dB < 256) (Top : List Color)
    (hlen : Top.length = 256) (hTop : ∀ c ∈ Top, c.r < 256 ∧ c.g < 256 ∧ c.b < 256) :
    Find_Closest_Palette_Color pow dR dG dB Top ∈ Top := by
  unfold Find_Closest_Palette_Color
  have key := forLoop_inv_idx
    (fun n (s : Frac × Int) => (n = 0 ∧ s = (Frac.ofNat 999999, -1)) ∨ (0 ≤ s.2 ∧ s.2 < n))
    256 (fun i (s : Frac × Int) =>
      if Frac.lt (euDistance pow dR dG dB (Top.getD i Color.zero).r (Top.getD i Color.zero).g
          (Top.getD i Color.zero).b) s.1 = true then
        (euDistance pow dR dG dB (Top.getD i Color.zero).r (Top.getD i Color.zero).g
          (Top.getD i Color.zero).b, (i : Int))
      else s) (Frac.ofNat 999999, -1) ?_ (Or.inl ⟨rfl, rfl⟩)
  · rcases key with ⟨h, _⟩ | ⟨h1, h2⟩
    · exact absurd h (by decide)
    · simp only []
      rw [if_neg (by omega)]
      have hlt : (forLoop 256 (fun i (s : Frac × Int) =>
          if Frac.lt (euDistance pow dR dG dB (Top.getD i Color.zero).r
            (Top.getD i Color.zero).g (Top.getD i Color.zero).b) s.1 = true then
          (euDistance pow dR dG dB (Top.getD i Color.zero).r (Top.getD i Color.zero).g
            (Top.getD i Color.zero).b, (i : Int))
          else s) (Frac.ofNat 999999, -1)).2.toNat < Top.length := by omega
      rw [List.getD_eq_getElem _ _ hlt]
      exact List.getElem_mem hlt
  · intro n s hn hinv
    beta_reduce
    have hnl : n < Top.length := by omega
    have hc := hTop _ (List.getElem_mem hnl)
    rw [List.getD_eq_getElem _ _ hnl]
    rcases hinv with ⟨h0, hs⟩ | ⟨h1, h2⟩
    · subst hs
      rw [if_pos (hpow dR dG dB _ _ _ hR hG hB hc.1 hc.2.1 hc.2.2)]
      exact Or.inr ⟨by simp, by simp⟩
    · split_ifs
      · exact Or.inr ⟨by simp, by simp⟩
      · exact Or.inr ⟨h1, by omega⟩

/-- When the distance of a colour to itself is strictly the smallest, the
search returns the colour it looks for if the palette holds it. -/
theorem Find_Closest_exact (pow : Frac → Frac → Frac) (hpow : PowBounded pow)
    (hsep : PowSeparates pow) (dR dG dB : Nat)
    (hR : dR < 256) (hG : dG < 256) (hB : dB < 256) (Top : List Color)
    (hlen : Top.length = 256) (hTop : ∀ c ∈ Top, c.r < 256 ∧ c.g < 256 ∧ c.b < 256)
    (hin : ∃ c ∈ Top, c.r = dR ∧ c.g = dG ∧ c.b = dB) :
    (Find_Closest_Palette_Color pow dR dG dB Top).r = dR ∧
    (Find_Closest_Palette_Color pow dR dG dB Top).g = dG ∧
    (Find_Closest_Palette_Color pow dR dG dB Top).b = dB := by
  unfold Find_Closest_Palette_Color
  have key := forLoop_inv_idx
    (fun n (s : Frac × Int) =>
      (0 ≤ s.2 ∧ s.2 < n ∧
        ((Top.getD s.2.toNat Color.zero).r = dR ∧ (Top.getD s.2.toNat Color.zero).g = dG ∧
          (Top.getD s.2.toNat Color.zero).b = dB) ∧
        s.1 = euDistance pow dR dG dB dR dG dB) ∨
      ((∀ t, t < n → ¬ ((Top.getD t Color.zero).r = dR ∧ (Top.getD t Color.zero).g = dG ∧
          (Top.getD t Color.zero).b = dB)) ∧
        (s = (Frac.ofNat 999999, -1) ∨
          ∃ x y z : Nat, x < 256 ∧ y < 256 ∧ z < 256 ∧ (x, y, z) ≠ (dR, dG, dB) ∧
            s.1 = euDistance pow dR dG dB x y z)))
    256 (fun i (s : Frac × Int) =>
      if Frac.lt (euDistance pow dR dG dB (Top.getD i Color.zero).r (Top.getD i Color.zero).g
          (Top.getD i Color.zero).b) s.1 = true then
        (euDistance pow dR dG dB (Top.getD i Color.zero).r (Top.getD i Color.zero).g
          (Top.getD i Color.zero).b, (i : Int))
      else s) (Frac.ofNat 999999, -1) ?_
    (Or.inr ⟨fun t ht => absurd ht (Nat.not_lt_zero t), Or.inl rfl⟩)
  · rcases key with ⟨h1, h2, hm, _⟩ | ⟨hno, _⟩
    · simp only []
      rw [if_neg (by omega)]
      exact hm
    · obtain ⟨c, hc, hm⟩ := hin
      obtain ⟨t, ht, hct⟩ := List.getElem_of_mem hc
      have := hno t (by omega)
      rw [List.getD_eq_getElem _ _ ht, hct] at this
      exact absurd hm this
  · intro n s hn hinv
    beta_reduce
    have hnl : n < Top.length := by omega
    have hc := hTop _ (List.getElem_mem hnl)
    have hself := (hsep dR dG dB dR dG dB hR hG hB hR hG hB).1
    by_cases hm : (Top.getD n Color.zero).r = dR ∧ (Top.getD n Color.zero).g = dG ∧
        (Top.getD n Color.zero).b = dB
    · rw [hm.1, hm.2.1, hm.2.2]
      rcases hinv with ⟨h1, h2, hbest, hd⟩ | ⟨hno, hs⟩
      · rw [hd, hself, if_neg (by decide)]
        exact Or.inl ⟨h1, by omega, hbest, hd⟩
      · have hlt : Frac.lt (euDistance pow dR dG dB dR dG dB) s.1 = true := by
          rcases hs with hs | ⟨x, y, z, hx, hy, hz, hne, hs⟩
          · rw [hs]
            exact hpow dR dG dB dR dG dB hR hG hB hR hG hB
          · rw [hs]
            exact (hsep dR dG dB x y z hR hG hB hx hy hz).2 hne
        rw [if_pos hlt]
        refine Or.inl ⟨by simp, by simp, ?_, rfl⟩
        simp only [Int.toNat_ofNat]
        exact hm
    · rw [List.getD_eq_getElem _ _ hnl] at hm ⊢
      rcases hinv with ⟨h1, h2, hbest, hd⟩ | ⟨hno, hs⟩
      · rw [hd, (hsep dR dG dB _ _ _ hR hG hB hc.1 hc.2.1 hc.2.2).1, if_neg (by decide)]
        exact Or.inl ⟨h1, by omega, hbest, hd⟩
      · have hno1 : ∀ t, t < n + 1 → ¬ ((Top.getD t Color.zero).r = dR ∧
            (Top.getD t Color.zero).g = dG ∧ (Top.getD t Color.zero).b = dB) := by
          intro t ht
          rcases Nat.lt_succ_iff_lt_or_eq.1 ht with h | h
          · exact hno t h
          · rw [h, List.getD_eq_getElem _ _ hnl]; exact hm
        split_ifs
        · refine Or.inr ⟨hno1, Or.inr ⟨_, _, _, hc.1, hc.2.1, hc.2.2, ?_, rfl⟩⟩
          intro he
          rw [Prod.mk.injEq, Prod.mk.injEq] at he
          exact hm he
        · exact Or.inr ⟨hno1, hs⟩

end TargaImage

namespace TargaImage

/-- Effect of one pixel step of the last loop of `Quant_Populosity`. -/
theorem quantPopulosityMap_spec (pow : Frac → Frac → Frac) (Top : List Color) (img : TargaImage)
    (x y : Nat) (D : List Nat) (hD : img.Get_RGBA x y + 3 < D.length) :
    (quantPopulosityMap pow Top img x y D).length = D.length ∧
    (∀ k, k / 4 ≠ y * img.width + x → rd (quantPopulosityMap pow Top img x y D) k = rd D k) ∧
    (∀ c, c < 4 → rd (quantPopulosityMap pow Top img x y D) (img.Get_RGBA x y + c)
      = (fun (_ _ c r g b a : Nat) =>
          if c = 0 then (Find_Closest_Palette_Color pow r g b Top).r % 256
          else if c = 1 then (Find_Closest_Palette_Color pow r g b Top).g % 256
          else if c = 2 then (Find_Closest_Palette_Color pow r g b Top).b % 256 else a) x y c
          (rd D (img.Get_RGBA x y)) (rd D (img.Get_RGBA x y + 1))
          (rd D (img.Get_RGBA x y + 2)) (rd D (img.Get_RGBA x y + 3))) := by
  have he := img.Get_RGBA_eq x y
  refine ⟨by simp [quantPopulosityMap, wr_length], ?_, ?_⟩
  · intro k hk
    have h0 : ¬ (img.Get_RGBA x y = k) := by omega
    have h1 : ¬ (img.Get_RGBA x y + 1 = k) := by omega
    have h2 : ¬ (img.Get_RGBA x y + 2 = k) := by omega
    simp [quantPopulosityMap, rd_wr, RED, GREEN, BLUE, h0, h1, h2]
  · intro c hc
    have h0 : img.Get_RGBA x y < D.length := by omega
    have h1 : img.Get_RGBA x y + 1 < D.length := by omega
    have h2 : img.Get_RGBA x y + 2 < D.length := by omega
    interval_cases c <;>
      simp [quantPopulosityMap, rd_wr, wr_length, RED, GREEN, BLUE, h0, h1, h2]

/-- Every pixel of the result of `Quant_Populosity` holds the palette entry
the search finds for the pixel with its low bits cleared, and its own alpha. -/
theorem Quant_Populosity_chan (pow : Frac → Frac → Frac) (img : TargaImage) (hwf : img.WF)
    (x y : Nat) (hx : x < img.width) (hy : y < img.height) :
    (Quant_Populosity pow img).2.chan x y 0
      = (Find_Closest_Palette_Color pow (img.chan x y 0 - img.chan x y 0 % 8)
          (img.chan x y 1 - img.chan x y 1 % 8) (img.chan x y 2 - img.chan x y 2 % 8)
          (populosityPalette img)).r % 256 ∧
    (Quant_Populosity pow img).2.chan x y 1
      = (Find_Closest_Palette_Color pow (img.chan x y 0 - img.chan x y 0 % 8)
          (img.chan x y 1 - img.chan x y 1 % 8) (img.chan x y 2 - img.chan x y 2 % 8)
          (populosityPalette img)).g % 256 ∧
    (Quant_Populosity pow img).2.chan x y 2
      = (Find_Closest_Palette_Color pow (img.chan x y 0 - img.chan x y 0 % 8)
          (img.chan x y 1 - img.chan x y 1 % 8) (img.chan x y 2 - img.chan x y 2 % 8)
          (populosityPalette img)).b % 256 ∧
    (Quant_Populosity pow img).2.chan x y 3 = img.chan x y 3 := by
  obtain ⟨hcl, _, hcv⟩ := populosityCleared_spec img hwf
  obtain ⟨c0, c1, c2, c3⟩ := hcv x y hx hy
  have key := (pixelLoop_spec { img with data := populosityCleared img }
    (quantPopulosityMap pow (populosityPalette img) img)
    (fun (_ _ c r g b a : Nat) =>
      if c = 0 then (Find_Closest_Palette_Color pow r g b (populosityPalette img)).r % 256
      else if c = 1 then (Find_Closest_Palette_Color pow r g b (populosityPalette img)).g % 256
      else if c = 2 then (Find_Closest_Palette_Color pow r g b (populosityPalette img)).b % 256
      else a)
    (fun x y D _ _ hD => quantPopulosityMap_spec pow (populosityPalette img) img x y D hD)
    hcl).2 x y
  have e0 : (TargaImage.mk img.width img.height (populosityCleared img)).chan x y 0
      = img.chan x y 0 - img.chan x y 0 % 8 := c0
  have e1 : (TargaImage.mk img.width img.height (populosityCleared img)).chan x y 1
      = img.chan x y 1 - img.chan x y 1 % 8 := c1
  have e2 : (TargaImage.mk img.width img.height (populosityCleared img)).chan x y 2
      = img.chan x y 2 - img.chan x y 2 % 8 := c2
  have e3 : (TargaImage.mk img.width img.height (populosityCleared img)).chan x y 3
      = img.chan x y 3 := c3
  have k0 := key 0 hx hy (by decide)
  have k1 := key 1 hx hy (by decide)
  have k2 := key 2 hx hy (by decide)
  have k3 := key 3 hx hy (by decide)
  simp only [e0, e1, e2, e3] at k0 k1 k2 k3
  simp at k0 k1 k2 k3
  exact ⟨k0, k1, k2, k3⟩

/-- The palette of `Quant_Populosity`: 256 entries, each a colour
`(8 i, 8 j, 8 k)` with `i, j, k < 32`. -/
theorem populosityPalette_spec (img : TargaImage) (hwf : img.WF)
    (hsize : img.width * img.height < 2147483648) :
    (populosityPalette img).length = 256 ∧
    ∀ c ∈ populosityPalette img, c.r % 8 = 0 ∧ c.g % 8 = 0 ∧ c.b % 8 = 0 ∧
      c.r < 256 ∧ c.g < 256 ∧ c.b < 256 := by
  obtain ⟨_, hb, _⟩ := populosityCleared_spec img hwf
  obtain ⟨ch, hlen, _, hrange, htop, _⟩ := populosityTop256_spec img (populosityCleared img)
    (fun q => rd_lt_of_forall _ hb q) hsize
  unfold populosityPalette
  rw [htop]
  refine ⟨by rw [List.length_map, hlen], ?_⟩
  intro c hc
  rw [List.mem_map] at hc
  obtain ⟨a, ha, rfl⟩ := hc
  obtain ⟨h1, h2, h3⟩ := hrange a ha
  simp only []
  omega

/-- With distances below the start value of the search, every pixel of the
result of `Quant_Populosity` holds the colour of an entry of the palette. -/
theorem Quant_Populosity_in_palette (pow : Frac → Frac → Frac) (hpow : PowBounded pow)
    (img : TargaImage) (hwf : img.WF) (hsize : img.width * img.height < 2147483648)
    (x y : Nat) (hx : x < img.width) (hy : y < img.height) :
    (∃ c ∈ populosityPalette img, (Quant_Populosity pow img).2.chan x y 0 = c.r ∧
      (Quant_Populosity pow img).2.chan x y 1 = c.g ∧
      (Quant_Populosity pow img).2.chan x y 2 = c.b) ∧
    (Quant_Populosity pow img).2.chan x y 3 = img.chan x y 3 := by
  obtain ⟨hlen, hpal⟩ := populosityPalette_spec img hwf hsize
  obtain ⟨k0, k1, k2, k3⟩ := Quant_Populosity_chan pow img hwf x y hx hy
  have hb : ∀ c, img.chan x y c < 256 := fun c => rd_lt_of_forall _ hwf.2 _
  have hmem := Find_Closest_mem pow hpow (img.chan x y 0 - img.chan x y 0 % 8)
    (img.chan x y 1 - img.chan x y 1 % 8) (img.chan x y 2 - img.chan x y 2 % 8)
    (by have := hb 0; omega) (by have := hb 1; omega) (by have := hb 2; omega)
    (populosityPalette img) hlen
    (fun c hc => ⟨(hpal c hc).2.2.2.1, (hpal c hc).2.2.2.2.1, (hpal c hc).2.2.2.2.2⟩)
  have hc := hpal _ hmem
  refine ⟨⟨_, hmem, ?_, ?_, ?_⟩, k3⟩
  · rw [k0, Nat.mod_eq_of_lt hc.2.2.2.1]
  · rw [k1, Nat.mod_eq_of_lt hc.2.2.2.2.1]
  · rw [k2, Nat.mod_eq_of_lt hc.2.2.2.2.2]

end TargaImage

/-- A natural number below `2 ^ 53` is a `double`: rounding keeps it. -/
theorem fl64_nat (x : Frac) (hd : 0 < x.den) (k : Nat) (hk : k < 9007199254740992)
    (h : x.toRat = (k : ℚ)) : (fl64 x).toRat = (k : ℚ) := by
  have hq : (x.den : ℚ) ≠ 0 := by exact_mod_cast (Nat.pos_iff_ne_zero.1 hd)
  by_cases hk0 : k = 0
  · subst hk0
    have hnum : x.num = 0 := by
      unfold Frac.toRat at h
      rw [Nat.cast_zero, div_eq_zero_iff] at h
      rcases h with h | h
      · exact_mod_cast h
      · exact absurd h hq
    unfold fl64 roundFrac
    rw [if_pos hnum]
    simp [Frac.toRat]
  · have hk1 : (1 : ℚ) ≤ k := by exact_mod_cast Nat.one_le_iff_ne_zero.2 hk0
    have hk2 : (k : ℚ) < 9007199254740992 := by exact_mod_cast hk
    have hxpos : 0 < x.toRat := by rw [h]; linarith
    have hnum : x.num ≠ 0 := by
      intro h0
      have : x.toRat = 0 := by unfold Frac.toRat; rw [h0]; simp
      linarith
    obtain ⟨L, hL1, hL2⟩ := exists_binade x hd hnum
    have habs : |x.toRat| = x.toRat := abs_of_pos hxpos
    have hLlo : -1 ≤ L := by
      have h1 : (2 : ℚ) ^ (-1 : ℤ) < (2 : ℚ) ^ (L + 1) := by
        refine lt_of_le_of_lt ?_ hL2
        rw [habs, h]; norm_num; linarith
      have := (zpow_lt_zpow_iff_right₀ (by norm_num : (1 : ℚ) < 2)).1 h1
      omega
    have hLhi : L ≤ 52 := by
      have h1 : (2 : ℚ) ^ L < (2 : ℚ) ^ (53 : ℤ) := by
        refine lt_of_le_of_lt hL1 ?_
        rw [habs, h]; norm_num; linarith
      have := (zpow_lt_zpow_iff_right₀ (by norm_num : (1 : ℚ) < 2)).1 h1
      omega
    obtain ⟨t, ht⟩ : ∃ t : ℕ, (t : ℤ) = 52 - L := ⟨(52 - L).toNat, by omega⟩
    apply roundFrac_near 53 (-1074) x hd (k : ℚ) L ((k * 2 ^ t : ℕ) : ℤ) hL1 hL2
      (by push_cast; omega)
    · have e : L - (((53 : ℕ) : ℤ) - 1) = -(t : ℤ) := by push_cast; omega
      rw [e, zpow_neg, zpow_natCast]
      push_cast
      field_simp
    · rw [h, sub_self, abs_zero]
      positivity

namespace Frac

theorem lt_iff (a b : Frac) (ha : 0 < a.den) (hb : 0 < b.den) :
    lt a b = true ↔ a.toRat < b.toRat := by
  have h1 : (0 : ℚ) < a.den := by exact_mod_cast ha
  have h2 : (0 : ℚ) < b.den := by exact_mod_cast hb
  unfold lt toRat
  rw [decide_eq_true_iff, div_lt_div_iff₀ h1 h2]
  constructor
  · intro h
    have : ((a.num * b.den : ℤ) : ℚ) < ((b.num * a.den : ℤ) : ℚ) := by exact_mod_cast h
    push_cast at this
    exact this
  · intro h
    have : ((a.num * b.den : ℤ) : ℚ) < ((b.num * a.den : ℤ) : ℚ) := by push_cast; exact h
    exact_mod_cast this

theorem num_pos_of_toRat_pos (a : Frac) (ha : 0 < a.den) (h : 0 < a.toRat) : 0 < a.num := by
  have h1 : (0 : ℚ) < a.den := by exact_mod_cast ha
  unfold toRat at h
  have := (div_pos_iff_of_pos_right h1).1 h
  exact_mod_cast this

end Frac

/-- The square `pow(v, 2)` of the sample model is exact for a difference of
two bytes. -/
theorem powModel_sq (v : Int) (hv : v.natAbs ≤ 255) :
    0 < (powModel (Frac.ofInt v) (Frac.ofNat 2)).den ∧
    (powModel (Frac.ofInt v) (Frac.ofNat 2)).toRat = ((v.natAbs * v.natAbs : ℕ) : ℚ) := by
  have e : powModel (Frac.ofInt v) (Frac.ofNat 2) = fl64 (Frac.mul (Frac.ofInt v) (Frac.ofInt v)) := by
    unfold powModel
    rw [if_pos (by decide)]
  rw [e]
  refine ⟨fl64_den_pos _, ?_⟩
  apply fl64_nat _ (Frac.mul_den_pos _ _ Nat.one_pos Nat.one_pos)
  · have : v.natAbs * v.natAbs ≤ 255 * 255 := Nat.mul_le_mul hv hv
    omega
  · rw [Frac.toRat_mul]
    unfold Frac.toRat Frac.ofInt
    push_cast
    rw [Nat.cast_natAbs]
    simp

/-- The square root `pow(X, 0.5)` of the sample model on a sum of squares
`s`: zero for `s = 0`, and between `1 - 2 ^ -45` and 443 otherwise. -/
theorem powModel_sqrt (X : Frac) (hd : 0 < X.den) (s : Nat) (hs : X.toRat = (s : ℚ))
    (hsle : s ≤ 195075) :
    0 < (powModel X (dlit 5 10)).den ∧ 0 ≤ (powModel X (dlit 5 10)).num ∧
    (powModel X (dlit 5 10)).toRat < 443 ∧
    (s = 0 → (powModel X (dlit 5 10)).num = 0) ∧
    (1 ≤ s → 0 < (powModel X (dlit 5 10)).num) := by
  have hdl : dlit 5 10 = ⟨4503599627370496, 9007199254740992⟩ := by decide
  have e : powModel X (dlit 5 10)
      = fl64 ⟨(Nat.sqrt (X.num.toNat * X.den * 2 ^ 120) : ℕ), X.den * 2 ^ 60⟩ := by
    unfold powModel
    rw [hdl, if_neg (by decide)]
  have hq : (0 : ℚ) < X.den := by exact_mod_cast hd
  have hnum : X.num = (s : Int) * X.den := by
    unfold Frac.toRat at hs
    rw [div_eq_iff (ne_of_gt hq)] at hs
    exact_mod_cast hs
  have hN : X.num.toNat * X.den * 2 ^ 120 = s * ((X.den * 2 ^ 60) * (X.den * 2 ^ 60)) := by
    have : X.num.toNat = s * X.den := by rw [hnum]; exact_mod_cast Int.toNat_ofNat _
    rw [this]
    ring
  have hD : 0 < X.den * 2 ^ 60 := Nat.mul_pos hd (Nat.two_pow_pos 60)
  generalize hDe : X.den * 2 ^ 60 = D at hN hD e
  generalize hRe : Nat.sqrt (X.num.toNat * X.den * 2 ^ 120) = R at e
  have hDq : (0 : ℚ) < D := by exact_mod_cast hD
  have hup : R < 442 * D := by
    rw [← hRe, Nat.sqrt_lt, hN]
    have h1 : s * (D * D) ≤ 195075 * (D * D) := Nat.mul_le_mul_right _ hsle
    have h2 : 0 < D * D := Nat.mul_pos hD hD
    have h3 : 442 * D * (442 * D) = 195364 * (D * D) := by ring
    omega
  have hYd : 0 < (⟨(R : ℕ), D⟩ : Frac).den := hD
  have hY : (⟨(R : ℕ), D⟩ : Frac).toRat = (R : ℚ) / D := by
    unfold Frac.toRat; push_cast; rfl
  have hYlt : (⟨(R : ℕ), D⟩ : Frac).toRat < 442 := by
    rw [hY, div_lt_iff₀ hDq]
    exact_mod_cast hup
  have hYnn : 0 ≤ (⟨(R : ℕ), D⟩ : Frac).toRat := by
    rw [hY]; positivity
  have herr := fl64_err ⟨(R : ℕ), D⟩ hYd (by rw [abs_of_nonneg hYnn]; linarith)
  rw [abs_le] at herr
  rw [e]
  refine ⟨fl64_den_pos _, roundFrac_nonneg 53 (-1074) _ (Int.natCast_nonneg R), by linarith, ?_, ?_⟩
  · intro h0
    have hR0 : R = 0 := by
      rw [← hRe, hN, h0, Nat.zero_mul]
      exact Nat.sqrt_zero
    unfold fl64 roundFrac
    rw [if_pos (by rw [hR0]; rfl)]
  · intro h1
    have hlo : D ≤ R := by
      rw [← hRe, Nat.le_sqrt, hN]
      exact Nat.le_mul_of_pos_left _ h1
    have hY1 : (1 : ℚ) ≤ (⟨(R : ℕ), D⟩ : Frac).toRat := by
      rw [hY, le_div_iff₀ hDq, one_mul]
      exact_mod_cast hlo
    exact Frac.num_pos_of_toRat_pos _ (fl64_den_pos _) (by linarith)

namespace TargaImage

/-- The distance the sample model of `pow` yields between two colours. -/
theorem euDistance_powModel (a b c x y z : Nat) (ha : a < 256) (hb : b < 256) (hc : c < 256)
    (hx : x < 256) (hy : y < 256) (hz : z < 256) :
    0 < (euDistance powModel a b c x y z).den ∧ 0 ≤ (euDistance powModel a b c x y z).num ∧
    (euDistance powModel a b c x y z).toRat < 443 ∧
    ((x, y, z) = (a, b, c) → (euDistance powModel a b c x y z).num = 0) ∧
    ((x, y, z) ≠ (a, b, c) → 0 < (euDistance powModel a b c x y z).num) := by
  obtain ⟨d1, t1⟩ := powModel_sq ((a : Int) - x) (by omega)
  obtain ⟨d2, t2⟩ := powModel_sq ((b : Int) - y) (by omega)
  obtain ⟨d3, t3⟩ := powModel_sq ((c : Int) - z) (by omega)
  have hA : ((a : Int) - x).natAbs * ((a : Int) - x).natAbs ≤ 255 * 255 :=
    Nat.mul_le_mul (by omega) (by omega)
  have hB : ((b : Int) - y).natAbs * ((b : Int) - y).natAbs ≤ 255 * 255 :=
    Nat.mul_le_mul (by omega) (by omega)
  have hC : ((c : Int) - z).natAbs * ((c : Int) - z).natAbs ≤ 255 * 255 :=
    Nat.mul_le_mul (by omega) (by omega)
  have s1 : (dadd (powModel (Frac.ofInt ((a : Int) - x)) (Frac.ofNat 2))
      (powModel (Frac.ofInt ((b : Int) - y)) (Frac.ofNat 2))).toRat
      = ((((a : Int) - x).natAbs * ((a : Int) - x).natAbs
        + ((b : Int) - y).natAbs * ((b : Int) - y).natAbs : ℕ) : ℚ) := by
    unfold dadd
    apply fl64_nat _ (Frac.add_den_pos _ _ d1 d2) _ (by omega)
    rw [Frac.toRat_add _ _ d1 d2, t1, t2]
    push_cast
    rfl
  have s1d : 0 < (dadd (powModel (Frac.ofInt ((a : Int) - x)) (Frac.ofNat 2))
      (powModel (Frac.ofInt ((b : Int) - y)) (Frac.ofNat 2))).den := fl64_den_pos _
  have s2 : (dadd (dadd (powModel (Frac.ofInt ((a : Int) - x)) (Frac.ofNat 2))
      (powModel (Frac.ofInt ((b : Int) - y)) (Frac.ofNat 2)))
      (powModel (Frac.ofInt ((c : Int) - z)) (Frac.ofNat 2))).toRat
      = ((((a : Int) - x).natAbs * ((a : Int) - x).natAbs
        + ((b : Int) - y).natAbs * ((b : Int) - y).natAbs
        + ((c : Int) - z).natAbs * ((c : Int) - z).natAbs : ℕ) : ℚ) := by
    unfold dadd
    apply fl64_nat _ (Frac.add_den_pos _ _ (fl64_den_pos _) d3) _ (by omega)
    rw [Frac.toRat_add _ _ (fl64_den_pos _) d3, t3]
    have := s1
    unfold dadd at this
    rw [this]
    push_cast
    rfl
  obtain ⟨r1, r2, r3, r4, r5⟩ := powModel_sqrt _ (fl64_den_pos _) _ s2 (by omega)
  unfold euDistance
  refine ⟨r1, r2, r3, fun he => r4 ?_, fun hne => r5 ?_⟩
  · rw [Prod.mk.injEq, Prod.mk.injEq] at he
    obtain ⟨rfl, rfl, rfl⟩ := he
    simp
  · by_contra h0
    have hz0 : ((a : Int) - x).natAbs * ((a : Int) - x).natAbs
        + ((b : Int) - y).natAbs * ((b : Int) - y).natAbs
        + ((c : Int) - z).natAbs * ((c : Int) - z).natAbs = 0 := by omega
    have h1 : ((a : Int) - x).natAbs * ((a : Int) - x).natAbs = 0 := by omega
    have h2 : ((b : Int) - y).natAbs * ((b : Int) - y).natAbs = 0 := by omega
    have h3 : ((c : Int) - z).natAbs * ((c : Int) - z).natAbs = 0 := by omega
    rw [mul_self_eq_zero, Int.natAbs_eq_zero] at h1 h2 h3
    apply hne
    rw [Prod.mk.injEq, Prod.mk.injEq]
    omega

/-- The sample model of `pow` keeps every distance below 999999. -/
theorem powModel_bounded : PowBounded powModel := by
  intro a b c x y z ha hb hc hx hy hz
  obtain ⟨r1, _, r3, _, _⟩ := euDistance_powModel a b c x y z ha hb hc hx hy hz
  rw [Frac.lt_iff _ _ r1 (by decide), Frac.toRat_ofNat]
  push_cast
  linarith

/-- The sample model of `pow` gives distance 0 between equal colours and a
positive distance between different ones. -/
theorem powModel_separates : PowSeparates powModel := by
  intro a b c x y z ha hb hc hx hy hz
  obtain ⟨r1, r2, _, _, r5⟩ := euDistance_powModel a b c x y z ha hb hc hx hy hz
  obtain ⟨q1, _, _, q4, _⟩ := euDistance_powModel a b c a b c ha hb hc ha hb hc
  have q0 := q4 rfl
  constructor
  · unfold Frac.lt
    rw [q0, decide_eq_false_iff_not]
    have : 0 ≤ (euDistance powModel a b c x y z).num * ((euDistance powModel a b c a b c).den : Int) :=
      Int.mul_nonneg r2 (Int.natCast_nonneg _)
    omega
  · intro hne
    unfold Frac.lt
    rw [q0, decide_eq_true_iff]
    have : 0 < (euDistance powModel a b c x y z).num * ((euDistance powModel a b c a b c).den : Int) :=
      Int.mul_pos (r5 hne) (by exact_mod_cast q1)
    omega

end TargaImage

namespace TargaImage

/-- When the buckets of the pixels of an image fit in a list `L` of at most
256 entries, every bucket that holds a pixel is among the 256 chosen nodes. -/
theorem populated_chosen (img : TargaImage) (data : List Nat)
    (ch L : List (Nat × Nat × Nat)) (hlen : ch.length = 256) (hnd : ch.Nodup)
    (hL : L.length ≤ 256)
    (hpix : ∀ q, q < img.height * img.width →
      (rd data (4 * q) / 8, rd data (4 * q + 1) / 8, rd data (4 * q + 2) / 8) ∈ L)
    (hord : ∀ t c, ch[t]? = some c → ∀ i j k, i < 32 → j < 32 → k < 32 → (i, j, k) ∉ ch.take t →
      bucketCount data (img.height * img.width) i j k
        ≤ bucketCount data (img.height * img.width) c.1 c.2.1 c.2.2)
    (i j k : Nat) (hi : i < 32) (hj : j < 32) (hk : k < 32)
    (hpos : 0 < bucketCount data (img.height * img.width) i j k) : (i, j, k) ∈ ch := by
  have hinL : ∀ i j k, 0 < bucketCount data (img.height * img.width) i j k → (i, j, k) ∈ L := by
    intro i j k h
    obtain ⟨q, hq, e1, e2, e3⟩ := (bucketCount_pos_iff _ _ _ _ _).1 h
    have := hpix q hq
    rw [e1, e2, e3] at this
    exact this
  by_contra hnot
  have hsub : ch.toFinset ⊆ L.toFinset := by
    intro c hc
    rw [List.mem_toFinset] at hc ⊢
    obtain ⟨t, ht⟩ := List.mem_iff_getElem?.1 hc
    have hle := hord t c ht i j k hi hj hk (fun hm => hnot (List.mem_of_mem_take hm))
    exact hinL c.1 c.2.1 c.2.2 (lt_of_lt_of_le hpos hle)
  have hcard : L.toFinset.card ≤ ch.toFinset.card := by
    rw [List.toFinset_card_of_nodup hnd, hlen]
    exact le_trans (List.toFinset_card_le L) hL
  have heq := Finset.eq_of_subset_of_card_le hsub hcard
  have : (i, j, k) ∈ ch.toFinset := by
    rw [heq, List.mem_toFinset]
    exact hinL i j k hpos
  rw [List.mem_toFinset] at this
  exact hnot this

/-- The result of `Quant_Populosity` on an image whose colours fall into at
most 256 buckets of the histogram: every pixel keeps its colour with the low
three bits of R, G and B cleared, and its alpha. -/
theorem Quant_Populosity_exact (pow : Frac → Frac → Frac) (hpow : PowBounded pow)
    (hsep : PowSeparates pow) (img : TargaImage) (hwf : img.WF)
    (hsize : img.width * img.height < 2147483648)
    (L : List (Nat × Nat × Nat)) (hL : L.length ≤ 256)
    (hfew : ∀ x y, x < img.width → y < img.height →
      (img.chan x y 0 / 8, img.chan x y 1 / 8, img.chan x y 2 / 8) ∈ L)
    (x y : Nat) (hx : x < img.width) (hy : y < img.height) :
    (Quant_Populosity pow img).2.chan x y 0 = img.chan x y 0 - img.chan x y 0 % 8 ∧
    (Quant_Populosity pow img).2.chan x y 1 = img.chan x y 1 - img.chan x y 1 % 8 ∧
    (Quant_Populosity pow img).2.chan x y 2 = img.chan x y 2 - img.chan x y 2 % 8 ∧
    (Quant_Populosity pow img).2.chan x y 3 = img.chan x y 3 := by
  obtain ⟨_, hb, hcv⟩ := populosityCleared_spec img hwf
  obtain ⟨ch, hlen, hnd, hrange, htop, hord⟩ := populosityTop256_spec img (populosityCleared img)
    (fun q => rd_lt_of_forall _ hb q) hsize
  obtain ⟨plen, hpal⟩ := populosityPalette_spec img hwf hsize
  have hbyte : ∀ x y c, img.chan x y c < 256 := fun x y c => rd_lt_of_forall _ hwf.2 _
  have hpixel : ∀ x y, x < img.width → y < img.height →
      rd (populosityCleared img) (4 * (y * img.width + x)) / 8 = img.chan x y 0 / 8 ∧
      rd (populosityCleared img) (4 * (y * img.width + x) + 1) / 8 = img.chan x y 1 / 8 ∧
      rd (populosityCleared img) (4 * (y * img.width + x) + 2) / 8 = img.chan x y 2 / 8 := by
    intro x y hx hy
    obtain ⟨c0, c1, c2, _⟩ := hcv x y hx hy
    rw [Get_RGBA_eq] at c0 c1 c2
    rw [Nat.add_zero] at c0
    rw [c0, c1, c2]
    have := hbyte x y 0
    have := hbyte x y 1
    have := hbyte x y 2
    omega
  have hpix : ∀ q, q < img.height * img.width →
      (rd (populosityCleared img) (4 * q) / 8, rd (populosityCleared img) (4 * q + 1) / 8,
        rd (populosityCleared img) (4 * q + 2) / 8) ∈ L := by
    intro q hq
    have hw : 0 < img.width := by
      rcases Nat.eq_zero_or_pos img.width with h0 | h0
      · rw [h0] at hq; simp at hq
      · exact h0
    have hx' : q % img.width < img.width := Nat.mod_lt _ hw
    have hy' : q / img.width < img.height := (Nat.div_lt_iff_lt_mul hw).2 hq
    have hq' : q / img.width * img.width + q % img.width = q := by
      rw [Nat.mul_comm]; exact Nat.div_add_mod q img.width
    obtain ⟨e0, e1, e2⟩ := hpixel _ _ hx' hy'
    rw [hq'] at e0 e1 e2
    rw [e0, e1, e2]
    exact hfew _ _ hx' hy'
  have hq : y * img.width + x < img.height * img.width := pix_lt _ _ _ _ hx hy
  obtain ⟨e0, e1, e2⟩ := hpixel x y hx hy
  have hpos : 0 < bucketCount (populosityCleared img) (img.height * img.width)
      (img.chan x y 0 / 8) (img.chan x y 1 / 8) (img.chan x y 2 / 8) :=
    (bucketCount_pos_iff _ _ _ _ _).2 ⟨_, hq, e0, e1, e2⟩
  have hmem := populated_chosen img (populosityCleared img) ch L hlen hnd hL hpix
    (fun t c hc i j k hi hj hk hn => (hord t c hc i j k hi hj hk hn).1)
    (img.chan x y 0 / 8) (img.chan x y 1 / 8) (img.chan x y 2 / 8)
    (by have := hbyte x y 0; omega) (by have := hbyte x y 1; omega)
    (by have := hbyte x y 2; omega) hpos
  have hentry : ∃ c ∈ populosityPalette img, c.r = img.chan x y 0 - img.chan x y 0 % 8 ∧
      c.g = img.chan x y 1 - img.chan x y 1 % 8 ∧ c.b = img.chan x y 2 - img.chan x y 2 % 8 := by
    refine ⟨⟨8 * (img.chan x y 0 / 8), 8 * (img.chan x y 1 / 8), 8 * (img.chan x y 2 / 8),
      (bucketCount (populosityCleared img) (img.height * img.width) (img.chan x y 0 / 8)
        (img.chan x y 1 / 8) (img.chan x y 2 / 8) : Int), true⟩, ?_, ?_⟩
    · unfold populosityPalette
      rw [htop, List.mem_map]
      exact ⟨_, hmem, rfl⟩
    · simp only []
      omega
  obtain ⟨f0, f1, f2⟩ := Find_Closest_exact pow hpow hsep (img.chan x y 0 - img.chan x y 0 % 8)
    (img.chan x y 1 - img.chan x y 1 % 8) (img.chan x y 2 - img.chan x y 2 % 8)
    (by have := hbyte x y 0; omega) (by have := hbyte x y 1; omega)
    (by have := hbyte x y 2; omega) (populosityPalette img) plen
    (fun c hc => ⟨(hpal c hc).2.2.2.1, (hpal c hc).2.2.2.2.1, (hpal c hc).2.2.2.2.2⟩) hentry
  obtain ⟨k0, k1, k2, k3⟩ := Quant_Populosity_chan pow img hwf x y hx hy
  rw [f0] at k0
  rw [f1] at k1
  rw [f2] at k2
  have := hbyte x y 0
  have := hbyte x y 1
  have := hbyte x y 2
  refine ⟨by rw [k0]; omega, by rw [k1]; omega, by rw [k2]; omega, k3⟩

end TargaImage

namespace TargaImage

/-- The colours of the result of `Quant_Populosity`, pixel by pixel, make up a
set of at most 256 elements. -/
theorem Quant_Populosity_card (pow : Frac → Frac → Frac) (hpow : PowBounded pow)
    (img : TargaImage) (hwf : img.WF) (hsize : img.width * img.height < 2147483648) :
    (Finset.image (fun q : Nat =>
        ((Quant_Populosity pow img).2.chan (q % img.width) (q / img.width) 0,
          (Quant_Populosity pow img).2.chan (q % img.width) (q / img.width) 1,
          (Quant_Populosity pow img).2.chan (q % img.width) (q / img.width) 2))
      (Finset.range (img.height * img.width))).card ≤ 256 := by
  obtain ⟨hlen, _⟩ := populosityPalette_spec img hwf hsize
  have hsub : Finset.image (fun q : Nat =>
        ((Quant_Populosity pow img).2.chan (q % img.width) (q / img.width) 0,
          (Quant_Populosity pow img).2.chan (q % img.width) (q / img.width) 1,
          (Quant_Populosity pow img).2.chan (q % img.width) (q / img.width) 2))
      (Finset.range (img.height * img.width))
      ⊆ ((populosityPalette img).map (fun c => (c.r, c.g, c.b))).toFinset := by
    intro p hp
    rw [Finset.mem_image] at hp
    obtain ⟨q, hq, rfl⟩ := hp
    rw [Finset.mem_range] at hq
    have hw : 0 < img.width := by
      rcases Nat.eq_zero_or_pos img.width with h0 | h0
      · rw [h0] at hq; simp at hq
      · exact h0
    obtain ⟨⟨c, hc, e0, e1, e2⟩, _⟩ := Quant_Populosity_in_palette pow hpow img hwf hsize
      (q % img.width) (q / img.width) (Nat.mod_lt _ hw) ((Nat.div_lt_iff_lt_mul hw).2 hq)
    rw [List.mem_toFinset, List.mem_map]
    exact ⟨c, hc, by rw [e0, e1, e2]⟩
  refine le_trans (Finset.card_le_card hsub) (le_trans (List.toFinset_card_le _) ?_)
  rw [List.length_map, hlen]

/-- C17. For every well-formed image, with a library function `pow` that
keeps the distance of two colours below the start value 999999 of the
search: the palette of `Quant_Populosity` has 256 entries, every channel of
an entry is a multiple of 8, every pixel of the result holds the `(R, G, B)`
of an entry of the palette, so that the result has at most 256 distinct
`(R, G, B)` values, and alpha, width and height are unchanged. -/
theorem Quant_Populosity_palette (pow : Frac → Frac → Frac) (hpow : PowBounded pow)
    (img : TargaImage) (hwf : img.WF) (hsize : img.width * img.height < 2147483648) :
    (populosityPalette img).length = 256 ∧
    (∀ c ∈ populosityPalette img, c.r % 8 = 0 ∧ c.g % 8 = 0 ∧ c.b % 8 = 0) ∧
    (Quant_Populosity pow img).2.width = img.width ∧
    (Quant_Populosity pow img).2.height = img.height ∧
    (∀ x y, x < img.width → y < img.height →
      (∃ c ∈ populosityPalette img, (Quant_Populosity pow img).2.chan x y 0 = c.r ∧
        (Quant_Populosity pow img).2.chan x y 1 = c.g ∧
        (Quant_Populosity pow img).2.chan x y 2 = c.b) ∧
      (Quant_Populosity pow img).2.chan x y 3 = img.chan x y 3) ∧
    (Finset.image (fun q : Nat =>
        ((Quant_Populosity pow img).2.chan (q % img.width) (q / img.width) 0,
          (Quant_Populosity pow img).2.chan (q % img.width) (q / img.width) 1,
          (Quant_Populosity pow img).2.chan (q % img.width) (q / img.width) 2))
      (Finset.range (img.height * img.width))).card ≤ 256 :=
  ⟨(populosityPalette_spec img hwf hsize).1,
    fun c hc => ⟨((populosityPalette_spec img hwf hsize).2 c hc).1,
      ((populosityPalette_spec img hwf hsize).2 c hc).2.1,
      ((populosityPalette_spec img hwf hsize).2 c hc).2.2.1⟩,
    rfl, rfl, fun x y hx hy => Quant_Populosity_in_palette pow hpow img hwf hsize x y hx hy,
    Quant_Populosity_card pow hpow img hwf hsize⟩

/-- Witness for C17: the 1x1 image `(1, 1, 1, 255)` with the sample model of
`pow`. -/
theorem Quant_Populosity_palette_witness :
    (populosityPalette ⟨1, 1, [1, 1, 1, 255]⟩).length = 256 ∧
    (Quant_Populosity powModel ⟨1, 1, [1, 1, 1, 255]⟩).2.chan 0 0 3 = 255 :=
  ⟨(Quant_Populosity_palette powModel powModel_bounded ⟨1, 1, [1, 1, 1, 255]⟩
      (by decide) (by decide)).1,
    ((Quant_Populosity_palette powModel powModel_bounded ⟨1, 1, [1, 1, 1, 255]⟩
      (by decide) (by decide)).2.2.2.2.1 0 0 (by decide) (by decide)).2.trans (by decide)⟩

/-- C16 (amended). For every well-formed image whose pixels take at most 256
distinct `(R, G, B)` colours (all of them in a list `L` of at most 256
entries), with a library function `pow` that gives a colour a smaller
distance to itself than to any other colour: after `Quant_Populosity` every
pixel holds its own colour with the low three bits of R, G and B cleared,
and its alpha. -/
theorem Quant_Populosity_few_colours (pow : Frac → Frac → Frac) (hpow : PowBounded pow)
    (hsep : PowSeparates pow) (img : TargaImage) (hwf : img.WF)
    (hsize : img.width * img.height < 2147483648)
    (L : List (Nat × Nat × Nat)) (hL : L.length ≤ 256)
    (hcol : ∀ x y, x < img.width → y < img.height →
      (img.chan x y 0, img.chan x y 1, img.chan x y 2) ∈ L)
    (x y : Nat) (hx : x < img.width) (hy : y < img.height) :
    (Quant_Populosity pow img).2.chan x y 0 = img.chan x y 0 - img.chan x y 0 % 8 ∧
    (Quant_Populosity pow img).2.chan x y 1 = img.chan x y 1 - img.chan x y 1 % 8 ∧
    (Quant_Populosity pow img).2.chan x y 2 = img.chan x y 2 - img.chan x y 2 % 8 ∧
    (Quant_Populosity pow img).2.chan x y 3 = img.chan x y 3 :=
  Quant_Populosity_exact pow hpow hsep img hwf hsize
    (L.map (fun c => (c.1 / 8, c.2.1 / 8, c.2.2 / 8))) (by rw [List.length_map]; exact hL)
    (fun x y hx hy => List.mem_map.2 ⟨_, hcol x y hx hy, rfl⟩) x y hx hy

/-- Witness for C16 (amended): the 2x1 image with the pixels
`(8, 16, 24, 255)` and `(200, 100, 50, 7)`; the second pixel becomes
`(200, 96, 48, 7)`. -/
theorem Quant_Populosity_few_colours_witness :
    (Quant_Populosity powModel ⟨2, 1, [8, 16, 24, 255, 200, 100, 50, 7]⟩).2.chan 1 0 1 = 96 ∧
    (Quant_Populosity powModel ⟨2, 1, [8, 16, 24, 255, 200, 100, 50, 7]⟩).2.chan 1 0 3 = 7 := by
  have h := Quant_Populosity_few_colours powModel powModel_bounded powModel_separates
    ⟨2, 1, [8, 16, 24, 255, 200, 100, 50, 7]⟩ (by decide) (by decide)
    [(8, 16, 24), (200, 100, 50)] (by decide)
    (by
      intro x y hx hy
      have hx' : x < 2 := hx
      have hy' : y < 1 := hy
      interval_cases x <;> interval_cases y <;> decide)
    1 0 (by decide) (by decide)
  exact ⟨h.2.1.trans (by decide), h.2.2.2.trans (by decide)⟩

/-- Counterexample to C16: the 1x1 image whose only colour is `(1, 1, 1)`
becomes `(0, 0, 0)`, which is not a colour of the original image. -/
theorem Quant_Populosity_not_original :
    (Quant_Populosity powModel ⟨1, 1, [1, 1, 1, 255]⟩).2.chan 0 0 0 = 0 ∧
    (Quant_Populosity powModel ⟨1, 1, [1, 1, 1, 255]⟩).2.chan 0 0 1 = 0 ∧
    (Quant_Populosity powModel ⟨1, 1, [1, 1, 1, 255]⟩).2.chan 0 0 2 = 0 ∧
    (TargaImage.mk 1 1 [1, 1, 1, 255]).chan 0 0 0 = 1 ∧
    (TargaImage.mk 1 1 [1, 1, 1, 255]).chan 0 0 1 = 1 ∧
    (TargaImage.mk 1 1 [1, 1, 1, 255]).chan 0 0 2 = 1 := by
  have h := Quant_Populosity_exact powModel powModel_bounded powModel_separates
    ⟨1, 1, [1, 1, 1, 255]⟩ (by decide) (by decide) [(0, 0, 0)] (by decide)
    (by
      intro x y hx hy
      have hx' : x < 1 := hx
      have hy' : y < 1 := hy
      interval_cases x; interval_cases y; decide)
    0 0 (by decide) (by decide)
  exact ⟨h.1.trans (by decide), h.2.1.trans (by decide), h.2.2.1.trans (by decide),
    by decide, by decide, by decide⟩

end TargaImage

/-! ## Return values, kernels and the guard of `Half_Size` -/

namespace TargaImage

/-- C21. Four of the transformations end with `return false` although they
have carried out their transformation: `To_Grayscale`, `Filter_Bartlett`,
`Filter_Enhance` and `Half_Size` return false on every image; the other
operations of the list return true. -/
theorem return_values (img : TargaImage) (pow : Frac → Frac → Frac) (RAND_MAX : Nat)
    (gen : Nat → Nat → Nat) (now : Nat) :
    (To_Grayscale img).1 = false ∧ (Filter_Bartlett img).1 = false ∧
    (Filter_Enhance img).1 = false ∧ (Half_Size img).1 = false ∧
    (Quant_Uniform img).1 = true ∧ (Quant_Populosity pow img).1 = true ∧
    (Dither_Threshold img).1 = true ∧ (Dither_Random RAND_MAX gen now img).1 = true ∧
    (Dither_FS img).1 = true ∧ (Dither_Bright img).1 = true ∧ (Dither_Cluster img).1 = true ∧
    (Dither_Color img).1 = true ∧ (Filter_Box img).1 = true ∧ (Filter_Gaussian img).1 = true ∧
    (Filter_Edge img).1 = true :=
  ⟨rfl, rfl, rfl, rfl, rfl, rfl, rfl, rfl, rfl, rfl, rfl, rfl, rfl, rfl, rfl⟩

/-- C28. For the odd `N` from 1 to 15 the kernel of `Filter_Gaussian_N` holds
the products of binomial coefficients and `maskSum` is `4 ^ (N - 1)`; for
`N = 17` the 32-bit sum of the entries, whose exact value is `4 ^ 16 = 2 ^ 32`,
is 0. -/
theorem gaussianMask_sum_17 :
    (∀ N ∈ [1, 3, 5, 7, 9, 11, 13, 15],
      (gaussianMask N).2 = (4 : Int) ^ (N - 1) ∧
      ∀ i ∈ List.range N, ∀ j ∈ List.range N,
        maskAtInt (gaussianMask N).1 i j = (Nat.choose (N - 1) i * Nat.choose (N - 1) j : Nat)) ∧
    (gaussianMask 17).2 = 0 ∧
    (∀ i ∈ List.range 17, ∀ j ∈ List.range 17,
      maskAtInt (gaussianMask 17).1 i j = (Nat.choose 16 i * Nat.choose 16 j : Nat)) := by
  decide!

/-- The C statement `if (q > 255) p = 255; else if (q < 0) p = 0; else p = q;`
stores `q` clamped to the range of a byte. -/
theorem rd_clampStore (data : List Nat) (o : Nat) (q : Int) (k : Nat) :
    rd (clampStore data o q) k
      = if o = k ∧ o < data.length then (max 0 (min 255 q)).toNat else rd data k := by
  unfold clampStore
  by_cases h1 : q > 255
  · rw [if_pos h1, rd_wr]
    have : (max 0 (min 255 q)).toNat = 255 := by omega
    rw [this]
  · rw [if_neg h1]
    by_cases h2 : q < 0
    · rw [if_pos h2, rd_wr]
      have : (max 0 (min 255 q)).toNat = 0 := by omega
      rw [this]
    · rw [if_neg h2]
      unfold wrInt rd
      rw [getD_set]
      have : (q % 256).toNat = (max 0 (min 255 q)).toNat := by omega
      rw [this]

theorem clampStore_length (data : List Nat) (o : Nat) (q : Int) :
    (clampStore data o q).length = data.length := by
  unfold clampStore wrInt
  split_ifs <;> simp [wr_length]

/-- The kernel of `Filter_Edge` as the code builds it: the array
`BartlletMask` holds the outer product of `[1, 4, 6, 4, 1]`, of total weight
`BartlletSum = 256`, `highPassMask[i][j] = 256 * identity[i][j] - G[i][j]`,
and one pixel step divides each window sum by 256 (quotient truncated
towards zero) and stores the quotient clamped to `[0, 255]`. -/
theorem Filter_Edge_kernel :
    BartlletSum = 256 ∧
    (∀ i j, i < 5 → j < 5 →
      maskAtInt BartlletMask i j = ([1, 4, 6, 4, 1].getD i 0 * [1, 4, 6, 4, 1].getD j 0 : Int) ∧
      maskAtInt (highPassMask 1) i j
        = 256 * (if i = 2 ∧ j = 2 then 1 else 0)
          - ([1, 4, 6, 4, 1].getD i 0 * [1, 4, 6, 4, 1].getD j 0 : Int)) ∧
    (∀ (img : TargaImage) (data : List Nat) (x y : Nat),
      img.Get_RGBA x y + 3 < data.length →
      rd (filterHighPassPixel img (highPassMask 1) x y data) (img.Get_RGBA x y + 0)
        = (max 0 (min 255 (Int.tdiv (windowSum img (highPassMask 1) 2 data x y).1 256))).toNat ∧
      rd (filterHighPassPixel img (highPassMask 1) x y data) (img.Get_RGBA x y + 1)
        = (max 0 (min 255 (Int.tdiv (windowSum img (highPassMask 1) 2 data x y).2.1 256))).toNat ∧
      rd (filterHighPassPixel img (highPassMask 1) x y data) (img.Get_RGBA x y + 2)
        = (max 0 (min 255 (Int.tdiv (windowSum img (highPassMask 1) 2 data x y).2.2 256))).toNat ∧
      rd (filterHighPassPixel img (highPassMask 1) x y data) (img.Get_RGBA x y + 3)
        = rd data (img.Get_RGBA x y + 3)) := by
  have hsum : BartlletSum = 256 := by decide
  refine ⟨hsum, ?_, ?_⟩
  · intro i j hi hj
    interval_cases i <;> interval_cases j <;> decide
  · intro img data x y hD
    unfold filterHighPassPixel
    simp only [RED, GREEN, BLUE, hsum, rd_clampStore, clampStore_length]
    refine ⟨?_, ?_, ?_, ?_⟩
    · rw [if_neg (by omega), if_neg (by omega), if_pos ⟨trivial, by omega⟩]
    · rw [if_neg (by omega), if_pos ⟨trivial, by omega⟩]
    · rw [if_pos ⟨trivial, by omega⟩]
    · rw [if_neg (by omega), if_neg (by omega), if_neg (by omega)]

/-- C29 (the code at the failing input). The array that `Filter_Edge` names
`BartlletMask` holds the values of the kernel of `Filter_Gaussian`, the outer
product of `[1, 4, 6, 4, 1]`, and not those of the kernel of
`Filter_Bartlett`, the outer product of `[1, 2, 3, 2, 1]`. So `BartlletSum` is
256 instead of 81, the kernel is `256 * identity - G` instead of
`81 * identity - B`, with the centre weight `256 - 36 = 220` instead of
`81 - 9 = 72`, and the 1x1 image `(100, 100, 100, 255)` becomes
`(62, 62, 62, 255)` after the three passes (`100 * 220 / 256 = 85`, then 73,
then 62), where the kernel of the claim gives 69 (`100 * 72 / 81 = 88`, then
78, then 69). -/
theorem Filter_Edge_not_bartlett :
    BartlletMask = Gaussian_mask ∧
    (∀ i j, i < 5 → j < 5 →
      maskAt Bartlett_mask i j
        = Frac.ofNat ([1, 2, 3, 2, 1].getD i 0 * [1, 2, 3, 2, 1].getD j 0) ∧
      maskAtInt BartlletMask i j = ([1, 4, 6, 4, 1].getD i 0 * [1, 4, 6, 4, 1].getD j 0 : Int) ∧
      maskAtInt (highPassMask 1) i j
        = 256 * (if i = 2 ∧ j = 2 then 1 else 0)
          - ([1, 4, 6, 4, 1].getD i 0 * [1, 4, 6, 4, 1].getD j 0 : Int)) ∧
    BartlletSum = 256 ∧ maskAtInt (highPassMask 1) 2 2 = 220 ∧
    (Filter_Edge ⟨1, 1, [100, 100, 100, 255]⟩).2.data = [62, 62, 62, 255] ∧
    Int.tdiv (Int.tdiv (Int.tdiv (100 * (81 * 1 - 9)) 81 * (81 * 1 - 9)) 81 * (81 * 1 - 9)) 81
      = 69 := by
  refine ⟨by decide, ?_, by decide, by decide, by decide!, by decide⟩
  intro i j hi hj
  interval_cases i <;> interval_cases j <;> decide

/-- The decimation step of `Half_Size` does nothing where the guard holds. -/
theorem halfSizeCopyPixel_guard (img : TargaImage) (T D : List Nat) (x y : Nat)
    (h : img.halfSizeGuard x y) : halfSizeCopyPixel img T x y D = D := by
  unfold halfSizeCopyPixel
  exact if_pos h

/-- C30 (amended). At a loop position `(x, y)` of the decimation loop of
`Half_Size` the guard `y / 2 == height / 2 || x / 2 == width / 2` holds
exactly in the last row of an image of odd height and in the last column of
an image of odd width, and there the loop body copies nothing; it never
holds when width and height are both even. -/
theorem halfSizeGuard_iff (img : TargaImage) (x y : Nat) (hx : x < img.width)
    (hy : y < img.height) :
    (img.halfSizeGuard x y ↔
      (img.height % 2 = 1 ∧ y = img.height - 1) ∨ (img.width % 2 = 1 ∧ x = img.width - 1)) ∧
    (img.halfSizeGuard x y → ∀ T D : List Nat, halfSizeCopyPixel img T x y D = D) ∧
    (img.width % 2 = 0 → img.height % 2 = 0 → ¬ img.halfSizeGuard x y) := by
  refine ⟨?_, fun h T D => halfSizeCopyPixel_guard img T D x y h, ?_⟩
  · unfold halfSizeGuard
    omega
  · unfold halfSizeGuard
    omega

/-- Witness for C30 (amended): the last column of a 3x2 image. -/
theorem halfSizeGuard_iff_witness :
    (TargaImage.mk 3 2 (List.replicate 24 0)).halfSizeGuard 2 0 :=
  (halfSizeGuard_iff ⟨3, 2, List.replicate 24 0⟩ 2 0 (by decide) (by decide)).1.2
    (Or.inr ⟨by decide, by decide⟩)

/-- Counterexample to C30: in a 1x1 image the guard holds at the only loop
position `(0, 0)` (`0 / 2 == 1 / 2`), and the pixel is not copied. -/
theorem halfSizeGuard_1x1 :
    (TargaImage.mk 1 1 [9, 9, 9, 9]).halfSizeGuard 0 0 ∧
    halfSizeCopyPixel ⟨1, 1, [9, 9, 9, 9]⟩ [9, 9, 9, 9] 0 0 [] = [] := by
  decide

end TargaImage

/-! ## Ordered and random dithering -/

namespace TargaImage

/-- The quotient of the luma by 255 or 256, computed in `double`, is within
`2 ^ -44` of the exact quotient. -/
theorem luma_div_err (r g b n : Nat) (hr : r < 256) (hg : g < 256) (hb : b < 256)
    (hn : 255 ≤ n) :
    0 < (ddiv (luma r g b) (Frac.ofNat n)).den ∧
    |(ddiv (luma r g b) (Frac.ofNat n)).toRat
        - ((30 * r + 59 * g + 11 * b : ℕ) : ℚ) / 100 / n| ≤ 1 / 17592186044416 := by
  obtain ⟨hd, herr⟩ := luma_spec r g b hr hg hb
  rw [abs_le] at herr
  have hKle : 30 * r + 59 * g + 11 * b ≤ 25500 := by omega
  have hKq : ((30 * r + 59 * g + 11 * b : ℕ) : ℚ) ≤ 25500 := by exact_mod_cast hKle
  have hK0 : (0 : ℚ) ≤ ((30 * r + 59 * g + 11 * b : ℕ) : ℚ) := by positivity
  have hnq : (255 : ℚ) ≤ n := by exact_mod_cast hn
  have hnpos : (0 : ℚ) < n := by linarith
  have hq : (Frac.div (luma r g b) (Frac.ofNat n)).toRat = (luma r g b).toRat / n :=
    Frac.toRat_div_ofNat _ n (by omega)
  have hqd : 0 < (Frac.div (luma r g b) (Frac.ofNat n)).den :=
    Frac.div_ofNat_den_pos _ n hd (by omega)
  have hdiff : |(luma r g b).toRat / n - ((30 * r + 59 * g + 11 * b : ℕ) : ℚ) / 100 / n|
      ≤ 1 / 280375465082880 := by
    rw [← sub_div, abs_div, abs_of_pos hnpos, div_le_iff₀ hnpos]
    have h1 := abs_le.2 herr
    linarith
  rw [abs_le] at hdiff
  have hKn : ((30 * r + 59 * g + 11 * b : ℕ) : ℚ) / 100 / n ≤ 1 := by
    rw [div_le_iff₀ hnpos]; linarith
  have hKn0 : 0 ≤ ((30 * r + 59 * g + 11 * b : ℕ) : ℚ) / 100 / n := by positivity
  have he := fl64_err _ hqd (by
    rw [hq, abs_lt]; constructor <;> linarith)
  rw [hq, abs_le] at he
  refine ⟨fl64_den_pos _, ?_⟩
  have he' : -(1 / 35184372088832) ≤ (ddiv (luma r g b) (Frac.ofNat n)).toRat
        - (luma r g b).toRat / n ∧
      (ddiv (luma r g b) (Frac.ofNat n)).toRat - (luma r g b).toRat / n
        ≤ 1 / 35184372088832 := he
  rw [abs_le]
  constructor <;> linarith [he'.1, he'.2, hdiff.1, hdiff.2]

/-- A decimal literal below 512 is within `2 ^ -45` of its `double`. -/
theorem dlit_err (n d : Nat) (hd : 0 < d) (h : n < 512 * d) :
    0 < (dlit n d).den ∧ |(dlit n d).toRat - (n : ℚ) / d| ≤ 1 / 35184372088832 := by
  have hdq : (0 : ℚ) < d := by exact_mod_cast hd
  have e : (⟨(n : ℤ), d⟩ : Frac).toRat = (n : ℚ) / d := by
    unfold Frac.toRat; push_cast; rfl
  have hlt : (n : ℚ) / d < 512 := by
    rw [div_lt_iff₀ hdq]; exact_mod_cast h
  have h0 : (0 : ℚ) ≤ (n : ℚ) / d := by positivity
  have := fl64_err ⟨(n : ℤ), d⟩ hd (by rw [e, abs_of_nonneg h0]; exact hlt)
  rw [e] at this
  exact ⟨fl64_den_pos _, this⟩

/-- The test of `Dither_Cluster` against a matrix entry `m / 10000`: no luma
ties with the entry when `20 K ≠ 51 m`, and then the test in `double` agrees
with the exact comparison `K / 25500 ≥ m / 10000`. -/
theorem cluster_cond (r g b m : Nat) (hr : r < 256) (hg : g < 256) (hb : b < 256)
    (hm : m < 10000) (hne : 20 * (30 * r + 59 * g + 11 * b) ≠ 51 * m) :
    Frac.ge (ddiv (luma r g b) (Frac.ofNat 255)) (dlit m 10000) = true ↔
      51 * m ≤ 20 * (30 * r + 59 * g + 11 * b) := by
  obtain ⟨hqd, hq⟩ := luma_div_err r g b 255 hr hg hb (le_refl _)
  obtain ⟨hmd, hmq⟩ := dlit_err m 10000 (by decide) (by omega)
  rw [abs_le] at hq hmq
  push_cast at hq hmq
  unfold Frac.ge
  rw [Frac.le_iff _ _ hmd hqd]
  constructor
  · intro h
    by_contra hc
    have hlt : 20 * (30 * r + 59 * g + 11 * b) + 1 ≤ 51 * m := by omega
    have hltq : (20 : ℚ) * (30 * r + 59 * g + 11 * b) + 1 ≤ 51 * m := by exact_mod_cast hlt
    linarith [hq.1, hq.2, hmq.1, hmq.2]
  · intro h
    have hlt : 51 * m + 1 ≤ 20 * (30 * r + 59 * g + 11 * b) := by omega
    have hltq : (51 : ℚ) * m + 1 ≤ 20 * (30 * r + 59 * g + 11 * b) := by exact_mod_cast hlt
    linarith [hq.1, hq.2, hmq.1, hmq.2]

/-- The entries of the threshold matrix are the `double`s of the decimal
entries, all below 1 and none of them a value the luma quotient can take. -/
theorem clusterMask_entries (i j : Nat) (hi : i < 4) (hj : j < 4) :
    maskAt clusterMask i j = dlit (clusterDecAt i j) 10000 ∧ clusterDecAt i j < 10000 ∧
    clusterDecAt i j % 20 ≠ 0 := by
  interval_cases i <;> interval_cases j <;> exact ⟨rfl, by decide, by decide⟩

end TargaImage

namespace TargaImage

/-- C25. For every well-formed image and every pixel at column `x`, row `y`
with channels `(R, G, B)`: the entry `M = m / 10000` of the 4x4 matrix at
`(y mod 4, x mod 4)` is below 1, and `Dither_Cluster` makes the pixel white
when `(0.30 R + 0.59 G + 0.11 B) / 255 ≥ M`, that is `51 m ≤ 20 (30 R + 59 G +
11 B)`, and black otherwise; alpha is unchanged. -/
theorem Dither_Cluster_spec (img : TargaImage) (hwf : img.WF) (x y : Nat)
    (hx : x < img.width) (hy : y < img.height) :
    clusterDecAt (y % 4) (x % 4) < 10000 ∧
    maskAt clusterMask (y % 4) (x % 4) = dlit (clusterDecAt (y % 4) (x % 4)) 10000 ∧
    (51 * clusterDecAt (y % 4) (x % 4)
        ≤ 20 * (30 * img.chan x y 0 + 59 * img.chan x y 1 + 11 * img.chan x y 2) →
      (Dither_Cluster img).2.chan x y 0 = 255 ∧ (Dither_Cluster img).2.chan x y 1 = 255 ∧
      (Dither_Cluster img).2.chan x y 2 = 255) ∧
    (20 * (30 * img.chan x y 0 + 59 * img.chan x y 1 + 11 * img.chan x y 2)
        < 51 * clusterDecAt (y % 4) (x % 4) →
      (Dither_Cluster img).2.chan x y 0 = 0 ∧ (Dither_Cluster img).2.chan x y 1 = 0 ∧
      (Dither_Cluster img).2.chan x y 2 = 0) ∧
    (Dither_Cluster img).2.chan x y 3 = img.chan x y 3 := by
  have hch := fun c hc => Dither_Cluster_chan img hwf.1 x y c hx hy hc
  have hb : ∀ c, img.chan x y c < 256 := fun c => rd_lt_of_forall _ hwf.2 _
  obtain ⟨hm, hlt, hnd⟩ := clusterMask_entries (y % 4) (x % 4)
    (Nat.mod_lt _ (by decide)) (Nat.mod_lt _ (by decide))
  have hcond := cluster_cond (img.chan x y 0) (img.chan x y 1) (img.chan x y 2)
    (clusterDecAt (y % 4) (x % 4)) (hb 0) (hb 1) (hb 2) hlt (by omega)
  rw [← hm] at hcond
  have h0 := hch 0 (by decide)
  have h1 := hch 1 (by decide)
  have h2 := hch 2 (by decide)
  have h3 := hch 3 (by decide)
  refine ⟨hlt, hm, ?_, ?_, by simpa using h3⟩
  · intro h
    rw [hcond.2 h] at h0 h1 h2
    exact ⟨by simpa using h0, by simpa using h1, by simpa using h2⟩
  · intro h
    have hf : Frac.ge (ddiv (luma (img.chan x y 0) (img.chan x y 1) (img.chan x y 2))
        (Frac.ofNat 255)) (maskAt clusterMask (y % 4) (x % 4)) = false := by
      rw [Bool.eq_false_iff]
      intro hc
      have := hcond.1 hc
      omega
    rw [hf] at h0 h1 h2
    exact ⟨by simpa using h0, by simpa using h1, by simpa using h2⟩

/-- Witness for C25: the pixel `(200, 10, 30, 7)` at `(0, 0)`, against the
entry 0.7059, turns black. -/
theorem Dither_Cluster_spec_witness :
    (Dither_Cluster ⟨1, 1, [200, 10, 30, 7]⟩).2.chan 0 0 0 = 0 ∧
    (Dither_Cluster ⟨1, 1, [200, 10, 30, 7]⟩).2.chan 0 0 3 = 7 :=
  ⟨((Dither_Cluster_spec ⟨1, 1, [200, 10, 30, 7]⟩ (by decide) 0 0 (by decide)
      (by decide)).2.2.2.1 (by decide)).1,
    (Dither_Cluster_spec ⟨1, 1, [200, 10, 30, 7]⟩ (by decide) 0 0 (by decide)
      (by decide)).2.2.2.2.trans (by decide)⟩

end TargaImage

namespace TargaImage

end TargaImage

/-! ## Brightness-preserving dithering -/

/-- A loop that appends one value per iteration collects the values in the
order of the iterations. -/
theorem forLoop_collect (n : Nat) (g : Nat → Frac) (l : List Frac) (a : Frac) :
    (forLoop n (fun p (s : List Frac × Frac) => (s.1 ++ [g p], dadd s.2 (g p))) (l, a)).1
      = l ++ (List.range n).map g := by
  induction n with
  | zero => simp [forLoop]
  | succ n ih =>
    rw [forLoop_succ]
    show (forLoop n _ (l, a)).1 ++ [g n] = _
    rw [ih, List.range_succ, List.map_append, List.append_assoc]
    rfl

namespace TargaImage

/-- The vector `tSort` of `Dither_Bright` before sorting holds the value
`luma / 256` of every pixel, in raster order. -/
theorem ditherBrightStats_list (img : TargaImage) :
    (ditherBrightStats img).1 = (List.range (img.height * img.width)).map (fun p =>
      ddiv (luma (rd img.data (4 * p)) (rd img.data (4 * p + 1)) (rd img.data (4 * p + 2)))
        (Frac.ofNat 256)) := by
  unfold ditherBrightStats
  rw [forLoop_nest img.width img.height (fun j i s => ditherBrightCollect img img.data j i s)]
  rw [forLoop_congr (img.height * img.width) _
    (fun p (s : List Frac × Frac) =>
      (s.1 ++ [(fun p => ddiv (luma (rd img.data (4 * p)) (rd img.data (4 * p + 1))
          (rd img.data (4 * p + 2))) (Frac.ofNat 256)) p],
        dadd s.2 ((fun p => ddiv (luma (rd img.data (4 * p)) (rd img.data (4 * p + 1))
          (rd img.data (4 * p + 2))) (Frac.ofNat 256)) p)))]
  · rw [forLoop_collect]
    rfl
  · intro p _ s
    have e : img.Get_RGBA (p % img.width) (p / img.width) = 4 * p := by
      rw [Get_RGBA_eq, Nat.div_add_mod']
    simp only [ditherBrightCollect, e, RED, GREEN, BLUE, Nat.add_zero]

end TargaImage

/-! ## The selection order of `Quant_Populosity` -/

namespace TargaImage

/-- Along the chosen nodes of `Quant_Populosity` the counts never increase. -/
theorem populosity_counts_antitone (cnt : Nat → Nat → Nat → Nat) (ch : List (Nat × Nat × Nat))
    (hnd : ch.Nodup) (hrange : ∀ c ∈ ch, c.1 < 32 ∧ c.2.1 < 32 ∧ c.2.2 < 32)
    (hord : ∀ t c, ch[t]? = some c → ∀ i j k, i < 32 → j < 32 → k < 32 → (i, j, k) ∉ ch.take t →
      cnt i j k ≤ cnt c.1 c.2.1 c.2.2)
    (s t : Nat) (a b : Nat × Nat × Nat) (hst : s ≤ t) (ha : ch[s]? = some a)
    (hb : ch[t]? = some b) : cnt b.1 b.2.1 b.2.2 ≤ cnt a.1 a.2.1 a.2.2 := by
  have hbm : b ∈ ch := List.mem_iff_getElem?.2 ⟨t, hb⟩
  obtain ⟨h1, h2, h3⟩ := hrange b hbm
  apply hord s a ha b.1 b.2.1 b.2.2 h1 h2 h3
  intro hm
  obtain ⟨u, hu⟩ := List.mem_iff_getElem?.1 hm
  rw [List.getElem?_take] at hu
  split_ifs at hu with hus
  have ht' : t < ch.length := by
    by_contra hc
    rw [List.getElem?_eq_none (Nat.le_of_not_lt hc)] at hb
    exact Option.noConfusion hb
  have hu' : u < ch.length := by omega
  rw [List.getElem?_eq_getElem hu'] at hu
  rw [List.getElem?_eq_getElem ht'] at hb
  have e : ch[u] = ch[t] := by
    rw [Option.some.injEq] at hu hb
    rw [hu, hb]
  have := (List.Nodup.getElem_inj_iff hnd).1 e
  omega

set_option maxRecDepth 100000 in
/-- The 2x2 image with the colours `(8, 8, 8)`, `(8, 8, 8)`, `(16, 16, 16)`,
`(240, 1, 1)` after the first loop of `Quant_Populosity`. -/
theorem populosityExample_cleared :
    populosityCleared ⟨2, 2, [8, 8, 8, 255, 8, 8, 8, 255, 16, 16, 16, 255, 240, 1, 1, 255]⟩
      = [8, 8, 8, 255, 8, 8, 8, 255, 16, 16, 16, 255, 240, 0, 0, 255] := by
  decide!

/-- The histogram of the 2x2 example image. -/
theorem populosityExample_count (i j k : Nat) :
    bucketCount [8, 8, 8, 255, 8, 8, 8, 255, 16, 16, 16, 255, 240, 0, 0, 255] 4 i j k
      = if (i, j, k) = (1, 1, 1) then 2 else if (i, j, k) = (2, 2, 2) then 1
        else if (i, j, k) = (30, 0, 0) then 1 else 0 := by
  have hr : List.range 4 = [0, 1, 2, 3] := by decide
  unfold bucketCount
  rw [hr]
  simp only [List.filter_cons, List.filter_nil, rd, List.getD_cons_zero, List.getD_cons_succ,
    Nat.reduceMul, Nat.reduceAdd, Nat.reduceDiv, Prod.mk.injEq, decide_eq_true_eq]
  split_ifs <;> first | rfl | (exfalso; omega)

set_option maxRecDepth 100000 in
/-- The first entry of the palette of the 2x2 example image is `(8, 8, 8)`,
the colour of its two equal pixels. -/
theorem populosityExample_first :
    ((populosityPalette
        ⟨2, 2, [8, 8, 8, 255, 8, 8, 8, 255, 16, 16, 16, 255, 240, 1, 1, 255]⟩)[0]?).map
      (fun c => (c.r, c.g, c.b, c.count)) = some (8, 8, 8, 2) := by
  have hb : ∀ q, rd [8, 8, 8, 255, 8, 8, 8, 255, 16, 16, 16, 255, 240, 0, 0, 255] q < 256 :=
    fun q => rd_lt_of_forall _ (by decide) q
  obtain ⟨ch, hlen, _, _, htop, hord⟩ := populosityTop256_spec
    ⟨2, 2, [8, 8, 8, 255, 8, 8, 8, 255, 16, 16, 16, 255, 240, 1, 1, 255]⟩
    [8, 8, 8, 255, 8, 8, 8, 255, 16, 16, 16, 255, 240, 0, 0, 255] hb (by decide)
  have h0 : ch[0]? = some (ch[0]) := List.getElem?_eq_getElem (by omega)
  have hmax := (hord 0 _ h0 1 1 1 (by decide) (by decide) (by decide) (by simp)).1
  have e4 : (TargaImage.mk 2 2
      [8, 8, 8, 255, 8, 8, 8, 255, 16, 16, 16, 255, 240, 1, 1, 255]).height
      * (TargaImage.mk 2 2
      [8, 8, 8, 255, 8, 8, 8, 255, 16, 16, 16, 255, 240, 1, 1, 255]).width = 4 := rfl
  rw [e4] at hmax htop
  rw [populosityExample_count, populosityExample_count] at hmax
  have hc : ch[0] = (1, 1, 1) := by
    rw [if_pos rfl] at hmax
    by_contra hne
    have hne' : ¬ ((ch[0]).1, (ch[0]).2.1, (ch[0]).2.2) = (1, 1, 1) := hne
    rw [if_neg hne'] at hmax
    split_ifs at hmax <;> omega
  unfold populosityPalette
  rw [populosityExample_cleared, htop, List.getElem?_map, h0, hc]
  simp only [Option.map_some', populosityExample_count]
  rfl

set_option maxRecDepth 100000 in
/-- C27. For every well-formed image of fewer than `2 ^ 31` pixels, the
palette of `Quant_Populosity` has exactly 256 entries, taken from 256
different buckets `ch` of the histogram; the entry at every position `t` is a
bucket whose count is the largest among the buckets not chosen before it, and
every bucket earlier in the scan order `(i, j, k)` that is still unchosen has
a strictly smaller count; hence the counts never increase along the palette.
For the 2x2 image `(8,8,8)`, `(8,8,8)`, `(16,16,16)`, `(240,1,1)` the first
entry is `(8, 8, 8)` with count 2, and every pixel receives a palette entry
equal to its colour after the first loop has cleared the low three bits. -/
theorem Quant_Populosity_selection (pow : Frac → Frac → Frac) (hpow : PowBounded pow)
    (hsep : PowSeparates pow) (img : TargaImage) (hwf : img.WF)
    (hsize : img.width * img.height < 2147483648) :
    (∃ ch : List (Nat × Nat × Nat), ch.length = 256 ∧ ch.Nodup ∧
      (∀ c ∈ ch, c.1 < 32 ∧ c.2.1 < 32 ∧ c.2.2 < 32) ∧
      populosityPalette img = ch.map (fun c => ⟨8 * c.1, 8 * c.2.1, 8 * c.2.2,
        (bucketCount (populosityCleared img) (img.height * img.width) c.1 c.2.1 c.2.2 : Int),
        true⟩) ∧
      (∀ t c, ch[t]? = some c → ∀ i j k, i < 32 → j < 32 → k < 32 → (i, j, k) ∉ ch.take t →
        bucketCount (populosityCleared img) (img.height * img.width) i j k
          ≤ bucketCount (populosityCleared img) (img.height * img.width) c.1 c.2.1 c.2.2 ∧
        (i * 1024 + j * 32 + k < c.1 * 1024 + c.2.1 * 32 + c.2.2 →
          bucketCount (populosityCleared img) (img.height * img.width) i j k
            < bucketCount (populosityCleared img) (img.height * img.width) c.1 c.2.1 c.2.2)) ∧
      (∀ (s t : Nat) (a b : Nat × Nat × Nat), s ≤ t → ch[s]? = some a → ch[t]? = some b →
        bucketCount (populosityCleared img) (img.height * img.width) b.1 b.2.1 b.2.2
          ≤ bucketCount (populosityCleared img) (img.height * img.width) a.1 a.2.1 a.2.2)) ∧
    ((populosityPalette
        ⟨2, 2, [8, 8, 8, 255, 8, 8, 8, 255, 16, 16, 16, 255, 240, 1, 1, 255]⟩)[0]?).map
      (fun c => (c.r, c.g, c.b, c.count)) = some (8, 8, 8, 2) ∧
    (∀ x y, x < 2 → y < 2 →
      ∃ c ∈ populosityPalette
          ⟨2, 2, [8, 8, 8, 255, 8, 8, 8, 255, 16, 16, 16, 255, 240, 1, 1, 255]⟩,
        ∀ k, k < 3 →
          (Quant_Populosity pow
            ⟨2, 2, [8, 8, 8, 255, 8, 8, 8, 255, 16, 16, 16, 255, 240, 1, 1, 255]⟩).2.chan x y k
            = [c.r, c.g, c.b].getD k 0 ∧
          [c.r, c.g, c.b].getD k 0
            = rd [8, 8, 8, 255, 8, 8, 8, 255, 16, 16, 16, 255, 240, 0, 0, 255]
                (4 * (y * 2 + x) + k)) := by
  refine ⟨?_, populosityExample_first, ?_⟩
  · obtain ⟨_, hb, _⟩ := populosityCleared_spec img hwf
    obtain ⟨ch, hlen, hnd, hrange, htop, hord⟩ := populosityTop256_spec img
      (populosityCleared img) (fun q => rd_lt_of_forall _ hb q) hsize
    refine ⟨ch, hlen, hnd, hrange, htop, hord, ?_⟩
    intro s t a b hst ha hb'
    exact populosity_counts_antitone
      (fun i j k => bucketCount (populosityCleared img) (img.height * img.width) i j k)
      ch hnd hrange (fun t c hc i j k hi hj hk hn => (hord t c hc i j k hi hj hk hn).1)
      s t a b hst ha hb'
  · intro x y hx hy
    have hwfE : (TargaImage.mk 2 2
        [8, 8, 8, 255, 8, 8, 8, 255, 16, 16, 16, 255, 240, 1, 1, 255]).WF := by decide
    obtain ⟨⟨c, hc, e0, e1, e2⟩, _⟩ := Quant_Populosity_in_palette pow hpow _ hwfE (by decide)
      x y hx hy
    obtain ⟨f0, f1, f2, _⟩ := Quant_Populosity_exact pow hpow hsep _ hwfE (by decide)
      [(1, 1, 1), (2, 2, 2), (30, 0, 0)] (by decide)
      (by
        intro x y hx hy
        have hx' : x < 2 := hx
        have hy' : y < 2 := hy
        interval_cases x <;> interval_cases y <;> decide)
      x y hx hy
    refine ⟨c, hc, ?_⟩
    intro k hk
    rw [e0] at f0
    rw [e1] at f1
    rw [e2] at f2
    interval_cases k
    · refine ⟨e0, ?_⟩
      show c.r = _
      rw [f0]
      interval_cases x <;> interval_cases y <;> decide
    · refine ⟨e1, ?_⟩
      show c.g = _
      rw [f1]
      interval_cases x <;> interval_cases y <;> decide
    · refine ⟨e2, ?_⟩
      show c.b = _
      rw [f2]
      interval_cases x <;> interval_cases y <;> decide

set_option maxRecDepth 100000 in
/-- Witness for C27, with the sample model of `pow`: the first entry of the
palette of the example, and the pixel `(240, 1, 1)` of the example. -/
theorem Quant_Populosity_selection_witness :
    ((populosityPalette
        ⟨2, 2, [8, 8, 8, 255, 8, 8, 8, 255, 16, 16, 16, 255, 240, 1, 1, 255]⟩)[0]?).map
      (fun c => (c.r, c.g, c.b, c.count)) = some (8, 8, 8, 2) ∧
    (Quant_Populosity powModel
      ⟨2, 2, [8, 8, 8, 255, 8, 8, 8, 255, 16, 16, 16, 255, 240, 1, 1, 255]⟩).2.chan 1 1 0
      = 240 := by
  have h := Quant_Populosity_selection powModel powModel_bounded powModel_separates
    ⟨1, 1, [1, 1, 1, 255]⟩ (by decide) (by decide)
  obtain ⟨c, _, hc⟩ := h.2.2 1 1 (by decide) (by decide)
  exact ⟨h.2.1, ((hc 0 (by decide)).1.trans (hc 0 (by decide)).2).trans (by decide)⟩

end TargaImage

/-! ## Error diffusion: the neighbour stores -/

theorem wrI_length (D : List Nat) (i : Int) (v : Nat) : (wrI D i v).length = D.length := by
  unfold wrI
  split_ifs
  · rfl
  · exact wr_length _ _ _

theorem wrI_bytes (D : List Nat) (i : Int) (v : Nat) (h : ∀ b ∈ D, b < 256) :
    ∀ b ∈ wrI D i v, b < 256 := by
  unfold wrI
  split_ifs
  · exact h
  · exact wr_bytes _ _ _ h

theorem rd_wrI (D : List Nat) (i : Int) (v k : Nat) :
    rd (wrI D i v) k = if i = (k : Int) ∧ k < D.length then v % 256 else rd D k := by
  unfold wrI
  by_cases h : i < 0
  · rw [if_pos h, if_neg (by omega)]
  · rw [if_neg h, rd_wr]
    by_cases hc : i.toNat = k ∧ i.toNat < D.length
    · rw [if_pos hc, if_pos (by omega)]
    · rw [if_neg hc, if_neg (by omega)]

/-- A row-major pixel index that equals `ny * w + nx` for a column `nx` inside
the raster has the coordinates `(nx, ny)`. -/
theorem nb_pix (w q : Nat) (nx ny : Int) (h0 : 0 ≤ nx) (h1 : nx < w)
    (hq : (q : Int) = ny * w + nx) : ((q % w : Nat) : Int) = nx ∧ ((q / w : Nat) : Int) = ny := by
  have h2 : 0 ≤ ny := by
    by_contra hneg
    have h3 : ny ≤ -1 := by omega
    have h4 : ny * (w : Int) ≤ -1 * (w : Int) :=
      mul_le_mul_of_nonneg_right h3 (Int.natCast_nonneg w)
    have h5 : (0 : Int) ≤ q := Int.natCast_nonneg q
    omega
  lift nx to ℕ using h0
  lift ny to ℕ using h2
  have h1' : nx < w := by exact_mod_cast h1
  have hq' : q = ny * w + nx := by exact_mod_cast hq
  have hW : 0 < w := by omega
  subst hq'
  constructor
  · rw [Nat.add_comm, Nat.add_mul_mod_self_right, Nat.mod_eq_of_lt h1']
  · rw [Nat.add_comm, Nat.add_mul_div_right _ _ hW, Nat.div_eq_of_lt h1', Nat.zero_add]

/-- The pixel index of the coordinates of a pixel. -/
theorem pix_split (w q : Nat) : ((q / w : Nat) : Int) * w + ((q % w : Nat) : Int) = q := by
  have := Nat.div_add_mod' q w
  exact_mod_cast this

namespace TargaImage

theorem Boundry_Check_iff (img : TargaImage) (x y : Int) :
    Boundry_Check img x y = true ↔ 0 ≤ x ∧ x < img.width ∧ 0 ≤ y ∧ y < img.height := by
  unfold Boundry_Check
  by_cases h1 : x < 0 ∨ x ≥ img.width <;> by_cases h2 : y < 0 ∨ y ≥ img.height <;>
    simp only [h1, h2, if_true, if_false] <;> simp <;> omega

theorem Get_RGBA_int_eq (img : TargaImage) (x y : Int) :
    img.Get_RGBA_int x y = 4 * (y * img.width + x) := by
  unfold Get_RGBA_int; ring

/-- Every store of `Dither_Color` into a neighbour is a store of some byte. -/
theorem colorStore_eq (data : List Nat) (o : Int) (v : Frac) :
    ∃ b, colorStore data o v = wrI data o b := by
  unfold colorStore
  split_ifs
  · exact ⟨_, rfl⟩
  · exact ⟨_, rfl⟩
  · exact ⟨_, rfl⟩

/-- Every store of `Dither_FS` into a neighbour is a store of some byte. -/
theorem fsStore_eq (data : List Nat) (o : Int) (v : Frac) :
    ∃ b, fsStore data o v = wrI data o b := by
  unfold fsStore
  split_ifs
  · exact ⟨_, rfl⟩
  · exact ⟨_, rfl⟩
  · exact ⟨_, rfl⟩

/-- Three stores into the cells of the pixel `(nx, ny)` leave every other
cell, and the alpha cell of that pixel, as they were. -/
theorem store3_frame (img : TargaImage) (nx ny : Int) (D : List Nat) (b0 b1 b2 : Nat) :
    (wrI (wrI (wrI D (img.Get_RGBA_int nx ny + RED) b0) (img.Get_RGBA_int nx ny + GREEN) b1)
      (img.Get_RGBA_int nx ny + BLUE) b2).length = D.length ∧
    ((∀ b ∈ D, b < 256) → ∀ b ∈ wrI (wrI (wrI D (img.Get_RGBA_int nx ny + RED) b0)
      (img.Get_RGBA_int nx ny + GREEN) b1) (img.Get_RGBA_int nx ny + BLUE) b2, b < 256) ∧
    ∀ k, ¬ (((k / 4 : Nat) : Int) = ny * img.width + nx ∧ k % 4 < 3) →
      rd (wrI (wrI (wrI D (img.Get_RGBA_int nx ny + RED) b0) (img.Get_RGBA_int nx ny + GREEN) b1)
        (img.Get_RGBA_int nx ny + BLUE) b2) k = rd D k := by
  refine ⟨by rw [wrI_length, wrI_length, wrI_length],
    fun h => wrI_bytes _ _ _ (wrI_bytes _ _ _ (wrI_bytes _ _ _ h)), ?_⟩
  intro k hk
  rw [rd_wrI, rd_wrI, rd_wrI, Get_RGBA_int_eq]
  simp only [RED, GREEN, BLUE]
  have e : ((k / 4 : Nat) : Int) = (k : Int) / 4 := by push_cast; rfl
  rw [e] at hk
  generalize ny * (img.width : Int) + nx = q at hk ⊢
  rw [if_neg (by push_cast; omega), if_neg (by push_cast; omega), if_neg (by push_cast; omega)]

/-- One round of the spreading of `Dither_Color` changes at most the three
colour cells of the neighbour it addresses. -/
theorem colorSpread_frame (img : TargaImage) (dirs : List (Int × Int)) (x y : Nat)
    (err : Nat × Nat × Nat) (dir : Nat) (D : List Nat) :
    (colorSpread img dirs x y err dir D).length = D.length ∧
    ((∀ b ∈ D, b < 256) → ∀ b ∈ colorSpread img dirs x y err dir D, b < 256) ∧
    ∀ k, ¬ (((k / 4 : Nat) : Int) = ((y : Int) + (dirs.getD dir (0, 0)).2) * img.width
          + ((x : Int) + (dirs.getD dir (0, 0)).1) ∧ k % 4 < 3 ∧
        0 ≤ (x : Int) + (dirs.getD dir (0, 0)).1 ∧
        (x : Int) + (dirs.getD dir (0, 0)).1 < img.width) →
      rd (colorSpread img dirs x y err dir D) k = rd D k := by
  unfold colorSpread
  simp only []
  by_cases hB : Boundry_Check img ((x : Int) + (dirs.getD dir (0, 0)).1)
      ((y : Int) + (dirs.getD dir (0, 0)).2) = true
  · rw [if_pos hB]
    rw [Boundry_Check_iff] at hB
    obtain ⟨b0, e0⟩ := colorStore_eq D (img.Get_RGBA_int ((x : Int) + (dirs.getD dir (0, 0)).1)
      ((y : Int) + (dirs.getD dir (0, 0)).2) + RED)
      (fadd (Frac.ofNat (rdInt D (img.Get_RGBA_int ((x : Int) + (dirs.getD dir (0, 0)).1)
        ((y : Int) + (dirs.getD dir (0, 0)).2) + RED)))
        (fdiv (Frac.ofNat (err.1 * (dir * 2 + 1))) (Frac.ofNat 16)))
    rw [e0]
    obtain ⟨b1, e1⟩ := colorStore_eq (wrI D (img.Get_RGBA_int ((x : Int) + (dirs.getD dir (0, 0)).1)
      ((y : Int) + (dirs.getD dir (0, 0)).2) + RED) b0)
      (img.Get_RGBA_int ((x : Int) + (dirs.getD dir (0, 0)).1)
      ((y : Int) + (dirs.getD dir (0, 0)).2) + GREEN)
      (fadd (Frac.ofNat (rdInt (wrI D (img.Get_RGBA_int ((x : Int) + (dirs.getD dir (0, 0)).1)
        ((y : Int) + (dirs.getD dir (0, 0)).2) + RED) b0)
        (img.Get_RGBA_int ((x : Int) + (dirs.getD dir (0, 0)).1)
        ((y : Int) + (dirs.getD dir (0, 0)).2) + GREEN)))
        (fdiv (Frac.ofNat (err.2.1 * (dir * 2 + 1))) (Frac.ofNat 16)))
    rw [e1]
    obtain ⟨b2, e2⟩ := colorStore_eq (wrI (wrI D
      (img.Get_RGBA_int ((x : Int) + (dirs.getD dir (0, 0)).1)
      ((y : Int) + (dirs.getD dir (0, 0)).2) + RED) b0)
      (img.Get_RGBA_int ((x : Int) + (dirs.getD dir (0, 0)).1)
      ((y : Int) + (dirs.getD dir (0, 0)).2) + GREEN) b1)
      (img.Get_RGBA_int ((x : Int) + (dirs.getD dir (0, 0)).1)
      ((y : Int) + (dirs.getD dir (0, 0)).2) + BLUE)
      (fadd (Frac.ofNat (rdInt (wrI (wrI D
        (img.Get_RGBA_int ((x : Int) + (dirs.getD dir (0, 0)).1)
        ((y : Int) + (dirs.getD dir (0, 0)).2) + RED) b0)
        (img.Get_RGBA_int ((x : Int) + (dirs.getD dir (0, 0)).1)
        ((y : Int) + (dirs.getD dir (0, 0)).2) + GREEN) b1)
        (img.Get_RGBA_int ((x : Int) + (dirs.getD dir (0, 0)).1)
        ((y : Int) + (dirs.getD dir (0, 0)).2) + BLUE)))
        (fdiv (Frac.ofNat (err.2.2 * (dir * 2 + 1))) (Frac.ofNat 16)))
    rw [e2]
    obtain ⟨k1, k2, k3⟩ := store3_frame img ((x : Int) + (dirs.getD dir (0, 0)).1)
      ((y : Int) + (dirs.getD dir (0, 0)).2) D b0 b1 b2
    refine ⟨k1, k2, ?_⟩
    intro k hk
    exact k3 k (fun hc => hk ⟨hc.1, hc.2, hB.1, hB.2.1⟩)
  · rw [if_neg hB]
    exact ⟨rfl, fun h => h, fun _ _ => rfl⟩

/-- The four rounds of the spreading of `Dither_Color` change at most the
colour cells of the four neighbours. -/
theorem colorSpread4_frame (img : TargaImage) (dirs : List (Int × Int)) (x y : Nat)
    (err : Nat × Nat × Nat) (D : List Nat) :
    (forLoop 4 (fun dir data => colorSpread img dirs x y err dir data) D).length = D.length ∧
    ((∀ b ∈ D, b < 256) →
      ∀ b ∈ forLoop 4 (fun dir data => colorSpread img dirs x y err dir data) D, b < 256) ∧
    ∀ k, (∀ i, i < 4 → ¬ (((k / 4 : Nat) : Int) = ((y : Int) + (dirs.getD i (0, 0)).2) * img.width
          + ((x : Int) + (dirs.getD i (0, 0)).1) ∧ k % 4 < 3 ∧
        0 ≤ (x : Int) + (dirs.getD i (0, 0)).1 ∧
        (x : Int) + (dirs.getD i (0, 0)).1 < img.width)) →
      rd (forLoop 4 (fun dir data => colorSpread img dirs x y err dir data) D) k = rd D k := by
  apply forLoop_inv (fun t : List Nat => t.length = D.length ∧
    ((∀ b ∈ D, b < 256) → ∀ b ∈ t, b < 256) ∧
    ∀ k, (∀ i, i < 4 → ¬ (((k / 4 : Nat) : Int) = ((y : Int) + (dirs.getD i (0, 0)).2) * img.width
          + ((x : Int) + (dirs.getD i (0, 0)).1) ∧ k % 4 < 3 ∧
        0 ≤ (x : Int) + (dirs.getD i (0, 0)).1 ∧
        (x : Int) + (dirs.getD i (0, 0)).1 < img.width)) → rd t k = rd D k)
  · intro i t hi ⟨h1, h2, h3⟩
    obtain ⟨f1, f2, f3⟩ := colorSpread_frame img dirs x y err i t
    refine ⟨by rw [f1, h1], fun hb => f2 (h2 hb), ?_⟩
    intro k hk
    rw [f3 k (hk i hi), h3 k hk]
  · exact ⟨rfl, fun h => h, fun _ _ => rfl⟩

/-- One pixel step of `Dither_Color`: the pixel visited lands on the palette
of `Quant_Uniform`, no alpha cell changes, and the only other cells that can
change are the colour cells of the four neighbours the error is spread to. -/
theorem ditherColorPixel_step (img : TargaImage) (dirs : List (Int × Int)) (x y : Nat)
    (hx : x < img.width) (hy : y < img.height) (D : List Nat)
    (hlen : D.length = img.width * img.height * 4) (hb : ∀ b ∈ D, b < 256)
    (hdirs : ∀ i, i < 4 → dirs.getD i (0, 0) ≠ (0, 0)) :
    (ditherColorPixel img dirs x y D).length = D.length ∧
    (∀ b ∈ ditherColorPixel img dirs x y D, b < 256) ∧
    rd (ditherColorPixel img dirs x y D) (img.Get_RGBA x y + 0) % 32 = 0 ∧
    rd (ditherColorPixel img dirs x y D) (img.Get_RGBA x y + 1) % 32 = 0 ∧
    rd (ditherColorPixel img dirs x y D) (img.Get_RGBA x y + 2) % 64 = 0 ∧
    (∀ px py, px < img.width →
      rd (ditherColorPixel img dirs x y D) (img.Get_RGBA px py + 3)
        = rd D (img.Get_RGBA px py + 3)) ∧
    (∀ px py c, px < img.width → c < 4 → ¬ (px = x ∧ py = y) →
      (∀ i, i < 4 → ¬ ((px : Int) = (x : Int) + (dirs.getD i (0, 0)).1 ∧
        (py : Int) = (y : Int) + (dirs.getD i (0, 0)).2)) →
      rd (ditherColorPixel img dirs x y D) (img.Get_RGBA px py + c)
        = rd D (img.Get_RGBA px py + c)) := by
  have hlt := pix_lt img.width img.height x y hx hy
  have hD : img.Get_RGBA x y + 3 < D.length := by
    rw [Get_RGBA_eq, hlen]
    have : img.width * img.height = img.height * img.width := Nat.mul_comm _ _
    omega
  obtain ⟨q1, q2, q3⟩ := quantUniformPixel_spec img x y D hD
  have qb : ∀ b ∈ quantUniformPixel img x y D, b < 256 := by
    unfold quantUniformPixel
    exact wr_bytes _ _ _ (wr_bytes _ _ _ (wr_bytes _ _ _ (wr_bytes _ _ _
      (wr_bytes _ _ _ (wr_bytes _ _ _ hb)))))
  unfold ditherColorPixel
  simp only []
  generalize ((((rd (quantUniformPixel img x y D) (img.Get_RGBA x y + RED) : Nat) : Int)
      - ((rd D (img.Get_RGBA x y + RED) : Nat) : Int)).natAbs % 256,
    (((rd (quantUniformPixel img x y D) (img.Get_RGBA x y + GREEN) : Nat) : Int)
      - ((rd D (img.Get_RGBA x y + GREEN) : Nat) : Int)).natAbs % 256,
    (((rd (quantUniformPixel img x y D) (img.Get_RGBA x y + BLUE) : Nat) : Int)
      - ((rd D (img.Get_RGBA x y + BLUE) : Nat) : Int)).natAbs % 256) = err
  obtain ⟨s1, s2, s3⟩ := colorSpread4_frame img dirs x y err (quantUniformPixel img x y D)
  -- a cell of a pixel that is no neighbour is not touched by the spreading
  have hcell : ∀ (px py c : Nat), px < img.width → c < 4 →
      (c < 3 → ∀ i, i < 4 → ¬ ((px : Int) = (x : Int) + (dirs.getD i (0, 0)).1 ∧
        (py : Int) = (y : Int) + (dirs.getD i (0, 0)).2)) →
      rd (forLoop 4 (fun dir data => colorSpread img dirs x y err dir data)
          (quantUniformPixel img x y D)) (img.Get_RGBA px py + c)
        = rd (quantUniformPixel img x y D) (img.Get_RGBA px py + c) := by
    intro px py c hpx hc hc4
    apply s3
    intro i hi hcond
    obtain ⟨c1, c2, c3, c4⟩ := hcond
    have e4 : (img.Get_RGBA px py + c) / 4 = py * img.width + px := by
      rw [Get_RGBA_eq]; omega
    have e5 : (img.Get_RGBA px py + c) % 4 = c := by
      rw [Get_RGBA_eq]; omega
    rw [e4] at c1
    rw [e5] at c2
    obtain ⟨n1, n2⟩ := nb_pix img.width (py * img.width + px) _ _ c3 c4 c1
    have hW : 0 < img.width := by omega
    have m1 : (py * img.width + px) % img.width = px := by
      rw [Nat.add_comm, Nat.add_mul_mod_self_right, Nat.mod_eq_of_lt hpx]
    have m2 : (py * img.width + px) / img.width = py := by
      rw [Nat.add_comm, Nat.add_mul_div_right _ _ hW, Nat.div_eq_of_lt hpx, Nat.zero_add]
    rw [m1] at n1
    rw [m2] at n2
    exact hc4 c2 i hi ⟨n1, n2⟩
  have hself : ∀ i, i < 4 → ¬ ((x : Int) = (x : Int) + (dirs.getD i (0, 0)).1 ∧
      (y : Int) = (y : Int) + (dirs.getD i (0, 0)).2) := by
    intro i hi hc
    apply hdirs i hi
    have h1 : (dirs.getD i (0, 0)).1 = 0 := by omega
    have h2 : (dirs.getD i (0, 0)).2 = 0 := by omega
    exact Prod.ext h1 h2
  have hbyte : ∀ k, rd D k < 256 := fun k => rd_lt_of_forall _ hb k
  refine ⟨by rw [s1, q1], s2 qb, ?_, ?_, ?_, ?_, ?_⟩
  · rw [hcell x y 0 hx (by decide) (fun _ => hself), q3 0 (by decide)]
    simp only [if_true]
    rw [shift_clear _ 5 (hbyte _)]
    have := hbyte (img.Get_RGBA x y)
    omega
  · rw [hcell x y 1 hx (by decide) (fun _ => hself), q3 1 (by decide)]
    simp only [if_true, Nat.one_ne_zero, if_false]
    rw [shift_clear _ 5 (hbyte _)]
    have := hbyte (img.Get_RGBA x y + 1)
    omega
  · rw [hcell x y 2 hx (by decide) (fun _ => hself), q3 2 (by decide)]
    simp only [if_true, if_false, OfNat.ofNat_ne_zero, OfNat.ofNat_ne_one]
    rw [shift_clear _ 6 (hbyte _)]
    have := hbyte (img.Get_RGBA x y + 2)
    omega
  · intro px py hpx
    rw [hcell px py 3 hpx (by decide) (fun h => absurd h (by decide))]
    by_cases hp : py * img.width + px = y * img.width + x
    · obtain ⟨e1, e2⟩ := pix_inj img.width px py x y hpx hx hp
      subst e1; subst e2
      rw [q3 3 (by decide)]
      simp
    · apply q2
      rw [Get_RGBA_eq]
      omega
  · intro px py c hpx hc hne hnb
    rw [hcell px py c hpx hc (fun _ => hnb)]
    apply q2
    rw [Get_RGBA_eq]
    intro hp
    have hp' : py * img.width + px = y * img.width + x := by omega
    obtain ⟨e1, e2⟩ := pix_inj img.width px py x y hpx hx hp'
    exact hne ⟨e1, e2⟩

end TargaImage

/-! ## `Dither_Color` stays on the palette of `Quant_Uniform` -/

namespace TargaImage

theorem ditherColorInv_mono (img : TargaImage) (V V1 : Nat → Nat → Prop) (D : List Nat)
    (h : ∀ px py, px < img.width → py < img.height → V1 px py → V px py)
    (hI : img.ditherColorInv V D) : img.ditherColorInv V1 D :=
  ⟨hI.1, hI.2.1, hI.2.2.1, fun px py hpx hpy hv => hI.2.2.2 px py hpx hpy (h px py hpx hpy hv)⟩

/-- One pixel step of `Dither_Color` keeps the invariant and adds the pixel
visited to the set of pixels on the palette, as long as no pixel of the set is
one of the four neighbours the error is spread to. -/
theorem ditherColorInv_step (img : TargaImage) (dirs : List (Int × Int))
    (hdirs : ∀ i, i < 4 → dirs.getD i (0, 0) ≠ (0, 0)) (x y : Nat)
    (hx : x < img.width) (hy : y < img.height) (V : Nat → Nat → Prop) (D : List Nat)
    (hI : img.ditherColorInv V D)
    (hV : ∀ (px py : Nat), V px py → ∀ i, i < 4 →
      ¬ ((px : Int) = (x : Int) + (dirs.getD i (0, 0)).1 ∧
        (py : Int) = (y : Int) + (dirs.getD i (0, 0)).2)) :
    img.ditherColorInv (fun px py => V px py ∨ (px = x ∧ py = y))
      (ditherColorPixel img dirs x y D) := by
  obtain ⟨hlen, hb, ha, hp⟩ := hI
  obtain ⟨s1, s2, s3, s4, s5, s6, s7⟩ := ditherColorPixel_step img dirs x y hx hy D hlen hb hdirs
  refine ⟨by rw [s1, hlen], s2, ?_, ?_⟩
  · intro px py hpx hpy
    rw [s6 px py hpx, ha px py hpx hpy]
  · intro px py hpx hpy hv
    by_cases hself : px = x ∧ py = y
    · obtain ⟨e1, e2⟩ := hself
      subst e1; subst e2
      exact ⟨s3, s4, s5⟩
    · have hv' : V px py := by
        rcases hv with h | h
        · exact h
        · exact absurd h hself
      obtain ⟨p0, p1, p2⟩ := hp px py hpx hpy hv'
      have hn := hV px py hv'
      unfold onUniformPalette
      rw [s7 px py 0 hpx (by decide) hself hn, s7 px py 1 hpx (by decide) hself hn,
        s7 px py 2 hpx (by decide) hself hn]
      exact ⟨p0, p1, p2⟩

theorem FS_Dir_even_ne (i : Nat) (hi : i < 4) : FS_Dir_even.getD i (0, 0) ≠ (0, 0) := by
  interval_cases i <;> decide

theorem FS_Dir_odd_ne (i : Nat) (hi : i < 4) : FS_Dir_odd.getD i (0, 0) ≠ (0, 0) := by
  interval_cases i <;> decide

/-- The neighbours of a pixel of an even row lie in the next row or further
right in the same row. -/
theorem FS_Dir_even_ahead (x y px py i : Nat) (hi : i < 4)
    (h : (px : Int) = (x : Int) + (FS_Dir_even.getD i (0, 0)).1 ∧
      (py : Int) = (y : Int) + (FS_Dir_even.getD i (0, 0)).2) :
    py = y + 1 ∨ (py = y ∧ px = x + 1) := by
  interval_cases i <;> simp [FS_Dir_even] at h <;> omega

/-- The neighbours of a pixel of an odd row lie in the next row or further
left in the same row. -/
theorem FS_Dir_odd_ahead (x y px py i : Nat) (hi : i < 4)
    (h : (px : Int) = (x : Int) + (FS_Dir_odd.getD i (0, 0)).1 ∧
      (py : Int) = (y : Int) + (FS_Dir_odd.getD i (0, 0)).2) :
    py = y + 1 ∨ (py = y ∧ px + 1 = x) := by
  interval_cases i <;> simp [FS_Dir_odd] at h <;> omega

/-- One row of `Dither_Color` puts the pixels of the row on the palette and
keeps the rows above on it. -/
theorem ditherColorInv_row (img : TargaImage) (y : Nat) (hy : y < img.height) (D : List Nat)
    (hI : img.ditherColorInv (fun _ py => py < y) D) :
    img.ditherColorInv (fun _ py => py < y + 1) (ditherColorRow img y D) := by
  unfold ditherColorRow
  by_cases hpar : y % 2 = 0
  · rw [if_pos hpar]
    have key := forLoop_inv_idx
      (fun x E => img.ditherColorInv (fun px py => py < y ∨ (py = y ∧ px < x)) E)
      img.width (fun x data => ditherColorPixel img FS_Dir_even x y data) D
      (by
        intro x E hx hE
        have := ditherColorInv_step img FS_Dir_even FS_Dir_even_ne x y hx hy _ E hE
          (by
            intro px py hv i hi hc
            have := FS_Dir_even_ahead x y px py i hi hc
            omega)
        exact ditherColorInv_mono img _ _ _ (by intro px py _ _ h; omega) this)
      (ditherColorInv_mono img _ _ _ (by intro px py _ _ h; omega) hI)
    exact ditherColorInv_mono img _ _ _ (by intro px py hpx _ h; omega) key
  · rw [if_neg hpar]
    have key := forLoop_inv_idx
      (fun k E => img.ditherColorInv (fun px py => py < y ∨ (py = y ∧ img.width ≤ px + k)) E)
      img.width (fun k data => ditherColorPixel img FS_Dir_odd (img.width - 1 - k) y data) D
      (by
        intro k E hk hE
        have := ditherColorInv_step img FS_Dir_odd FS_Dir_odd_ne (img.width - 1 - k) y
          (by omega) hy _ E hE
          (by
            intro px py hv i hi hc
            have := FS_Dir_odd_ahead (img.width - 1 - k) y px py i hi hc
            omega)
        exact ditherColorInv_mono img _ _ _ (by intro px py _ _ h; omega) this)
      (ditherColorInv_mono img _ _ _ (by intro px py hpx _ h; omega) hI)
    exact ditherColorInv_mono img _ _ _ (by intro px py hpx _ h; omega) key

/-- After `Dither_Color` every pixel is on the palette of `Quant_Uniform`, and
the buffer keeps its size, its bytes and its alpha cells. -/
theorem Dither_Color_inv (img : TargaImage) (hwf : img.WF) :
    img.ditherColorInv (fun _ py => py < img.height) (Dither_Color img).2.data := by
  show img.ditherColorInv _ (forLoop img.height (fun y data => ditherColorRow img y data) img.data)
  exact forLoop_inv_idx (fun y E => img.ditherColorInv (fun _ py => py < y) E) img.height
    (fun y data => ditherColorRow img y data) img.data
    (fun y E hy hE => ditherColorInv_row img y hy E hE)
    ⟨hwf.1, hwf.2, fun _ _ _ _ => rfl, fun _ py _ _ h => absurd h (Nat.not_lt_zero py)⟩

/-- C22. For every well-formed image, after `Dither_Color` every pixel has R
and G multiples of 32 and B a multiple of 64, its alpha is unchanged, and
applying `Quant_Uniform` to the result changes nothing. -/
theorem Dither_Color_on_palette (img : TargaImage) (hwf : img.WF) :
    (∀ x y, x < img.width → y < img.height →
      (Dither_Color img).2.chan x y 0 % 32 = 0 ∧ (Dither_Color img).2.chan x y 1 % 32 = 0 ∧
      (Dither_Color img).2.chan x y 2 % 64 = 0 ∧
      (Dither_Color img).2.chan x y 3 = img.chan x y 3) ∧
    (Quant_Uniform (Dither_Color img).2).2 = (Dither_Color img).2 := by
  obtain ⟨hlen, hb, ha, hp⟩ := Dither_Color_inv img hwf
  have hwf1 : (Dither_Color img).2.WF := ⟨hlen, hb⟩
  have hpix : ∀ x y, x < img.width → y < img.height →
      (Dither_Color img).2.chan x y 0 % 32 = 0 ∧ (Dither_Color img).2.chan x y 1 % 32 = 0 ∧
      (Dither_Color img).2.chan x y 2 % 64 = 0 ∧
      (Dither_Color img).2.chan x y 3 = img.chan x y 3 := by
    intro x y hx hy
    obtain ⟨p0, p1, p2⟩ := hp x y hx hy hy
    exact ⟨p0, p1, p2, ha x y hx hy⟩
  refine ⟨hpix, ?_⟩
  have hwf2 := Quant_Uniform_WF _ hwf1
  refine mk_eq_of_data _ _ rfl rfl ?_
  apply data_ext img _ _ hwf2.1 hwf1.1
  intro x y c hx hy hc
  obtain ⟨_, _, a0, a1, a2, a3⟩ := Quant_Uniform_pixel (Dither_Color img).2 hwf1 x y hx hy
  obtain ⟨p0, p1, p2, _⟩ := hpix x y hx hy
  have e : ∀ c, rd (Quant_Uniform (Dither_Color img).2).2.data (img.Get_RGBA x y + c)
      = (Quant_Uniform (Dither_Color img).2).2.chan x y c := fun _ => rfl
  have e' : ∀ c, rd (Dither_Color img).2.data (img.Get_RGBA x y + c)
      = (Dither_Color img).2.chan x y c := fun _ => rfl
  rw [e, e']
  interval_cases c
  · rw [a0, p0]; rfl
  · rw [a1, p1]; rfl
  · rw [a2, p2]; rfl
  · exact a3

set_option maxRecDepth 100000 in
/-- Witness for C22: the 2x1 image `(255, 100, 200, 77)`, `(31, 32, 63, 0)`. -/
theorem Dither_Color_on_palette_witness :
    (Dither_Color ⟨2, 1, [255, 100, 200, 77, 31, 32, 63, 0]⟩).2.chan 1 0 0 % 32 = 0 ∧
    (Dither_Color ⟨2, 1, [255, 100, 200, 77, 31, 32, 63, 0]⟩).2.chan 1 0 3 = 0 :=
  ⟨((Dither_Color_on_palette ⟨2, 1, [255, 100, 200, 77, 31, 32, 63, 0]⟩ (by decide)).1 1 0
      (by decide) (by decide)).1,
    ((Dither_Color_on_palette ⟨2, 1, [255, 100, 200, 77, 31, 32, 63, 0]⟩ (by decide)).1 1 0
      (by decide) (by decide)).2.2.2.trans (by decide)⟩

end TargaImage

/-! ## Floyd-Steinberg dithering: the arithmetic is exact -/

/-- A multiple of `2 ^ -m` with `m ≤ 16` whose numerator is below `2 ^ 24` in
magnitude is a `double`: rounding keeps it. -/
theorem fl64_dyadic (x : Frac) (hd : 0 < x.den) (k : Int) (m : Nat) (hm : m ≤ 16)
    (hk : |k| < 16777216) (h : x.toRat = (k : ℚ) / 2 ^ m) : (fl64 x).toRat = (k : ℚ) / 2 ^ m := by
  have hq : (x.den : ℚ) ≠ 0 := by exact_mod_cast (Nat.pos_iff_ne_zero.1 hd)
  have h2m : (0 : ℚ) < 2 ^ m := by positivity
  by_cases hk0 : k = 0
  · subst hk0
    have hnum : x.num = 0 := by
      unfold Frac.toRat at h
      rw [Int.cast_zero, zero_div, div_eq_zero_iff] at h
      rcases h with h | h
      · exact_mod_cast h
      · exact absurd h hq
    unfold fl64 roundFrac
    rw [if_pos hnum]
    simp [Frac.toRat]
  · have hk1 : (1 : ℚ) ≤ |(k : ℚ)| := by
      have : (1 : Int) ≤ |k| := Int.one_le_abs hk0
      exact_mod_cast this
    have hk2 : |(k : ℚ)| < 16777216 := by exact_mod_cast hk
    have habs : |x.toRat| = |(k : ℚ)| / 2 ^ m := by
      rw [h, abs_div, abs_of_pos h2m]
    have hnum : x.num ≠ 0 := by
      intro h0
      have : x.toRat = 0 := by unfold Frac.toRat; rw [h0]; simp
      rw [this, abs_zero] at habs
      have : (0 : ℚ) < |(k : ℚ)| / 2 ^ m := by positivity
      linarith
    obtain ⟨L, hL1, hL2⟩ := exists_binade x hd hnum
    have h2m16 : (2 : ℚ) ^ m ≤ 2 ^ 16 := pow_le_pow_right₀ (by norm_num) hm
    have hLlo : -17 ≤ L := by
      have h1 : (2 : ℚ) ^ (-16 : ℤ) < (2 : ℚ) ^ (L + 1) := by
        refine lt_of_le_of_lt ?_ hL2
        rw [habs, le_div_iff₀ h2m]
        have : (2 : ℚ) ^ (-16 : ℤ) * 2 ^ 16 = 1 := by norm_num
        nlinarith [zpow_pos (by norm_num : (0 : ℚ) < 2) (-16 : ℤ)]
      have := (zpow_lt_zpow_iff_right₀ (by norm_num : (1 : ℚ) < 2)).1 h1
      omega
    have hLhi : L ≤ 23 := by
      have h1 : (2 : ℚ) ^ L < (2 : ℚ) ^ (24 : ℤ) := by
        refine lt_of_le_of_lt hL1 ?_
        rw [habs, div_lt_iff₀ h2m]
        have h3 : (1 : ℚ) ≤ 2 ^ m := one_le_pow₀ (by norm_num)
        have : (2 : ℚ) ^ (24 : ℤ) = 16777216 := by norm_num
        rw [this]
        nlinarith
      have := (zpow_lt_zpow_iff_right₀ (by norm_num : (1 : ℚ) < 2)).1 h1
      omega
    obtain ⟨t, ht⟩ : ∃ t : ℕ, (t : ℤ) = 52 - L - m := ⟨(52 - L - m).toNat, by omega⟩
    apply roundFrac_near 53 (-1074) x hd ((k : ℚ) / 2 ^ m) L (k * 2 ^ t) hL1 hL2
      (by push_cast; omega)
    · have e : L - (((53 : ℕ) : ℤ) - 1) = -((t : ℤ) + m) := by push_cast; omega
      rw [e, zpow_neg, zpow_add₀ (by norm_num), zpow_natCast, zpow_natCast]
      push_cast
      field_simp
      ring
    · rw [h, sub_self, abs_zero]
      positivity

/-- The truncation and clamping of `N / 16` in terms of integer division. -/
theorem tdiv_clamp (N : Int) :
    (4080 < N → (max 0 (min 255 (Int.tdiv N 16))).toNat = 255) ∧
    (N < 0 → (max 0 (min 255 (Int.tdiv N 16))).toNat = 0) ∧
    (0 ≤ N → N ≤ 4080 → (max 0 (min 255 (Int.tdiv N 16))).toNat = N.toNat / 16) := by
  refine ⟨?_, ?_, ?_⟩
  · intro h
    have : Int.tdiv N 16 = N / 16 := Int.tdiv_eq_ediv (by omega) (by decide)
    rw [this]
    omega
  · intro h
    have h1 : Int.tdiv (-N) 16 = (-N) / 16 := Int.tdiv_eq_ediv (by omega) (by decide)
    have h2 : Int.tdiv (-N) 16 = -(Int.tdiv N 16) := Int.neg_tdiv _ _
    have : Int.tdiv N 16 = -((-N) / 16) := by omega
    rw [this]
    omega
  · intro h0 h1
    have : Int.tdiv N 16 = N / 16 := Int.tdiv_eq_ediv h0 (by decide)
    rw [this]
    omega


namespace TargaImage

/-- The test `t / 256.0f >= 0.5` of `Dither_FS` on a byte is the test
`t >= 128`. -/
theorem fs_test (r : Nat) (hr : r < 256) :
    Frac.ge (ddiv (Frac.ofNat r) (Frac.ofNat 256)) (dlit 5 10) = true ↔ 128 ≤ r := by
  have hq : (Frac.div (Frac.ofNat r) (Frac.ofNat 256)).toRat = ((r : Int) : ℚ) / 2 ^ 8 := by
    rw [Frac.toRat_div_ofNat _ _ (by decide), Frac.toRat_ofNat]
    norm_num
  have hqd : 0 < (Frac.div (Frac.ofNat r) (Frac.ofNat 256)).den :=
    Frac.div_ofNat_den_pos _ _ Nat.one_pos (by decide)
  have hv : (ddiv (Frac.ofNat r) (Frac.ofNat 256)).toRat = ((r : Int) : ℚ) / 2 ^ 8 :=
    fl64_dyadic _ hqd r 8 (by decide) (by rw [abs_of_nonneg (Int.natCast_nonneg r)]; omega) hq
  have hd : 0 < (ddiv (Frac.ofNat r) (Frac.ofNat 256)).den := fl64_den_pos _
  unfold Frac.ge
  rw [Frac.le_iff _ _ (dlit_err 5 10 (by decide) (by decide)).1 hd, dlit_half, hv]
  norm_num
  rw [le_div_iff₀ (by norm_num)]
  constructor
  · intro h
    have : ((128 : ℕ) : ℚ) ≤ (r : ℚ) := by push_cast; linarith
    exact_mod_cast this
  · intro h
    have : ((128 : ℕ) : ℚ) ≤ (r : ℚ) := by exact_mod_cast h
    push_cast at this
    linarith

/-- The error `err` of `Dither_FS`, a `double`, is the integer `t - 255` when
the pixel turns white. -/
theorem fs_err_white (r : Nat) (hr : r < 256) :
    0 < (dsub (Frac.ofNat r) (Frac.ofNat 255)).den ∧
    (dsub (Frac.ofNat r) (Frac.ofNat 255)).toRat = (((r : Int) - 255 : Int) : ℚ) := by
  refine ⟨fl64_den_pos _, ?_⟩
  have hq : (Frac.sub (Frac.ofNat r) (Frac.ofNat 255)).toRat
      = (((r : Int) - 255 : Int) : ℚ) / 2 ^ 0 := by
    rw [Frac.toRat_sub _ _ Nat.one_pos Nat.one_pos, Frac.toRat_ofNat, Frac.toRat_ofNat]
    push_cast
    ring
  have := fl64_dyadic _ (Nat.mul_pos Nat.one_pos Nat.one_pos) ((r : Int) - 255) 0 (by decide)
    (by rw [abs_lt]; omega) hq
  rw [pow_zero, div_one] at this
  exact this

/-- The value `be_Add_D[c] + (err * (double)(now_Dir * 2 + 1) / 16.0f)` of
`Dither_FS` is computed without rounding, and the three-way store of it
writes the truncation of `old + err * wgt / 16` clamped to `[0, 255]`. -/
theorem fsStore_val (data : List Nat) (o : Int) (old : Nat) (hold : old < 256) (err : Frac)
    (e : Int) (hed : 0 < err.den) (he : err.toRat = (e : ℚ)) (heb : |e| ≤ 255)
    (wgt : Nat) (hw : wgt ≤ 7) :
    fsStore data o (dadd (Frac.ofNat old) (ddiv (dmul err (Frac.ofNat wgt)) (Frac.ofNat 16)))
      = wrI data o (fsRefAdd old e wgt) := by
  rw [abs_le] at heb
  have hewb : |e * (wgt : Int)| < 16777216 := by
    rw [abs_lt]
    constructor <;> nlinarith
  -- the product
  have hp : (Frac.mul err (Frac.ofNat wgt)).toRat = ((e * (wgt : Int) : Int) : ℚ) / 2 ^ 0 := by
    rw [Frac.toRat_mul, he, Frac.toRat_ofNat]
    push_cast
    ring
  have hP := fl64_dyadic _ (Frac.mul_den_pos _ _ hed Nat.one_pos) (e * (wgt : Int)) 0
    (by decide) hewb hp
  have hPd : 0 < (dmul err (Frac.ofNat wgt)).den := fl64_den_pos _
  have hP' : (dmul err (Frac.ofNat wgt)).toRat = ((e * (wgt : Int) : Int) : ℚ) / 2 ^ 0 := hP
  -- the quotient
  have hq : (Frac.div (dmul err (Frac.ofNat wgt)) (Frac.ofNat 16)).toRat
      = ((e * (wgt : Int) : Int) : ℚ) / 2 ^ 4 := by
    rw [Frac.toRat_div_ofNat _ _ (by decide), hP']
    norm_num
  have hQ := fl64_dyadic _ (Frac.div_ofNat_den_pos _ _ hPd (by decide)) (e * (wgt : Int)) 4
    (by decide) hewb hq
  have hQd : 0 < (ddiv (dmul err (Frac.ofNat wgt)) (Frac.ofNat 16)).den := fl64_den_pos _
  have hQ' : (ddiv (dmul err (Frac.ofNat wgt)) (Frac.ofNat 16)).toRat
      = ((e * (wgt : Int) : Int) : ℚ) / 2 ^ 4 := hQ
  -- the sum
  have hs : (Frac.add (Frac.ofNat old) (ddiv (dmul err (Frac.ofNat wgt)) (Frac.ofNat 16))).toRat
      = ((16 * (old : Int) + e * (wgt : Int) : Int) : ℚ) / 2 ^ 4 := by
    rw [Frac.toRat_add _ _ Nat.one_pos hQd, Frac.toRat_ofNat, hQ']
    push_cast
    ring
  have hNb : |16 * (old : Int) + e * (wgt : Int)| < 16777216 := by
    rw [abs_lt]
    constructor <;> nlinarith
  have hS := fl64_dyadic _ (Frac.add_den_pos _ _ Nat.one_pos hQd)
    (16 * (old : Int) + e * (wgt : Int)) 4 (by decide) hNb hs
  have hSd : 0 < (dadd (Frac.ofNat old)
      (ddiv (dmul err (Frac.ofNat wgt)) (Frac.ofNat 16))).den := fl64_den_pos _
  have hS' : (dadd (Frac.ofNat old) (ddiv (dmul err (Frac.ofNat wgt)) (Frac.ofNat 16))).toRat
      = ((16 * (old : Int) + e * (wgt : Int) : Int) : ℚ) / 2 ^ 4 := hS
  generalize dadd (Frac.ofNat old) (ddiv (dmul err (Frac.ofNat wgt)) (Frac.ofNat 16)) = S
    at hSd hS'
  unfold fsRefAdd
  generalize 16 * (old : Int) + e * (wgt : Int) = N at hS'
  obtain ⟨t1, t2, t3⟩ := tdiv_clamp N
  unfold fsStore
  have c1 : Frac.lt (Frac.ofNat 255) S = true ↔ 4080 < N := by
    rw [Frac.lt_iff _ _ Nat.one_pos hSd, Frac.toRat_ofNat, hS', lt_div_iff₀ (by norm_num)]
    have : ((255 : ℕ) : ℚ) * 2 ^ 4 = ((4080 : Int) : ℚ) := by norm_num
    rw [this]
    exact Int.cast_lt
  have c2 : Frac.lt S (Frac.ofNat 0) = true ↔ N < 0 := by
    rw [Frac.lt_iff _ _ hSd Nat.one_pos, Frac.toRat_ofNat, hS', div_lt_iff₀ (by norm_num)]
    have : ((0 : ℕ) : ℚ) * 2 ^ 4 = ((0 : Int) : ℚ) := by norm_num
    rw [this]
    exact Int.cast_lt
  by_cases h1 : 4080 < N
  · rw [if_pos (c1.2 h1), t1 h1]
  · rw [if_neg (fun h => h1 (c1.1 h))]
    by_cases h2 : N < 0
    · rw [if_pos (c2.2 h2), t2 h2]
    · rw [if_neg (fun h => h2 (c2.1 h)), t3 (by omega) (by omega)]
      have hN : N = ((N.toNat : Nat) : Int) := by omega
      have htr : Frac.trunc S = ((N.toNat / 16 : Nat) : Int) := by
        apply Frac.trunc_eq _ hSd
        · rw [hS', le_div_iff₀ (by norm_num)]
          have h3 : N.toNat / 16 * 16 ≤ N.toNat := Nat.div_mul_le_self _ _
          have h4 : ((N.toNat / 16 * 16 : Nat) : ℚ) ≤ ((N.toNat : Nat) : ℚ) := by
            exact_mod_cast h3
          have h5 : (N : ℚ) = ((N.toNat : Nat) : ℚ) := by
            have : (N : ℚ) = (((N.toNat : Nat) : Int) : ℚ) := by rw [← hN]
            rw [this]; push_cast; rfl
          rw [h5]
          push_cast at h4 ⊢
          linarith
        · rw [hS', div_lt_iff₀ (by norm_num)]
          have h3 : N.toNat < (N.toNat / 16 + 1) * 16 := by omega
          have h4 : ((N.toNat : Nat) : ℚ) < (((N.toNat / 16 + 1) * 16 : Nat) : ℚ) := by
            exact_mod_cast h3
          have h5 : (N : ℚ) = ((N.toNat : Nat) : ℚ) := by
            have : (N : ℚ) = (((N.toNat : Nat) : Int) : ℚ) := by rw [← hN]
            rw [this]; push_cast; rfl
          rw [h5]
          push_cast at h4 ⊢
          linarith
      unfold toUChar
      rw [htr]
      rfl

end TargaImage

theorem wrI_nat (D : List Nat) (n v : Nat) : wrI D (n : Int) v = wr D n v := by
  unfold wrI
  rw [if_neg (by omega)]
  rfl

theorem rd_map_range (n k : Nat) (f : Nat → Nat) (hk : k < n) :
    rd ((List.range n).map f) k = f k := by
  unfold rd
  rw [List.getD_eq_getElem?_getD, List.getElem?_map, List.getElem?_range hk]
  rfl

namespace TargaImage

theorem rdInt_nat (D : List Nat) (n : Nat) : rdInt D (n : Int) = rd D n := by
  unfold rdInt
  rw [if_neg (by omega)]
  rfl

theorem fsRefAdd_lt (old : Nat) (e : Int) (wgt : Nat) : fsRefAdd old e wgt < 256 := by
  unfold fsRefAdd
  omega

/-- One round of the spreading of `Dither_FS`, cell by cell: the three colour
cells of the neighbour addressed, if it lies in the raster, receive the
truncated and clamped sum; nothing else changes. -/
theorem fsSpread_rd (img : TargaImage) (dirs : List (Int × Int)) (x y : Nat) (err : Frac)
    (e : Int) (hed : 0 < err.den) (he : err.toRat = (e : ℚ)) (heb : |e| ≤ 255)
    (dir : Nat) (hdir : dir < 4) (D : List Nat)
    (hlen : D.length = img.width * img.height * 4) (hb : ∀ b ∈ D, b < 256) :
    (fsSpread img dirs x y err dir D).length = D.length ∧
    (∀ b ∈ fsSpread img dirs x y err dir D, b < 256) ∧
    ∀ k, k < D.length → rd (fsSpread img dirs x y err dir D) k
      = if ((k / 4 % img.width : Nat) : Int) = (x : Int) + (dirs.getD dir (0, 0)).1 ∧
          ((k / 4 / img.width : Nat) : Int) = (y : Int) + (dirs.getD dir (0, 0)).2 ∧ k % 4 < 3
        then fsRefAdd (rd D k) e (dir * 2 + 1) else rd D k := by
  unfold fsSpread
  simp only []
  generalize (x : Int) + (dirs.getD dir (0, 0)).1 = nx
  generalize (y : Int) + (dirs.getD dir (0, 0)).2 = ny
  have hbyte : ∀ (E : List Nat), (∀ b ∈ E, b < 256) → ∀ k, rd E k < 256 :=
    fun E hE k => rd_lt_of_forall E hE k
  by_cases hB : Boundry_Check img nx ny = true
  · rw [if_pos hB]
    rw [Boundry_Check_iff] at hB
    obtain ⟨h0, h1, h2, h3⟩ := hB
    lift nx to ℕ using h0
    lift ny to ℕ using h2
    have h1' : nx < img.width := by exact_mod_cast h1
    have h3' : ny < img.height := by exact_mod_cast h3
    have hW : 0 < img.width := by omega
    have g0 : img.Get_RGBA_int (nx : Int) (ny : Int) + (RED : Int)
        = ((4 * (ny * img.width + nx) : Nat) : Int) := by
      rw [Get_RGBA_int_eq]; simp only [RED]; push_cast; ring
    have g1 : img.Get_RGBA_int (nx : Int) (ny : Int) + (GREEN : Int)
        = ((4 * (ny * img.width + nx) + 1 : Nat) : Int) := by
      rw [Get_RGBA_int_eq]; simp only [GREEN]; push_cast; ring
    have g2 : img.Get_RGBA_int (nx : Int) (ny : Int) + (BLUE : Int)
        = ((4 * (ny * img.width + nx) + 2 : Nat) : Int) := by
      rw [Get_RGBA_int_eq]; simp only [BLUE]; push_cast; ring
    rw [g0, g1, g2]
    generalize hO : 4 * (ny * img.width + nx) = O
    have hOlen : O + 3 < D.length := by
      have := pix_lt img.width img.height nx ny h1' h3'
      have hc : img.width * img.height = img.height * img.width := Nat.mul_comm _ _
      rw [hlen]
      omega
    rw [rdInt_nat, fsStore_val D _ (rd D O) (hbyte D hb O) err e hed he heb (dir * 2 + 1)
      (by omega), wrI_nat]
    have hb1 := wr_bytes D O (fsRefAdd (rd D O) e (dir * 2 + 1)) hb
    rw [rdInt_nat, fsStore_val _ _ _ (hbyte _ hb1 (O + 1)) err e hed he heb (dir * 2 + 1)
      (by omega), wrI_nat]
    have hb2 := wr_bytes _ (O + 1) (fsRefAdd (rd (wr D O (fsRefAdd (rd D O) e (dir * 2 + 1)))
      (O + 1)) e (dir * 2 + 1)) hb1
    rw [rdInt_nat, fsStore_val _ _ _ (hbyte _ hb2 (O + 2)) err e hed he heb (dir * 2 + 1)
      (by omega), wrI_nat]
    have hb3 := wr_bytes _ (O + 2) (fsRefAdd (rd (wr (wr D O (fsRefAdd (rd D O) e (dir * 2 + 1)))
      (O + 1) (fsRefAdd (rd (wr D O (fsRefAdd (rd D O) e (dir * 2 + 1)))
      (O + 1)) e (dir * 2 + 1))) (O + 2)) e (dir * 2 + 1)) hb2
    refine ⟨by rw [wr_length, wr_length, wr_length], hb3, ?_⟩
    intro k hk
    have r1 : rd (wr D O (fsRefAdd (rd D O) e (dir * 2 + 1))) (O + 1) = rd D (O + 1) := by
      rw [rd_wr, if_neg (by omega)]
    rw [r1]
    have r2 : rd (wr (wr D O (fsRefAdd (rd D O) e (dir * 2 + 1))) (O + 1)
        (fsRefAdd (rd D (O + 1)) e (dir * 2 + 1))) (O + 2) = rd D (O + 2) := by
      rw [rd_wr, if_neg (by omega), rd_wr, if_neg (by omega)]
    rw [r2]
    have hcond : (((k / 4 % img.width : Nat) : Int) = (nx : Int) ∧
        ((k / 4 / img.width : Nat) : Int) = (ny : Int) ∧ k % 4 < 3)
        ↔ (k / 4 = ny * img.width + nx ∧ k % 4 < 3) := by
      constructor
      · rintro ⟨c1, c2, c3⟩
        have c1' : k / 4 % img.width = nx := by exact_mod_cast c1
        have c2' : k / 4 / img.width = ny := by exact_mod_cast c2
        have := Nat.div_add_mod' (k / 4) img.width
        rw [c1', c2'] at this
        exact ⟨this.symm, c3⟩
      · rintro ⟨c1, c3⟩
        have m1 : (ny * img.width + nx) % img.width = nx := by
          rw [Nat.add_comm, Nat.add_mul_mod_self_right, Nat.mod_eq_of_lt h1']
        have m2 : (ny * img.width + nx) / img.width = ny := by
          rw [Nat.add_comm, Nat.add_mul_div_right _ _ hW, Nat.div_eq_of_lt h1', Nat.zero_add]
        rw [c1, m1, m2]
        exact ⟨rfl, rfl, c3⟩
    rw [rd_wr, rd_wr, rd_wr, wr_length, wr_length]
    have f0 := fsRefAdd_lt (rd D O) e (dir * 2 + 1)
    have f1 := fsRefAdd_lt (rd D (O + 1)) e (dir * 2 + 1)
    have f2 := fsRefAdd_lt (rd D (O + 2)) e (dir * 2 + 1)
    by_cases hc : k / 4 = ny * img.width + nx ∧ k % 4 < 3
    · rw [if_pos (hcond.2 hc)]
      obtain ⟨c1, c3⟩ := hc
      have hk3 : k = O ∨ k = O + 1 ∨ k = O + 2 := by omega
      rcases hk3 with h | h | h
      · subst h
        rw [if_neg (by omega), if_neg (by omega), if_pos ⟨rfl, by omega⟩,
          Nat.mod_eq_of_lt f0]
      · subst h
        rw [if_neg (by omega), if_pos ⟨rfl, by omega⟩, Nat.mod_eq_of_lt f1]
      · subst h
        rw [if_pos ⟨rfl, by omega⟩, Nat.mod_eq_of_lt f2]
    · rw [if_neg (fun h => hc (hcond.1 h))]
      rw [if_neg (by omega), if_neg (by omega), if_neg (by omega)]
  · rw [if_neg hB]
    refine ⟨rfl, hb, ?_⟩
    intro k hk
    rw [if_neg]
    rintro ⟨c1, c2, _⟩
    apply hB
    rw [Boundry_Check_iff]
    have hW : 0 < img.width := by
      rcases Nat.eq_zero_or_pos img.width with h0 | h0
      · rw [hlen, h0] at hk; simp at hk
      · exact h0
    have hp : k / 4 < img.height * img.width := by
      rw [hlen] at hk
      have hc : img.width * img.height = img.height * img.width := Nat.mul_comm _ _
      omega
    have h1 : k / 4 % img.width < img.width := Nat.mod_lt _ hW
    have h2 : k / 4 / img.width < img.height := (Nat.div_lt_iff_lt_mul hW).2 hp
    generalize k / 4 % img.width = a at c1 h1
    generalize k / 4 / img.width = b at c2 h2
    omega

end TargaImage

theorem forLoop_four {σ : Type} (f : Nat → σ → σ) (s : σ) :
    forLoop 4 f s = f 3 (f 2 (f 1 (f 0 s))) := rfl

namespace TargaImage

/-- The buffer after the pixel `(x, y)` has been set to `out` in its three
colour channels. -/
theorem setOut_rd (img : TargaImage) (x y : Nat) (D : List Nat) (out : Nat) (ho : out < 256)
    (hD : img.Get_RGBA x y + 3 < D.length) (k : Nat) :
    rd (wr (wr (wr D (img.Get_RGBA x y + RED) out) (img.Get_RGBA x y + GREEN) out)
      (img.Get_RGBA x y + BLUE) out) k
      = if k / 4 = y * img.width + x ∧ k % 4 < 3 then out else rd D k := by
  obtain ⟨_, s2, s3⟩ := setRGB_spec img x y D out out out hD
  by_cases hp : k / 4 = y * img.width + x
  · have hk : k = img.Get_RGBA x y + k % 4 := by rw [Get_RGBA_eq]; omega
    have h3 := s3 (k % 4) (Nat.mod_lt _ (by decide))
    rw [← hk] at h3
    rw [h3, Nat.mod_eq_of_lt ho]
    split_ifs <;> first | rfl | (exfalso; omega) | (congr 1; omega)
  · rw [s2 k hp, if_neg (fun h => hp h.1)]

/-- One pixel step of `Dither_FS`, cell by cell: the pixel visited receives
its output, and then the four neighbours receive their shares in turn. -/
theorem ditherFSPixel_rd (img : TargaImage) (dirs : List (Int × Int)) (x y : Nat)
    (hx : x < img.width) (hy : y < img.height) (D : List Nat)
    (hlen : D.length = img.width * img.height * 4) (hb : ∀ b ∈ D, b < 256) :
    (ditherFSPixel img dirs x y D).length = D.length ∧
    ∀ k, k < D.length → ∀ (out : Nat) (e : Int),
      out = (if 128 ≤ rd D (img.Get_RGBA x y + RED) then 255 else 0) →
      e = (rd D (img.Get_RGBA x y + RED) : Int) - (out : Int) →
      rd (ditherFSPixel img dirs x y D) k
      = (fun v : Nat => if ((k / 4 % img.width : Nat) : Int) = (x : Int) + (dirs.getD 3 (0, 0)).1 ∧
            ((k / 4 / img.width : Nat) : Int) = (y : Int) + (dirs.getD 3 (0, 0)).2 ∧ k % 4 < 3
          then fsRefAdd v e 7 else v)
        ((fun v : Nat => if ((k / 4 % img.width : Nat) : Int) = (x : Int) + (dirs.getD 2 (0, 0)).1 ∧
            ((k / 4 / img.width : Nat) : Int) = (y : Int) + (dirs.getD 2 (0, 0)).2 ∧ k % 4 < 3
          then fsRefAdd v e 5 else v)
        ((fun v : Nat => if ((k / 4 % img.width : Nat) : Int) = (x : Int) + (dirs.getD 1 (0, 0)).1 ∧
            ((k / 4 / img.width : Nat) : Int) = (y : Int) + (dirs.getD 1 (0, 0)).2 ∧ k % 4 < 3
          then fsRefAdd v e 3 else v)
        ((fun v : Nat => if ((k / 4 % img.width : Nat) : Int) = (x : Int) + (dirs.getD 0 (0, 0)).1 ∧
            ((k / 4 / img.width : Nat) : Int) = (y : Int) + (dirs.getD 0 (0, 0)).2 ∧ k % 4 < 3
          then fsRefAdd v e 1 else v)
        (if k / 4 = y * img.width + x ∧ k % 4 < 3 then out else rd D k)))) := by
  have hlt := pix_lt img.width img.height x y hx hy
  have hD : img.Get_RGBA x y + 3 < D.length := by
    rw [Get_RGBA_eq, hlen]
    have : img.width * img.height = img.height * img.width := Nat.mul_comm _ _
    omega
  have hr : rd D (img.Get_RGBA x y + RED) < 256 := rd_lt_of_forall _ hb _
  -- both branches of the test, in one form
  have key : ∀ (out : Nat) (err : Frac) (e : Int), out < 256 → 0 < err.den →
      err.toRat = (e : ℚ) → |e| ≤ 255 →
      (forLoop 4 (fun now_Dir data => fsSpread img dirs x y err now_Dir data)
        (wr (wr (wr D (img.Get_RGBA x y + RED) out) (img.Get_RGBA x y + GREEN) out)
          (img.Get_RGBA x y + BLUE) out)).length = D.length ∧
      ∀ k, k < D.length →
        rd (forLoop 4 (fun now_Dir data => fsSpread img dirs x y err now_Dir data)
          (wr (wr (wr D (img.Get_RGBA x y + RED) out) (img.Get_RGBA x y + GREEN) out)
            (img.Get_RGBA x y + BLUE) out)) k
        = (fun v : Nat => if ((k / 4 % img.width : Nat) : Int)
              = (x : Int) + (dirs.getD 3 (0, 0)).1 ∧
              ((k / 4 / img.width : Nat) : Int) = (y : Int) + (dirs.getD 3 (0, 0)).2 ∧ k % 4 < 3
            then fsRefAdd v e 7 else v)
          ((fun v : Nat => if ((k / 4 % img.width : Nat) : Int)
              = (x : Int) + (dirs.getD 2 (0, 0)).1 ∧
              ((k / 4 / img.width : Nat) : Int) = (y : Int) + (dirs.getD 2 (0, 0)).2 ∧ k % 4 < 3
            then fsRefAdd v e 5 else v)
          ((fun v : Nat => if ((k / 4 % img.width : Nat) : Int)
              = (x : Int) + (dirs.getD 1 (0, 0)).1 ∧
              ((k / 4 / img.width : Nat) : Int) = (y : Int) + (dirs.getD 1 (0, 0)).2 ∧ k % 4 < 3
            then fsRefAdd v e 3 else v)
          ((fun v : Nat => if ((k / 4 % img.width : Nat) : Int)
              = (x : Int) + (dirs.getD 0 (0, 0)).1 ∧
              ((k / 4 / img.width : Nat) : Int) = (y : Int) + (dirs.getD 0 (0, 0)).2 ∧ k % 4 < 3
            then fsRefAdd v e 1 else v)
          (if k / 4 = y * img.width + x ∧ k % 4 < 3 then out else rd D k)))) := by
    intro out err e ho hed he heb
    have l1 : (wr (wr (wr D (img.Get_RGBA x y + RED) out) (img.Get_RGBA x y + GREEN) out)
        (img.Get_RGBA x y + BLUE) out).length = D.length := by
      rw [wr_length, wr_length, wr_length]
    have b1 : ∀ b ∈ wr (wr (wr D (img.Get_RGBA x y + RED) out) (img.Get_RGBA x y + GREEN) out)
        (img.Get_RGBA x y + BLUE) out, b < 256 :=
      wr_bytes _ _ _ (wr_bytes _ _ _ (wr_bytes _ _ _ hb))
    generalize hD1 : wr (wr (wr D (img.Get_RGBA x y + RED) out) (img.Get_RGBA x y + GREEN) out)
        (img.Get_RGBA x y + BLUE) out = D1 at l1 b1
    have r1 : ∀ k, rd D1 k = if k / 4 = y * img.width + x ∧ k % 4 < 3 then out else rd D k := by
      intro k
      rw [← hD1]
      exact setOut_rd img x y D out ho hD k
    obtain ⟨p0, q0, s0⟩ := fsSpread_rd img dirs x y err e hed he heb 0 (by decide) D1
      (by rw [l1, hlen]) b1
    obtain ⟨p1, q1, s1⟩ := fsSpread_rd img dirs x y err e hed he heb 1 (by decide) _
      (by rw [p0, l1, hlen]) q0
    obtain ⟨p2, q2, s2⟩ := fsSpread_rd img dirs x y err e hed he heb 2 (by decide) _
      (by rw [p1, p0, l1, hlen]) q1
    obtain ⟨p3, q3, s3⟩ := fsSpread_rd img dirs x y err e hed he heb 3 (by decide) _
      (by rw [p2, p1, p0, l1, hlen]) q2
    rw [forLoop_four]
    refine ⟨by rw [p3, p2, p1, p0, l1], ?_⟩
    intro k hk
    rw [s3 k (by rw [p2, p1, p0, l1]; exact hk), s2 k (by rw [p1, p0, l1]; exact hk),
      s1 k (by rw [p0, l1]; exact hk), s0 k (by rw [l1]; exact hk), r1 k]
  unfold ditherFSPixel
  simp only []
  by_cases ht : 128 ≤ rd D (img.Get_RGBA x y + RED)
  · rw [if_pos ((fs_test _ hr).2 ht)]
    simp only []
    obtain ⟨ed, ev⟩ := fs_err_white _ hr
    obtain ⟨k1, k2⟩ := key 255 (dsub (Frac.ofNat (rd D (img.Get_RGBA x y + RED))) (Frac.ofNat 255))
      ((rd D (img.Get_RGBA x y + RED) : Int) - 255) (by decide) ed ev (by rw [abs_le]; omega)
    refine ⟨k1, ?_⟩
    intro k hk out e ho he
    rw [if_pos ht] at ho
    subst ho
    rw [he]
    exact k2 k hk
  · rw [if_neg (fun h => ht ((fs_test _ hr).1 h))]
    simp only []
    obtain ⟨k1, k2⟩ := key 0 (Frac.ofNat (rd D (img.Get_RGBA x y + RED)))
      ((rd D (img.Get_RGBA x y + RED) : Int)) (by decide) Nat.one_pos
      (by rw [Frac.toRat_ofNat]; rfl) (by rw [abs_le]; omega)
    refine ⟨k1, ?_⟩
    intro k hk out e ho he
    rw [if_neg ht] at ho
    subst ho
    rw [he]
    simp only [Nat.cast_zero, sub_zero]
    exact k2 k hk

end TargaImage

namespace TargaImage

/-- The four shares of a pixel of an even row, one after the other, give
every cell the value the Floyd-Steinberg reference gives it. -/
theorem fs_cell_even (x y px py c v out : Nat) (e : Int) (hc : c < 4) (hpar : y % 2 = 0) :
    (fun v : Nat => if (px : Int) = (x : Int) + (FS_Dir_even.getD 3 (0, 0)).1 ∧
          (py : Int) = (y : Int) + (FS_Dir_even.getD 3 (0, 0)).2 ∧ c < 3
        then fsRefAdd v e 7 else v)
      ((fun v : Nat => if (px : Int) = (x : Int) + (FS_Dir_even.getD 2 (0, 0)).1 ∧
          (py : Int) = (y : Int) + (FS_Dir_even.getD 2 (0, 0)).2 ∧ c < 3
        then fsRefAdd v e 5 else v)
      ((fun v : Nat => if (px : Int) = (x : Int) + (FS_Dir_even.getD 1 (0, 0)).1 ∧
          (py : Int) = (y : Int) + (FS_Dir_even.getD 1 (0, 0)).2 ∧ c < 3
        then fsRefAdd v e 3 else v)
      ((fun v : Nat => if (px : Int) = (x : Int) + (FS_Dir_even.getD 0 (0, 0)).1 ∧
          (py : Int) = (y : Int) + (FS_Dir_even.getD 0 (0, 0)).2 ∧ c < 3
        then fsRefAdd v e 1 else v)
      (if (px = x ∧ py = y) ∧ c < 3 then out else v))))
    = if c = 3 then v
      else if px = x ∧ py = y then out
      else if fsRefWeight x y px py = 0 then v
      else fsRefAdd v e (fsRefWeight x y px py) := by
  have d0 : FS_Dir_even.getD 0 (0, 0) = (1, 1) := rfl
  have d1 : FS_Dir_even.getD 1 (0, 0) = (-1, 1) := rfl
  have d2 : FS_Dir_even.getD 2 (0, 0) = (0, 1) := rfl
  have d3 : FS_Dir_even.getD 3 (0, 0) = (1, 0) := rfl
  simp only [d0, d1, d2, d3]
  by_cases h3 : c = 3
  · repeat (first | rw [if_pos (by omega)] | rw [if_neg (by omega)])
  · have hcls : (px = x ∧ py = y) ∨ (px = x + 1 ∧ py = y) ∨ (px = x ∧ py = y + 1) ∨ (px + 1 = x ∧ py = y + 1) ∨
      (px = x + 1 ∧ py = y + 1) ∨
      (¬ (px = x ∧ py = y) ∧ ¬ (px = x + 1 ∧ py = y) ∧ ¬ (px = x ∧ py = y + 1) ∧
      ¬ (px + 1 = x ∧ py = y + 1) ∧ ¬ (px = x + 1 ∧ py = y + 1)) := by omega
    rcases hcls with h | h | h | h | h | h
    · repeat (first | rw [if_pos (by omega)] | rw [if_neg (by omega)])
    · have hW : fsRefWeight x y px py = 7 := by
        unfold fsRefWeight
        rw [if_pos (by omega), if_pos (by omega)]
      rw [hW]
      repeat (first | rw [if_pos (by omega)] | rw [if_neg (by omega)])
    · have hW : fsRefWeight x y px py = 5 := by
        unfold fsRefWeight
        repeat (first | rw [if_pos (by omega)] | rw [if_neg (by omega)])
      rw [hW]
      repeat (first | rw [if_pos (by omega)] | rw [if_neg (by omega)])
    · have hW : fsRefWeight x y px py = 3 := by
        unfold fsRefWeight
        repeat (first | rw [if_pos (by omega)] | rw [if_neg (by omega)])
      rw [hW]
      repeat (first | rw [if_pos (by omega)] | rw [if_neg (by omega)])
    · have hW : fsRefWeight x y px py = 1 := by
        unfold fsRefWeight
        repeat (first | rw [if_pos (by omega)] | rw [if_neg (by omega)])
      rw [hW]
      repeat (first | rw [if_pos (by omega)] | rw [if_neg (by omega)])
    · have hW : fsRefWeight x y px py = 0 := by
        unfold fsRefWeight
        repeat (first | rw [if_pos (by omega)] | rw [if_neg (by omega)])
      rw [hW]
      repeat (first | rw [if_pos (by omega)] | rw [if_neg (by omega)])

/-- The four shares of a pixel of an odd row, one after the other, give
every cell the value the Floyd-Steinberg reference gives it. -/
theorem fs_cell_odd (x y px py c v out : Nat) (e : Int) (hc : c < 4) (hpar : ¬ y % 2 = 0) :
    (fun v : Nat => if (px : Int) = (x : Int) + (FS_Dir_odd.getD 3 (0, 0)).1 ∧
          (py : Int) = (y : Int) + (FS_Dir_odd.getD 3 (0, 0)).2 ∧ c < 3
        then fsRefAdd v e 7 else v)
      ((fun v : Nat => if (px : Int) = (x : Int) + (FS_Dir_odd.getD 2 (0, 0)).1 ∧
          (py : Int) = (y : Int) + (FS_Dir_odd.getD 2 (0, 0)).2 ∧ c < 3
        then fsRefAdd v e 5 else v)
      ((fun v : Nat => if (px : Int) = (x : Int) + (FS_Dir_odd.getD 1 (0, 0)).1 ∧
          (py : Int) = (y : Int) + (FS_Dir_odd.getD 1 (0, 0)).2 ∧ c < 3
        then fsRefAdd v e 3 else v)
      ((fun v : Nat => if (px : Int) = (x : Int) + (FS_Dir_odd.getD 0 (0, 0)).1 ∧
          (py : Int) = (y : Int) + (FS_Dir_odd.getD 0 (0, 0)).2 ∧ c < 3
        then fsRefAdd v e 1 else v)
      (if (px = x ∧ py = y) ∧ c < 3 then out else v))))
    = if c = 3 then v
      else if px = x ∧ py = y then out
      else if fsRefWeight x y px py = 0 then v
      else fsRefAdd v e (fsRefWeight x y px py) := by
  have d0 : FS_Dir_odd.getD 0 (0, 0) = (-1, 1) := rfl
  have d1 : FS_Dir_odd.getD 1 (0, 0) = (1, 1) := rfl
  have d2 : FS_Dir_odd.getD 2 (0, 0) = (0, 1) := rfl
  have d3 : FS_Dir_odd.getD 3 (0, 0) = (-1, 0) := rfl
  simp only [d0, d1, d2, d3]
  by_cases h3 : c = 3
  · repeat (first | rw [if_pos (by omega)] | rw [if_neg (by omega)])
  · have hcls : (px = x ∧ py = y) ∨ (px + 1 = x ∧ py = y) ∨ (px = x ∧ py = y + 1) ∨ (px = x + 1 ∧ py = y + 1) ∨
      (px + 1 = x ∧ py = y + 1) ∨
      (¬ (px = x ∧ py = y) ∧ ¬ (px + 1 = x ∧ py = y) ∧ ¬ (px = x ∧ py = y + 1) ∧
      ¬ (px = x + 1 ∧ py = y + 1) ∧ ¬ (px + 1 = x ∧ py = y + 1)) := by omega
    rcases hcls with h | h | h | h | h | h
    · repeat (first | rw [if_pos (by omega)] | rw [if_neg (by omega)])
    · have hW : fsRefWeight x y px py = 7 := by
        unfold fsRefWeight
        repeat (first | rw [if_pos (by omega)] | rw [if_neg (by omega)])
      rw [hW]
      repeat (first | rw [if_pos (by omega)] | rw [if_neg (by omega)])
    · have hW : fsRefWeight x y px py = 5 := by
        unfold fsRefWeight
        repeat (first | rw [if_pos (by omega)] | rw [if_neg (by omega)])
      rw [hW]
      repeat (first | rw [if_pos (by omega)] | rw [if_neg (by omega)])
    · have hW : fsRefWeight x y px py = 3 := by
        unfold fsRefWeight
        repeat (first | rw [if_pos (by omega)] | rw [if_neg (by omega)])
      rw [hW]
      repeat (first | rw [if_pos (by omega)] | rw [if_neg (by omega)])
    · have hW : fsRefWeight x y px py = 1 := by
        unfold fsRefWeight
        repeat (first | rw [if_pos (by omega)] | rw [if_neg (by omega)])
      rw [hW]
      repeat (first | rw [if_pos (by omega)] | rw [if_neg (by omega)])
    · have hW : fsRefWeight x y px py = 0 := by
        unfold fsRefWeight
        repeat (first | rw [if_pos (by omega)] | rw [if_neg (by omega)])
      rw [hW]
      repeat (first | rw [if_pos (by omega)] | rw [if_neg (by omega)])

end TargaImage

namespace TargaImage

theorem fsRefVisit_length (img : TargaImage) (x y : Nat) (D : List Nat) :
    (fsRefVisit img x y D).length = D.length := by
  unfold fsRefVisit
  simp only [List.length_map, List.length_range]

theorem fsRefVisit_bytes (img : TargaImage) (x y : Nat) (D : List Nat) (hb : ∀ b ∈ D, b < 256) :
    ∀ b ∈ fsRefVisit img x y D, b < 256 := by
  intro b hbm
  unfold fsRefVisit at hbm
  simp only [List.mem_map, List.mem_range] at hbm
  obtain ⟨k, _, rfl⟩ := hbm
  have h1 := rd_lt_of_forall D hb k
  have h2 : ∀ (e : Int) (w : Nat), fsRefAdd (rd D k) e w < 256 :=
    fun e w => fsRefAdd_lt _ _ _
  split_ifs <;> first | exact h1 | exact h2 _ _ | omega

/-- One pixel step of `Dither_FS` is the visit of the pixel in the
Floyd-Steinberg reference. -/
theorem ditherFSPixel_eq (img : TargaImage) (x y : Nat) (hx : x < img.width)
    (hy : y < img.height) (D : List Nat) (hlen : D.length = img.width * img.height * 4)
    (hb : ∀ b ∈ D, b < 256) :
    ditherFSPixel img (if y % 2 = 0 then FS_Dir_even else FS_Dir_odd) x y D
      = fsRefVisit img x y D := by
  obtain ⟨hl, hrd⟩ := ditherFSPixel_rd img (if y % 2 = 0 then FS_Dir_even else FS_Dir_odd)
    x y hx hy D hlen hb
  apply list_ext_rd _ _ (by rw [hl, fsRefVisit_length])
  intro k hk
  rw [hl] at hk
  rw [hrd k hk _ _ rfl rfl]
  unfold fsRefVisit
  rw [rd_map_range _ _ _ hk]
  simp only []
  have hW : 0 < img.width := by omega
  have hself : k / 4 = y * img.width + x ↔ (k / 4 % img.width = x ∧ k / 4 / img.width = y) := by
    constructor
    · intro h
      rw [h]
      constructor
      · rw [Nat.add_comm, Nat.add_mul_mod_self_right, Nat.mod_eq_of_lt hx]
      · rw [Nat.add_comm, Nat.add_mul_div_right _ _ hW, Nat.div_eq_of_lt hx, Nat.zero_add]
    · rintro ⟨h1, h2⟩
      have := Nat.div_add_mod' (k / 4) img.width
      rw [h1, h2] at this
      exact this.symm
  simp only [hself]
  generalize k / 4 % img.width = px
  generalize k / 4 / img.width = py
  generalize ((rd D (img.Get_RGBA x y + RED) : Int)
    - ((if 128 ≤ rd D (img.Get_RGBA x y + RED) then 255 else 0 : Nat) : Int)) = e
  generalize (if 128 ≤ rd D (img.Get_RGBA x y + RED) then 255 else 0 : Nat) = out
  generalize rd D k = v
  have hc4 : k % 4 < 4 := Nat.mod_lt _ (by decide)
  generalize k % 4 = c at hc4 ⊢
  by_cases hpar : y % 2 = 0
  · simp only [if_pos hpar]
    exact fs_cell_even x y px py c v out e hc4 hpar
  · simp only [if_neg hpar]
    exact fs_cell_odd x y px py c v out e hc4 hpar

end TargaImage

/-! ## `Dither_FS` and the serpentine reference -/

theorem forLoop_eq_foldl {σ : Type} (n : Nat) (f : Nat → σ → σ) (s : σ) :
    forLoop n f s = (List.range n).foldl (fun t i => f i t) s := by
  induction n with
  | zero => rfl
  | succ n ih => rw [forLoop_succ, ih, List.range_succ, List.foldl_append]; rfl

theorem range_reverse_eq_map (n : Nat) :
    (List.range n).reverse = (List.range n).map (fun k => n - 1 - k) := by
  apply List.ext_getElem
  · simp
  · intro i h1 h2
    simp only [List.length_reverse, List.length_range] at h1
    simp only [List.getElem_reverse, List.getElem_range, List.getElem_map, List.length_range]

/-- Two loops whose bodies agree on the states that satisfy an invariant of
the second agree. -/
theorem forLoop_congr_inv {σ : Type} (P : σ → Prop) (n : Nat) (f g : Nat → σ → σ) (s : σ)
    (hs : P s) (h : ∀ i, i < n → ∀ t, P t → f i t = g i t ∧ P (g i t)) :
    forLoop n f s = forLoop n g s ∧ P (forLoop n g s) := by
  induction n with
  | zero => exact ⟨rfl, hs⟩
  | succ n ih =>
    obtain ⟨e, hp⟩ := ih (fun i hi t ht => h i (Nat.lt_succ_of_lt hi) t ht)
    rw [forLoop_succ, forLoop_succ, e]
    exact h n (Nat.lt_succ_self n) _ hp

theorem foldl_flatten_map {α β γ : Type} (F : β → α → β) (g : γ → List α) (l : List γ) (s : β) :
    ((l.map g).flatten).foldl F s = l.foldl (fun t c => (g c).foldl F t) s := by
  induction l generalizing s with
  | nil => rfl
  | cons a l ih =>
    rw [List.map_cons, List.flatten_cons, List.foldl_append, List.foldl_cons, ih]

namespace TargaImage

/-- The result of `To_Grayscale` is a well-formed image. -/
theorem To_Grayscale_WF (img : TargaImage) (hwf : img.WF) : (To_Grayscale img).2.WF := by
  obtain ⟨hlen, hbytes⟩ := hwf
  refine ⟨?_, ?_⟩
  · have := (pixelLoop_spec img (toGrayscalePixel img)
      (fun (_ _ c r g b a : Nat) =>
        if c = 0 then toUChar (fl32 (luma r g b)) % 256
        else if c = 1 then toUChar (fl32 (luma r g b)) % 256
        else if c = 2 then toUChar (fl32 (luma r g b)) % 256 else a)
      (fun x y D _ _ hD => toGrayscalePixel_spec img x y D hD) hlen).1
    show (forLoop img.height _ img.data).length = img.width * img.height * 4
    rw [← hlen]
    exact this
  · show ∀ b ∈ forLoop img.height _ img.data, b < 256
    apply forLoop_inv (fun D => ∀ b ∈ D, b < 256)
    · intro i D _ hD
      apply forLoop_inv (fun D => ∀ b ∈ D, b < 256)
      · intro j E _ hE
        unfold toGrayscalePixel
        exact wr_bytes _ _ _ (wr_bytes _ _ _ (wr_bytes _ _ _ hE))
      · exact hD
    · exact hbytes

/-- One row of `Dither_FS` is the visit of the pixels of the row, in the
order of the reference. -/
theorem ditherFSRow_eq (img : TargaImage) (y : Nat) (hy : y < img.height) (D : List Nat)
    (hV : D.length = img.width * img.height * 4 ∧ ∀ b ∈ D, b < 256) :
    ditherFSRow img y D
      = (if y % 2 = 0 then (List.range img.width).map (fun x => (x, y))
          else (List.range img.width).reverse.map (fun x => (x, y))).foldl
          (fun D p => fsRefVisit img p.1 p.2 D) D ∧
    ((ditherFSRow img y D).length = img.width * img.height * 4 ∧
      ∀ b ∈ ditherFSRow img y D, b < 256) := by
  have hstep : ∀ x, x < img.width → ∀ t : List Nat,
      (t.length = img.width * img.height * 4 ∧ ∀ b ∈ t, b < 256) →
      ditherFSPixel img (if y % 2 = 0 then FS_Dir_even else FS_Dir_odd) x y t
        = fsRefVisit img x y t ∧
      ((fsRefVisit img x y t).length = img.width * img.height * 4 ∧
        ∀ b ∈ fsRefVisit img x y t, b < 256) := by
    intro x hx t ht
    exact ⟨ditherFSPixel_eq img x y hx hy t ht.1 ht.2,
      by rw [fsRefVisit_length, ht.1], fsRefVisit_bytes img x y t ht.2⟩
  unfold ditherFSRow
  by_cases hpar : y % 2 = 0
  · rw [if_pos hpar, if_pos hpar]
    rw [if_pos hpar] at hstep
    obtain ⟨e, hp⟩ := forLoop_congr_inv
      (fun t : List Nat => t.length = img.width * img.height * 4 ∧ ∀ b ∈ t, b < 256)
      img.width (fun x data => ditherFSPixel img FS_Dir_even x y data)
      (fun x data => fsRefVisit img x y data) D hV hstep
    rw [e]
    refine ⟨?_, hp⟩
    rw [forLoop_eq_foldl, List.foldl_map]
  · rw [if_neg hpar, if_neg hpar]
    rw [if_neg hpar] at hstep
    obtain ⟨e, hp⟩ := forLoop_congr_inv
      (fun t : List Nat => t.length = img.width * img.height * 4 ∧ ∀ b ∈ t, b < 256)
      img.width (fun k data => ditherFSPixel img FS_Dir_odd (img.width - 1 - k) y data)
      (fun k data => fsRefVisit img (img.width - 1 - k) y data) D hV
      (fun k hk t ht => hstep (img.width - 1 - k) (by omega) t ht)
    rw [e]
    refine ⟨?_, hp⟩
    rw [forLoop_eq_foldl, range_reverse_eq_map, List.map_map, List.foldl_map]
    rfl

/-- The buffer `Dither_FS` leaves is the buffer of the reference. -/
theorem Dither_FS_data (img : TargaImage) (hwf : img.WF) :
    (Dither_FS img).2.data = (Dither_FS_reference img).data := by
  have hG := To_Grayscale_WF img hwf
  show forLoop img.height (fun y data => ditherFSRow img y data) (To_Grayscale img).2.data
    = (fsRefOrder img.width img.height).foldl (fun D p => fsRefVisit img p.1 p.2 D)
        (To_Grayscale img).2.data
  obtain ⟨e, _⟩ := forLoop_congr_inv
    (fun t : List Nat => t.length = img.width * img.height * 4 ∧ ∀ b ∈ t, b < 256)
    img.height (fun y data => ditherFSRow img y data)
    (fun y data => (if y % 2 = 0 then (List.range img.width).map (fun x => (x, y))
          else (List.range img.width).reverse.map (fun x => (x, y))).foldl
          (fun D p => fsRefVisit img p.1 p.2 D) data)
    (To_Grayscale img).2.data hG
    (fun y hy t ht => by
      obtain ⟨e1, e2⟩ := ditherFSRow_eq img y hy t ht
      refine ⟨e1, ?_⟩
      beta_reduce
      rw [← e1]
      exact e2)
  rw [e, forLoop_eq_foldl]
  unfold fsRefOrder
  rw [foldl_flatten_map]

end TargaImage

namespace TargaImage

/-- C26. For every well-formed image, `Dither_FS` returns the serpentine
Floyd-Steinberg reference applied to the result of `To_Grayscale`: the pixels
are visited row by row from the top, even rows from left to right and odd
rows from right to left; the pixel visited becomes 255 if its current red
value is at least 128 and 0 otherwise, with `err` the current value minus the
output; on an even row `err * 7 / 16` goes to `(x + 1, y)`, `err * 5 / 16` to
`(x, y + 1)`, `err * 3 / 16` to `(x - 1, y + 1)` and `err * 1 / 16` to
`(x + 1, y + 1)`, on an odd row with the x offsets negated; each neighbour
channel in the raster becomes the truncation of old + share clamped to
`[0, 255]`, and a share that falls outside the raster is dropped. -/
theorem Dither_FS_serpentine (img : TargaImage) (hwf : img.WF) :
    (Dither_FS img).1 = true ∧ (Dither_FS img).2 = Dither_FS_reference img :=
  ⟨rfl, mk_eq_of_data _ _ rfl rfl (Dither_FS_data img hwf)⟩

set_option maxRecDepth 100000 in
/-- Witness for C26: a 2x2 image of grays 200, 100, 50, 130. The first visit
turns 200 into 255 and leaves 75, 32 and 126 in the neighbours; the result is
white, black, black, white. -/
theorem Dither_FS_serpentine_witness :
    fsRefOrder 3 2 = [(0, 0), (1, 0), (2, 0), (2, 1), (1, 1), (0, 1)] ∧
    fsRefVisit ⟨2, 2, []⟩ 0 0
        [200, 200, 200, 255, 100, 100, 100, 9, 50, 50, 50, 255, 130, 130, 130, 7]
      = [255, 255, 255, 255, 75, 75, 75, 9, 32, 32, 32, 255, 126, 126, 126, 7] ∧
    (Dither_FS ⟨2, 2, [200, 200, 200, 255, 100, 100, 100, 9, 50, 50, 50, 255,
        130, 130, 130, 7]⟩).2.data
      = [255, 255, 255, 255, 0, 0, 0, 9, 0, 0, 0, 255, 255, 255, 255, 7] :=
  ⟨by decide!, by decide!,
    (congrArg TargaImage.data (Dither_FS_serpentine ⟨2, 2, [200, 200, 200, 255, 100, 100, 100, 9,
      50, 50, 50, 255, 130, 130, 130, 7]⟩ (by decide)).2).trans (by decide!)⟩

end TargaImage

/-! ## Bounds of the reads of `Half_Size` and `Dither_Bright` -/

namespace TargaImage

/-- The tap of the blur of `Half_Size` reads the pixel at the sample
coordinates `(halfSizeSampleX, halfSizeSampleY)`. -/
theorem halfSizeTap_sample (img : TargaImage) (data : List Nat) (x y ii jj : Nat)
    (sum : List Frac) :
    halfSizeTap img data x y ii jj sum
      = ((sum.set RED (fadd (sum.getD RED ⟨0, 1⟩)
          (fmul (Frac.ofNat (rdInt data (img.Get_RGBA_int (img.halfSizeSampleX x jj)
            (img.halfSizeSampleY y ii) + RED))) (maskAt halfSizeMask ii jj)))).set GREEN
          (fadd ((sum.set RED (fadd (sum.getD RED ⟨0, 1⟩)
            (fmul (Frac.ofNat (rdInt data (img.Get_RGBA_int (img.halfSizeSampleX x jj)
              (img.halfSizeSampleY y ii) + RED))) (maskAt halfSizeMask ii jj)))).getD GREEN ⟨0, 1⟩)
            (fmul (Frac.ofNat (rdInt data (img.Get_RGBA_int (img.halfSizeSampleX x jj)
              (img.halfSizeSampleY y ii) + GREEN))) (maskAt halfSizeMask ii jj)))).set BLUE
        (fadd (((sum.set RED (fadd (sum.getD RED ⟨0, 1⟩)
          (fmul (Frac.ofNat (rdInt data (img.Get_RGBA_int (img.halfSizeSampleX x jj)
            (img.halfSizeSampleY y ii) + RED))) (maskAt halfSizeMask ii jj)))).set GREEN
          (fadd ((sum.set RED (fadd (sum.getD RED ⟨0, 1⟩)
            (fmul (Frac.ofNat (rdInt data (img.Get_RGBA_int (img.halfSizeSampleX x jj)
              (img.halfSizeSampleY y ii) + RED))) (maskAt halfSizeMask ii jj)))).getD GREEN ⟨0, 1⟩)
            (fmul (Frac.ofNat (rdInt data (img.Get_RGBA_int (img.halfSizeSampleX x jj)
              (img.halfSizeSampleY y ii) + GREEN))) (maskAt halfSizeMask ii jj)))).getD BLUE ⟨0, 1⟩)
          (fmul (Frac.ofNat (rdInt data (img.Get_RGBA_int (img.halfSizeSampleX x jj)
            (img.halfSizeSampleY y ii) + BLUE))) (maskAt halfSizeMask ii jj))) := rfl

/-- The mirrored coordinate along an axis of length `w`: inside the axis when
`w ≥ 2`; for `w = 1` the offsets `-1` and `1` give the coordinates 1 and `-1`. -/
theorem halfSizeSample_axis (w x jj : Nat) (hx : x < w) (hjj : jj < 3) :
    (0 ≤ (x : Int) + ((jj : Int) - 1)
        + (if (x : Int) + ((jj : Int) - 1) < 0 ∨ (x : Int) + ((jj : Int) - 1) ≥ (w : Int)
            then -2 * ((jj : Int) - 1) else 0) ∧
      (x : Int) + ((jj : Int) - 1)
        + (if (x : Int) + ((jj : Int) - 1) < 0 ∨ (x : Int) + ((jj : Int) - 1) ≥ (w : Int)
            then -2 * ((jj : Int) - 1) else 0) < (w : Int)) ↔ (2 ≤ w ∨ jj = 1) := by
  split_ifs with h <;> omega

set_option maxRecDepth 100000 in
/-- C32 (the code at the failing input). The sample coordinates of the blur
of `Half_Size` after the mirror correction lie inside the raster for every
image of width and height at least 2, and for no image of width 1 or height
1: in a 1x1 image the tap `i = j = -1` at pixel `(0, 0)` reads the pixel
`(1, 1)`, at offset 8 of a buffer of 4 bytes, and the tap `i = j = 1` reads
the pixel `(-1, -1)`, in front of the buffer. -/
theorem Half_Size_mirror_outside :
    (∀ (img : TargaImage) (x y ii jj : Nat), x < img.width → y < img.height → ii < 3 → jj < 3 →
      ((0 ≤ img.halfSizeSampleX x jj ∧ img.halfSizeSampleX x jj < img.width) ↔
        (2 ≤ img.width ∨ jj = 1)) ∧
      ((0 ≤ img.halfSizeSampleY y ii ∧ img.halfSizeSampleY y ii < img.height) ↔
        (2 ≤ img.height ∨ ii = 1))) ∧
    halfSizeSampleX ⟨1, 1, [10, 20, 30, 255]⟩ 0 0 = 1 ∧
    halfSizeSampleY ⟨1, 1, [10, 20, 30, 255]⟩ 0 0 = 1 ∧
    Get_RGBA_int ⟨1, 1, [10, 20, 30, 255]⟩ 1 1 = 8 ∧
    halfSizeSampleX ⟨1, 1, [10, 20, 30, 255]⟩ 0 2 = -1 ∧
    halfSizeSampleY ⟨1, 1, [10, 20, 30, 255]⟩ 0 2 = -1 ∧
    Get_RGBA_int ⟨1, 1, [10, 20, 30, 255]⟩ (-1) (-1) = -8 := by
  refine ⟨?_, by decide, by decide, by decide, by decide, by decide, by decide⟩
  intro img x y ii jj hx hy hii hjj
  exact ⟨halfSizeSample_axis img.width x jj hx hjj, halfSizeSample_axis img.height y ii hy hii⟩

end TargaImage

namespace TargaImage

/-- Rounding keeps the value 0. -/
theorem fl64_zero (x : Frac) (h : x.num = 0) : fl64 x = ⟨0, 1⟩ := by
  unfold fl64 roundFrac
  rw [if_pos h]

/-- For an image whose pixels are all black the sum `tSum` of `Dither_Bright`
is 0. -/
theorem ditherBrightStats_sum_black (img : TargaImage)
    (hblack : ∀ x y c, x < img.width → y < img.height → c < 3 → img.chan x y c = 0) :
    (ditherBrightStats img).2 = ⟨0, 1⟩ := by
  unfold ditherBrightStats
  rw [forLoop_nest img.width img.height (fun j i s => ditherBrightCollect img img.data j i s)]
  apply forLoop_inv (fun s : List Frac × Frac => s.2 = ⟨0, 1⟩)
  · intro p s hp hs
    have hW : 0 < img.width := by
      rcases Nat.eq_zero_or_pos img.width with h0 | h0
      · rw [h0] at hp; simp at hp
      · exact h0
    have hx : p % img.width < img.width := Nat.mod_lt _ hW
    have hy : p / img.width < img.height := (Nat.div_lt_iff_lt_mul hW).2 hp
    have e0 : rd img.data (img.Get_RGBA (p % img.width) (p / img.width) + RED) = 0 :=
      hblack _ _ 0 hx hy (by decide)
    have e1 : rd img.data (img.Get_RGBA (p % img.width) (p / img.width) + GREEN) = 0 :=
      hblack _ _ 1 hx hy (by decide)
    have e2 : rd img.data (img.Get_RGBA (p % img.width) (p / img.width) + BLUE) = 0 :=
      hblack _ _ 2 hx hy (by decide)
    show dadd s.2 (ddiv (luma (rd img.data (img.Get_RGBA (p % img.width) (p / img.width) + RED))
      (rd img.data (img.Get_RGBA (p % img.width) (p / img.width) + GREEN))
      (rd img.data (img.Get_RGBA (p % img.width) (p / img.width) + BLUE))) (Frac.ofNat 256))
      = ⟨0, 1⟩
    rw [e0, e1, e2, hs]
    decide
  · rfl

/-- For a non-empty image of fewer than `2 ^ 31` pixels that are all black,
the index `th` of `Dither_Bright` is the number of pixels, one past the last
element of the sorted vector. -/
theorem ditherBrightIndex_black (img : TargaImage)
    (hblack : ∀ x y c, x < img.width → y < img.height → c < 3 → img.chan x y c = 0)
    (hsize : img.height * img.width < 2147483648) :
    ditherBrightIndex img = ((img.height * img.width : Nat) : Int) := by
  unfold ditherBrightIndex
  simp only []
  rw [ditherBrightStats_sum_black img hblack]
  have hz : ddiv ⟨0, 1⟩ (Frac.ofInt (wrapInt32 ((img.height : Int) * (img.width : Int))))
      = ⟨0, 1⟩ := by
    unfold ddiv
    apply fl64_zero
    simp [Frac.div]
  rw [hz]
  have h1 : dsub (Frac.ofNat 1) ⟨0, 1⟩ = ⟨4503599627370496, 4503599627370496⟩ := by decide
  rw [h1]
  have hq1 : (Frac.mul ⟨4503599627370496, 4503599627370496⟩ (Frac.ofNat img.height)).toRat
      = (img.height : ℚ) := by
    rw [Frac.toRat_mul, Frac.toRat_ofNat]
    unfold Frac.toRat
    norm_num
  have hle1 : img.height ≤ img.height * img.width ∨ img.width = 0 := by
    rcases Nat.eq_zero_or_pos img.width with h0 | h0
    · exact Or.inr h0
    · exact Or.inl (Nat.le_mul_of_pos_right _ h0)
  have hh : img.height < 9007199254740992 ∨ img.width = 0 := by
    rcases hle1 with h | h
    · exact Or.inl (by omega)
    · exact Or.inr h
  rcases Nat.eq_zero_or_pos img.width with hw0 | hwpos
  · -- an image of width 0: the product with 0 is 0
    rw [hw0]
    have hm : (Frac.mul (dmul ⟨4503599627370496, 4503599627370496⟩ (Frac.ofNat img.height))
        (Frac.ofNat 0)).num = 0 := by
      simp [Frac.mul, Frac.ofNat]
    unfold dmul at hm ⊢
    rw [fl64_zero _ hm]
    simp [Frac.trunc]
  · have hhb : img.height < 9007199254740992 := by
      rcases hh with h | h
      · exact h
      · omega
    have hv1 : (dmul ⟨4503599627370496, 4503599627370496⟩ (Frac.ofNat img.height)).toRat
        = (img.height : ℚ) :=
      fl64_nat _ (Frac.mul_den_pos _ _ (by decide) Nat.one_pos) img.height hhb hq1
    have hd1 : 0 < (dmul ⟨4503599627370496, 4503599627370496⟩ (Frac.ofNat img.height)).den :=
      fl64_den_pos _
    have hq2 : (Frac.mul (dmul ⟨4503599627370496, 4503599627370496⟩ (Frac.ofNat img.height))
        (Frac.ofNat img.width)).toRat = ((img.height * img.width : Nat) : ℚ) := by
      rw [Frac.toRat_mul, Frac.toRat_ofNat, hv1]
      push_cast
      rfl
    have hv2 : (dmul (dmul ⟨4503599627370496, 4503599627370496⟩ (Frac.ofNat img.height))
        (Frac.ofNat img.width)).toRat = ((img.height * img.width : Nat) : ℚ) :=
      fl64_nat _ (Frac.mul_den_pos _ _ hd1 Nat.one_pos) (img.height * img.width)
        (by omega) hq2
    exact Frac.trunc_eq _ (fl64_den_pos _) _ (le_of_eq hv2.symm)
      (lt_of_eq_of_lt hv2 (lt_add_one _))

set_option maxRecDepth 100000 in
/-- C31 (the code at the failing input). For every non-empty image of fewer
than `2 ^ 31` pixels that are all black the values `luma / 256` are all 0,
their mean is 0 and the index `th` of `Dither_Bright` is `width * height`, one
past the end of the sorted vector; for the 1x1 image `(0, 0, 0, 255)` the
index is 1 and the vector has one element. -/
theorem Dither_Bright_index_black :
    (∀ img : TargaImage,
      (∀ x y c, x < img.width → y < img.height → c < 3 → img.chan x y c = 0) →
      img.height * img.width < 2147483648 →
      ditherBrightIndex img = ((img.height * img.width : Nat) : Int) ∧
      ((ditherBrightStats img).1.insertionSort (fun a b => Frac.le a b = true)).length
        = img.height * img.width) ∧
    ditherBrightIndex ⟨1, 1, [0, 0, 0, 255]⟩ = 1 ∧
    ((ditherBrightStats ⟨1, 1, [0, 0, 0, 255]⟩).1.insertionSort
      (fun a b => Frac.le a b = true))[1]? = none := by
  refine ⟨?_, by decide!, by decide!⟩
  intro img hblack hsize
  refine ⟨ditherBrightIndex_black img hblack hsize, ?_⟩
  rw [List.length_insertionSort, ditherBrightStats_list, List.length_map, List.length_range]

end TargaImage

/-! ## `Quant_Populosity` on images of few colours -/

namespace TargaImage

/-- The buffer `Quant_Populosity` leaves has the size of the image. -/
theorem Quant_Populosity_length (pow : Frac → Frac → Frac) (img : TargaImage) (hwf : img.WF) :
    (Quant_Populosity pow img).2.data.length = img.width * img.height * 4 := by
  obtain ⟨hcl, _, _⟩ := populosityCleared_spec img hwf
  have key := (pixelLoop_spec { img with data := populosityCleared img }
    (quantPopulosityMap pow (populosityPalette img) img)
    (fun (_ _ c r g b a : Nat) =>
      if c = 0 then (Find_Closest_Palette_Color pow r g b (populosityPalette img)).r % 256
      else if c = 1 then (Find_Closest_Palette_Color pow r g b (populosityPalette img)).g % 256
      else if c = 2 then (Find_Closest_Palette_Color pow r g b (populosityPalette img)).b % 256
      else a)
    (fun x y D _ _ hD => quantPopulosityMap_spec pow (populosityPalette img) img x y D hD)
    hcl).1
  rw [← hcl]
  exact key

/-- C33. For every well-formed image of fewer than `2 ^ 31` pixels whose
colours, after the low three bits of R, G and B are cleared, all lie in a list
`L` of at most 256 entries, and a library function `pow` that gives a colour
distance 0 to itself only: the buffer `Quant_Populosity` leaves is the input
with the low three bits of R, G and B of every pixel cleared and alpha
unchanged; every pixel's colour is an entry of the palette; and in the palette
no entry of a populated bucket comes after an entry of an empty one. -/
theorem Quant_Populosity_lossless (pow : Frac → Frac → Frac) (hpow : PowBounded pow)
    (hsep : PowSeparates pow) (img : TargaImage) (hwf : img.WF)
    (hsize : img.width * img.height < 2147483648)
    (L : List (Nat × Nat × Nat)) (hL : L.length ≤ 256)
    (hfew : ∀ x y, x < img.width → y < img.height →
      (img.chan x y 0 - img.chan x y 0 % 8, img.chan x y 1 - img.chan x y 1 % 8,
        img.chan x y 2 - img.chan x y 2 % 8) ∈ L) :
    (Quant_Populosity pow img).2.data = populosityCleared img ∧
    (∀ x y, x < img.width → y < img.height →
      (Quant_Populosity pow img).2.chan x y 0 = img.chan x y 0 - img.chan x y 0 % 8 ∧
      (Quant_Populosity pow img).2.chan x y 1 = img.chan x y 1 - img.chan x y 1 % 8 ∧
      (Quant_Populosity pow img).2.chan x y 2 = img.chan x y 2 - img.chan x y 2 % 8 ∧
      (Quant_Populosity pow img).2.chan x y 3 = img.chan x y 3 ∧
      ∃ c ∈ populosityPalette img, c.r = (Quant_Populosity pow img).2.chan x y 0 ∧
        c.g = (Quant_Populosity pow img).2.chan x y 1 ∧
        c.b = (Quant_Populosity pow img).2.chan x y 2) ∧
    (∀ (s t : Nat) (a b : Color), (populosityPalette img)[s]? = some a →
      (populosityPalette img)[t]? = some b → a.count = 0 → 0 < b.count → t < s) := by
  have hbyte : ∀ x y c, img.chan x y c < 256 := fun x y c => rd_lt_of_forall _ hwf.2 _
  have hexact : ∀ x y, x < img.width → y < img.height →
      (Quant_Populosity pow img).2.chan x y 0 = img.chan x y 0 - img.chan x y 0 % 8 ∧
      (Quant_Populosity pow img).2.chan x y 1 = img.chan x y 1 - img.chan x y 1 % 8 ∧
      (Quant_Populosity pow img).2.chan x y 2 = img.chan x y 2 - img.chan x y 2 % 8 ∧
      (Quant_Populosity pow img).2.chan x y 3 = img.chan x y 3 :=
    fun x y hx hy => Quant_Populosity_exact pow hpow hsep img hwf hsize
      (L.map (fun c => (c.1 / 8, c.2.1 / 8, c.2.2 / 8))) (by rw [List.length_map]; exact hL)
      (fun x y hx hy => List.mem_map.2 ⟨_, hfew x y hx hy, by
        simp only [Prod.mk.injEq]
        have := hbyte x y 0
        have := hbyte x y 1
        have := hbyte x y 2
        omega⟩) x y hx hy
  obtain ⟨hcl, hb, hcv⟩ := populosityCleared_spec img hwf
  refine ⟨?_, ?_, ?_⟩
  · apply data_ext img _ _ (Quant_Populosity_length pow img hwf) hcl
    intro x y c hx hy hc
    obtain ⟨e0, e1, e2, e3⟩ := hexact x y hx hy
    obtain ⟨c0, c1, c2, c3⟩ := hcv x y hx hy
    have e : ∀ c, rd (Quant_Populosity pow img).2.data (img.Get_RGBA x y + c)
        = (Quant_Populosity pow img).2.chan x y c := fun _ => rfl
    rw [e]
    interval_cases c
    · rw [e0, c0]
    · rw [e1, c1]
    · rw [e2, c2]
    · rw [e3, c3]
  · intro x y hx hy
    obtain ⟨e0, e1, e2, e3⟩ := hexact x y hx hy
    obtain ⟨⟨c, hc, f0, f1, f2⟩, _⟩ := Quant_Populosity_in_palette pow hpow img hwf hsize x y hx hy
    exact ⟨e0, e1, e2, e3, c, hc, f0.symm, f1.symm, f2.symm⟩
  · intro s t a b ha hb' ha0 hb0
    obtain ⟨ch, hlen, hnd, hrange, htop, hord⟩ := populosityTop256_spec img
      (populosityCleared img) (fun q => rd_lt_of_forall _ hb q) hsize
    have hpal : populosityPalette img = ch.map (fun c => (⟨8 * c.1, 8 * c.2.1, 8 * c.2.2,
        (bucketCount (populosityCleared img) (img.height * img.width) c.1 c.2.1 c.2.2 : Int),
        true⟩ : Color)) := htop
    rw [hpal, List.getElem?_map] at ha hb'
    obtain ⟨a', ha1, ha2⟩ := Option.map_eq_some'.1 ha
    obtain ⟨b', hb1, hb2⟩ := Option.map_eq_some'.1 hb'
    by_contra hts
    have hst : s ≤ t := by omega
    have hanti := populosity_counts_antitone
      (fun i j k => bucketCount (populosityCleared img) (img.height * img.width) i j k)
      ch hnd hrange (fun t c hc i j k hi hj hk hn => (hord t c hc i j k hi hj hk hn).1)
      s t a' b' hst ha1 hb1
    rw [← ha2] at ha0
    rw [← hb2] at hb0
    simp only [] at ha0 hb0 hanti
    omega

/-- Witness for C33, with the sample model of `pow`: the 2x1 image
`(9, 17, 30, 255)`, `(200, 100, 50, 7)`; the first pixel becomes
`(8, 16, 24, 255)`. -/
theorem Quant_Populosity_lossless_witness :
    (Quant_Populosity powModel ⟨2, 1, [9, 17, 30, 255, 200, 100, 50, 7]⟩).2.chan 0 0 2 = 24 ∧
    (Quant_Populosity powModel ⟨2, 1, [9, 17, 30, 255, 200, 100, 50, 7]⟩).2.chan 0 0 3 = 255 := by
  have h := (Quant_Populosity_lossless powModel powModel_bounded powModel_separates
    ⟨2, 1, [9, 17, 30, 255, 200, 100, 50, 7]⟩ (by decide) (by decide)
    [(8, 16, 24), (200, 96, 48)] (by decide)
    (by
      intro x y hx hy
      have hx' : x < 2 := hx
      have hy' : y < 1 := hy
      interval_cases x <;> interval_cases y <;> decide)).2.1 0 0 (by decide) (by decide)
  exact ⟨h.2.2.1.trans (by decide), h.2.2.2.1.trans (by decide)⟩

end TargaImage

/-! ## `Dither_FS` leaves a black and white image -/

namespace TargaImage

/-- The visit of a pixel in the Floyd-Steinberg reference, read at a cell of
a pixel of the raster. -/
theorem fsRefVisit_cell (img : TargaImage) (x y : Nat) (D : List Nat) (px py c : Nat)
    (hpx : px < img.width) (hc : c < 4) (hk : img.Get_RGBA px py + c < D.length) :
    rd (fsRefVisit img x y D) (img.Get_RGBA px py + c)
      = if c = 3 then rd D (img.Get_RGBA px py + c)
        else if px = x ∧ py = y then (if 128 ≤ rd D (img.Get_RGBA x y + RED) then 255 else 0)
        else if fsRefWeight x y px py = 0 then rd D (img.Get_RGBA px py + c)
        else fsRefAdd (rd D (img.Get_RGBA px py + c))
          ((rd D (img.Get_RGBA x y + RED) : Int)
            - ((if 128 ≤ rd D (img.Get_RGBA x y + RED) then 255 else 0 : Nat) : Int))
          (fsRefWeight x y px py) := by
  have hW : 0 < img.width := by omega
  have e4 : (img.Get_RGBA px py + c) / 4 = py * img.width + px := by
    rw [Get_RGBA_eq]; omega
  have e5 : (img.Get_RGBA px py + c) % 4 = c := by
    rw [Get_RGBA_eq]; omega
  have m1 : (py * img.width + px) % img.width = px := by
    rw [Nat.add_comm, Nat.add_mul_mod_self_right, Nat.mod_eq_of_lt hpx]
  have m2 : (py * img.width + px) / img.width = py := by
    rw [Nat.add_comm, Nat.add_mul_div_right _ _ hW, Nat.div_eq_of_lt hpx, Nat.zero_add]
  unfold fsRefVisit
  rw [rd_map_range _ _ _ hk]
  simp only [e4, e5, m1, m2]

/-- The visit of a pixel stores its output in the three colour cells of the
pixel. -/
theorem fsRefVisit_own (img : TargaImage) (x y : Nat) (D : List Nat) (c : Nat)
    (hx : x < img.width) (hc : c < 3) (hk : img.Get_RGBA x y + c < D.length) :
    rd (fsRefVisit img x y D) (img.Get_RGBA x y + c)
      = if 128 ≤ rd D (img.Get_RGBA x y + RED) then 255 else 0 := by
  rw [fsRefVisit_cell img x y D x y c hx (by omega) hk, if_neg (show ¬ c = 3 by omega),
    if_pos (⟨rfl, rfl⟩ : x = x ∧ y = y)]

/-- A pixel visited before `(x, y)` receives no share of the error of
`(x, y)` and is not `(x, y)` itself. -/
theorem fsRefWeight_visited (x y px py : Nat) (h : fsVisitedBefore x y px py) :
    fsRefWeight x y px py = 0 ∧ ¬ (px = x ∧ py = y) := by
  unfold fsVisitedBefore at h
  unfold fsRefWeight
  by_cases hpar : y % 2 = 0
  · rw [if_pos hpar] at h
    rw [if_pos hpar]
    refine ⟨?_, by omega⟩
    rw [if_neg (by omega), if_neg (by omega), if_neg (by omega), if_neg (by omega)]
  · rw [if_neg hpar] at h
    rw [if_neg hpar]
    refine ⟨?_, by omega⟩
    rw [if_neg (by omega), if_neg (by omega), if_neg (by omega), if_neg (by omega)]

/-- One pixel step of `Dither_FS` changes no cell of a pixel visited before
and no alpha cell. -/
theorem ditherFSPixel_keeps (img : TargaImage) (x y : Nat) (hx : x < img.width)
    (hy : y < img.height) (D : List Nat) (hlen : D.length = img.width * img.height * 4)
    (hb : ∀ b ∈ D, b < 256) (px py c : Nat) (hpx : px < img.width) (hpy : py < img.height)
    (hc : c < 4) (hv : c = 3 ∨ fsVisitedBefore x y px py) :
    rd (ditherFSPixel img (if y % 2 = 0 then FS_Dir_even else FS_Dir_odd) x y D)
      (img.Get_RGBA px py + c) = rd D (img.Get_RGBA px py + c) := by
  have hk : img.Get_RGBA px py + c < D.length := by
    have := pix_lt img.width img.height px py hpx hpy
    have hc' : img.width * img.height = img.height * img.width := Nat.mul_comm _ _
    rw [Get_RGBA_eq, hlen]
    omega
  rw [ditherFSPixel_eq img x y hx hy D hlen hb, fsRefVisit_cell img x y D px py c hpx hc hk]
  by_cases h3 : c = 3
  · rw [if_pos h3]
  · rw [if_neg h3]
    rcases hv with h | h
    · exact absurd h h3
    · obtain ⟨w0, hne⟩ := fsRefWeight_visited x y px py h
      rw [if_neg hne, if_pos w0]

/-- One pixel step of `Dither_FS` keeps the invariant and adds the pixel
visited to the set of black and white pixels, as long as every pixel of the
set has been visited before. -/
theorem ditherFSInv_step (img : TargaImage) (x y : Nat) (hx : x < img.width)
    (hy : y < img.height) (V : Nat → Nat → Prop) (D : List Nat) (hI : img.ditherFSInv V D)
    (hV : ∀ px py, V px py → fsVisitedBefore x y px py) :
    img.ditherFSInv (fun px py => V px py ∨ (px = x ∧ py = y))
      (ditherFSPixel img (if y % 2 = 0 then FS_Dir_even else FS_Dir_odd) x y D) := by
  obtain ⟨hlen, hb, ha, hp⟩ := hI
  have heq := ditherFSPixel_eq img x y hx hy D hlen hb
  refine ⟨by rw [heq, fsRefVisit_length, hlen], by rw [heq]; exact fsRefVisit_bytes img x y D hb,
    ?_, ?_⟩
  · intro px py hpx hpy
    rw [ditherFSPixel_keeps img x y hx hy D hlen hb px py 3 hpx hpy (by decide) (Or.inl rfl)]
    exact ha px py hpx hpy
  · intro px py hpx hpy hv
    by_cases hself : px = x ∧ py = y
    · obtain ⟨e1, e2⟩ := hself
      subst e1; subst e2
      have hk : ∀ c, c < 3 → img.Get_RGBA px py + c < D.length := by
        intro c hc
        have := pix_lt img.width img.height px py hpx hpy
        have hc' : img.width * img.height = img.height * img.width := Nat.mul_comm _ _
        rw [Get_RGBA_eq, hlen]
        omega
      rw [heq, fsRefVisit_own img px py D 0 hpx (by decide) (hk 0 (by decide)),
        fsRefVisit_own img px py D 1 hpx (by decide) (hk 1 (by decide)),
        fsRefVisit_own img px py D 2 hpx (by decide) (hk 2 (by decide))]
      refine ⟨rfl, rfl, ?_⟩
      split_ifs
      · exact Or.inr rfl
      · exact Or.inl rfl
    · have hv' : V px py := by
        rcases hv with h | h
        · exact h
        · exact absurd h hself
      have hvb := hV px py hv'
      rw [ditherFSPixel_keeps img x y hx hy D hlen hb px py 0 hpx hpy (by decide) (Or.inr hvb),
        ditherFSPixel_keeps img x y hx hy D hlen hb px py 1 hpx hpy (by decide) (Or.inr hvb),
        ditherFSPixel_keeps img x y hx hy D hlen hb px py 2 hpx hpy (by decide) (Or.inr hvb)]
      exact hp px py hpx hpy hv'

theorem ditherFSInv_mono (img : TargaImage) (V V1 : Nat → Nat → Prop) (D : List Nat)
    (h : ∀ px py, px < img.width → py < img.height → V1 px py → V px py)
    (hI : img.ditherFSInv V D) : img.ditherFSInv V1 D :=
  ⟨hI.1, hI.2.1, hI.2.2.1, fun px py hpx hpy hv => hI.2.2.2 px py hpx hpy (h px py hpx hpy hv)⟩

/-- One row of `Dither_FS` turns the pixels of the row black or white and
keeps the rows above. -/
theorem ditherFSInv_row (img : TargaImage) (y : Nat) (hy : y < img.height) (D : List Nat)
    (hI : img.ditherFSInv (fun _ py => py < y) D) :
    img.ditherFSInv (fun _ py => py < y + 1) (ditherFSRow img y D) := by
  unfold ditherFSRow
  by_cases hpar : y % 2 = 0
  · rw [if_pos hpar]
    have key := forLoop_inv_idx
      (fun x E => img.ditherFSInv (fun px py => py < y ∨ (py = y ∧ px < x)) E)
      img.width (fun x data => ditherFSPixel img FS_Dir_even x y data) D
      (by
        intro x E hx hE
        have := ditherFSInv_step img x y hx hy _ E hE
          (by
            intro px py hv
            unfold fsVisitedBefore
            rw [if_pos hpar]
            exact hv)
        rw [if_pos hpar] at this
        exact ditherFSInv_mono img _ _ _ (by intro px py _ _ h; omega) this)
      (ditherFSInv_mono img _ _ _ (by intro px py _ _ h; omega) hI)
    exact ditherFSInv_mono img _ _ _ (by intro px py hpx _ h; omega) key
  · rw [if_neg hpar]
    have key := forLoop_inv_idx
      (fun k E => img.ditherFSInv (fun px py => py < y ∨ (py = y ∧ img.width ≤ px + k)) E)
      img.width (fun k data => ditherFSPixel img FS_Dir_odd (img.width - 1 - k) y data) D
      (by
        intro k E hk hE
        have := ditherFSInv_step img (img.width - 1 - k) y (by omega) hy _ E hE
          (by
            intro px py hv
            unfold fsVisitedBefore
            rw [if_neg hpar]
            omega)
        rw [if_neg hpar] at this
        exact ditherFSInv_mono img _ _ _ (by intro px py _ _ h; omega) this)
      (ditherFSInv_mono img _ _ _ (by intro px py hpx _ h; omega) hI)
    exact ditherFSInv_mono img _ _ _ (by intro px py hpx _ h; omega) key

/-- After `Dither_FS` every pixel is black or white, and the buffer keeps its
size, its bytes and the alpha cells of the image. -/
theorem Dither_FS_inv (img : TargaImage) (hwf : img.WF) :
    img.ditherFSInv (fun _ py => py < img.height) (Dither_FS img).2.data := by
  have hG := To_Grayscale_WF img hwf
  show img.ditherFSInv _ (forLoop img.height (fun y data => ditherFSRow img y data)
    (To_Grayscale img).2.data)
  exact forLoop_inv_idx (fun y E => img.ditherFSInv (fun _ py => py < y) E) img.height
    (fun y data => ditherFSRow img y data) (To_Grayscale img).2.data
    (fun y E hy hE => ditherFSInv_row img y hy E hE)
    ⟨hG.1, hG.2, fun px py hpx hpy => (To_Grayscale_floor img hwf px py hpx hpy).2.2.2,
      fun _ py _ _ h => absurd h (Nat.not_lt_zero py)⟩

/-- C34. For every well-formed image, after `Dither_FS` every pixel has
`R = G = B` equal to 0 or to 255 and the alpha it had before the call; and the
step of the scan at a pixel `(x, y)` changes no cell of a pixel visited before
it (one in a row above, or in the same row on the side the scan comes from),
so that a pixel keeps the value it receives when it is visited. -/
theorem Dither_FS_black_white (img : TargaImage) (hwf : img.WF) :
    (∀ x y, x < img.width → y < img.height →
      (Dither_FS img).2.chan x y 0 = (Dither_FS img).2.chan x y 1 ∧
      (Dither_FS img).2.chan x y 1 = (Dither_FS img).2.chan x y 2 ∧
      ((Dither_FS img).2.chan x y 0 = 0 ∨ (Dither_FS img).2.chan x y 0 = 255) ∧
      (Dither_FS img).2.chan x y 3 = img.chan x y 3) ∧
    (∀ (D : List Nat) (x y px py c : Nat), D.length = img.width * img.height * 4 →
      (∀ b ∈ D, b < 256) → x < img.width → y < img.height → px < img.width →
      py < img.height → c < 4 → fsVisitedBefore x y px py →
      rd (ditherFSPixel img (if y % 2 = 0 then FS_Dir_even else FS_Dir_odd) x y D)
        (img.Get_RGBA px py + c) = rd D (img.Get_RGBA px py + c)) := by
  obtain ⟨_, _, ha, hp⟩ := Dither_FS_inv img hwf
  refine ⟨?_, ?_⟩
  · intro x y hx hy
    obtain ⟨p0, p1, p2⟩ := hp x y hx hy hy
    exact ⟨p0, p1, p2, ha x y hx hy⟩
  · intro D x y px py c hlen hb hx hy hpx hpy hc hv
    exact ditherFSPixel_keeps img x y hx hy D hlen hb px py c hpx hpy hc (Or.inr hv)

set_option maxRecDepth 100000 in
/-- Witness for C34: the 2x2 image of grays 200, 100, 50, 130 with the alphas
255, 9, 255, 7; the pixel `(1, 1)` ends white with alpha 7. -/
theorem Dither_FS_black_white_witness :
    (Dither_FS ⟨2, 2, [200, 200, 200, 255, 100, 100, 100, 9, 50, 50, 50, 255,
      130, 130, 130, 7]⟩).2.chan 1 1 3 = 7 ∧
    ((Dither_FS ⟨2, 2, [200, 200, 200, 255, 100, 100, 100, 9, 50, 50, 50, 255,
      130, 130, 130, 7]⟩).2.chan 1 1 0 = 0 ∨
    (Dither_FS ⟨2, 2, [200, 200, 200, 255, 100, 100, 100, 9, 50, 50, 50, 255,
      130, 130, 130, 7]⟩).2.chan 1 1 0 = 255) :=
  ⟨((Dither_FS_black_white ⟨2, 2, [200, 200, 200, 255, 100, 100, 100, 9, 50, 50, 50, 255,
      130, 130, 130, 7]⟩ (by decide)).1 1 1 (by decide) (by decide)).2.2.2.trans (by decide),
    ((Dither_FS_black_white ⟨2, 2, [200, 200, 200, 255, 100, 100, 100, 9, 50, 50, 50, 255,
      130, 130, 130, 7]⟩ (by decide)).1 1 1 (by decide) (by decide)).2.2.1⟩

end TargaImage

/-! ## `Filter_Gaussian_N(5)` and `Filter_Gaussian` -/

/-- Two loops whose bodies agree on the states that satisfy an invariant of
the second, the invariant depending on the loop counter, agree. -/
theorem forLoop_congr_inv_idx {σ : Type} (P : Nat → σ → Prop) (n : Nat) (f g : Nat → σ → σ)
    (s : σ) (hs : P 0 s) (h : ∀ i, i < n → ∀ t, P i t → f i t = g i t ∧ P (i + 1) (g i t)) :
    forLoop n f s = forLoop n g s ∧ P n (forLoop n g s) := by
  induction n with
  | zero => exact ⟨rfl, hs⟩
  | succ n ih =>
    obtain ⟨e, hp⟩ := ih (fun i hi t ht => h i (Nat.lt_succ_of_lt hi) t ht)
    rw [forLoop_succ, forLoop_succ, e]
    exact h n (Nat.lt_succ_self n) _ hp

namespace TargaImage

set_option maxRecDepth 100000 in
/-- The kernel `Filter_Gaussian_N` builds for `N = 5` is the kernel of
`Filter_Gaussian`, and its sum is 256. -/
theorem gaussianMask_five : gaussianMask 5 = (Gaussian_mask, 256) := by decide!

theorem Gaussian_mask_bound (ii jj : Nat) (hii : ii < 5) (hjj : jj < 5) :
    0 ≤ maskAtInt Gaussian_mask ii jj ∧ maskAtInt Gaussian_mask ii jj ≤ 36 := by
  interval_cases ii <;> interval_cases jj <;> decide

theorem rdInt_lt (D : List Nat) (hb : ∀ b ∈ D, b < 256) (i : Int) : rdInt D i < 256 := by
  unfold rdInt
  split_ifs
  · decide
  · exact rd_lt_of_forall D hb _

/-- One tap of `Filter_Gaussian_N` with the 5x5 kernel on a buffer of bytes:
no `int` operation overflows, so the tap is the tap of `Filter_Gaussian`. -/
theorem gaussianNTap_eq (img : TargaImage) (data : List Nat) (hb : ∀ b ∈ data, b < 256)
    (x y ii jj : Nat) (hii : ii < 5) (hjj : jj < 5) (s : Int × Int × Int) (n : Nat)
    (hn : n < 25)
    (hs : (0 ≤ s.1 ∧ s.1 ≤ 9180 * (n : Int)) ∧ (0 ≤ s.2.1 ∧ s.2.1 ≤ 9180 * (n : Int)) ∧
      (0 ≤ s.2.2 ∧ s.2.2 ≤ 9180 * (n : Int))) :
    gaussianNTap img Gaussian_mask 2 data x y ii jj s
      = windowTap img Gaussian_mask 2 data x y ii jj s ∧
    ((0 ≤ (windowTap img Gaussian_mask 2 data x y ii jj s).1 ∧
        (windowTap img Gaussian_mask 2 data x y ii jj s).1 ≤ 9180 * ((n + 1 : Nat) : Int)) ∧
      (0 ≤ (windowTap img Gaussian_mask 2 data x y ii jj s).2.1 ∧
        (windowTap img Gaussian_mask 2 data x y ii jj s).2.1 ≤ 9180 * ((n + 1 : Nat) : Int)) ∧
      (0 ≤ (windowTap img Gaussian_mask 2 data x y ii jj s).2.2 ∧
        (windowTap img Gaussian_mask 2 data x y ii jj s).2.2 ≤ 9180 * ((n + 1 : Nat) : Int))) := by
  obtain ⟨m0, m1⟩ := Gaussian_mask_bound ii jj hii hjj
  have hterm : ∀ o : Int, 0 ≤ (rdInt data o : Int) * maskAtInt Gaussian_mask ii jj ∧
      (rdInt data o : Int) * maskAtInt Gaussian_mask ii jj ≤ 9180 := by
    intro o
    have h1 : ((rdInt data o : Nat) : Int) ≤ 255 := by
      have := rdInt_lt data hb o
      omega
    have h0 : (0 : Int) ≤ ((rdInt data o : Nat) : Int) := Int.natCast_nonneg _
    constructor
    · exact mul_nonneg h0 m0
    · calc (rdInt data o : Int) * maskAtInt Gaussian_mask ii jj
          ≤ 255 * 36 := mul_le_mul h1 m1 m0 (by decide)
        _ = 9180 := by norm_num
  unfold gaussianNTap windowTap
  simp only []
  by_cases h1 : (y : Int) + ((ii : Int) - ((2 : Nat) : Int)) < 0 ∨
      (y : Int) + ((ii : Int) - ((2 : Nat) : Int)) ≥ img.height
  · rw [if_pos h1, if_pos h1]
    push_cast
    refine ⟨rfl, ?_⟩
    omega
  · rw [if_neg h1, if_neg h1]
    by_cases h2 : (x : Int) + ((jj : Int) - ((2 : Nat) : Int)) < 0 ∨
        (x : Int) + ((jj : Int) - ((2 : Nat) : Int)) ≥ img.width
    · rw [if_pos h2, if_pos h2]
      push_cast
      refine ⟨rfl, ?_⟩
      omega
    · rw [if_neg h2, if_neg h2]
      generalize img.Get_RGBA_int ((x : Int) + ((jj : Int) - ((2 : Nat) : Int)))
        ((y : Int) + ((ii : Int) - ((2 : Nat) : Int))) = d
      obtain ⟨a0, a1⟩ := hterm (d + RED)
      obtain ⟨b0, b1⟩ := hterm (d + GREEN)
      obtain ⟨c0, c1⟩ := hterm (d + BLUE)
      generalize (rdInt data (d + RED) : Int) * maskAtInt Gaussian_mask ii jj = tr at a0 a1 ⊢
      generalize (rdInt data (d + GREEN) : Int) * maskAtInt Gaussian_mask ii jj = tg at b0 b1 ⊢
      generalize (rdInt data (d + BLUE) : Int) * maskAtInt Gaussian_mask ii jj = tb at c0 c1 ⊢
      have hnq : (n : Int) < 25 := by exact_mod_cast hn
      rw [wrapInt32_small tr a0 (by omega), wrapInt32_small tg b0 (by omega),
        wrapInt32_small tb c0 (by omega), wrapInt32_small (s.1 + tr) (by omega) (by omega),
        wrapInt32_small (s.2.1 + tg) (by omega) (by omega),
        wrapInt32_small (s.2.2 + tb) (by omega) (by omega)]
      push_cast
      refine ⟨rfl, ?_⟩
      omega

/-- The window sums of `Filter_Gaussian_N` with the 5x5 kernel on a buffer of
bytes are the window sums of `Filter_Gaussian`. -/
theorem gaussianNSum_eq (img : TargaImage) (data : List Nat) (hb : ∀ b ∈ data, b < 256)
    (x y : Nat) :
    forLoop 5 (fun ii sum =>
      forLoop 5 (fun jj sum => gaussianNTap img Gaussian_mask 2 data x y ii jj sum) sum)
      (0, 0, 0) = windowSum img Gaussian_mask 2 data x y := by
  unfold windowSum
  show forLoop 5 (fun ii sum =>
      forLoop 5 (fun jj sum => gaussianNTap img Gaussian_mask 2 data x y ii jj sum) sum)
      (0, 0, 0)
    = forLoop 5 (fun ii sum =>
      forLoop 5 (fun jj sum => windowTap img Gaussian_mask 2 data x y ii jj sum) sum) (0, 0, 0)
  rw [forLoop_nest 5 5 (fun jj ii sum => gaussianNTap img Gaussian_mask 2 data x y ii jj sum),
    forLoop_nest 5 5 (fun jj ii sum => windowTap img Gaussian_mask 2 data x y ii jj sum)]
  exact (forLoop_congr_inv_idx
    (fun (n : Nat) (s : Int × Int × Int) =>
      (0 ≤ s.1 ∧ s.1 ≤ 9180 * (n : Int)) ∧ (0 ≤ s.2.1 ∧ s.2.1 ≤ 9180 * (n : Int)) ∧
      (0 ≤ s.2.2 ∧ s.2.2 ≤ 9180 * (n : Int)))
    (5 * 5) _ _ (0, 0, 0) (by simp)
    (fun p hp t ht => gaussianNTap_eq img data hb x y (p / 5) (p % 5)
      (by omega) (Nat.mod_lt _ (by decide)) t p hp ht)).1

/-- One pixel step of `Filter_Gaussian_N` with the 5x5 kernel on a buffer of
bytes is the pixel step of `Filter_Gaussian`. -/
theorem filterGaussianNPixel_eq (img : TargaImage) (data : List Nat)
    (hb : ∀ b ∈ data, b < 256) (x y : Nat) :
    filterGaussianNPixel img Gaussian_mask 256 2 x y data = filterGaussianPixel img x y data := by
  unfold filterGaussianNPixel filterGaussianPixel
  simp only []
  have e := gaussianNSum_eq img data hb x y
  have e5 : 2 * 2 + 1 = 5 := rfl
  rw [e5, e]

theorem filterGaussianPixel_bytes (img : TargaImage) (data : List Nat)
    (hb : ∀ b ∈ data, b < 256) (x y : Nat) : ∀ b ∈ filterGaussianPixel img x y data, b < 256 := by
  unfold filterGaussianPixel
  simp only [wrInt_eq_wr]
  exact wr_bytes _ _ _ (wr_bytes _ _ _ (wr_bytes _ _ _ hb))

/-- C35. For every image whose buffer holds bytes, `Filter_Gaussian_N(5)`
returns what `Filter_Gaussian` returns, the same flag and the same buffer: the
kernel built for `N = 5` is the fixed kernel, the outer product of
`[1, 4, 6, 4, 1]`, its sum `maskSum` is 256, and the scan, the window and the
treatment of the border are the same. -/
theorem Filter_Gaussian_N_five (img : TargaImage) (hb : ∀ b ∈ img.data, b < 256) :
    Filter_Gaussian_N 5 img = Filter_Gaussian img ∧
    gaussianMask 5 = (Gaussian_mask, 256) ∧
    ∀ i j, i < 5 → j < 5 →
      maskAtInt Gaussian_mask i j = [1, 4, 6, 4, 1].getD i 0 * [1, 4, 6, 4, 1].getD j 0 := by
  refine ⟨?_, gaussianMask_five, ?_⟩
  · unfold Filter_Gaussian_N Filter_Gaussian
    simp only []
    rw [gaussianMask_five]
    have e2 : 5 / 2 = 2 := rfl
    rw [e2]
    have key := (forLoop_congr_inv (fun D : List Nat => ∀ b ∈ D, b < 256) img.height
      (fun y data => forLoop img.width (fun x data =>
        filterGaussianNPixel img Gaussian_mask 256 2 x y data) data)
      (fun y data => forLoop img.width (fun x data => filterGaussianPixel img x y data) data)
      img.data hb
      (fun y _ t ht => forLoop_congr_inv (fun D : List Nat => ∀ b ∈ D, b < 256) img.width
        (fun x data => filterGaussianNPixel img Gaussian_mask 256 2 x y data)
        (fun x data => filterGaussianPixel img x y data) t ht
        (fun x _ u hu => ⟨filterGaussianNPixel_eq img u hu x y,
          filterGaussianPixel_bytes img u hu x y⟩))).1
    rw [key]
  · intro i j hi hj
    interval_cases i <;> interval_cases j <;> decide

set_option maxRecDepth 100000 in
/-- Witness for C35: a 2x1 image; both filters leave `(38, 26, 43, 77)` and
`(7, 21, 26, 0)`. -/
theorem Filter_Gaussian_N_five_witness :
    (Filter_Gaussian_N 5 ⟨2, 1, [255, 100, 200, 77, 31, 132, 163, 0]⟩).2.data
      = [38, 26, 43, 77, 7, 21, 26, 0] :=
  (congrArg (fun r : Bool × TargaImage => r.2.data)
    (Filter_Gaussian_N_five ⟨2, 1, [255, 100, 200, 77, 31, 132, 163, 0]⟩ (by decide)).1).trans
    (by decide!)

end TargaImage

/-! ## The rank of the threshold of `Dither_Bright` -/

namespace Frac

end Frac

namespace TargaImage

end TargaImage
